import Mathlib

/-! Part-container tree of `part_distribution.cpp`

A shallow embedding of the container hierarchy that indexes data parts by their
LPS coordinates and by the segments holding them
(`src/Communication/communication/part_distribution.cpp`), followed by theorems
about it.

Conventions of the embedding.

* C++ `int` values (ids, tags, LPS ids, levels, dimension numbers) are `Int`.
* A `std::vector<int>` is a `List Int`; `vec.insert(vec.begin() + n, x)` is `vectorInsert`.
* A call that throws, trips an assertion or runs into undefined behaviour (an index
  out of range, a cast of a plain container to a branching one) yields `none`.
  Where the C++ code returns a possibly-NULL pointer from a call that can also fault,
  the result is `Option (Option _)`: the outer `none` is the fault, the inner `none` is NULL.
* Objects mutated in place through a pointer are modelled by computing the new value
  and storing it back into the slot the pointer was read from.
* A parent pointer is modelled by the chain of `(id, config)` of the objects it leads to.
-/

namespace PartDistribution

/-! ## Ordered-key index (`utils/binary_search.h`) -/

namespace binsearch

/-- Modelled from the spec: the loop of `binsearch::locateKey` (utils/binary_search.h is not
part of the sources at hand): a binary search for `key` in the window `[lo, hi)` of `array`,
halving the window each round. `fuel` bounds the number of rounds. -/
def locateKeyLoop (array : List Int) (key : Int) : Nat → Nat → Nat → Option Nat
  | 0, _, _ => none
  | fuel + 1, lo, hi =>
    if lo < hi then
      let mid := lo + (hi - lo) / 2
      if array.getD mid 0 = key then some mid
      else if array.getD mid 0 < key then locateKeyLoop array key fuel (mid + 1) hi
      else locateKeyLoop array key fuel lo mid
    else none

/-- Modelled from the spec: `binsearch::locateKey(vec, k)`, a binary search that returns the
position of `k` or `KEY_NOT_FOUND` (here `none`). -/
def locateKey (array : List Int) (key : Int) : Option Nat :=
  locateKeyLoop array key array.length 0 array.length

/-- Modelled from the spec: the loop of `binsearch::locatePointOfInsert`: a binary search for
the lower bound of `key` in the window `[lo, hi)` of `array`. -/
def locatePointOfInsertLoop (array : List Int) (key : Int) : Nat → Nat → Nat → Nat
  | 0, lo, _ => lo
  | fuel + 1, lo, hi =>
    if lo < hi then
      let mid := lo + (hi - lo) / 2
      if array.getD mid 0 < key then locatePointOfInsertLoop array key fuel (mid + 1) hi
      else locatePointOfInsertLoop array key fuel lo mid
    else lo

/-- Modelled from the spec: `binsearch::locatePointOfInsert(vec, k)`, the lower bound of `k`
in `vec` (the first position whose element is not smaller than `k`). -/
def locatePointOfInsert (array : List Int) (key : Int) : Nat :=
  locatePointOfInsertLoop array key array.length 0 array.length

end binsearch

/-- The call `vec.insert(vec.begin() + n, x)` of `std::vector`. -/
def vectorInsert {α : Type} (vec : List α) (n : Nat) (x : α) : List α :=
  vec.take n ++ x :: vec.drop n

/-! ## Data model -/

/-- The triple `(lpsId, dimNo, level)` of one step of a dimension order; level `-1` is
the root. -/
structure LpsDimConfig where
  level : Int
  dimNo : Int
  lpsId : Int
deriving DecidableEq, Repr

/-- The id and config of one object on a parent chain. -/
structure Ancestor where
  id : Int
  config : LpsDimConfig
deriving DecidableEq, Repr

/-- The value of a `Container *parent` pointer: the objects met by following parent pointers
from it, nearest first. `[]` is NULL. -/
abbrev ParentPtr := List Ancestor

/-- The data members of class `Container`. An object whose dynamic type is `Container`
itself is a leaf of the hierarchy. -/
structure Container where
  id : Int
  config : LpsDimConfig
  segmentTags : List Int
  parent : ParentPtr
deriving DecidableEq, Repr

mutual
/-- An object of the container hierarchy, by dynamic type: a plain `Container` (leaf), a
`BranchingContainer` (intermediate), or a `HybridBranchingContainer` (both at once: the
`Container` and `branches` members it has as a `BranchingContainer`, and its `leaf`). The
`leaf` member is a `Container*`; both places that set it, `convertLeaf` as `insertPart`
calls it and `convertIntermediate`, give it a plain `Container`, and so does the model. -/
inductive Node where
  | leaf (c : Container)
  | intermediate (c : Container) (branches : List Branch)
  | hybrid (c : Container) (branches : List Branch) (leaf : Container)
/-- Class `Branch`: a config and the two parallel vectors `descendentIds` and `descendants`. -/
inductive Branch where
  | mk (branchConfig : LpsDimConfig) (descendentIds : List Int) (descendants : List Node)
end

/-! ## Container -/

/-- The constructor `Container::Container(id, config)`. -/
def Container.new (id : Int) (config : LpsDimConfig) : Container :=
  { id := id, config := config, segmentTags := [], parent := [] }

/-- The method `Container::addSegmentTag`. -/
def Container.addSegmentTag (c : Container) (tag : Int) : Container :=
  match binsearch.locateKey c.segmentTags tag with
  | none =>
    let locationOfInsert := binsearch.locatePointOfInsert c.segmentTags tag
    { c with segmentTags := vectorInsert c.segmentTags locationOfInsert tag }
  | some _ => c

/-- The method `Container::addAllSegmentTags`. -/
def Container.addAllSegmentTags (c : Container) (tags : List Int) : Container :=
  tags.foldl Container.addSegmentTag c

/-- The method `Container::hasSegmentTag`. -/
def Container.hasSegmentTag (c : Container) (tag : Int) : Bool :=
  (binsearch.locateKey c.segmentTags tag).isSome

/-- The method `Container::setParent`. -/
def Container.setParent (c : Container) (parent : ParentPtr) : Container :=
  { c with parent := parent }

/-- The value of a pointer to an object with the `Container` members `c`. -/
def Container.ref (c : Container) : ParentPtr :=
  { id := c.id, config := c.config } :: c.parent

/-! ## Node: the `Container` part of any object -/

/-- The `Container` base-class members of an object. -/
def Node.base : Node → Container
  | .leaf c => c
  | .intermediate c _ => c
  | .hybrid c _ _ => c

/-- Update of the `Container` base-class members of an object. -/
def Node.mapBase (f : Container → Container) : Node → Node
  | .leaf c => .leaf (f c)
  | .intermediate c bs => .intermediate (f c) bs
  | .hybrid c bs l => .hybrid (f c) bs l

/-- The method `Container::getId`. -/
def Node.getId (n : Node) : Int := n.base.id

/-- The method `Container::getSegmentTags`. -/
def Node.getSegmentTags (n : Node) : List Int := n.base.segmentTags

/-- The method `Container::hasSegmentTag` called through a `Container*`. -/
def Node.hasSegmentTag (n : Node) (tag : Int) : Bool := n.base.hasSegmentTag tag

/-- The method `Container::addSegmentTag(int)` called through a `Container*`. -/
def Node.addSegmentTag (n : Node) (tag : Int) : Node :=
  n.mapBase (fun c => c.addSegmentTag tag)

/-- The method `Container::setParent` called through a `Container*`. -/
def Node.setParent (n : Node) (parent : ParentPtr) : Node :=
  n.mapBase (fun c => c.setParent parent)

/-- The `branches` member of a `BranchingContainer` (also of a hybrid); a plain container
has none. -/
def Node.getBranches : Node → Option (List Branch)
  | .leaf _ => none
  | .intermediate _ bs => some bs
  | .hybrid _ bs _ => some bs

/-- The branches of an object, empty for a plain container. -/
def Node.branches (n : Node) : List Branch := (n.getBranches).getD []

/-- Assignment to the `branches` member. -/
def Node.setBranches : Node → List Branch → Node
  | .leaf c, _ => .leaf c
  | .intermediate c _, bs => .intermediate c bs
  | .hybrid c _ l, bs => .hybrid c bs l

/-- The method `HybridBranchingContainer::getLeaf`; `none` when the object is not a hybrid. -/
def Node.getLeaf : Node → Option Container
  | .hybrid _ _ l => some l
  | _ => none

/-- Whether `dynamic_cast<HybridBranchingContainer*>` succeeds. -/
def Node.isHybrid : Node → Bool
  | .hybrid _ _ _ => true
  | _ => false

/-- Whether the object is a plain `Container`, that is, `dynamic_cast<BranchingContainer*>`
gives NULL. -/
def Node.isLeaf : Node → Bool
  | .leaf _ => true
  | _ => false

/-! ## Branch -/

/-- The method `Branch::getConfig`. -/
def Branch.getConfig : Branch → LpsDimConfig
  | .mk cfg _ _ => cfg

/-- The member `descendentIds`. -/
def Branch.descendentIds : Branch → List Int
  | .mk _ ids _ => ids

/-- The member `descendants`. -/
def Branch.descendants : Branch → List Node
  | .mk _ _ ds => ds

/-- The constructor `Branch::Branch(branchConfig, firstEntry)`. -/
def Branch.new (branchConfig : LpsDimConfig) (firstEntry : Node) : Branch :=
  .mk branchConfig [firstEntry.getId] [firstEntry]

/-- The method `Branch::addEntry`. Inserting behind the end of `descendants` is undefined
behaviour and yields `none`. The second component is the location of the new entry. -/
def Branch.addEntry (b : Branch) (descendant : Node) : Option (Branch × Nat) :=
  let key := descendant.getId
  let location := binsearch.locatePointOfInsert b.descendentIds key
  if location ≤ b.descendants.length then
    some (.mk b.getConfig (vectorInsert b.descendentIds location key)
      (vectorInsert b.descendants location descendant), location)
  else none

/-- The location `Branch::getEntry` reads: `none` when `descendants.at(location)` throws,
`some none` for NULL. -/
def Branch.getEntryAt (b : Branch) (id : Int) : Option (Option (Nat × Node)) :=
  match binsearch.locateKey b.descendentIds id with
  | none => some none
  | some location =>
    match b.descendants.get? location with
    | none => none
    | some d => some (some (location, d))

/-- The method `Branch::getEntry`. -/
def Branch.getEntry (b : Branch) (id : Int) : Option (Option Node) :=
  (b.getEntryAt id).map (fun r => r.map Prod.snd)

/-- The method `Branch::replaceDescendant`: erase and insert at the location of the
descendant's id. `none` when the id is not found or the location is outside `descendants`
(undefined behaviour). The second component is the location. -/
def Branch.replaceDescendant (b : Branch) (descendant : Node) : Option (Branch × Nat) :=
  match binsearch.locateKey b.descendentIds descendant.getId with
  | none => none
  | some location =>
    if location < b.descendants.length then
      some (.mk b.getConfig b.descendentIds
        (vectorInsert (b.descendants.eraseIdx location) location descendant), location)
    else none

/-- Write-back of an object that was mutated through the pointer held at `location` of
`descendants`. -/
def Branch.store (b : Branch) (location : Nat) (d : Node) : Branch :=
  .mk b.getConfig b.descendentIds (b.descendants.set location d)

/-! ## BranchingContainer and HybridBranchingContainer -/

/-- The method `BranchingContainer::getBranch`: the first branch of the LPS. -/
def getBranch : List Branch → Int → Option Branch
  | [], _ => none
  | b :: bs, lpsId => if b.getConfig.lpsId = lpsId then some b else getBranch bs lpsId

/-- Write-back of the branch `getBranch` returned, after it was mutated through the pointer. -/
def putBranch : List Branch → Int → Branch → List Branch
  | [], _, _ => []
  | b :: bs, lpsId, nb =>
    if b.getConfig.lpsId = lpsId then nb :: bs else b :: putBranch bs lpsId nb

/-- Modelled from the spec: the constructor `BranchingContainer(id, config)` (declared in
part_distribution.h, which is not part of the sources at hand): a container without tags,
parent or branches. -/
def BranchingContainer.new (id : Int) (config : LpsDimConfig) : Node :=
  .intermediate (Container.new id config) []

/-- Modelled from the spec: the constructor `HybridBranchingContainer(branch, leaf)` (declared
in part_distribution.h, which is not part of the sources at hand): the branching container
becomes the intermediate half, with its id, config, tags, parent and branches, and `leaf` is
attached as the leaf half. A plain container given as `branch` faults. -/
def HybridBranchingContainer.new (branch : Node) (leaf : Container) : Option Node :=
  match branch with
  | .leaf _ => none
  | .intermediate c bs => some (.hybrid c bs leaf)
  | .hybrid c bs _ => some (.hybrid c bs leaf)

/-- The function `HybridBranchingContainer::convertLeaf`. -/
def HybridBranchingContainer.convertLeaf (leafContainer : Container) (branchSegmentTag : Int) :
    Option Node :=
  let leafConfig := leafContainer.config
  let leafId := leafContainer.id
  let intermediate := BranchingContainer.new leafId leafConfig
  let intermediate := intermediate.addSegmentTag branchSegmentTag
  let intermediate :=
    intermediate.mapBase (fun c => c.addAllSegmentTags leafContainer.segmentTags)
  HybridBranchingContainer.new intermediate leafContainer

/-- The function `HybridBranchingContainer::convertIntermediate`. -/
def HybridBranchingContainer.convertIntermediate (branchContainer : Node)
    (terminalSegmentTag : Int) : Option Node :=
  let intermediateConfig := branchContainer.base.config
  let intermediateId := branchContainer.base.id
  let leaf := Container.new intermediateId intermediateConfig
  let leaf := leaf.setParent branchContainer.base.parent
  let leaf := leaf.addSegmentTag terminalSegmentTag
  HybridBranchingContainer.new branchContainer leaf

/-- The method `HybridBranchingContainer::addSegmentTag(segmentTag, leafLevelTag)`; the
receiver has to be a hybrid. -/
def HybridBranchingContainer.addSegmentTag (hybrid : Node) (segmentTag : Int)
    (leafLevelTag : Bool) : Option Node :=
  match hybrid with
  | .hybrid c bs leaf =>
    let leaf := if leafLevelTag then leaf.addSegmentTag segmentTag else leaf
    some (.hybrid (c.addSegmentTag segmentTag) bs leaf)
  | _ => none

/-- The entry `partId->Nth(level)[dimNo]`; `none` when an index is out of range. -/
def partIdEntry (partId : List (List Int)) (dimConfig : LpsDimConfig) : Option Int :=
  if dimConfig.level < 0 ∨ dimConfig.dimNo < 0 then none
  else
    match partId.get? dimConfig.level.toNat with
    | none => none
    | some arr => arr.get? dimConfig.dimNo.toNat

/-- Lines 187-201 of `insertPart`: the existing `nextContainer` is tagged, and converted to a
hybrid when its kind does not fit the position. Gives the object `nextContainer` points to
after the step, and whether that is a new hybrid (which then replaces the old object in the
branch). -/
def visitExisting (nextContainer : Node) (lastEntry : Bool) (segmentTag : Int) :
    Option (Node × Bool) :=
  match nextContainer, lastEntry with
  | .intermediate c bs, true =>
    match HybridBranchingContainer.convertIntermediate (.intermediate c bs) segmentTag with
    | none => none
    | some hybrid => some (hybrid, true)
  | .leaf c, false =>
    match HybridBranchingContainer.convertLeaf c segmentTag with
    | none => none
    | some hybrid => some (hybrid, true)
  | .hybrid c bs l, _ =>
    match HybridBranchingContainer.addSegmentTag (.hybrid c bs l) segmentTag lastEntry with
    | none => none
    | some hybrid => some (hybrid, false)
  | .leaf c, true => some ((Node.leaf c).addSegmentTag segmentTag, false)
  | .intermediate c bs, false => some ((Node.intermediate c bs).addSegmentTag segmentTag, false)

/-- Lines 178-180 of `insertPart`: the container created when the branch has none for the
id, a plain container at the last position and a branching container elsewhere, tagged. -/
def newContainer (dimConfig : LpsDimConfig) (containerId : Int) (lastEntry : Bool)
    (segmentTag : Int) : Node :=
  (if lastEntry then Node.leaf (Container.new containerId dimConfig)
    else BranchingContainer.new containerId dimConfig).addSegmentTag segmentTag

/-- Lines 172-202 of `insertPart`: locate or create the branch of the LPS and the container
`containerId` in it, and tag the container. Gives the container, the branch list, and the
location of the container in its branch. -/
def locateOrCreate (branches : List Branch) (dimConfig : LpsDimConfig) (containerId : Int)
    (lastEntry : Bool) (segmentTag : Int) : Option (Node × List Branch × Nat) :=
  let lpsId := dimConfig.lpsId
  let fresh : Node := newContainer dimConfig containerId lastEntry segmentTag
  match getBranch branches lpsId with
  | none => some (fresh, branches ++ [Branch.new dimConfig fresh], 0)
  | some branch =>
    match branch.getEntryAt containerId with
    | none => none
    | some none =>
      match branch.addEntry fresh with
      | none => none
      | some (branch1, location) => some (fresh, putBranch branches lpsId branch1, location)
    | some (some (location, nextContainer)) =>
      match visitExisting nextContainer lastEntry segmentTag with
      | none => none
      | some (hybrid, true) =>
        match branch.replaceDescendant hybrid with
        | none => none
        | some (branch1, location1) =>
          some (hybrid, putBranch branches lpsId branch1, location1)
      | some (next, false) =>
        some (next, putBranch branches lpsId (branch.store location next), location)

/-- Write-back of the container at `location` of the branch of `lpsId`. -/
def storeContainer (branches : List Branch) (lpsId : Int) (location : Nat) (d : Node) :
    List Branch :=
  match getBranch branches lpsId with
  | none => branches
  | some branch => putBranch branches lpsId (branch.store location d)

/-- The method `BranchingContainer::insertPart` from the position whose remaining dimension
order is the first argument (`dimOrder` from `position` on). An empty remainder means
`dimOrder.at(position)` throws. -/
def insertPartFrom : List LpsDimConfig → Int → List (List Int) → Node → Option Node
  | [], _, _, _ => none
  | dimConfig :: rest, segmentTag, partId, self =>
    match self.getBranches with
    | none => none
    | some branches =>
      match partIdEntry partId dimConfig with
      | none => none
      | some containerId =>
        let lastEntry := rest.isEmpty
        match locateOrCreate branches dimConfig containerId lastEntry segmentTag with
        | none => none
        | some (nextContainer, branches1, location) =>
          let next1 := nextContainer.setParent self.base.ref
          match rest with
          | [] => some (self.setBranches (storeContainer branches1 dimConfig.lpsId location next1))
          | _ :: _ =>
            match insertPartFrom rest segmentTag partId next1 with
            | none => none
            | some next2 =>
              some (self.setBranches (storeContainer branches1 dimConfig.lpsId location next2))

/-- The method `BranchingContainer::insertPart(dimOrder, segmentTag, partId, position)`. -/
def insertPart (self : Node) (dimOrder : List LpsDimConfig) (segmentTag : Int)
    (partId : List (List Int)) (position : Nat) : Option Node :=
  insertPartFrom (dimOrder.drop position) segmentTag partId self

/-- The method `BranchingContainer::getContainer` from the position whose remaining
dimension order is the first argument. -/
def getContainerFrom : List LpsDimConfig → List (List Int) → Node → Option (Option Node)
  | [], _, _ => none
  | dimConfig :: rest, pathToContainer, self =>
    match self.getBranches with
    | none => none
    | some branches =>
      match partIdEntry pathToContainer dimConfig with
      | none => none
      | some containerId =>
        match getBranch branches dimConfig.lpsId with
        | none => some none
        | some branch =>
          match branch.getEntry containerId with
          | none => none
          | some none => some none
          | some (some container) =>
            match rest with
            | [] => some (some container)
            | _ :: _ => getContainerFrom rest pathToContainer container

/-- The method `BranchingContainer::getContainer(pathToContainer, dimOrder, position)`. -/
def getContainer (self : Node) (pathToContainer : List (List Int))
    (dimOrder : List LpsDimConfig) (position : Nat) : Option (Option Node) :=
  getContainerFrom (dimOrder.drop position) pathToContainer self

/-! ## Views of a tree -/

mutual
/-- All objects of the tree below an object, the object itself first. -/
def Node.subnodes : Node → List Node
  | .leaf c => [.leaf c]
  | .intermediate c bs => .intermediate c bs :: subnodesOfBranches bs
  | .hybrid c bs l => .hybrid c bs l :: subnodesOfBranches bs
/-- All objects below the branches of a list. -/
def subnodesOfBranches : List Branch → List Node
  | [] => []
  | b :: bs => b.subnodes ++ subnodesOfBranches bs
/-- All objects below a branch. -/
def Branch.subnodes : Branch → List Node
  | .mk _ _ ds => subnodesOfNodes ds
/-- All objects below the objects of a list. -/
def subnodesOfNodes : List Node → List Node
  | [] => []
  | d :: ds => d.subnodes ++ subnodesOfNodes ds
end

/-- The leaf container an object is or holds: a plain container itself, the leaf of a
hybrid, nothing for an intermediate. -/
def Node.leafSide : Node → Option Container
  | .leaf c => some c
  | .intermediate _ _ => none
  | .hybrid _ _ l => some l

/-- The leaf containers reachable from an object (its own leaf side included). -/
def Node.leaves (n : Node) : List Container := n.subnodes.filterMap Node.leafSide

/-- The invariant of a branch: the id vector is strictly ascending and holds, position by
position, the ids of the containers. -/
def Branch.Ok (b : Branch) : Prop :=
  b.descendentIds.Sorted (· < ·) ∧ b.descendentIds = b.descendants.map Node.getId

/-- The branch invariant throughout a tree. -/
def Node.TreeOk (t : Node) : Prop :=
  ∀ n ∈ t.subnodes, ∀ b ∈ n.branches, b.Ok

/-- Every tag of the object is carried by a leaf container reachable from it. -/
def Node.TagsWitnessed (n : Node) : Prop :=
  ∀ t ∈ n.getSegmentTags, ∃ l ∈ n.leaves, t ∈ l.segmentTags

/-- Every object of the tree has its tags carried by leaf containers reachable from it. -/
def Node.LeafCover (t : Node) : Prop :=
  ∀ n ∈ t.subnodes, n.TagsWitnessed

/-- Every leaf container reachable from `n` has a counterpart reachable from `m` that carries
at least its tags. -/
def Node.LeavesGrow (n m : Node) : Prop :=
  ∀ l ∈ n.leaves, ∃ l1 ∈ m.leaves, ∀ t ∈ l.segmentTags, t ∈ l1.segmentTags

/-! ## Sequences of calls -/

/-- One call that adds tags to a container. -/
inductive TagCall where
  | addSegmentTag (tag : Int)
  | addAllSegmentTags (tags : List Int)

/-- The effect of one tag call. -/
def TagCall.run (c : Container) : TagCall → Container
  | .addSegmentTag tag => c.addSegmentTag tag
  | .addAllSegmentTags tags => c.addAllSegmentTags tags

/-- The tags one call adds. -/
def TagCall.tags : TagCall → List Int
  | .addSegmentTag tag => [tag]
  | .addAllSegmentTags tags => tags

/-- The effect of a sequence of tag calls. -/
def runTagCalls (c : Container) (calls : List TagCall) : Container :=
  calls.foldl TagCall.run c

/-- The tags a sequence of calls adds. -/
def tagsAdded (calls : List TagCall) : List Int := calls.flatMap TagCall.tags

/-- One call `root->insertPart(dimOrder, segmentTag, partId)`. -/
structure InsertCall where
  dimOrder : List LpsDimConfig
  segmentTag : Int
  partId : List (List Int)

/-- A sequence of `insertPart` calls on a root; `none` when one of them faults. -/
def insertAll (root : Node) : List InsertCall → Option Node
  | [] => some root
  | call :: calls =>
    match insertPart root call.dimOrder call.segmentTag call.partId 0 with
    | none => none
    | some root1 => insertAll root1 calls

/-- An empty root: a branching container without branches or tags. -/
def emptyRoot (id : Int) (config : LpsDimConfig) : Node := BranchingContainer.new id config

/-! ## A small tree -/

namespace Example

/-- The config of the root container. -/
def rootConfig : LpsDimConfig := { level := -1, dimNo := 0, lpsId := 0 }

/-- The first dimension of LPS 1, read from array 0 of a part id. -/
def configA : LpsDimConfig := { level := 0, dimNo := 0, lpsId := 1 }

/-- The first dimension of LPS 2, read from array 1 of a part id. -/
def configB : LpsDimConfig := { level := 1, dimNo := 0, lpsId := 2 }

/-- The part id with coordinate 0 in LPS 1 and coordinate 1 in LPS 2. -/
def partId : List (List Int) := [[0], [1]]

/-- An empty root. -/
def root : Node := emptyRoot 0 rootConfig

/-- The value of a pointer to the root. -/
def rootPtr : ParentPtr := [{ id := 0, config := rootConfig }]

/-- The value of a pointer to the container 0 of LPS 1. -/
def ptrA : ParentPtr := { id := 0, config := configA } :: rootPtr

/-- The leaf 1 of LPS 2 with tag 1. -/
def leafB1 : Node :=
  .leaf { id := 1, config := configB, segmentTags := [1], parent := ptrA }

/-- The leaf 1 of LPS 2 with tag 2. -/
def leafB2 : Node :=
  .leaf { id := 1, config := configB, segmentTags := [2], parent := ptrA }

/-- The branch of LPS 2 with the leaf tagged 1. -/
def branchB1 : Branch := .mk configB [1] [leafB1]

/-- The intermediate container 0 of LPS 1 above the leaf tagged 1. -/
def interA : Node :=
  .intermediate { id := 0, config := configA, segmentTags := [1], parent := rootPtr }
    [branchB1]

/-- The branch of LPS 1 with that intermediate container. -/
def branchA : Branch := .mk configA [0] [interA]

/-- The root after `insertPart([A, B], 1, [[0], [1]])`. -/
def treeAB : Node := .intermediate (Container.new 0 rootConfig) [branchA]

/-- The container 0 of LPS 1 once `insertPart([A], 2, [[0], [1]])` has converted the
intermediate container into a hybrid. -/
def hybridA : Node :=
  .hybrid { id := 0, config := configA, segmentTags := [1], parent := rootPtr } [branchB1]
    { id := 0, config := configA, segmentTags := [2], parent := rootPtr }

/-- The root after `insertPart([A, B], 1, ..)` and `insertPart([A], 2, ..)`. -/
def treeABthenA : Node :=
  .intermediate (Container.new 0 rootConfig) [.mk configA [0] [hybridA]]

/-- The leaf 0 of LPS 1 with tag 1. -/
def leafA : Container :=
  { id := 0, config := configA, segmentTags := [1], parent := rootPtr }

/-- The root after `insertPart([A], 1, [[0], [1]])`. -/
def treeA : Node :=
  .intermediate (Container.new 0 rootConfig) [.mk configA [0] [.leaf leafA]]

/-- The container 0 of LPS 1 once `insertPart([A, B], 2, [[0], [1]])` has converted the leaf
into a hybrid. -/
def hybridOfLeafA : Node :=
  .hybrid { id := 0, config := configA, segmentTags := [1, 2], parent := rootPtr }
    [.mk configB [1] [leafB2]] leafA

/-- The root after `insertPart([A], 1, ..)` and `insertPart([A, B], 2, ..)`. -/
def treeAthenAB : Node :=
  .intermediate (Container.new 0 rootConfig) [.mk configA [0] [hybridOfLeafA]]

/-- The hybrid 0 of LPS 1 after a further `insertPart([A], 3, [[0], [1]])`. -/
def hybridTagged3 : Node :=
  .hybrid { id := 0, config := configA, segmentTags := [1, 2, 3], parent := rootPtr }
    [.mk configB [1] [leafB2]]
    { id := 0, config := configA, segmentTags := [1, 3], parent := rootPtr }

/-- The root after the three calls. -/
def treeAthenABthenA : Node :=
  .intermediate (Container.new 0 rootConfig) [.mk configA [0] [hybridTagged3]]

end Example

/-! ## Folds (`part-management/part_folding.h`) -/

/-- Modelled from the spec: `Range(min, max)`, a range of ids (part_folding.h is not part of
the sources at hand). -/
structure Range where
  min : Int
  max : Int
deriving DecidableEq, Repr

/-- Modelled from the spec: class `PartFolding` (part_folding.h is not part of the sources at
hand): a fold carries a range of ids, a dimension number, a level, and its descendants. -/
inductive PartFolding where
  | mk (idRange : Range) (dimNo : Int) (level : Int) (descendants : List PartFolding)

/-- Modelled from the spec: the constructor `PartFolding(id, dimNo, level)`: a fold for the
single id, without descendants. -/
def PartFolding.new (id dimNo level : Int) : PartFolding :=
  .mk { min := id, max := id } dimNo level []

/-- The method `PartFolding::getIdRange`. -/
def PartFolding.getIdRange : PartFolding → Range
  | .mk r _ _ _ => r

/-- The dimension number of a fold. -/
def PartFolding.getDimNo : PartFolding → Int
  | .mk _ d _ _ => d

/-- The level of a fold. -/
def PartFolding.getLevel : PartFolding → Int
  | .mk _ _ l _ => l

/-- The method `PartFolding::getDescendants`. -/
def PartFolding.getDescendants : PartFolding → List PartFolding
  | .mk _ _ _ ds => ds

/-- Assignment to the descendants of a fold, for the list `getDescendants` hands out to be
filled. -/
def PartFolding.setDescendants : PartFolding → List PartFolding → PartFolding
  | .mk r d l _, ds => .mk r d l ds

/-- Modelled from the spec: the method `PartFolding::addDescendant`. -/
def PartFolding.addDescendant (f descendant : PartFolding) : PartFolding :=
  f.setDescendants (f.getDescendants ++ [descendant])

mutual
/-- Whether two folds are identical: same range, dimension number, level and descendants. -/
def PartFolding.same : PartFolding → PartFolding → Bool
  | .mk r1 d1 l1 ds1, .mk r2 d2 l2 ds2 =>
    decide (r1 = r2) && decide (d1 = d2) && decide (l1 = l2) && PartFolding.sameList ds1 ds2
/-- Whether two lists of folds are identical. -/
def PartFolding.sameList : List PartFolding → List PartFolding → Bool
  | [], [] => true
  | [], _ :: _ => false
  | _ :: _, [] => false
  | a :: as, b :: bs => PartFolding.same a b && PartFolding.sameList as bs
end

/-- Modelled from the spec: the method `PartFolding::isEqualInContent`: the two folds have
identical descendant content. -/
def PartFolding.isEqualInContent (f other : PartFolding) : Bool :=
  PartFolding.sameList f.getDescendants other.getDescendants

/-- Modelled from the spec: the method `PartFolding::coalesce(range)`: the id range of the
fold is extended to take in the given range. -/
def PartFolding.coalesce : PartFolding → Range → PartFolding
  | .mk r d l ds, other =>
    .mk { min := Min.min r.min other.min, max := Max.max r.max other.max } d l ds

/-! ## Folding the container tree -/

/-- The method `Container::foldBackContainer`, on the chain of objects that starts with the
receiver and goes on with its parents: every object below the level `-1` root wraps the fold
under construction. -/
def foldBackChain : ParentPtr → Option PartFolding → Option PartFolding
  | [], foldingUnderConstruct => foldingUnderConstruct
  | current :: parent, foldingUnderConstruct =>
    if current.config.level = -1 then foldingUnderConstruct
    else
      let partFolding := PartFolding.new current.id current.config.dimNo current.config.level
      let partFolding :=
        match foldingUnderConstruct with
        | none => partFolding
        | some f => partFolding.addDescendant f
      foldBackChain parent (some partFolding)

/-- The method `Container::foldBackContainer`. -/
def Container.foldBackContainer (c : Container) (foldingUnderConstruct : Option PartFolding) :
    Option PartFolding :=
  foldBackChain c.ref foldingUnderConstruct

/-- The method `Container::foldContainerForSegment`; `none` is NULL. -/
def Container.foldContainerForSegment (c : Container) (segmentTag : Int) (foldBack : Bool) :
    Option PartFolding :=
  if !c.hasSegmentTag segmentTag then none
  else if foldBack then c.foldBackContainer none
  else some (PartFolding.new c.id c.config.dimNo c.config.level)

/-- The loop `while (!dimOrder.at(position).isEqual(config)) position++` from `position`;
`none` when `at` throws. -/
def locateConfig (config : LpsDimConfig) : List LpsDimConfig → Nat → Option Nat
  | [], _ => none
  | c :: rest, position =>
    if c = config then some position else locateConfig config rest (position + 1)

/-- Lines 297-314 of `foldContainer`: a fold element is coalesced with the last fold of the
list when it continues its id range and is equal to it in content, and appended otherwise. -/
def coalesceOrAppend (fold : List PartFolding) (containerId : Int) (foldElement : PartFolding) :
    List PartFolding :=
  match fold.getLast? with
  | none => fold ++ [foldElement]
  | some previousElement =>
    if previousElement.getIdRange.max = containerId - 1
        ∧ foldElement.isEqualInContent previousElement = true then
      fold.dropLast ++ [previousElement.coalesce { min := containerId, max := containerId }]
    else fold ++ [foldElement]

mutual
/-- The virtual method `foldContainerForSegment(segmentTag, dimOrder, foldBack)` called
through a `Container*`: `Container::foldContainerForSegment` for a plain container,
`BranchingContainer::foldContainerForSegment` otherwise. The outer `none` is a fault. -/
def Node.foldContainerForSegment (segmentTag : Int) (dimOrder : List LpsDimConfig)
    (foldBack : Bool) : Node → Option (Option PartFolding)
  | .leaf c => some (c.foldContainerForSegment segmentTag foldBack)
  | .intermediate c bs =>
    if !c.hasSegmentTag segmentTag then some none
    else
      match locateConfig c.config dimOrder 0 with
      | none => none
      | some position =>
        if position = dimOrder.length - 1 then
          some (c.foldContainerForSegment segmentTag foldBack)
        else
          match foldContainerBranches segmentTag dimOrder (position + 1) [] bs with
          | none => none
          | some [] => some none
          | some (d :: ds) =>
            let folding :=
              (PartFolding.new c.id c.config.dimNo c.config.level).setDescendants (d :: ds)
            if foldBack then
              match c.parent with
              | [] => some (some folding)
              | p :: ps => some (foldBackChain (p :: ps) (some folding))
            else some (some folding)
  | .hybrid c bs l =>
    if !c.hasSegmentTag segmentTag then some none
    else
      match locateConfig c.config dimOrder 0 with
      | none => none
      | some position =>
        if position = dimOrder.length - 1 then
          some (l.foldContainerForSegment segmentTag foldBack)
        else
          match foldContainerBranches segmentTag dimOrder (position + 1) [] bs with
          | none => none
          | some [] => some none
          | some (d :: ds) =>
            let folding :=
              (PartFolding.new c.id c.config.dimNo c.config.level).setDescendants (d :: ds)
            if foldBack then
              match c.parent with
              | [] => some (some folding)
              | p :: ps => some (foldBackChain (p :: ps) (some folding))
            else some (some folding)
/-- The method `BranchingContainer::foldContainer(segmentTag, fold, dimOrder, position)` on
the branches of the receiver: the branch of the LPS of `dimOrder.at(position)` is looked up
(`getBranch`) and its containers are folded into `fold`. The result is the list `fold` after
the call; `none` is a fault. -/
def foldContainerBranches (segmentTag : Int) (dimOrder : List LpsDimConfig) (position : Nat)
    (fold : List PartFolding) : List Branch → Option (List PartFolding)
  | [] =>
    match dimOrder.get? position with
    | none => none
    | some _ => some fold
  | b :: bs =>
    match dimOrder.get? position with
    | none => none
    | some nextConfig =>
      if b.getConfig.lpsId = nextConfig.lpsId then
        Branch.foldContainers segmentTag dimOrder position nextConfig fold b
      else foldContainerBranches segmentTag dimOrder position fold bs
/-- The loop of `foldContainer` over the containers of the branch found. -/
def Branch.foldContainers (segmentTag : Int) (dimOrder : List LpsDimConfig) (position : Nat)
    (nextConfig : LpsDimConfig) (fold : List PartFolding) : Branch → Option (List PartFolding)
  | .mk _ _ ds => foldContainerLoop segmentTag dimOrder position nextConfig fold ds
/-- The loop of `foldContainer`, lines 279-315, over the descendants of the branch; the
containers without the tag are those `getContainersForSegment` leaves out. -/
def foldContainerLoop (segmentTag : Int) (dimOrder : List LpsDimConfig) (position : Nat)
    (nextConfig : LpsDimConfig) (fold : List PartFolding) :
    List Node → Option (List PartFolding)
  | [] => some fold
  | container :: rest =>
    if !container.hasSegmentTag segmentTag then
      foldContainerLoop segmentTag dimOrder position nextConfig fold rest
    else
      let nextPosition := position + 1
      if nextPosition < dimOrder.length - 1 then
        match Node.foldContainer segmentTag dimOrder nextPosition container with
        | none => none
        | some [] => foldContainerLoop segmentTag dimOrder position nextConfig fold rest
        | some (d :: ds) =>
          let subFold :=
            (PartFolding.new container.getId nextConfig.dimNo nextConfig.level).setDescendants
              (d :: ds)
          foldContainerLoop segmentTag dimOrder position nextConfig
            (coalesceOrAppend fold container.getId subFold) rest
      else
        match container.getLeaf with
        | some leafContainer =>
          match leafContainer.foldContainerForSegment segmentTag false with
          | none => foldContainerLoop segmentTag dimOrder position nextConfig fold rest
          | some foldElement =>
            foldContainerLoop segmentTag dimOrder position nextConfig
              (coalesceOrAppend fold leafContainer.id foldElement) rest
        | none =>
          match Node.foldContainerForSegment segmentTag dimOrder false container with
          | none => none
          | some none => foldContainerLoop segmentTag dimOrder position nextConfig fold rest
          | some (some foldElement) =>
            foldContainerLoop segmentTag dimOrder position nextConfig
              (coalesceOrAppend fold container.getId foldElement) rest
/-- The call `nextBranch->foldContainer(segmentTag, subFold->getDescendants(), dimOrder,
nextPosition)` of line 288, on a fresh sub-fold; `nextBranch` is NULL for a plain container,
which faults. -/
def Node.foldContainer (segmentTag : Int) (dimOrder : List LpsDimConfig) (position : Nat) :
    Node → Option (List PartFolding)
  | .leaf _ => none
  | .intermediate _ bs => foldContainerBranches segmentTag dimOrder position [] bs
  | .hybrid _ bs _ => foldContainerBranches segmentTag dimOrder position [] bs
end

/-! ## Containers of an LPS -/

/-- The method `Branch::getContainersForSegment`. -/
def Branch.getContainersForSegment (b : Branch) (segmentTag : Int) : List Node :=
  b.descendants.filter (fun container => container.hasSegmentTag segmentTag)

mutual
/-- The method `BranchingContainer::listDescendantContainersForLps(lpsId, segmentTag)`; a
plain container has no branches and gives the empty list. -/
def Node.listDescendantContainersForLps (lpsId segmentTag : Int) : Node → List Node
  | .leaf _ => []
  | .intermediate _ bs => listContainersOfBranches lpsId segmentTag bs
  | .hybrid _ bs _ => listContainersOfBranches lpsId segmentTag bs
/-- The lookup `getBranch(lpsId)` of `listDescendantContainersForLps`, followed by the loop
over the branch found. -/
def listContainersOfBranches (lpsId segmentTag : Int) : List Branch → List Node
  | [] => []
  | b :: bs =>
    if b.getConfig.lpsId = lpsId then Branch.listContainers lpsId segmentTag b
    else listContainersOfBranches lpsId segmentTag bs
/-- The loop of `listDescendantContainersForLps` over the containers of a branch. -/
def Branch.listContainers (lpsId segmentTag : Int) : Branch → List Node
  | .mk _ _ ds => listContainersLoop lpsId segmentTag ds
/-- The loop of `listDescendantContainersForLps`, lines 230-240, over the descendants of the
branch; the containers without the tag are those `getContainersForSegment` leaves out. -/
def listContainersLoop (lpsId segmentTag : Int) : List Node → List Node
  | [] => []
  | nextContainer :: rest =>
    if !nextContainer.hasSegmentTag segmentTag then listContainersLoop lpsId segmentTag rest
    else if (getBranch nextContainer.branches lpsId).isNone then
      nextContainer :: listContainersLoop lpsId segmentTag rest
    else
      Node.listDescendantContainersForLps lpsId segmentTag nextContainer
        ++ listContainersLoop lpsId segmentTag rest
end

/-- The containers `listDescendantContainersForLps` is to return: those reached from a
container by going down through the branch of the LPS, along containers that carry the tag
and have a branch of the LPS themselves, to a container that carries the tag and has no
branch of the LPS. -/
inductive ListedFor (lpsId segmentTag : Int) : Node → Node → Prop
  | accept {n d : Node} {b : Branch} :
    getBranch n.branches lpsId = some b → d ∈ b.descendants →
    d.hasSegmentTag segmentTag = true → getBranch d.branches lpsId = none →
    ListedFor lpsId segmentTag n d
  | descend {n d c : Node} {b : Branch} :
    getBranch n.branches lpsId = some b → d ∈ b.descendants →
    d.hasSegmentTag segmentTag = true → getBranch d.branches lpsId ≠ none →
    ListedFor lpsId segmentTag d c → ListedFor lpsId segmentTag n c

/-! ## Part ids -/

/-- An array `new int[n]`: an entry is `none` until it is written. -/
abbrev IntArray := List (Option Int)

/-- The allocation `new int[dataDimensions]`. -/
def IntArray.alloc (dataDimensions : Nat) : IntArray := List.replicate dataDimensions none

/-- The assignment `array[index] = value`; `none` when the index is outside the array. -/
def IntArray.write (array : IntArray) (index value : Int) : Option IntArray :=
  if 0 ≤ index ∧ index.toNat < array.length then some (array.set index.toNat (some value))
  else none

/-- The loop of `Container::getCurrentLevelPartId` over the chain of objects that starts
with the receiver and goes on with its parents. -/
def getCurrentLevelPartIdLoop (myLps : Int) : ParentPtr → IntArray → Option IntArray
  | [], partId => some partId
  | current :: parent, partId =>
    if current.config.lpsId = myLps then
      match partId.write current.config.dimNo current.id with
      | none => none
      | some partId1 => getCurrentLevelPartIdLoop myLps parent partId1
    else some partId

/-- The method `Container::getCurrentLevelPartId`. -/
def Container.getCurrentLevelPartId (c : Container) (dataDimensions : Nat) : Option IntArray :=
  getCurrentLevelPartIdLoop c.config.lpsId c.ref (IntArray.alloc dataDimensions)

/-- The loop of `Container::getPartId`, lines 54-67, over the chain of objects that starts
with the receiver and goes on with its parents; `partId` is the array under construction and
`partIdVector` the vector built so far. -/
def getPartIdLoop (dataDimensions : Nat) (lastLps : Int) :
    ParentPtr → IntArray → List IntArray → Option (List IntArray)
  | [], _, partIdVector => some partIdVector
  | current :: parent, partId, partIdVector =>
    if current.config.level = -1 then some partIdVector
    else if current.config.lpsId = lastLps then
      match partId.write current.config.dimNo current.id with
      | none => none
      | some partId1 => getPartIdLoop dataDimensions lastLps parent partId1 partIdVector
    else
      match (IntArray.alloc dataDimensions).write current.config.dimNo current.id with
      | none => none
      | some partId1 =>
        getPartIdLoop dataDimensions lastLps parent partId1 (partId :: partIdVector)

/-- The method `Container::getPartId`. -/
def Container.getPartId (c : Container) (dataDimensions : Nat) : Option (List IntArray) :=
  getPartIdLoop dataDimensions c.config.lpsId c.ref (IntArray.alloc dataDimensions) []

/-! ## Parent pointers and configs of a tree -/

/-- What an object has to do with the objects right below it and with its leaf half: a
container of a branch points to the object as its parent, has the LPS of the branch and a
level that is not negative; the leaf half of a hybrid has the id, the config and the parent
of the hybrid. -/
def Node.LocalOk (n : Node) : Prop :=
  (∀ b ∈ n.branches, ∀ d ∈ b.descendants,
    d.base.parent = n.base.ref ∧ d.base.config.lpsId = b.getConfig.lpsId
      ∧ 0 ≤ d.base.config.level) ∧
  (∀ l, n.getLeaf = some l →
    l.id = n.base.id ∧ l.config = n.base.config ∧ l.parent = n.base.parent)

/-- Parent pointers, branch LPSes and levels are in order throughout a tree. -/
def Node.WellFormed (t : Node) : Prop :=
  ∀ n ∈ t.subnodes, n.LocalOk

/-- The id and config of an object, as a pointer to it shows them. -/
def Node.ancestor (n : Node) : Ancestor := { id := n.base.id, config := n.base.config }

/-- The objects on the way down from an object to a container below it: `Below n chain c`
says that `c` is reached from `n` through the containers of `chain`, each in a branch of the
one before; `chain` lists the ancestors of `c` strictly below `n`, topmost first. -/
inductive Below : Node → List Node → Node → Prop
  | child {n d : Node} {b : Branch} : b ∈ n.branches → d ∈ b.descendants → Below n [] d
  | step {n d c : Node} {b : Branch} {chain : List Node} :
    b ∈ n.branches → d ∈ b.descendants → Below d chain c → Below n (d :: chain) c

/-- A fold wrapped in one parent fold per ancestor, each with a single descendant; the
ancestors are given topmost first. -/
def wrapAncestors : List Ancestor → PartFolding → PartFolding
  | [], f => f
  | a :: rest, f =>
    .mk { min := a.id, max := a.id } a.config.dimNo a.config.level [wrapAncestors rest f]

mutual
/-- The levels of all nodes of a fold. -/
def PartFolding.levels : PartFolding → List Int
  | .mk _ _ l ds => l :: PartFolding.levelsOfList ds
/-- The levels of all nodes of a list of folds. -/
def PartFolding.levelsOfList : List PartFolding → List Int
  | [] => []
  | f :: fs => PartFolding.levels f ++ PartFolding.levelsOfList fs
end

/-! ## What a fold covers -/

/-- The ids of a range, ascending. -/
def Range.ids (r : Range) : List Int :=
  (List.range (r.max - r.min + 1).toNat).map (fun (i : Nat) => r.min + Int.ofNat i)

mutual
/-- The id paths a fold covers: one id out of the range of each fold on the way from the
fold to a fold without descendants. -/
def PartFolding.paths : PartFolding → List (List Int)
  | .mk r _ _ ds =>
    r.ids.flatMap (fun id =>
      if ds.isEmpty then [[id]] else (PartFolding.pathsOfList ds).map (fun p => id :: p))
/-- The id paths the folds of a list cover. -/
def PartFolding.pathsOfList : List PartFolding → List (List Int)
  | [] => []
  | f :: fs => PartFolding.paths f ++ PartFolding.pathsOfList fs
end

mutual
/-- The id paths from an object to the leaf containers under it that carry the tag, the id of
the object first; a hybrid counts with its leaf half. -/
def Node.taggedLeafPaths (segmentTag : Int) : Node → List (List Int)
  | .leaf c => if c.hasSegmentTag segmentTag then [[c.id]] else []
  | .intermediate c bs => (taggedLeafPathsOfBranches segmentTag bs).map (fun p => c.id :: p)
  | .hybrid c bs l =>
    (if l.hasSegmentTag segmentTag then [[c.id]] else [])
      ++ (taggedLeafPathsOfBranches segmentTag bs).map (fun p => c.id :: p)
/-- The paths to tagged leaf containers from the containers of a list of branches. -/
def taggedLeafPathsOfBranches (segmentTag : Int) : List Branch → List (List Int)
  | [] => []
  | b :: bs =>
    Branch.taggedLeafPaths segmentTag b ++ taggedLeafPathsOfBranches segmentTag bs
/-- The paths to tagged leaf containers from the containers of a branch. -/
def Branch.taggedLeafPaths (segmentTag : Int) : Branch → List (List Int)
  | .mk _ _ ds => taggedLeafPathsOfNodes segmentTag ds
/-- The paths to tagged leaf containers from the containers of a list. -/
def taggedLeafPathsOfNodes (segmentTag : Int) : List Node → List (List Int)
  | [] => []
  | d :: ds => Node.taggedLeafPaths segmentTag d ++ taggedLeafPathsOfNodes segmentTag ds
end

/-- The shape of a tree all of whose parts were inserted along one dimension order: an
object with the remaining order `cfg :: rest` below it is a branching container with at most
one branch, of the LPS of `cfg`, whose containers have the config `cfg` and the shape for
`rest`; an object with nothing below it is a plain container. Tag vectors are ascending, and
below the root the tags of a container are tags of the container above it. -/
def Node.Uniform (isRoot : Bool) : List LpsDimConfig → Node → Prop
  | [], n => n.isLeaf = true ∧ n.getSegmentTags.Sorted (· < ·)
  | cfg :: rest, n =>
    n.isLeaf = false ∧ n.getLeaf = none ∧ n.getSegmentTags.Sorted (· < ·) ∧
    n.branches.length ≤ 1 ∧
    ∀ b ∈ n.branches, b.getConfig.lpsId = cfg.lpsId ∧
      ∀ d ∈ b.descendants, d.base.config = cfg ∧
        (isRoot = false → ∀ t ∈ d.getSegmentTags, t ∈ n.getSegmentTags) ∧
        Node.Uniform false rest d

/-! ## Folds of built trees -/

/-- A fold taken on a built tree: the calls of `insertPart` run on the empty root, the
container at `path` is fetched with `getContainer` along `pathOrder`, and
`foldContainerForSegment(segmentTag, dimOrder, foldBack)` is called on it. The outer `none`
is a fault or a container that is not there. -/
def foldAfter (root : Node) (calls : List InsertCall) (path : List (List Int))
    (pathOrder : List LpsDimConfig) (segmentTag : Int) (dimOrder : List LpsDimConfig)
    (foldBack : Bool) : Option (Option PartFolding) :=
  match insertAll root calls with
  | none => none
  | some tree =>
    match getContainer tree path pathOrder 0 with
    | some (some container) =>
      Node.foldContainerForSegment segmentTag dimOrder foldBack container
    | _ => none

namespace Example

/-- The first dimension of LPS 3, read from array 2 of a part id. -/
def configC : LpsDimConfig := { level := 2, dimNo := 0, lpsId := 3 }

/-- The dimension order LPS 1, LPS 2, LPS 3. -/
def orderABC : List LpsDimConfig := [configA, configB, configC]

/-- A call `insertPart(orderABC, tag, [[a], [b], [c]])`. -/
def insertABC (tag a b c : Int) : InsertCall :=
  { dimOrder := orderABC, segmentTag := tag, partId := [[a], [b], [c]] }

/-- The value of a pointer to the container 1 of LPS 2. -/
def ptrB : ParentPtr := { id := 1, config := configB } :: ptrA

/-- The leaf 2 of LPS 3 with tag 1. -/
def leafC2 : Node := .leaf { id := 2, config := configC, segmentTags := [1], parent := ptrB }

/-- The leaf 3 of LPS 3 with tag 2. -/
def leafC3 : Node := .leaf { id := 3, config := configC, segmentTags := [2], parent := ptrB }

/-- The container 1 of LPS 2 above the two leaves. -/
def interB : Node :=
  .intermediate { id := 1, config := configB, segmentTags := [1, 2], parent := ptrA }
    [.mk configC [2, 3] [leafC2, leafC3]]

/-- The container 0 of LPS 1 above it. -/
def interAB : Node :=
  .intermediate { id := 0, config := configA, segmentTags := [1, 2], parent := rootPtr }
    [.mk configB [1] [interB]]

/-- The root after `insertPart(orderABC, 1, [[0], [1], [2]])` and
`insertPart(orderABC, 2, [[0], [1], [3]])`. -/
def treeABC : Node :=
  .intermediate (Container.new 0 rootConfig) [.mk configA [0] [interAB]]

/-- The leaf 5 of LPS 3 with tag 2, right below the container 0 of LPS 1. -/
def leafC5 : Node := .leaf { id := 5, config := configC, segmentTags := [2], parent := ptrA }

/-- The container 0 of LPS 1 with a branch of LPS 2 and a branch of LPS 3. -/
def interABAC : Node :=
  .intermediate { id := 0, config := configA, segmentTags := [1, 2], parent := rootPtr }
    [.mk configB [1] [leafB1], .mk configC [5] [leafC5]]

/-- The root after `insertPart([A, B], 1, [[0], [1], [5]])` and
`insertPart([A, C], 2, [[0], [1], [5]])`. -/
def treeABAC : Node :=
  .intermediate (Container.new 0 rootConfig) [.mk configA [0] [interABAC]]

/-- A fold with a single id and a single dimension. -/
def chain (id level : Int) (descendants : List PartFolding) : PartFolding :=
  .mk { min := id, max := id } 0 level descendants

end Example

/-! Further example trees of the part-distribution tree -/

namespace Example

/-- The hybrid 0 of LPS 1 after a second `insertPart([A], 2, [[0], [1]])`: the tag is now
also on the intermediate half. -/
def hybridATagged2 : Node :=
  .hybrid { id := 0, config := configA, segmentTags := [1, 2], parent := rootPtr } [branchB1]
    { id := 0, config := configA, segmentTags := [2], parent := rootPtr }

/-- The root after `insertPart([A, B], 1, ..)` and two calls `insertPart([A], 2, ..)`. -/
def treeABthenAthenA : Node :=
  .intermediate (Container.new 0 rootConfig) [.mk configA [0] [hybridATagged2]]

end Example

/-! ## Trees built along several dimension orders -/

/-- Whether the dimension order of an insertion goes together with the dimension order
`dimOrder`: the two are the same, or they are the same up to a position at which they have
different LPSes. Then neither is a beginning of the other, and a container that both lead
to has the same config in both. -/
def compatibleOrders : List LpsDimConfig → List LpsDimConfig → Bool
  | [], [] => true
  | o :: order, d :: dimOrder =>
    decide (o.lpsId ≠ d.lpsId) || (decide (o = d) && compatibleOrders order dimOrder)
  | _, _ => false

/-- The shape of a tree along a dimension order: an object with the remaining order
`cfg :: rest` below it is a branching container that is no hybrid, and the containers of its
branch of the LPS of `cfg` (the branch `getBranch` finds) have the config `cfg` and the shape
for `rest`; an object with nothing of the order below it is a plain container. Tag vectors
are ascending, and below the root the tags of a container are tags of the container above
it. The other branches of an object are left open. -/
def Node.Along (isRoot : Bool) : List LpsDimConfig → Node → Prop
  | [], n => n.isLeaf = true ∧ n.getSegmentTags.Sorted (· < ·)
  | cfg :: rest, n =>
    n.isLeaf = false ∧ n.getLeaf = none ∧ n.getSegmentTags.Sorted (· < ·) ∧
    ∀ b, getBranch n.branches cfg.lpsId = some b →
      ∀ d ∈ b.descendants, d.base.config = cfg ∧
        (isRoot = false → ∀ t ∈ d.getSegmentTags, t ∈ n.getSegmentTags) ∧
        Node.Along false rest d

/-- The id paths from an object, along a dimension order, to the leaf containers that carry
the tag: for each config of the order the branch of its LPS is taken and one of its
containers, and when the order is used up the path ends at an object whose leaf side carries
the tag. The id of the object comes first. -/
def Node.leafPathsAlong (segmentTag : Int) : List LpsDimConfig → Node → List (List Int)
  | [], n =>
    match n.leafSide with
    | some l => if l.hasSegmentTag segmentTag then [[n.getId]] else []
    | none => []
  | cfg :: rest, n =>
    match getBranch n.branches cfg.lpsId with
    | none => []
    | some b =>
      (b.descendants.flatMap (fun d => Node.leafPathsAlong segmentTag rest d)).map
        (fun p => n.getId :: p)

namespace Example

/-- The dimension order LPS 1, LPS 2. -/
def orderAB : List LpsDimConfig := [configA, configB]

/-- The two calls that build `treeABAC`: `insertPart([A, B], 1, [[0], [1], [5]])` and
`insertPart([A, C], 2, [[0], [1], [5]])`. -/
def callsABAC : List InsertCall :=
  [{ dimOrder := [configA, configB], segmentTag := 1, partId := [[0], [1], [5]] },
   { dimOrder := [configA, configC], segmentTag := 2, partId := [[0], [1], [5]] }]

/-- The calls `insertPart([A, B], 1, [[0], [1], [2]])` and
`insertPart([A, B, C], 1, [[0], [1], [2]])`: the first order is a beginning of the second,
and the container 1 of LPS 2 becomes a hybrid. -/
def callsABthenABC : List InsertCall :=
  [{ dimOrder := [configA, configB], segmentTag := 1, partId := [[0], [1], [2]] },
   { dimOrder := orderABC, segmentTag := 1, partId := [[0], [1], [2]] }]

/-- The calls `insertPart([A, B, C], 1, [[0], [1], [2]])` and
`insertPart([A, B], 2, [[0], [1], [2]])`: the container 1 of LPS 2 is made a hybrid by
`convertIntermediate`, and its leaf half carries tag 2 only. -/
def callsABCthenAB : List InsertCall :=
  [{ dimOrder := orderABC, segmentTag := 1, partId := [[0], [1], [2]] },
   { dimOrder := [configA, configB], segmentTag := 2, partId := [[0], [1], [2]] }]

end Example

end PartDistribution

/-! Sync-stage implantation in the computation flow
(`semantics/compute-flow/composite_stage.cc`) -/

namespace ComputeFlow

/-! ## Spaces -/

/-- Modelled from the spec: an LPS (class `Space` of task_space.h, which is not part of the
sources at hand), with a name and a parent. A space is given by the names on the way from
the root LPS down to it, its own name last. -/
structure Space where
  path : List String
deriving DecidableEq, Repr

/-- Whether the first list is an initial part of the second. -/
def startsWith : List String → List String → Bool
  | [], _ => true
  | _ :: _, [] => false
  | a :: as, b :: bs => a == b && startsWith as bs

/-- Modelled from the spec: the method `Space::isParentSpace(suspectedParent)`: the argument
is an ancestor of the space, the space itself not counted. -/
def Space.isParentSpace (s suspectedParent : Space) : Bool :=
  startsWith suspectedParent.path s.path && suspectedParent.path.length < s.path.length

/-- The number of names two paths have in common at their start. -/
def commonLength : List String → List String → Nat
  | a :: as, b :: bs => if a = b then commonLength as bs + 1 else 0
  | _, _ => 0

/-- Modelled from the spec: `Space::getConnetingSpaceSequenceForSpacePair(A, B)`: the spaces
on the path from `A` up to the lowest common ancestor and then down to `B`; `none` (NULL)
when the two are the same space. -/
def Space.getConnetingSpaceSequenceForSpacePair (a b : Space) : Option (List Space) :=
  if a = b then none
  else
    let k := commonLength a.path b.path
    let up : List Space :=
      (List.range (a.path.length - k + 1)).map
        (fun i => { path := a.path.take (a.path.length - i) })
    let down : List Space :=
      (List.range (b.path.length - k)).map (fun i => { path := b.path.take (k + 1 + i) })
    some (up ++ down)

/-! ## Stages -/

/-- The content of `Hashtable<VariableAccess*>`: the access logs the stages hand to the sync
stage generator. What is logged plays no part in the implantation. -/
abbrev AccessLogs := List String

/-- Modelled from the spec: a sync stage (class `SyncStage` of sync_stage_implantation.h,
which is not part of the sources at hand): the LPS it operates on and the kind of
synchronization. Its access map is a member of the object; the model records the call that
populates it. -/
structure SyncStage where
  space : Space
  mode : String
deriving DecidableEq, Repr

/-- A flow stage of computation_flow.h: a `StageInstanciation`, a `SyncStage`, or a
`CompositeStage` (also one of its subclasses, none of which overrides the implantation) with
its `stageList`. `space` and `index` are the members of `FlowStage`; the back pointer
`parent` is not read during the implantation and is left out. -/
inductive FlowStage where
  | stageInstanciation (space : Space) (index : Int) (name : String)
  | syncStage (sync : SyncStage)
  | compositeStage (space : Space) (index : Int) (stageList : List FlowStage)

/-- The method `FlowStage::getSpace`. -/
def FlowStage.getSpace : FlowStage → Space
  | .stageInstanciation space _ _ => space
  | .syncStage sync => sync.space
  | .compositeStage space _ _ => space

/-- The method `FlowStage::getIndex`; a sync stage made by the generator has no index
assigned, taken as 0. -/
def FlowStage.getIndex : FlowStage → Int
  | .stageInstanciation _ index _ => index
  | .syncStage _ => 0
  | .compositeStage _ index _ => index

/-- Whether `dynamic_cast<SyncStage*>(stage)` is not NULL. -/
def FlowStage.isSyncStage : FlowStage → Bool
  | .syncStage _ => true
  | _ => false

/-- The members of a composite stage whose stage list is being rebuilt. -/
structure CompositeStage where
  space : Space
  index : Int
  stageList : List FlowStage

/-- The composite stage as a flow stage. -/
def CompositeStage.toFlowStage (c : CompositeStage) : FlowStage :=
  .compositeStage c.space c.index c.stageList

/-- The method `CompositeStage::addStageAtEnd`. -/
def CompositeStage.addStageAtEnd (c : CompositeStage) (stage : FlowStage) : CompositeStage :=
  { space := c.space, index := c.index, stageList := c.stageList ++ [stage] }

/-- The scan of `getLastNonSyncStage` from the end of a list given last stage first. -/
def lastNonSyncStageOf : List FlowStage → Option FlowStage
  | [] => none
  | stage :: rest => if stage.isSyncStage then lastNonSyncStageOf rest else some stage

/-- The method `CompositeStage::getLastNonSyncStage`; `none` is NULL. -/
def CompositeStage.getLastNonSyncStage (c : CompositeStage) : Option FlowStage :=
  lastNonSyncStageOf c.stageList.reverse

/-- The method `CompositeStage::getLastNonSyncStagesSpace`. -/
def CompositeStage.getLastNonSyncStagesSpace (c : CompositeStage) : Space :=
  match c.getLastNonSyncStage with
  | some lastNonSyncStage => lastNonSyncStage.getSpace
  | none => c.space

/-- The method `CompositeStage::isStageListEmpty`. -/
def CompositeStage.isStageListEmpty (c : CompositeStage) : Bool :=
  c.getLastNonSyncStage.isNone

/-! ## The state of an implantation -/

/-- Modelled from the spec: an entry of the `SpaceEntryCheckpoint` registry: the LPS, the
stage index at entry, and the attached entry sync stage (NULL as `none`). -/
structure SpaceEntryCheckpoint where
  space : Space
  stageIndex : Int
  entrySyncStage : Option SyncStage
deriving DecidableEq, Repr

/-- A pointer to a stage in the flat list `currStageList`, shown by the space and the index
of the stage. -/
structure StageRef where
  space : Space
  index : Int
deriving DecidableEq, Repr

/-- The pointer to a stage. -/
def FlowStage.ref (stage : FlowStage) : StageRef :=
  { space := stage.getSpace, index := stage.getIndex }

/-- The calls that act on the registry, on a sync stage, or add a sync stage to a composite
stage, in the order they are made. -/
inductive Event where
  | populateAccessMapOfEntrySyncStage (entrySyncStage : SyncStage) (accessLogs : AccessLogs)
  | addStageAtEnd (sync : SyncStage)
  | removeACheckpoint (space : Space)
  | addACheckpointIfApplicable (space : Space) (stageIndex : Int)
  | setEntrySyncStage (space : Space) (entrySyncStage : Option SyncStage)
deriving DecidableEq, Repr

/-- What the implantation works on besides the composite stages: the checkpoint registry
(static), the flat list `currStageList` handed through the calls, and the calls made. -/
structure ImplantState where
  checkpoints : List SpaceEntryCheckpoint
  currStageList : List StageRef
  trace : List Event
deriving DecidableEq, Repr

/-- A call is recorded. -/
def ImplantState.log (σ : ImplantState) (e : Event) : ImplantState :=
  { checkpoints := σ.checkpoints, currStageList := σ.currStageList, trace := σ.trace ++ [e] }

/-- Modelled from the spec: `SpaceEntryCheckpoint::getCheckpoint(space)`; `none` is NULL. -/
def ImplantState.getCheckpoint (σ : ImplantState) (space : Space) :
    Option SpaceEntryCheckpoint :=
  σ.checkpoints.find? (fun checkpoint => checkpoint.space = space)

/-- Modelled from the spec: `SpaceEntryCheckpoint::addACheckpointIfApplicable(space,
stageIndex)`: a checkpoint is entered for the space unless it has one. -/
def ImplantState.addACheckpointIfApplicable (σ : ImplantState) (space : Space)
    (stageIndex : Int) : ImplantState :=
  let σ1 := σ.log (.addACheckpointIfApplicable space stageIndex)
  match σ.getCheckpoint space with
  | some _ => σ1
  | none =>
    { checkpoints :=
        σ1.checkpoints ++ [{ space := space, stageIndex := stageIndex, entrySyncStage := none }],
      currStageList := σ1.currStageList, trace := σ1.trace }

/-- Modelled from the spec: the method `SpaceEntryCheckpoint::setEntrySyncStage`. -/
def SpaceEntryCheckpoint.setEntrySyncStage (checkpoint : SpaceEntryCheckpoint)
    (entrySyncStage : Option SyncStage) : SpaceEntryCheckpoint :=
  { space := checkpoint.space, stageIndex := checkpoint.stageIndex,
    entrySyncStage := entrySyncStage }

/-- The call `checkpoint->setEntrySyncStage(entrySyncStage)` on the checkpoint of the space,
which is in the registry. -/
def ImplantState.setEntrySyncStage (σ : ImplantState) (space : Space)
    (entrySyncStage : Option SyncStage) : ImplantState :=
  let σ1 := σ.log (.setEntrySyncStage space entrySyncStage)
  { checkpoints :=
      σ1.checkpoints.map (fun checkpoint =>
        if checkpoint.space = space then checkpoint.setEntrySyncStage entrySyncStage
        else checkpoint),
    currStageList := σ1.currStageList, trace := σ1.trace }

/-- Modelled from the spec: `SpaceEntryCheckpoint::removeACheckpoint(space)`. -/
def ImplantState.removeACheckpoint (σ : ImplantState) (space : Space) : ImplantState :=
  let σ1 := σ.log (.removeACheckpoint space)
  { checkpoints := σ1.checkpoints.filter (fun checkpoint => checkpoint.space ≠ space),
    currStageList := σ1.currStageList, trace := σ1.trace }

/-- The append `currStageList->Append(stage)`. -/
def ImplantState.append (σ : ImplantState) (stage : FlowStage) : ImplantState :=
  { checkpoints := σ.checkpoints, currStageList := σ.currStageList ++ [stage.ref],
    trace := σ.trace }

/-- The functions of the sync stage generator and of the access analysis, which are not part
of the sources at hand. The access logs are read from the stages the flat list points to;
the model hands the state to the functions that collect them. -/
structure Collaborators where
  generateEntrySyncStage : Space → Option SyncStage
  generateReappearanceSyncStage : Space → AccessLogs → Option SyncStage
  generateExitSyncStages : Space → AccessLogs → List SyncStage
  generateReturnSyncStage : Space → AccessLogs → Option SyncStage
  getAccessLogsForSpaceInIndexLimit : ImplantState → Space → Int → Int → Bool → AccessLogs
  getAccessLogsForReturnToSpace : ImplantState → Space → Int → AccessLogs

/-- How an implantation ends before its time: `std::exit(EXIT_FAILURE)` on a disjoint
transition, or a NULL pointer that is dereferenced. -/
inductive Fault where
  | disjointTransition (oldSpace newSpace : Space)
  | nullCheckpoint (space : Space)
  | nullStage
deriving DecidableEq, Repr

/-- The call `addStageAtEnd(sync)` with a sync stage, which is recorded. -/
def addSyncStage (sync : SyncStage) (w : CompositeStage × ImplantState) :
    CompositeStage × ImplantState :=
  (w.1.addStageAtEnd (.syncStage sync), w.2.log (.addStageAtEnd sync))

/-- The statement `if (sync != NULL) addStageAtEnd(sync)`. -/
def addSyncStageIfAny (sync : Option SyncStage) (w : CompositeStage × ImplantState) :
    CompositeStage × ImplantState :=
  match sync with
  | some s => addSyncStage s w
  | none => w

/-- The loop `for (i...) addStageAtEnd(exitSyncs->Nth(i))`. -/
def addSyncStages : List SyncStage → CompositeStage × ImplantState →
    CompositeStage × ImplantState
  | [], w => w
  | sync :: rest, w => addSyncStages rest (addSyncStage sync w)

/-! ## addSyncStagesBeforeExecution -/

/-- The body of the loop of `addSyncStagesBeforeExecution`, lines 125-181, for the pair
`(oldSpace, newSpace)` of the transition chain. -/
def CompositeStage.beforeExecutionStep (env : Collaborators) (nextStageIndex : Int)
    (oldSpace newSpace : Space) (w : CompositeStage × ImplantState) :
    Except Fault (CompositeStage × ImplantState) :=
  if oldSpace.isParentSpace newSpace then
    match w.2.getCheckpoint oldSpace with
    | none => .error (.nullCheckpoint oldSpace)
    | some oldCheckpoint =>
      let oldEntrySyncStage := oldCheckpoint.entrySyncStage
      let accessLogs := env.getAccessLogsForSpaceInIndexLimit w.2 oldSpace
        oldCheckpoint.stageIndex (nextStageIndex - 1) true
      let w1 : CompositeStage × ImplantState :=
        match oldEntrySyncStage with
        | some entry => (w.1, w.2.log (.populateAccessMapOfEntrySyncStage entry accessLogs))
        | none => w
      let reappearanceSync := env.generateReappearanceSyncStage oldSpace accessLogs
      let w2 := addSyncStageIfAny reappearanceSync w1
      let w3 : CompositeStage × ImplantState := (w2.1, w2.2.removeACheckpoint oldSpace)
      let exitSyncs := env.generateExitSyncStages oldSpace accessLogs
      let w4 := addSyncStages exitSyncs w3
      let accessLogs := env.getAccessLogsForReturnToSpace w4.2 newSpace (nextStageIndex - 1)
      let returnSync := env.generateReturnSyncStage newSpace accessLogs
      .ok (addSyncStageIfAny returnSync w4)
  else if newSpace.isParentSpace oldSpace then
    let entrySyncStage := env.generateEntrySyncStage newSpace
    let σ1 := w.2.addACheckpointIfApplicable newSpace nextStageIndex
    let σ2 := σ1.setEntrySyncStage newSpace entrySyncStage
    .ok (addSyncStageIfAny entrySyncStage (w.1, σ2))
  else if oldSpace ≠ newSpace then .error (.disjointTransition oldSpace newSpace)
  else .ok w

/-- The loop of `addSyncStagesBeforeExecution` over the pairs of the transition chain. -/
def CompositeStage.beforeExecutionLoop (env : Collaborators) (nextStageIndex : Int) :
    List Space → CompositeStage × ImplantState → Except Fault (CompositeStage × ImplantState)
  | oldSpace :: newSpace :: rest, w =>
    match CompositeStage.beforeExecutionStep env nextStageIndex oldSpace newSpace w with
    | .error fault => .error fault
    | .ok w1 => CompositeStage.beforeExecutionLoop env nextStageIndex (newSpace :: rest) w1
  | _, w => .ok w

/-- The transition chain `addSyncStagesBeforeExecution` works on, lines 108-119; `none` is
NULL, on which the function returns. -/
def CompositeStage.transitionChain (c : CompositeStage) (nextStage : FlowStage) :
    Option (List Space) :=
  let previousSpace := c.getLastNonSyncStagesSpace
  let nextSpace := nextStage.getSpace
  let spaceTransitionChain := Space.getConnetingSpaceSequenceForSpacePair previousSpace nextSpace
  if spaceTransitionChain = none ∨ spaceTransitionChain.map List.length = some 0 then
    if !c.isStageListEmpty then some [previousSpace, nextSpace] else spaceTransitionChain
  else spaceTransitionChain

/-- The method `CompositeStage::addSyncStagesBeforeExecution(nextStage, stageList)`. -/
def CompositeStage.addSyncStagesBeforeExecution (env : Collaborators) (nextStage : FlowStage)
    (w : CompositeStage × ImplantState) : Except Fault (CompositeStage × ImplantState) :=
  match w.1.transitionChain nextStage with
  | none => .ok w
  | some spaceTransitionChain =>
    let nextStageIndex : Int := w.2.currStageList.length
    CompositeStage.beforeExecutionLoop env nextStageIndex spaceTransitionChain w

/-! ## addSyncStagesOnReturn -/

/-- The body of the loop of `addSyncStagesOnReturn`, lines 196-231, for the pair
`(oldSpace, newSpace)` of the transition chain. -/
def CompositeStage.onReturnStep (env : Collaborators) (lastStageIndex : Int)
    (oldSpace newSpace : Space) (w : CompositeStage × ImplantState) :
    Except Fault (CompositeStage × ImplantState) :=
  match w.2.getCheckpoint oldSpace with
  | none => .error (.nullCheckpoint oldSpace)
  | some oldCheckpoint =>
    let oldEntrySyncStage := oldCheckpoint.entrySyncStage
    let accessLogs := env.getAccessLogsForSpaceInIndexLimit w.2 oldSpace
      oldCheckpoint.stageIndex lastStageIndex true
    let w1 : CompositeStage × ImplantState :=
      match oldEntrySyncStage with
      | some entry => (w.1, w.2.log (.populateAccessMapOfEntrySyncStage entry accessLogs))
      | none => w
    let reappearanceSync := env.generateReappearanceSyncStage oldSpace accessLogs
    let w2 := addSyncStageIfAny reappearanceSync w1
    let w3 : CompositeStage × ImplantState := (w2.1, w2.2.removeACheckpoint oldSpace)
    let exitSyncs := env.generateExitSyncStages oldSpace accessLogs
    let w4 := addSyncStages exitSyncs w3
    let accessLogs := env.getAccessLogsForReturnToSpace w4.2 newSpace lastStageIndex
    let returnSync := env.generateReturnSyncStage newSpace accessLogs
    .ok (addSyncStageIfAny returnSync w4)

/-- The loop of `addSyncStagesOnReturn` over the pairs of the transition chain. -/
def CompositeStage.onReturnLoop (env : Collaborators) (lastStageIndex : Int) :
    List Space → CompositeStage × ImplantState → Except Fault (CompositeStage × ImplantState)
  | oldSpace :: newSpace :: rest, w =>
    match CompositeStage.onReturnStep env lastStageIndex oldSpace newSpace w with
    | .error fault => .error fault
    | .ok w1 => CompositeStage.onReturnLoop env lastStageIndex (newSpace :: rest) w1
  | _, w => .ok w

/-- The method `CompositeStage::addSyncStagesOnReturn(stageList)`. -/
def CompositeStage.addSyncStagesOnReturn (env : Collaborators)
    (w : CompositeStage × ImplantState) : Except Fault (CompositeStage × ImplantState) :=
  let previousSpace := w.1.getLastNonSyncStagesSpace
  let currentSpace := w.1.space
  match Space.getConnetingSpaceSequenceForSpacePair previousSpace currentSpace with
  | none => .ok w
  | some [] => .ok w
  | some (s :: chain) =>
    match w.1.getLastNonSyncStage with
    | none => .error .nullStage
    | some lastNonSyncStage =>
      CompositeStage.onReturnLoop env lastNonSyncStage.getIndex (s :: chain) w

/-! ## implantSyncStagesInFlow -/

/-- Modelled from the spec: the base method `FlowStage::implantSyncStagesInFlow(containerStage,
currStageList)` (its file is not part of the sources at hand): the container adds the sync
stages the stage needs before it, then the stage is added at the end of the container and
appended to the flat list. `stage` is the object as it is when the call returns to the
container. -/
def FlowStage.implantInContainer (env : Collaborators) (stage : FlowStage)
    (w : CompositeStage × ImplantState) : Except Fault (CompositeStage × ImplantState) :=
  match CompositeStage.addSyncStagesBeforeExecution env stage w with
  | .error fault => .error fault
  | .ok w1 => .ok (w1.1.addStageAtEnd stage, w1.2.append stage)

mutual
/-- The virtual method `implantSyncStagesInFlow(containerStage, currStageList)` called on a
stage with a container stage: the base method for a stage that is not composite,
`CompositeStage::implantSyncStagesInFlow` otherwise. The composite stage is added to its
container with an empty stage list, which is then rebuilt through the pointer; the result
shows the container with the stage as it is in the end. -/
def FlowStage.implantSyncStagesInFlow (env : Collaborators) :
    FlowStage → CompositeStage × ImplantState → Except Fault (CompositeStage × ImplantState)
  | .stageInstanciation space index name, w =>
    FlowStage.implantInContainer env (.stageInstanciation space index name) w
  | .syncStage sync, w => FlowStage.implantInContainer env (.syncStage sync) w
  | .compositeStage space index oldStageList, w =>
    match FlowStage.implantInContainer env (.compositeStage space index []) w with
    | .error fault => .error fault
    | .ok w1 =>
      match implantNestedStages env oldStageList
          ({ space := space, index := index, stageList := [] }, w1.2) with
      | .error fault => .error fault
      | .ok w2 =>
        match CompositeStage.addSyncStagesOnReturn env w2 with
        | .error fault => .error fault
        | .ok w3 =>
          .ok ({ space := w1.1.space, index := w1.1.index,
                 stageList := w1.1.stageList.dropLast ++ [w3.1.toFlowStage] }, w3.2)
/-- The loop of `CompositeStage::implantSyncStagesInFlow` over the old stage list: each
nested stage is re-inserted in the composite stage. -/
def implantNestedStages (env : Collaborators) :
    List FlowStage → CompositeStage × ImplantState → Except Fault (CompositeStage × ImplantState)
  | [], w => .ok w
  | nestedStage :: rest, w =>
    match FlowStage.implantSyncStagesInFlow env nestedStage w with
    | .error fault => .error fault
    | .ok w1 => implantNestedStages env rest w1
end

/-- The method `CompositeStage::implantSyncStagesInFlow(NULL, currStageList)` on the composite
stage the implantation starts with: the terminal case, where the stage is appended to the
flat list. Gives the composite stage after the call. -/
def CompositeStage.implantSyncStagesInFlow (env : Collaborators) (c : CompositeStage)
    (σ : ImplantState) : Except Fault (CompositeStage × ImplantState) :=
  let oldStageList := c.stageList
  let this : CompositeStage := { space := c.space, index := c.index, stageList := [] }
  let σ1 := σ.append this.toFlowStage
  match implantNestedStages env oldStageList (this, σ1) with
  | .error fault => .error fault
  | .ok w2 => CompositeStage.addSyncStagesOnReturn env w2

/-- Whether the stage is not a sync stage. -/
def FlowStage.isComputeStage (stage : FlowStage) : Bool := !stage.isSyncStage

mutual
/-- A stage without the sync stages inside it. -/
def FlowStage.withoutSyncStages : FlowStage → FlowStage
  | .stageInstanciation space index name => .stageInstanciation space index name
  | .syncStage sync => .syncStage sync
  | .compositeStage space index stageList =>
    .compositeStage space index (withoutSyncStagesOfList stageList)
/-- A stage list without its sync stages, at every depth. -/
def withoutSyncStagesOfList : List FlowStage → List FlowStage
  | [] => []
  | .syncStage _ :: rest => withoutSyncStagesOfList rest
  | .stageInstanciation space index name :: rest =>
    .stageInstanciation space index name :: withoutSyncStagesOfList rest
  | .compositeStage space index stageList :: rest =>
    .compositeStage space index (withoutSyncStagesOfList stageList)
      :: withoutSyncStagesOfList rest
end

/-! ## What the steps are to do -/

/-- What an ascending step is to leave behind, in the words of the spec: the access map of
the entry sync stage of the checkpoint (if any) is populated, the reappearance sync stage (if
one is generated) is appended, the checkpoint is removed, the exit sync stages are appended
in the order of the generator, and the return sync stage (if one is generated) is appended.
`endIndex` is the last index of the access logs. -/
def ascendingOutcome (env : Collaborators) (endIndex : Int) (oldSpace newSpace : Space)
    (oldCheckpoint : SpaceEntryCheckpoint) (w : CompositeStage × ImplantState) :
    CompositeStage × ImplantState :=
  let accessLogs := env.getAccessLogsForSpaceInIndexLimit w.2 oldSpace
    oldCheckpoint.stageIndex endIndex true
  let reappearance := (env.generateReappearanceSyncStage oldSpace accessLogs).toList
  let exits := env.generateExitSyncStages oldSpace accessLogs
  let atExit : ImplantState :=
    { checkpoints := w.2.checkpoints.filter (fun checkpoint => checkpoint.space ≠ oldSpace),
      currStageList := w.2.currStageList,
      trace := w.2.trace
        ++ oldCheckpoint.entrySyncStage.toList.map
            (fun entry => Event.populateAccessMapOfEntrySyncStage entry accessLogs)
        ++ reappearance.map Event.addStageAtEnd
        ++ [Event.removeACheckpoint oldSpace]
        ++ exits.map Event.addStageAtEnd }
  let returnSync :=
    (env.generateReturnSyncStage newSpace
      (env.getAccessLogsForReturnToSpace atExit newSpace endIndex)).toList
  ({ space := w.1.space, index := w.1.index,
     stageList := w.1.stageList ++ (reappearance ++ exits ++ returnSync).map FlowStage.syncStage },
   { checkpoints := atExit.checkpoints, currStageList := atExit.currStageList,
     trace := atExit.trace ++ returnSync.map Event.addStageAtEnd })

/-! ## A small flow -/

namespace Example

/-- The LPS `A`. -/
def spaceA : Space := { path := ["A"] }

/-- The LPS `B`, a child of `A`. -/
def spaceB : Space := { path := ["A", "B"] }

/-- The LPS `C`, another child of `A`. -/
def spaceC : Space := { path := ["A", "C"] }

/-- The entry sync stage of an LPS. -/
def entrySync (space : Space) : SyncStage := { space := space, mode := "entry" }

/-- The exit sync stage of an LPS. -/
def exitSync (space : Space) : SyncStage := { space := space, mode := "exit" }

/-- A generator that makes an entry sync stage and one exit sync stage for every LPS, and
neither a reappearance nor a return sync stage; the access logs are empty. -/
def generator : Collaborators :=
  { generateEntrySyncStage := fun space => some (entrySync space),
    generateReappearanceSyncStage := fun _ _ => none,
    generateExitSyncStages := fun space _ => [exitSync space],
    generateReturnSyncStage := fun _ _ => none,
    getAccessLogsForSpaceInIndexLimit := fun _ _ _ _ _ => [],
    getAccessLogsForReturnToSpace := fun _ _ _ => [] }

/-- A generator that makes every kind of sync stage. -/
def fullGenerator : Collaborators :=
  { generateEntrySyncStage := fun space => some (entrySync space),
    generateReappearanceSyncStage := fun space _ => some { space := space, mode := "reappearance" },
    generateExitSyncStages := fun space _ =>
      [{ space := space, mode := "exit 1" }, { space := space, mode := "exit 2" }],
    generateReturnSyncStage := fun space _ => some { space := space, mode := "return" },
    getAccessLogsForSpaceInIndexLimit := fun _ _ _ _ _ => ["a"],
    getAccessLogsForReturnToSpace := fun _ _ _ => ["b"] }

/-- A compute stage of an LPS. -/
def stage (space : Space) (index : Int) : FlowStage :=
  .stageInstanciation space index "stage"

/-- The composite stage on `A` with a stage of `A`, a stage of `B` and a stage of `A`. -/
def flowABA : CompositeStage :=
  { space := spaceA, index := 0, stageList := [stage spaceA 1, stage spaceB 2, stage spaceA 3] }

/-- The state an implantation starts with. -/
def start : ImplantState := { checkpoints := [], currStageList := [], trace := [] }

/-- The state inside `B`, entered at index 2 with an entry sync stage. -/
def insideB : ImplantState :=
  { checkpoints := [{ space := spaceB, stageIndex := 2, entrySyncStage := some (entrySync spaceB) }],
    currStageList := [(stage spaceA 0).ref, (stage spaceA 1).ref, (stage spaceB 2).ref],
    trace := [] }

/-- A composite stage on `A` whose last stage is of `B`. -/
def flowAB : CompositeStage :=
  { space := spaceA, index := 0,
    stageList := [stage spaceA 1, .syncStage (entrySync spaceB), stage spaceB 2] }

end Example

end ComputeFlow

/-! Thread-count constants of the multi-core back end
(`MultiCoreBackEnd/codegen/code_generator.cc`) -/

namespace CodeGenerator

/-- Modelled from the spec: a PPS of the PCubeS model (`PPS_Definition`, whose header is not
part of the sources at hand): an id (a smaller id is closer to the hardware leaves), a unit
count, and the flag of the core space. -/
structure PPS_Definition where
  id : Int
  units : Int
  coreSpace : Bool
deriving DecidableEq, Repr

/-- Modelled from the spec: an LPS (`Space`, whose header is not part of the sources at
hand). Of the LPS the generators read the name, the dimension count (an LPS without
dimensions is not partitioned) and the flag that marks a sub-partition of the parent LPS. -/
structure Space where
  name : String
  dimensionCount : Int
  subpartitionSpace : Bool
deriving DecidableEq, Repr

/-- Modelled from the spec: a node of the mapping tree (`MappingNode`, whose header is not
part of the sources at hand), with the `{LPS, PPS}` config and the children. The member
`parent` of a node is the node whose list of children holds it. -/
inductive MappingNode where
  | mk (lps : Space) (pps : PPS_Definition) (children : List MappingNode)

/-- The member `node->mappingConfig->LPS`. -/
def MappingNode.lps : MappingNode → Space
  | .mk l _ _ => l

/-- The value `node->mappingConfig->LPS->getDimensionCount()`. -/
def MappingNode.lpsDimensionCount : MappingNode → Int
  | .mk l _ _ => l.dimensionCount

/-- The member `node->mappingConfig->PPS`. -/
def MappingNode.pps : MappingNode → PPS_Definition
  | .mk _ p _ => p

/-- The member `node->children`. -/
def MappingNode.children : MappingNode → List MappingNode
  | .mk _ _ cs => cs

mutual
/-- The number of nodes of a mapping tree. -/
def MappingNode.size : MappingNode → Nat
  | .mk _ _ cs => 1 + MappingNode.sizeOfList cs
/-- The number of nodes of the trees of a list. -/
def MappingNode.sizeOfList : List MappingNode → Nat
  | [] => 0
  | c :: cs => MappingNode.size c + MappingNode.sizeOfList cs
end

mutual
/-- The nodes of a mapping tree. -/
def MappingNode.nodes : MappingNode → List MappingNode
  | .mk d p cs => .mk d p cs :: MappingNode.nodesOfList cs
/-- The nodes of the trees of a list. -/
def MappingNode.nodesOfList : List MappingNode → List MappingNode
  | [] => []
  | c :: cs => MappingNode.nodes c ++ MappingNode.nodesOfList cs
end

/-- The three variables of the first loop of `generateThreadCountConstants`. -/
structure PpsLimits where
  lowestPpsId : Int
  highestPartitionedPpsId : Int
  highestUnpartitionedPpsId : Int
deriving DecidableEq, Repr

/-- The body of the first loop, lines 101-110, for the node taken from the queue. -/
def visitNode (node : MappingNode) (limits : PpsLimits) : PpsLimits :=
  let pps := node.pps
  let lowestPpsId := if pps.id < limits.lowestPpsId then pps.id else limits.lowestPpsId
  if node.lpsDimensionCount > 0 ∧ pps.id > limits.highestPartitionedPpsId then
    { lowestPpsId := lowestPpsId, highestPartitionedPpsId := pps.id,
      highestUnpartitionedPpsId := limits.highestUnpartitionedPpsId }
  else if node.lpsDimensionCount = 0 then
    if pps.id > limits.highestPartitionedPpsId ∧ pps.id < limits.highestUnpartitionedPpsId then
      { lowestPpsId := lowestPpsId,
        highestPartitionedPpsId := limits.highestPartitionedPpsId,
        highestUnpartitionedPpsId := pps.id }
    else
      { lowestPpsId := lowestPpsId,
        highestPartitionedPpsId := limits.highestPartitionedPpsId,
        highestUnpartitionedPpsId := limits.highestUnpartitionedPpsId }
  else
    { lowestPpsId := lowestPpsId,
      highestPartitionedPpsId := limits.highestPartitionedPpsId,
      highestUnpartitionedPpsId := limits.highestUnpartitionedPpsId }

/-- The first loop, lines 96-111: the nodes are taken from the front of the queue and their
children are put at its back. One unit of fuel goes with each node taken. -/
def scanLoop : Nat → List MappingNode → PpsLimits → PpsLimits
  | 0, _, limits => limits
  | _ + 1, [], limits => limits
  | fuel + 1, node :: rest, limits => scanLoop fuel (rest ++ node.children) (visitNode node limits)

/-- The limits after the first loop, which starts with the root in the queue; the fuel is the
number of nodes of the tree. -/
def scanMappingTree (mappingRoot : MappingNode) (topPpsId : Int) : PpsLimits :=
  scanLoop mappingRoot.size [mappingRoot]
    { lowestPpsId := topPpsId, highestPartitionedPpsId := 1,
      highestUnpartitionedPpsId := topPpsId }

/-- The product of two values of type `int`; `none` when it is outside the type, which is
undefined behaviour. -/
def mulInt (a b : Int) : Option Int :=
  if -2147483648 ≤ a * b ∧ a * b ≤ 2147483647 then some (a * b) else none

/-- The second loop, lines 115-120, over the PPS list from `pcubesConfig` on; `totalThreads`
is the product so far. -/
def totalThreadsLoop (highestUnpartitionedPpsId lowestPpsId : Int) :
    List PPS_Definition → Int → Option Int
  | [], totalThreads => some totalThreads
  | pps :: rest, totalThreads =>
    if pps.id ≥ highestUnpartitionedPpsId then
      totalThreadsLoop highestUnpartitionedPpsId lowestPpsId rest totalThreads
    else
      match mulInt totalThreads pps.units with
      | none => none
      | some totalThreads1 =>
        if pps.id = lowestPpsId then some totalThreads1
        else totalThreadsLoop highestUnpartitionedPpsId lowestPpsId rest totalThreads1

/-- The value of the constant `Total_Threads` that `generateThreadCountConstants(outputFile,
mappingRoot, pcubesConfig)` writes; `none` when `pcubesConfig->Nth(0)` fails or a product
leaves the type `int`. -/
def generateThreadCountConstants (mappingRoot : MappingNode)
    (pcubesConfig : List PPS_Definition) : Option Int :=
  match pcubesConfig with
  | [] => none
  | top :: _ =>
    let limits := scanMappingTree mappingRoot top.id
    totalThreadsLoop limits.highestUnpartitionedPpsId limits.lowestPpsId pcubesConfig 1

/-- The product of the values of a list in the type `int`, taken from the left; `none` when
a product leaves the type. -/
def productInt : List Int → Int → Option Int
  | [], acc => some acc
  | x :: rest, acc =>
    match mulInt acc x with
    | none => none
    | some acc1 => productInt rest acc1

/-! ## A PPS list and mapping trees -/

namespace Example

/-- The PPS list of three spaces, top to bottom; the lowest is the core space. -/
def pcubes : List PPS_Definition :=
  [{ id := 3, units := 2, coreSpace := false }, { id := 2, units := 4, coreSpace := false },
   { id := 1, units := 2, coreSpace := true }]

/-- A mapping tree all of whose LPSes are partitioned: one is mapped to each PPS. -/
def allPartitioned : MappingNode :=
  .mk { name := "Root", dimensionCount := 1, subpartitionSpace := false }
    { id := 3, units := 2, coreSpace := false }
    [.mk { name := "A", dimensionCount := 1, subpartitionSpace := false }
      { id := 2, units := 4, coreSpace := false }
      [.mk { name := "B", dimensionCount := 2, subpartitionSpace := false }
        { id := 1, units := 2, coreSpace := true } []]]

/-- A mapping tree with the root LPS, which is not partitioned, on the top PPS and a
partitioned LPS on each PPS below. -/
def rootAndPartitioned : MappingNode :=
  .mk { name := "Root", dimensionCount := 0, subpartitionSpace := false }
    { id := 3, units := 2, coreSpace := false }
    [.mk { name := "A", dimensionCount := 1, subpartitionSpace := false }
      { id := 2, units := 4, coreSpace := false }
      [.mk { name := "B", dimensionCount := 2, subpartitionSpace := false }
        { id := 1, units := 2, coreSpace := true } []]]

end Example

end CodeGenerator

/-! The constant `Threads_Par_Core` and the routine `getPpuIdsForThread` that the multi-core
back end writes (`MultiCoreBackEnd/codegen/code_generator.cc`) -/

namespace CodeGenerator

/-- Modelled from the spec: the element `pcubesConfig->Nth(index)` (`List` of utils/list.h is
not part of the sources at hand); `none` when the index is outside the list, where `Nth`
fails. -/
def nth (pcubesConfig : List PPS_Definition) (index : Int) : Option PPS_Definition :=
  if index < 0 then none else pcubesConfig.get? index.toNat

/-- The loops of lines 132-135 and 206-208: for `i` going down while `i >= lowest`, the
product so far is multiplied by the units of `pcubesConfig->Nth(ppsCount - i)`. The first
argument is the number of rounds left. -/
def unitsLoop (pcubesConfig : List PPS_Definition) (lowest : Int) : Nat → Int → Int → Option Int
  | 0, _, product => some product
  | rounds + 1, i, product =>
    if i ≥ lowest then
      match nth pcubesConfig (pcubesConfig.length - i) with
      | none => none
      | some pps =>
        match mulInt product pps.units with
        | none => none
        | some product1 => unitsLoop pcubesConfig lowest rounds (i - 1) product1
    else some product

/-- The loop `for (int i = start; i >= lowest; i--)` from the product 1; it makes
`start - lowest + 1` rounds when that is positive and none otherwise. -/
def unitsFrom (pcubesConfig : List PPS_Definition) (start lowest : Int) : Option Int :=
  unitsLoop pcubesConfig lowest (start - lowest + 1).toNat start 1

/-- The loop of lines 123-129: the id of the first PPS flagged as the core space, and the
value `coreSpaceId` starts with when there is none. -/
def coreSpaceLoop : List PPS_Definition → Int → Int
  | [], coreSpaceId => coreSpaceId
  | pps :: rest, coreSpaceId => if pps.coreSpace then pps.id else coreSpaceLoop rest coreSpaceId

/-- The value of the constant `Threads_Par_Core` that `generateThreadCountConstants` writes,
lines 121-136; `none` when the function faults before, `Nth` fails or a product leaves the
type `int`. -/
def threadsParCore (mappingRoot : MappingNode) (pcubesConfig : List PPS_Definition) :
    Option Int :=
  match generateThreadCountConstants mappingRoot pcubesConfig with
  | none => none
  | some _ =>
    match pcubesConfig with
    | [] => none
    | top :: _ =>
      let lowestPpsId := (scanMappingTree mappingRoot top.id).lowestPpsId
      let coreSpaceId := coreSpaceLoop pcubesConfig top.id
      unitsFrom pcubesConfig (coreSpaceId - 1) lowestPpsId

/-- The product of the unit counts of the PPSes of the list whose id is at least `low` and
below `high`. -/
def unitsBetween (pcubesConfig : List PPS_Definition) (low high : Int) : Int :=
  ((pcubesConfig.filter (fun pps => decide (low ≤ pps.id ∧ pps.id < high))).map
    PPS_Definition.units).prod

/-- The ids of the PPS list run from its length down to 1. -/
def idsRunDown (pcubesConfig : List PPS_Definition) : Prop :=
  pcubesConfig.map PPS_Definition.id = (List.iota pcubesConfig.length).map Int.ofNat

instance (pcubesConfig : List PPS_Definition) : Decidable (idsRunDown pcubesConfig) := by
  unfold idsRunDown
  infer_instance

/-! ## The text of `getPpuIdsForThread` -/

/-- A field of a `PPU_Ids` record of the routine. -/
inductive PpuField where
  | groupId
  | ppuCount
  | groupSize
  | id
deriving DecidableEq, Repr

/-- A variable of the routine: the field `threadIds->ppuIds[Space_<space>].<field>`, the
element `idsArray[Space_<space>]`, or one of the three local variables. -/
inductive Var where
  | ppuIds (space : String) (field : PpuField)
  | idsArray (space : String)
  | threadCount
  | groupSize
  | groupThreadId
deriving DecidableEq, Repr

/-- An expression of the routine: a variable, a number the generator writes, the parameter
`threadNo`, the constants `Total_Threads` and `INVALID_ID`, a quotient or a remainder. -/
inductive Term where
  | var (v : Var)
  | number (value : Int)
  | threadNo
  | Total_Threads
  | INVALID_ID
  | div (a b : Term)
  | mod (a b : Term)
deriving DecidableEq, Repr

/-- A statement of the routine: an assignment, or `if (v == 0) s1 else s2`. -/
inductive Statement where
  | assign (v : Var) (e : Term)
  | ifZero (v : Var) (thenPart elsePart : Statement)
deriving DecidableEq, Repr

/-- The number of partitions the PPS of a node makes to the PPS of its parent, lines
203-208. -/
def partitionCount (pcubesConfig : List PPS_Definition) (parentPps pps : PPS_Definition) :
    Option Int :=
  unitsFrom pcubesConfig (parentPps.id - 1) pps.id

/-- The statements written for a node taken from the queue, lines 197-284. `parentIsRoot`
tells whether `parent == mappingRoot`. -/
def emitNode (pcubesConfig : List PPS_Definition) (parentIsRoot : Bool)
    (parent node : MappingNode) : Option (List Statement) :=
  let pps := node.pps
  let lps := node.lps
  let parentLps := parent.lps
  let parentPps := parent.pps
  match partitionCount pcubesConfig parentPps pps with
  | none => none
  | some partitionCount =>
    if lps.subpartitionSpace then
      some [.assign (.ppuIds lps.name .groupId) (.number 0),
            .assign (.ppuIds lps.name .ppuCount) (.number 1),
            .assign (.ppuIds lps.name .groupSize) (.var (.ppuIds parentLps.name .groupSize)),
            .assign (.ppuIds lps.name .id) (.number 0),
            .assign (.idsArray lps.name) (.var (.idsArray parentLps.name))]
    else
      let threadCountValue : Term :=
        if parentIsRoot then .Total_Threads else .var (.ppuIds parentLps.name .groupSize)
      let groupThreadIdStr : Term :=
        if parentIsRoot then .var (.idsArray "Root") else .var (.idsArray parentLps.name)
      let groupSizeValue : Term :=
        if lps.dimensionCount > 0 then .div (.var .threadCount) (.number partitionCount)
        else .var .threadCount
      some [.assign .threadCount threadCountValue,
            .assign .groupSize groupSizeValue,
            .assign .groupThreadId (.mod groupThreadIdStr (.var .groupSize)),
            .assign (.ppuIds lps.name .groupId) (.div groupThreadIdStr (.var .groupSize)),
            .assign (.ppuIds lps.name .ppuCount) (.number partitionCount),
            .assign (.ppuIds lps.name .groupSize) (.var .groupSize),
            .ifZero .groupThreadId
              (.assign (.ppuIds lps.name .id) (.var (.ppuIds lps.name .groupId)))
              (.assign (.ppuIds lps.name .id) .INVALID_ID),
            .assign (.idsArray lps.name) (.var .groupThreadId)]

/-- An entry of the queue of `generateFnForThreadIdsAllocation`: a node with the node
`node->parent` and whether that is the root of the mapping tree. -/
structure QueueEntry where
  parentIsRoot : Bool
  parent : MappingNode
  node : MappingNode

/-- The entries for the children of a node. -/
def childEntries (parentIsRoot : Bool) (parent : MappingNode) : List QueueEntry :=
  parent.children.map (fun child =>
    { parentIsRoot := parentIsRoot, parent := parent, node := child })

/-- The loop of lines 190-285: the nodes are taken from the front of the queue and their
children are put at its back. One unit of fuel goes with each node taken. -/
def emitLoop (pcubesConfig : List PPS_Definition) :
    Nat → List QueueEntry → Option (List Statement)
  | 0, _ => some []
  | _ + 1, [] => some []
  | fuel + 1, entry :: rest =>
    match emitNode pcubesConfig entry.parentIsRoot entry.parent entry.node with
    | none => none
    | some statements =>
      match emitLoop pcubesConfig fuel (rest ++ childEntries false entry.node) with
      | none => none
      | some more => some (statements ++ more)

/-- The statements of the routine `getPpuIdsForThread(int threadNo)` that
`generateFnForThreadIdsAllocation` writes; `none` when the generator faults. The queue starts
with the children of the root, and the fuel is the number of nodes below the root. -/
def generateFnForThreadIdsAllocation (mappingRoot : MappingNode)
    (pcubesConfig : List PPS_Definition) : Option (List Statement) :=
  match emitLoop pcubesConfig (MappingNode.sizeOfList mappingRoot.children)
      (childEntries true mappingRoot) with
  | none => none
  | some body => some (.assign (.idsArray "Root") .threadNo :: body)

/-! ## The run of the routine -/

/-- The values of the variables of the routine. A variable that has not been assigned holds
whatever the memory holds. -/
abbrev Memory := Var → Int

/-- The memory after an assignment. -/
def Memory.set (memory : Memory) (v : Var) (value : Int) : Memory :=
  fun w => if w = v then value else memory w

/-- The constants the routine refers to: `Total_Threads`, written by
`generateThreadCountConstants`, and `INVALID_ID`, whose definition is not part of the
sources at hand. -/
structure Constants where
  Total_Threads : Int
  INVALID_ID : Int
deriving DecidableEq, Repr

/-- The quotient `a / b` of two values of type `int`, rounded towards zero; `none` when it is
undefined: `b` is 0, or the quotient is outside the type. -/
def divInt (a b : Int) : Option Int :=
  if b = 0 ∨ (a = -2147483648 ∧ b = -1) then none else some (Int.tdiv a b)

/-- The remainder `a % b` of two values of type `int`; `none` when it is undefined. -/
def modInt (a b : Int) : Option Int :=
  if b = 0 ∨ (a = -2147483648 ∧ b = -1) then none else some (Int.tmod a b)

/-- The value of an expression; `none` when it is undefined. -/
def Term.eval (constants : Constants) (threadNo : Int) (memory : Memory) : Term → Option Int
  | .var v => some (memory v)
  | .number value => some value
  | .threadNo => some threadNo
  | .Total_Threads => some constants.Total_Threads
  | .INVALID_ID => some constants.INVALID_ID
  | .div a b =>
    match a.eval constants threadNo memory, b.eval constants threadNo memory with
    | some x, some y => divInt x y
    | _, _ => none
  | .mod a b =>
    match a.eval constants threadNo memory, b.eval constants threadNo memory with
    | some x, some y => modInt x y
    | _, _ => none

/-- The memory after a statement; `none` when the statement has undefined behaviour. -/
def Statement.run (constants : Constants) (threadNo : Int) :
    Statement → Memory → Option Memory
  | .assign v e, memory =>
    match e.eval constants threadNo memory with
    | none => none
    | some value => some (memory.set v value)
  | .ifZero v thenPart elsePart, memory =>
    if memory v = 0 then thenPart.run constants threadNo memory
    else elsePart.run constants threadNo memory

/-- The memory after a sequence of statements. -/
def runStatements (constants : Constants) (threadNo : Int) :
    List Statement → Memory → Option Memory
  | [], memory => some memory
  | statement :: rest, memory =>
    match statement.run constants threadNo memory with
    | none => none
    | some memory1 => runStatements constants threadNo rest memory1

/-- The run of the routine `getPpuIdsForThread(threadNo)`: the memory when it returns, of
which `threadIds->ppuIds` is the result; `none` when the run has undefined behaviour. -/
def getPpuIdsForThread (routine : List Statement) (constants : Constants) (threadNo : Int)
    (memory : Memory) : Option Memory :=
  runStatements constants threadNo routine memory

/-! ## The nodes below the root with their parents -/

mutual
/-- The queue entries of the nodes below a node: its children, with the given flag, and the
nodes below them. -/
def MappingNode.entries (parentIsRoot : Bool) : MappingNode → List QueueEntry
  | .mk l p cs => MappingNode.entriesFrom parentIsRoot (.mk l p cs) cs
/-- The queue entries of the trees of a list, which are children of `parent`, and of the
nodes below them. -/
def MappingNode.entriesFrom (parentIsRoot : Bool) (parent : MappingNode) :
    List MappingNode → List QueueEntry
  | [] => []
  | c :: cs =>
    { parentIsRoot := parentIsRoot, parent := parent, node := c } ::
      (MappingNode.entries false c ++ MappingNode.entriesFrom parentIsRoot parent cs)
end

/-- The entries of a queue and of the nodes below them. -/
def reachable (queue : List QueueEntry) (e : QueueEntry) : Prop :=
  e ∈ queue ∨ ∃ q ∈ queue, e ∈ q.node.entries false

/-- The entries of the nodes of a queue and of the nodes below them, in the order the nodes
stand in the trees of the queue. -/
def pending (queue : List QueueEntry) : List QueueEntry :=
  queue.flatMap (fun q => q :: q.node.entries false)

/-- The PPU ids a run leaves for the LPS of an entry are in range: the group id is at least
0 and below the PPU count, the id is the group id or `INVALID_ID`, and the PPU count is 1 for
a sub-partition and otherwise the product of the unit counts of the PPSes from the PPS of
the node up to just below the PPS of its parent. -/
def ppuIdsInRange (pcubesConfig : List PPS_Definition) (constants : Constants)
    (memory : Memory) (e : QueueEntry) : Prop :=
  0 ≤ memory (.ppuIds e.node.lps.name .groupId) ∧
  memory (.ppuIds e.node.lps.name .groupId) < memory (.ppuIds e.node.lps.name .ppuCount) ∧
  (memory (.ppuIds e.node.lps.name .id) = memory (.ppuIds e.node.lps.name .groupId) ∨
    memory (.ppuIds e.node.lps.name .id) = constants.INVALID_ID) ∧
  memory (.ppuIds e.node.lps.name .ppuCount) =
    (if e.node.lps.subpartitionSpace then 1
      else unitsBetween pcubesConfig e.node.pps.id e.parent.pps.id)

/-- The group of threads a run leaves for the LPS of a node: the group size is positive and
of type `int`, it is a multiple of the number of threads below the PPS of the node, counted
from the PPS `lowest`, and the index of the thread in the group is inside the group. -/
def groupOk (pcubesConfig : List PPS_Definition) (lowest : Int) (memory : Memory)
    (node : MappingNode) : Prop :=
  0 < memory (.ppuIds node.lps.name .groupSize) ∧
  memory (.ppuIds node.lps.name .groupSize) ≤ 2147483647 ∧
  unitsBetween pcubesConfig lowest node.pps.id ∣ memory (.ppuIds node.lps.name .groupSize) ∧
  0 ≤ memory (.idsArray node.lps.name) ∧
  memory (.idsArray node.lps.name) < memory (.ppuIds node.lps.name .groupSize)

/-- What the run of the statements of an entry relies on: the PPS of the node is not above
the PPS of the parent, both are PPSes of the list, none is below `lowest`, and a child of
the root is not a sub-partition and has the number of threads `total` a multiple of the
number of threads below the PPS of the root. -/
def entryOk (pcubesConfig : List PPS_Definition) (lowest total : Int) (e : QueueEntry) :
    Prop :=
  lowest ≤ e.node.pps.id ∧ e.node.pps.id ≤ e.parent.pps.id ∧
  e.parent.pps.id ≤ pcubesConfig.length ∧
  (e.parentIsRoot = true → e.node.lps.subpartitionSpace = false ∧
    unitsBetween pcubesConfig lowest e.parent.pps.id ∣ total)

namespace Example

/-- The constants of the runs: `INVALID_ID` is taken as -1. -/
def constants (totalThreads : Int) : Constants :=
  { Total_Threads := totalThreads, INVALID_ID := -1 }

/-- A memory all of whose variables hold 7. -/
def memory : Memory := fun _ => 7

/-- The LPS `A`, partitioned in one dimension. -/
def lpsA : Space := { name := "A", dimensionCount := 1, subpartitionSpace := false }

/-- The LPS `B`, a sub-partition of `A`. -/
def lpsB : Space := { name := "B", dimensionCount := 1, subpartitionSpace := true }

/-- The node of the sub-partition `B`, on PPS 1. -/
def nodeB : MappingNode := .mk lpsB { id := 1, units := 2, coreSpace := true } []

/-- The node of `A`, on PPS 2, with the node of `B` below it. -/
def nodeA : MappingNode := .mk lpsA { id := 2, units := 4, coreSpace := false } [nodeB]

/-- The root LPS on the topmost PPS, `A` on PPS 2 below it, and the sub-partition `B` of `A`
on PPS 1. -/
def withSubpartition : MappingNode :=
  .mk { name := "Root", dimensionCount := 0, subpartitionSpace := false }
    { id := 3, units := 2, coreSpace := false } [nodeA]

/-- The root LPS on the topmost PPS with a chain of three partitioned LPSes below it, on
PPS 1, PPS 2 and PPS 1: the second is mapped above its parent. -/
def childAboveParent : MappingNode :=
  .mk { name := "Root", dimensionCount := 0, subpartitionSpace := false }
    { id := 3, units := 2, coreSpace := false }
    [.mk { name := "P", dimensionCount := 1, subpartitionSpace := false }
      { id := 1, units := 2, coreSpace := true }
      [.mk { name := "C", dimensionCount := 1, subpartitionSpace := false }
        { id := 2, units := 4, coreSpace := false }
        [.mk { name := "D", dimensionCount := 1, subpartitionSpace := false }
          { id := 1, units := 2, coreSpace := true } []]]]

/-- A memory where the index of the thread under the root is 5 and every other variable
holds 7. -/
def memoryAt5 : Memory := fun v => if v = .idsArray "Root" then 5 else 7

/-- The root LPS on the topmost PPS with two children on PPS 2: `U`, which is not
partitioned, and `X`, which is. -/
def unpartitionedSibling : MappingNode :=
  .mk { name := "Root", dimensionCount := 0, subpartitionSpace := false }
    { id := 3, units := 2, coreSpace := false }
    [.mk { name := "U", dimensionCount := 0, subpartitionSpace := false }
      { id := 2, units := 4, coreSpace := false } [],
     .mk { name := "X", dimensionCount := 1, subpartitionSpace := false }
      { id := 2, units := 4, coreSpace := false } []]

/-- A PPS list of three spaces whose ids run from 2 down to 0. -/
def pcubesFromZero : List PPS_Definition :=
  [{ id := 2, units := 2, coreSpace := false }, { id := 1, units := 8, coreSpace := false },
   { id := 0, units := 4, coreSpace := true }]

/-- The node of `A` on the PPS with id 1 of that list. -/
def nodeAOnOne : MappingNode := .mk lpsA { id := 1, units := 8, coreSpace := false } []

/-- The root LPS on the PPS with id 2 of that list, and `A` on the PPS with id 1 below it. -/
def onPcubesFromZero : MappingNode :=
  .mk { name := "Root", dimensionCount := 0, subpartitionSpace := false }
    { id := 2, units := 2, coreSpace := false } [nodeAOnOne]

end Example

end CodeGenerator

/-! Field access expressions of the front end (`compilers/frontend/src/syntax/field_access_expr.cc`) -/

namespace FieldAccessExpr

/-- Modelled from the spec: a source location (`yyltype`, which is not part of the sources at
hand). -/
structure yyltype where
  first_line : Int
  first_column : Int
  last_line : Int
  last_column : Int
deriving DecidableEq, Repr

/-- Modelled from the spec: an identifier (`Identifier` of ast.h, which is not part of the
sources at hand) with its name. A `DimensionIdentifier` has a dimension number, `none`
otherwise: `dynamic_cast<DimensionIdentifier*>(field)` is not NULL exactly when there is
one. -/
structure Identifier where
  name : String
  dimensionNo : Option Int
deriving DecidableEq, Repr

/-- Modelled from the spec: the clone of an identifier is a copy of it. -/
def Identifier.clone (self : Identifier) : Identifier := self

/-- Modelled from the spec: a type of the AST (class `Type` of ast_type.h, which is not part
of the sources at hand), by the class of the object: `NamedType`, `ArrayType` with its number
of dimensions, `MapType`, `ListType`, or another type. -/
inductive Ty where
  | builtin (name : String)
  | named (name : String)
  | array (dimensions : Int) (name : String)
  | map (name : String)
  | list (name : String)
deriving DecidableEq, Repr

/-- The method `Type::getName`. -/
def Ty.getName : Ty → String
  | .builtin name => name
  | .named name => name
  | .array _ name => name
  | .map name => name
  | .list name => name

/-- Modelled from the spec: a symbol of a scope (symbol.h is not part of the sources at
hand): whether it is a `VariableSymbol`, the type `getType()` returns (`none` is NULL), and
the nested scope `getNestedScope()` returns (`none` is NULL), given by the names its lookup
finds. -/
structure Symbol where
  variableSymbol : Bool
  type : Option Ty
  nestedScope : Option (List String)
deriving DecidableEq, Repr

/-- Modelled from the spec: a scope (scope.h is not part of the sources at hand), given by
its lookup; `none` is NULL. -/
structure Scope where
  lookup : String → Option Symbol

/-- One call of a function of `ReportError`, with the arguments that tell the error. -/
inductive ReportedError where
  | UndeclaredTypeError (field : Identifier) (type : Option Ty)
  | UndefinedSymbol (field : Identifier)
  | NonExistingDimensionInArray (field : Identifier) (dimensionality fieldDimension : Int)
  | NoSuchFieldInBase (field : Identifier) (type : Ty)
deriving DecidableEq, Repr

/-- An expression: a `FieldAccess` with its members (a `base` of `none` is NULL) and the
members `location` and `type` it has as an `Expr`, or an expression of another class, of
which the text, the location and the type are kept. -/
inductive Expr where
  | fieldAccess (base : Option Expr) (field : Identifier) (location : yyltype)
      (type : Option Ty) (referenceField arrayField : Bool) (arrayDimensions : Int)
  | other (text : String) (location : yyltype) (type : Option Ty)

/-- The members of a `FieldAccess` object. -/
structure FieldAccess where
  base : Option Expr
  field : Identifier
  location : yyltype
  type : Option Ty
  referenceField : Bool
  arrayField : Bool
  arrayDimensions : Int

/-- The field access as an expression. -/
def FieldAccess.toExpr (self : FieldAccess) : Expr :=
  .fieldAccess self.base self.field self.location self.type self.referenceField
    self.arrayField self.arrayDimensions

/-- The cast `dynamic_cast<FieldAccess*>(expr)`; `none` is NULL. -/
def Expr.asFieldAccess : Expr → Option FieldAccess
  | .fieldAccess base field location type referenceField arrayField arrayDimensions =>
    some { base := base, field := field, location := location, type := type,
           referenceField := referenceField, arrayField := arrayField,
           arrayDimensions := arrayDimensions }
  | .other _ _ _ => none

/-- The constructor `FieldAccess::FieldAccess(b, f, loc)`. The constructor of `Expr`, which is
not part of the sources at hand, is taken to leave the type NULL. -/
def FieldAccess.new (b : Option Expr) (f : Identifier) (loc : yyltype) : FieldAccess :=
  { base := b, field := f, location := loc, type := none, referenceField := false,
    arrayField := false, arrayDimensions := -1 }

/-- Modelled from the spec: the method `flagAsReferenceField` (defined in ast_expr.h, which is
not part of the sources at hand) sets the flag. -/
def FieldAccess.flagAsReferenceField (self : FieldAccess) : FieldAccess :=
  { self with referenceField := true }

/-- The method `FieldAccess::flagAsArrayField`. -/
def FieldAccess.flagAsArrayField (self : FieldAccess) (arrayDimensions : Int) : FieldAccess :=
  { self with arrayField := true, arrayDimensions := arrayDimensions }

/-- Lines 38-44 of `FieldAccess::clone`, once the base is cloned. -/
def FieldAccess.cloneOnto (self : FieldAccess) (newBase : Expr) : FieldAccess :=
  let newField := self.field.clone
  let newFieldAcc := FieldAccess.new (some newBase) newField self.location
  let newFieldAcc := if self.referenceField then newFieldAcc.flagAsReferenceField
    else newFieldAcc
  if self.arrayField then newFieldAcc.flagAsArrayField self.arrayDimensions else newFieldAcc

/-- The virtual method `clone` of an expression: `FieldAccess::clone` for a field access,
where `base->clone()` on a NULL base is a fault (`none`); the clone of an expression of
another class is taken to be a copy of it. -/
def Expr.clone : Expr → Option Expr
  | .other text location type => some (.other text location type)
  | .fieldAccess none _ _ _ _ _ _ => none
  | .fieldAccess (some base) field location type referenceField arrayField arrayDimensions =>
    match base.clone with
    | none => none
    | some newBase =>
      some (FieldAccess.cloneOnto
        { base := some base, field := field, location := location, type := type,
          referenceField := referenceField, arrayField := arrayField,
          arrayDimensions := arrayDimensions } newBase).toExpr

/-- The method `FieldAccess::clone`; `none` is a fault. -/
def FieldAccess.clone (self : FieldAccess) : Option FieldAccess :=
  match self.base with
  | none => none
  | some base =>
    match base.clone with
    | none => none
    | some newBase => some (self.cloneOnto newBase)

/-- The method `FieldAccess::getTerminalField` on the field access an expression is cast to;
`none` is NULL. -/
def Expr.getTerminalField : Expr → Option FieldAccess
  | .other _ _ _ => none
  | .fieldAccess none field location type referenceField arrayField arrayDimensions =>
    some { base := none, field := field, location := location, type := type,
           referenceField := referenceField, arrayField := arrayField,
           arrayDimensions := arrayDimensions }
  | .fieldAccess (some base) _ _ _ _ _ _ => base.getTerminalField

/-- The method `FieldAccess::getTerminalField`. -/
def FieldAccess.getTerminalField (self : FieldAccess) : Option FieldAccess :=
  match self.base with
  | none => some self
  | some base => base.getTerminalField

/-- What a check of an expression leaves: the count it returns, the errors it reports, in
order, and the type of the expression after the check (`none` is NULL). -/
structure Check where
  errors : Int
  reported : List ReportedError
  type : Option Ty
deriving DecidableEq, Repr

/-- The method `FieldAccess::emitSemanticErrors(scope)`. The method
`Expr::emitScopeAndTypeErrors`, which is called on the base and is not part of the sources at
hand, is a parameter: it gives the check of the base, whose type is what `base->getType()`
returns after the call. -/
def FieldAccess.emitSemanticErrors (emitScopeAndTypeErrors : Expr → Scope → Check)
    (self : FieldAccess) (scope : Scope) : Check :=
  match self.base with
  | none =>
    match scope.lookup self.field.name with
    | some symbol =>
      if symbol.variableSymbol then
        let type := symbol.type
        match type with
        | some (.named name) =>
          match scope.lookup name with
          | none =>
            { errors := 1, reported := [.UndeclaredTypeError self.field type], type := type }
          | some _ => { errors := 0, reported := [], type := type }
        | _ => { errors := 0, reported := [], type := type }
      else { errors := 1, reported := [.UndefinedSymbol self.field], type := self.type }
    | none => { errors := 1, reported := [.UndefinedSymbol self.field], type := self.type }
  | some base =>
    let baseCheck := emitScopeAndTypeErrors base scope
    let errors := baseCheck.errors
    match baseCheck.type with
    | none => { errors := errors, reported := baseCheck.reported, type := self.type }
    | some (.array dimensionality name) =>
      match self.field.dimensionNo with
      | some fieldDimension =>
        if fieldDimension > dimensionality then
          { errors := errors + 1,
            reported := baseCheck.reported ++
              [.NonExistingDimensionInArray self.field dimensionality fieldDimension],
            type := self.type }
        else { errors := errors, reported := baseCheck.reported, type := self.type }
      | none =>
        { errors := errors + 1,
          reported := baseCheck.reported ++
            [.NoSuchFieldInBase self.field (.array dimensionality name)],
          type := self.type }
    | some (.map _) => { errors := errors, reported := baseCheck.reported, type := self.type }
    | some (.list _) => { errors := errors, reported := baseCheck.reported, type := self.type }
    | some baseType =>
      match scope.lookup baseType.getName with
      | some symbol =>
        match symbol.nestedScope with
        | none =>
          { errors := errors + 1,
            reported := baseCheck.reported ++ [.NoSuchFieldInBase self.field baseType],
            type := self.type }
        | some baseScope =>
          if baseScope.contains self.field.name then
            { errors := errors, reported := baseCheck.reported, type := self.type }
          else
            { errors := errors + 1,
              reported := baseCheck.reported ++ [.NoSuchFieldInBase self.field baseType],
              type := self.type }
      | none => { errors := errors, reported := baseCheck.reported, type := self.type }

/-! ## Field accesses -/

namespace Example

/-- A source location. -/
def loc : yyltype := { first_line := 1, first_column := 1, last_line := 1, last_column := 2 }

/-- The terminal field access `a`: a field access without a base. -/
def accessA : FieldAccess := FieldAccess.new none { name := "a", dimensionNo := none } loc

/-- The field access `a.b`, whose base is the terminal field access `a`. -/
def accessAB : FieldAccess :=
  FieldAccess.new (some accessA.toExpr) { name := "b", dimensionNo := none } loc

/-- The field access `f(x).b`, whose base is an expression of another class, flagged as an
array field of two dimensions. -/
def accessCallB : FieldAccess :=
  (FieldAccess.new (some (.other "f(x)" loc none)) { name := "b", dimensionNo := none }
    loc).flagAsArrayField 2

/-- A scope with the variable `a` of the declared type `T`, which has the field `b`, and the
variable `u` of a type `U` that is not declared. -/
def scope : Scope :=
  { lookup := fun name =>
      if name = "a" then
        some { variableSymbol := true, type := some (.named "T"), nestedScope := none }
      else if name = "T" then
        some { variableSymbol := false, type := none, nestedScope := some ["b"] }
      else if name = "u" then
        some { variableSymbol := true, type := some (.named "U"), nestedScope := none }
      else none }

/-- A check of base expressions that reports nothing and finds the type `T`. -/
def checkT : Expr → Scope → Check :=
  fun _ _ => { errors := 0, reported := [], type := some (.named "T") }

end Example

end FieldAccessExpr

namespace PartDistribution

/-! ## Facts about the ordered-key index -/

theorem getD_of_lt (l : List Int) {i : Nat} (h : i < l.length) :
    l[i]? = some (l.getD i 0) := by
  simp [List.getD_eq_getElem?_getD, List.getElem?_eq_getElem h]

theorem mem_iff_getD (l : List Int) (a : Int) :
    a ∈ l ↔ ∃ i, i < l.length ∧ l.getD i 0 = a := by
  rw [List.mem_iff_getElem?]
  constructor
  · rintro ⟨i, hi⟩
    have hlt : i < l.length := by
      by_contra hc
      rw [List.getElem?_eq_none (Nat.le_of_not_lt hc)] at hi
      cases hi
    refine ⟨i, hlt, ?_⟩
    rw [getD_of_lt l hlt] at hi
    exact Option.some.inj hi
  · rintro ⟨i, hlt, hi⟩
    exact ⟨i, by rw [getD_of_lt l hlt, hi]⟩

theorem sorted_getD_lt {l : List Int} (hs : l.Sorted (· < ·)) {i j : Nat} (hij : i < j)
    (hj : j < l.length) : l.getD i 0 < l.getD j 0 := by
  have h := (List.pairwise_iff_getElem.mp hs) i j (Nat.lt_trans hij hj) hj hij
  rw [List.getD_eq_getElem l 0 (Nat.lt_trans hij hj), List.getD_eq_getElem l 0 hj]
  exact h

theorem sorted_getD_le {l : List Int} (hs : l.Sorted (· < ·)) {i j : Nat} (hij : i ≤ j)
    (hj : j < l.length) : l.getD i 0 ≤ l.getD j 0 := by
  rcases Nat.eq_or_lt_of_le hij with h | h
  · subst h; exact le_refl _
  · exact le_of_lt (sorted_getD_lt hs h hj)

theorem sorted_getD_inj {l : List Int} (hs : l.Sorted (· < ·)) {i j : Nat}
    (hi : i < l.length) (hj : j < l.length) (h : l.getD i 0 = l.getD j 0) : i = j := by
  rcases Nat.lt_trichotomy i j with hlt | heq | hgt
  · exact absurd h (ne_of_lt (sorted_getD_lt hs hlt hj))
  · exact heq
  · exact absurd h.symm (ne_of_lt (sorted_getD_lt hs hgt hi))

namespace binsearch

theorem mid_bounds {lo hi : Nat} (h : lo < hi) :
    lo ≤ lo + (hi - lo) / 2 ∧ lo + (hi - lo) / 2 < hi := by
  constructor
  · exact Nat.le_add_right _ _
  · have : (hi - lo) / 2 < hi - lo := Nat.div_lt_self (Nat.sub_pos_of_lt h) (by decide)
    omega

/-- What `locateKeyLoop` returns is a position of the window that holds the key. -/
theorem locateKeyLoop_some (array : List Int) (key : Int) :
    ∀ (fuel lo hi i : Nat), locateKeyLoop array key fuel lo hi = some i →
      lo ≤ i ∧ i < hi ∧ array.getD i 0 = key := by
  intro fuel
  induction fuel with
  | zero => intro lo hi i h; simp [locateKeyLoop] at h
  | succ n ih =>
    intro lo hi i h
    unfold locateKeyLoop at h
    by_cases hlt : lo < hi
    · have hm := mid_bounds hlt
      simp only [hlt, if_true] at h
      by_cases heq : array.getD (lo + (hi - lo) / 2) 0 = key
      · simp only [heq, if_true] at h
        cases h
        exact ⟨hm.1, hm.2, heq⟩
      · simp only [heq, if_false] at h
        by_cases hless : array.getD (lo + (hi - lo) / 2) 0 < key
        · simp only [hless, if_true] at h
          have := ih _ _ _ h
          omega
        · simp only [hless, if_false] at h
          have := ih _ _ _ h
          omega
    · simp [hlt] at h

/-- On a strictly ascending array the loop finds every position of its window. -/
theorem locateKeyLoop_complete {array : List Int} (hs : array.Sorted (· < ·)) (key : Int) :
    ∀ (fuel lo hi i : Nat), hi ≤ array.length → hi - lo ≤ fuel → lo ≤ i → i < hi →
      array.getD i 0 = key → locateKeyLoop array key fuel lo hi = some i := by
  intro fuel
  induction fuel with
  | zero => intro lo hi i _ hf hlo hhi _; omega
  | succ n ih =>
    intro lo hi i hlen hf hlo hhi hkey
    have hlt : lo < hi := by omega
    have hm := mid_bounds hlt
    unfold locateKeyLoop
    simp only [hlt, if_true]
    by_cases heq : array.getD (lo + (hi - lo) / 2) 0 = key
    · simp only [heq, if_true]
      have := sorted_getD_inj hs (i := lo + (hi - lo) / 2) (j := i) (by omega) (by omega)
        (by rw [heq, hkey])
      rw [this]
    · simp only [heq, if_false]
      by_cases hless : array.getD (lo + (hi - lo) / 2) 0 < key
      · simp only [hless, if_true]
        apply ih _ _ _ hlen (by omega) _ hhi hkey
        by_contra hc
        have hle : i ≤ lo + (hi - lo) / 2 := by omega
        have := sorted_getD_le hs hle (by omega)
        rw [hkey] at this
        exact absurd hless (not_lt.mpr this)
      · simp only [hless, if_false]
        apply ih _ _ _ (by omega) (by omega) hlo _ hkey
        by_contra hc
        have hle : lo + (hi - lo) / 2 ≤ i := by omega
        have h1 := sorted_getD_le hs hle (by omega)
        rw [hkey] at h1
        exact heq (le_antisymm h1 (not_lt.mp hless))

theorem locateKey_some {array : List Int} {key : Int} {i : Nat}
    (h : locateKey array key = some i) : i < array.length ∧ array.getD i 0 = key := by
  have := locateKeyLoop_some array key _ _ _ _ h
  exact ⟨this.2.1, this.2.2⟩

theorem locateKey_mem {array : List Int} {key : Int} {i : Nat}
    (h : locateKey array key = some i) : key ∈ array :=
  (mem_iff_getD array key).mpr ⟨i, locateKey_some h⟩

theorem locateKey_of_getD {array : List Int} (hs : array.Sorted (· < ·)) {key : Int} {i : Nat}
    (hi : i < array.length) (hkey : array.getD i 0 = key) : locateKey array key = some i :=
  locateKeyLoop_complete hs key _ _ _ _ (le_refl _) (by omega) (Nat.zero_le _) hi hkey

theorem locateKey_isSome_iff {array : List Int} (hs : array.Sorted (· < ·)) (key : Int) :
    (locateKey array key).isSome = true ↔ key ∈ array := by
  constructor
  · intro h
    obtain ⟨i, hi⟩ := Option.isSome_iff_exists.mp h
    exact locateKey_mem hi
  · intro h
    obtain ⟨i, hi, hk⟩ := (mem_iff_getD array key).mp h
    rw [locateKey_of_getD hs hi hk]; rfl

theorem locateKey_eq_none_iff {array : List Int} (hs : array.Sorted (· < ·)) (key : Int) :
    locateKey array key = none ↔ key ∉ array := by
  rw [← locateKey_isSome_iff hs key]
  cases locateKey array key <;> simp

/-- The lower-bound loop stays inside its window, leaves only smaller elements before its
result and, on an ascending array, only elements that are not smaller from it on. -/
theorem locatePointOfInsertLoop_spec {array : List Int} (hs : array.Sorted (· < ·)) (key : Int) :
    ∀ (fuel lo hi : Nat), lo ≤ hi → hi ≤ array.length → hi - lo ≤ fuel →
      (∀ i, i < lo → array.getD i 0 < key) →
      (∀ i, hi ≤ i → i < array.length → key ≤ array.getD i 0) →
      lo ≤ locatePointOfInsertLoop array key fuel lo hi ∧
      locatePointOfInsertLoop array key fuel lo hi ≤ hi ∧
      (∀ i, i < locatePointOfInsertLoop array key fuel lo hi → array.getD i 0 < key) ∧
      (∀ i, locatePointOfInsertLoop array key fuel lo hi ≤ i → i < array.length →
        key ≤ array.getD i 0) := by
  intro fuel
  induction fuel with
  | zero =>
    intro lo hi hle _ hf hlow hhigh
    have : lo = hi := by omega
    subst this
    simp only [locatePointOfInsertLoop]
    exact ⟨le_refl _, le_refl _, hlow, hhigh⟩
  | succ n ih =>
    intro lo hi hle hlen hf hlow hhigh
    unfold locatePointOfInsertLoop
    by_cases hlt : lo < hi
    · have hm := mid_bounds hlt
      simp only [hlt, if_true]
      by_cases hless : array.getD (lo + (hi - lo) / 2) 0 < key
      · simp only [hless, if_true]
        have := ih (lo + (hi - lo) / 2 + 1) hi (by omega) hlen (by omega)
          (by
            intro i hi2
            have hle2 : i ≤ lo + (hi - lo) / 2 := by omega
            exact lt_of_le_of_lt (sorted_getD_le hs hle2 (by omega)) hless)
          hhigh
        refine ⟨by omega, this.2.1, this.2.2.1, this.2.2.2⟩
      · simp only [hless, if_false]
        have := ih lo (lo + (hi - lo) / 2) hm.1 (by omega) (by omega) hlow
          (by
            intro i hi2 hi3
            exact le_trans (not_lt.mp hless) (sorted_getD_le hs hi2 hi3))
        refine ⟨this.1, by omega, this.2.2.1, this.2.2.2⟩
    · simp only [hlt, if_false]
      have : lo = hi := by omega
      subst this
      exact ⟨le_refl _, le_refl _, hlow, hhigh⟩

theorem locatePointOfInsertLoop_le (array : List Int) (key : Int) :
    ∀ (fuel lo hi : Nat), lo ≤ hi → locatePointOfInsertLoop array key fuel lo hi ≤ hi := by
  intro fuel
  induction fuel with
  | zero => intro lo hi h; simpa [locatePointOfInsertLoop] using h
  | succ n ih =>
    intro lo hi h
    unfold locatePointOfInsertLoop
    by_cases hlt : lo < hi
    · have hm := mid_bounds hlt
      simp only [hlt, if_true]
      split
      · exact ih _ _ (by omega)
      · exact le_trans (ih _ _ hm.1) (by omega)
    · simpa [hlt] using h

theorem locatePointOfInsert_le (array : List Int) (key : Int) :
    locatePointOfInsert array key ≤ array.length :=
  locatePointOfInsertLoop_le array key _ _ _ (Nat.zero_le _)

theorem locatePointOfInsert_spec {array : List Int} (hs : array.Sorted (· < ·)) (key : Int) :
    (∀ a ∈ array.take (locatePointOfInsert array key), a < key) ∧
    (∀ a ∈ array.drop (locatePointOfInsert array key), key ≤ a) := by
  have h := locatePointOfInsertLoop_spec hs key array.length 0 array.length (Nat.zero_le _)
    (le_refl _) (by omega) (by intro i hi; omega) (by intro i h1 h2; omega)
  constructor
  · intro a ha
    obtain ⟨i, hi, rfl⟩ := List.mem_take_iff_getElem.mp ha
    have hlen : i < array.length := lt_of_lt_of_le hi (Nat.min_le_right _ _)
    have := h.2.2.1 i (lt_of_lt_of_le hi (Nat.min_le_left _ _))
    rwa [List.getD_eq_getElem array 0 hlen] at this
  · intro a ha
    obtain ⟨i, hi, rfl⟩ := List.mem_drop_iff_getElem.mp ha
    have hlen : locatePointOfInsert array key + i < array.length := by omega
    have := h.2.2.2 (locatePointOfInsert array key + i) (Nat.le_add_right _ _) hlen
    rwa [List.getD_eq_getElem array 0 hlen] at this

end binsearch

theorem mem_vectorInsert {α : Type} (vec : List α) (n : Nat) (x a : α) :
    a ∈ vectorInsert vec n x ↔ a = x ∨ a ∈ vec := by
  unfold vectorInsert
  rw [List.mem_append, List.mem_cons]
  constructor
  · rintro (h | h | h)
    · exact Or.inr (List.mem_of_mem_take h)
    · exact Or.inl h
    · exact Or.inr (List.mem_of_mem_drop h)
  · rintro (h | h)
    · exact Or.inr (Or.inl h)
    · rw [← List.take_append_drop n vec, List.mem_append] at h
      rcases h with h | h
      · exact Or.inl h
      · exact Or.inr (Or.inr h)

theorem length_vectorInsert {α : Type} (vec : List α) (n : Nat) (x : α) :
    (vectorInsert vec n x).length = vec.length + 1 := by
  unfold vectorInsert
  rw [List.length_append, List.length_cons, List.length_take, List.length_drop]
  omega

/-- Inserting an absent key at its lower bound keeps a vector strictly ascending. -/
theorem sorted_vectorInsert {array : List Int} (hs : array.Sorted (· < ·)) {key : Int}
    (hnot : key ∉ array) :
    (vectorInsert array (binsearch.locatePointOfInsert array key) key).Sorted (· < ·) := by
  have hspec := binsearch.locatePointOfInsert_spec hs key
  unfold vectorInsert
  unfold List.Sorted
  rw [List.pairwise_append]
  refine ⟨hs.sublist (List.take_sublist _ _), ?_, ?_⟩
  · rw [List.pairwise_cons]
    refine ⟨?_, hs.sublist (List.drop_sublist _ _)⟩
    intro a ha
    have h1 := hspec.2 a ha
    have h2 : a ≠ key := fun h => hnot (h ▸ List.mem_of_mem_drop ha)
    exact lt_of_le_of_ne h1 (Ne.symm h2)
  · intro a ha b hb
    have h1 := hspec.1 a ha
    rcases List.mem_cons.mp hb with rfl | hb
    · exact h1
    · have h2 := hspec.2 b hb
      exact lt_of_lt_of_le h1 h2

/-! ## Segment tags of a container -/

theorem Container.mem_addSegmentTag (c : Container) (tag x : Int) :
    x ∈ (c.addSegmentTag tag).segmentTags ↔ x ∈ c.segmentTags ∨ x = tag := by
  unfold Container.addSegmentTag
  cases h : binsearch.locateKey c.segmentTags tag with
  | none =>
    simp only [mem_vectorInsert]
    exact Or.comm
  | some i =>
    simp only
    constructor
    · exact Or.inl
    · rintro (hx | hx)
      · exact hx
      · rw [hx]; exact binsearch.locateKey_mem h

theorem Container.sorted_addSegmentTag (c : Container) (tag : Int)
    (hs : c.segmentTags.Sorted (· < ·)) : (c.addSegmentTag tag).segmentTags.Sorted (· < ·) := by
  unfold Container.addSegmentTag
  cases h : binsearch.locateKey c.segmentTags tag with
  | none => exact sorted_vectorInsert hs ((binsearch.locateKey_eq_none_iff hs tag).mp h)
  | some i => exact hs

theorem Container.addSegmentTag_of_mem (c : Container) (tag : Int)
    (hs : c.segmentTags.Sorted (· < ·)) (hmem : tag ∈ c.segmentTags) :
    c.addSegmentTag tag = c := by
  unfold Container.addSegmentTag
  cases h : binsearch.locateKey c.segmentTags tag with
  | none => exact absurd hmem ((binsearch.locateKey_eq_none_iff hs tag).mp h)
  | some i => rfl

theorem Container.addSegmentTag_id (c : Container) (tag : Int) :
    (c.addSegmentTag tag).id = c.id := by
  unfold Container.addSegmentTag; split <;> rfl

theorem Container.addSegmentTag_config (c : Container) (tag : Int) :
    (c.addSegmentTag tag).config = c.config := by
  unfold Container.addSegmentTag; split <;> rfl

theorem Container.addSegmentTag_parent (c : Container) (tag : Int) :
    (c.addSegmentTag tag).parent = c.parent := by
  unfold Container.addSegmentTag; split <;> rfl

theorem Container.addSegmentTag_new (id : Int) (config : LpsDimConfig) (tag : Int) :
    (Container.new id config).addSegmentTag tag =
      { id := id, config := config, segmentTags := [tag], parent := [] } := by
  rfl

theorem Container.mem_addAllSegmentTags (tags : List Int) :
    ∀ (c : Container) (x : Int),
      x ∈ (c.addAllSegmentTags tags).segmentTags ↔ x ∈ c.segmentTags ∨ x ∈ tags := by
  induction tags with
  | nil => intro c x; simp [Container.addAllSegmentTags]
  | cons t ts ih =>
    intro c x
    have := ih (c.addSegmentTag t) x
    simp only [Container.addAllSegmentTags, List.foldl_cons] at this ⊢
    rw [this, Container.mem_addSegmentTag, List.mem_cons, or_assoc]

theorem Container.sorted_addAllSegmentTags (tags : List Int) :
    ∀ (c : Container), c.segmentTags.Sorted (· < ·) →
      (c.addAllSegmentTags tags).segmentTags.Sorted (· < ·) := by
  induction tags with
  | nil => intro c hs; simpa [Container.addAllSegmentTags] using hs
  | cons t ts ih =>
    intro c hs
    have := ih (c.addSegmentTag t) (c.sorted_addSegmentTag t hs)
    simpa only [Container.addAllSegmentTags, List.foldl_cons] using this

theorem Container.addAllSegmentTags_frame (tags : List Int) :
    ∀ (c : Container), (c.addAllSegmentTags tags).id = c.id ∧
      (c.addAllSegmentTags tags).config = c.config ∧
      (c.addAllSegmentTags tags).parent = c.parent := by
  induction tags with
  | nil => intro c; simp [Container.addAllSegmentTags]
  | cons t ts ih =>
    intro c
    have := ih (c.addSegmentTag t)
    simp only [Container.addAllSegmentTags, List.foldl_cons] at this ⊢
    rw [this.1, this.2.1, this.2.2, Container.addSegmentTag_id, Container.addSegmentTag_config,
      Container.addSegmentTag_parent]
    exact ⟨rfl, rfl, rfl⟩

theorem Container.hasSegmentTag_iff (c : Container) (hs : c.segmentTags.Sorted (· < ·))
    (tag : Int) : c.hasSegmentTag tag = true ↔ tag ∈ c.segmentTags :=
  binsearch.locateKey_isSome_iff hs tag

theorem TagCall.mem_run (c : Container) (call : TagCall) (x : Int) :
    x ∈ (call.run c).segmentTags ↔ x ∈ c.segmentTags ∨ x ∈ call.tags := by
  cases call with
  | addSegmentTag tag => simp [TagCall.run, TagCall.tags, Container.mem_addSegmentTag]
  | addAllSegmentTags tags => simp [TagCall.run, TagCall.tags, Container.mem_addAllSegmentTags]

theorem TagCall.sorted_run (c : Container) (call : TagCall)
    (hs : c.segmentTags.Sorted (· < ·)) : (call.run c).segmentTags.Sorted (· < ·) := by
  cases call with
  | addSegmentTag tag => exact c.sorted_addSegmentTag tag hs
  | addAllSegmentTags tags => exact Container.sorted_addAllSegmentTags tags c hs

theorem runTagCalls_spec (calls : List TagCall) :
    ∀ (c : Container), c.segmentTags.Sorted (· < ·) →
      (runTagCalls c calls).segmentTags.Sorted (· < ·) ∧
      ∀ x, x ∈ (runTagCalls c calls).segmentTags ↔ x ∈ c.segmentTags ∨ x ∈ tagsAdded calls := by
  induction calls with
  | nil => intro c hs; simp [runTagCalls, tagsAdded, hs]
  | cons call rest ih =>
    intro c hs
    have h := ih (call.run c) (call.sorted_run c hs)
    simp only [runTagCalls, List.foldl_cons] at h ⊢
    refine ⟨h.1, ?_⟩
    intro x
    rw [h.2 x, TagCall.mem_run]
    simp only [tagsAdded, List.flatMap_cons, List.mem_append, or_assoc]

/-- A strictly ascending list is the sorted list of its elements. -/
theorem sorted_eq_sort {l : List Int} (s : Finset Int) (hs : l.Sorted (· < ·))
    (hmem : ∀ x, x ∈ l ↔ x ∈ s) : l = s.sort (· ≤ ·) := by
  apply List.eq_of_perm_of_sorted (r := (· < ·)) _ hs (Finset.sort_sorted_lt s)
  apply List.perm_of_nodup_nodup_toFinset_eq hs.nodup (Finset.sort_nodup _ s)
  ext x
  simp [hmem x]

/-- C10. Starting from a new container, after any sequence of `addSegmentTag` and
`addAllSegmentTags` calls the tag vector is strictly ascending and holds exactly the tags
added, so it is the sorted duplicate-free list of them; `hasSegmentTag` tells exactly the
added tags; and adding a tag that was added before leaves the container unchanged. -/
theorem segmentTags_sorted_unique (id : Int) (config : LpsDimConfig) (calls : List TagCall) :
    (runTagCalls (Container.new id config) calls).segmentTags.Sorted (· < ·) ∧
    (∀ t, t ∈ (runTagCalls (Container.new id config) calls).segmentTags ↔ t ∈ tagsAdded calls) ∧
    (runTagCalls (Container.new id config) calls).segmentTags
      = (tagsAdded calls).toFinset.sort (· ≤ ·) ∧
    (∀ t, (runTagCalls (Container.new id config) calls).hasSegmentTag t = true
      ↔ t ∈ tagsAdded calls) ∧
    (∀ t, t ∈ tagsAdded calls →
      (runTagCalls (Container.new id config) calls).addSegmentTag t
        = runTagCalls (Container.new id config) calls) := by
  have h := runTagCalls_spec calls (Container.new id config) (List.sorted_nil)
  have hmem : ∀ t, t ∈ (runTagCalls (Container.new id config) calls).segmentTags
      ↔ t ∈ tagsAdded calls := by
    intro t
    rw [h.2 t]
    simp [Container.new]
  refine ⟨h.1, hmem, ?_, ?_, ?_⟩
  · exact sorted_eq_sort _ h.1 (by intro x; rw [hmem x, List.mem_toFinset])
  · intro t
    rw [Container.hasSegmentTag_iff _ h.1, hmem]
  · intro t ht
    exact Container.addSegmentTag_of_mem _ t h.1 ((hmem t).mpr ht)

/-! ## Conversions to a hybrid -/

theorem convertLeaf_eq (leafContainer : Container) (branchSegmentTag : Int) :
    HybridBranchingContainer.convertLeaf leafContainer branchSegmentTag =
      some (.hybrid
        (((Container.new leafContainer.id leafContainer.config).addSegmentTag
          branchSegmentTag).addAllSegmentTags leafContainer.segmentTags) [] leafContainer) := by
  rfl

theorem convertLeaf_base (leafContainer : Container) (branchSegmentTag : Int) :
    ∃ c, HybridBranchingContainer.convertLeaf leafContainer branchSegmentTag
        = some (.hybrid c [] leafContainer) ∧
      c.id = leafContainer.id ∧ c.config = leafContainer.config ∧ c.parent = [] ∧
      c.segmentTags.Sorted (· < ·) ∧
      ∀ t, t ∈ c.segmentTags ↔ t ∈ leafContainer.segmentTags ∨ t = branchSegmentTag := by
  refine ⟨_, convertLeaf_eq leafContainer branchSegmentTag, ?_, ?_, ?_, ?_, ?_⟩
  · rw [(Container.addAllSegmentTags_frame _ _).1, Container.addSegmentTag_id]; rfl
  · rw [(Container.addAllSegmentTags_frame _ _).2.1, Container.addSegmentTag_config]; rfl
  · rw [(Container.addAllSegmentTags_frame _ _).2.2, Container.addSegmentTag_parent]; rfl
  · apply Container.sorted_addAllSegmentTags
    apply Container.sorted_addSegmentTag
    exact List.sorted_nil
  · intro t
    rw [Container.mem_addAllSegmentTags, Container.mem_addSegmentTag]
    simp only [Container.new, List.not_mem_nil, false_or]
    exact Or.comm

/-- C6. For every leaf container and tag, `convertLeaf` gives a hybrid with the id and config
of the leaf, whose intermediate half carries exactly the tags of the leaf and the given tag,
stored strictly ascending (so it is the sorted duplicate-free list of them), and whose leaf
half is the leaf itself, unchanged; a leaf with id 7 and tags 1, 2 converted with tag 3 gives
intermediate tags 1, 2, 3 and leaf tags 1, 2. -/
theorem convertLeaf_spec (leafContainer : Container) (branchSegmentTag : Int) :
    (∃ c, HybridBranchingContainer.convertLeaf leafContainer branchSegmentTag
        = some (.hybrid c [] leafContainer) ∧
      c.id = leafContainer.id ∧ c.config = leafContainer.config ∧
      c.segmentTags.Sorted (· < ·) ∧
      (∀ t, t ∈ c.segmentTags ↔ t ∈ leafContainer.segmentTags ∨ t = branchSegmentTag) ∧
      c.segmentTags
        = (insert branchSegmentTag leafContainer.segmentTags.toFinset).sort (· ≤ ·)) ∧
    (∀ (config : LpsDimConfig) (parent : ParentPtr),
      HybridBranchingContainer.convertLeaf
          { id := 7, config := config, segmentTags := [1, 2], parent := parent } 3
        = some (.hybrid { id := 7, config := config, segmentTags := [1, 2, 3], parent := [] } []
            { id := 7, config := config, segmentTags := [1, 2], parent := parent })) := by
  constructor
  · obtain ⟨c, h1, h2, h3, _, h5, h6⟩ := convertLeaf_base leafContainer branchSegmentTag
    refine ⟨c, h1, h2, h3, h5, h6, ?_⟩
    apply sorted_eq_sort _ h5
    intro x
    rw [h6 x, Finset.mem_insert, List.mem_toFinset]
    exact Or.comm
  · intro config parent
    simp [HybridBranchingContainer.convertLeaf, HybridBranchingContainer.new,
      BranchingContainer.new, Node.addSegmentTag, Node.mapBase, Container.new,
      Container.addAllSegmentTags, Container.addSegmentTag, binsearch.locateKey,
      binsearch.locateKeyLoop, binsearch.locatePointOfInsert,
      binsearch.locatePointOfInsertLoop, vectorInsert]

theorem convertIntermediate_intermediate (c : Container) (bs : List Branch) (tag : Int) :
    HybridBranchingContainer.convertIntermediate (.intermediate c bs) tag =
      some (.hybrid c bs
        { id := c.id, config := c.config, segmentTags := [tag], parent := c.parent }) := by
  rfl

theorem convertIntermediate_hybrid (c : Container) (bs : List Branch) (l : Container)
    (tag : Int) :
    HybridBranchingContainer.convertIntermediate (.hybrid c bs l) tag =
      some (.hybrid c bs
        { id := c.id, config := c.config, segmentTags := [tag], parent := c.parent }) := by
  rfl

/-- C7. For every branching container (a plain intermediate, or a hybrid taken as a branching
container) and tag, `convertIntermediate` gives a hybrid whose intermediate half is the given
container with its id, config, tags, parent and branches unchanged, and whose leaf half is a
fresh leaf with the same id, config and parent and the given tag as its only tag. -/
theorem convertIntermediate_spec (c : Container) (bs : List Branch) (l : Container)
    (terminalSegmentTag : Int) :
    HybridBranchingContainer.convertIntermediate (.intermediate c bs) terminalSegmentTag =
      some (.hybrid c bs
        { id := c.id, config := c.config, segmentTags := [terminalSegmentTag],
          parent := c.parent }) ∧
    HybridBranchingContainer.convertIntermediate (.hybrid c bs l) terminalSegmentTag =
      some (.hybrid c bs
        { id := c.id, config := c.config, segmentTags := [terminalSegmentTag],
          parent := c.parent }) :=
  ⟨rfl, rfl⟩

/-- C8. For every hybrid container, tag and flag, `addSegmentTag(tag, leafLevelTag)` adds the
tag to the tag set of the intermediate half, adds it to the tag set of the leaf half when
the flag is set and leaves the leaf half as it is when the flag is not set; ids, configs,
parents and branches stay as they are. -/
theorem hybrid_addSegmentTag_spec (c : Container) (bs : List Branch) (l : Container)
    (segmentTag : Int) :
    (∃ c1 l1, HybridBranchingContainer.addSegmentTag (.hybrid c bs l) segmentTag true
        = some (.hybrid c1 bs l1) ∧
      (∀ t, t ∈ c1.segmentTags ↔ t ∈ c.segmentTags ∨ t = segmentTag) ∧
      (∀ t, t ∈ l1.segmentTags ↔ t ∈ l.segmentTags ∨ t = segmentTag) ∧
      c1.id = c.id ∧ c1.config = c.config ∧ c1.parent = c.parent ∧
      l1.id = l.id ∧ l1.config = l.config ∧ l1.parent = l.parent) ∧
    (∃ c1, HybridBranchingContainer.addSegmentTag (.hybrid c bs l) segmentTag false
        = some (.hybrid c1 bs l) ∧
      (∀ t, t ∈ c1.segmentTags ↔ t ∈ c.segmentTags ∨ t = segmentTag) ∧
      c1.id = c.id ∧ c1.config = c.config ∧ c1.parent = c.parent) := by
  constructor
  · refine ⟨c.addSegmentTag segmentTag, l.addSegmentTag segmentTag, rfl, ?_, ?_, ?_, ?_, ?_,
      ?_, ?_, ?_⟩
    · exact Container.mem_addSegmentTag c segmentTag
    · exact Container.mem_addSegmentTag l segmentTag
    · exact Container.addSegmentTag_id c segmentTag
    · exact Container.addSegmentTag_config c segmentTag
    · exact Container.addSegmentTag_parent c segmentTag
    · exact Container.addSegmentTag_id l segmentTag
    · exact Container.addSegmentTag_config l segmentTag
    · exact Container.addSegmentTag_parent l segmentTag
  · refine ⟨c.addSegmentTag segmentTag, rfl, ?_, ?_, ?_, ?_⟩
    · exact Container.mem_addSegmentTag c segmentTag
    · exact Container.addSegmentTag_id c segmentTag
    · exact Container.addSegmentTag_config c segmentTag
    · exact Container.addSegmentTag_parent c segmentTag

/-! ## Vectors -/

theorem vectorInsert_zero {α : Type} (vec : List α) (x : α) : vectorInsert vec 0 x = x :: vec := by
  simp [vectorInsert]

theorem vectorInsert_succ {α : Type} (a : α) (vec : List α) (n : Nat) (x : α) :
    vectorInsert (a :: vec) (n + 1) x = a :: vectorInsert vec n x := by
  simp [vectorInsert]

theorem vectorInsert_nil {α : Type} (n : Nat) (x : α) : vectorInsert [] n x = [x] := by
  simp [vectorInsert]

theorem set_vectorInsert {α : Type} (vec : List α) (x y : α) :
    ∀ (n : Nat), n ≤ vec.length → (vectorInsert vec n x).set n y = vectorInsert vec n y := by
  induction vec with
  | nil =>
    intro n hn
    have : n = 0 := by simpa using hn
    subst this
    simp [vectorInsert]
  | cons a t ih =>
    intro n hn
    cases n with
    | zero => simp [vectorInsert_zero]
    | succ m =>
      rw [vectorInsert_succ, vectorInsert_succ, List.set_cons_succ, ih m (by simpa using hn)]

theorem vectorInsert_eraseIdx {α : Type} (vec : List α) (x : α) :
    ∀ (n : Nat), n < vec.length → vectorInsert (vec.eraseIdx n) n x = vec.set n x := by
  induction vec with
  | nil => intro n hn; simp at hn
  | cons a t ih =>
    intro n hn
    cases n with
    | zero => simp [vectorInsert_zero]
    | succ m =>
      rw [List.eraseIdx_cons_succ, vectorInsert_succ, List.set_cons_succ,
        ih m (by simpa using hn)]

theorem map_vectorInsert {α β : Type} (f : α → β) (vec : List α) (n : Nat) (x : α) :
    (vectorInsert vec n x).map f = vectorInsert (vec.map f) n (f x) := by
  simp [vectorInsert, List.map_take, List.map_drop]

theorem set_eq_self_of_getElem? {α : Type} (l : List α) (a : α) :
    ∀ (n : Nat), l[n]? = some a → l.set n a = l := by
  induction l with
  | nil => intro n h; simp at h
  | cons b t ih =>
    intro n h
    cases n with
    | zero =>
      simp only [List.getElem?_cons_zero, Option.some.injEq] at h
      simp [h]
    | succ m =>
      simp only [List.getElem?_cons_succ] at h
      rw [List.set_cons_succ, ih m h]

theorem mem_set_or {α : Type} (l : List α) (x d : α) :
    ∀ (n : Nat), d ∈ l → d ∈ l.set n x ∨ l[n]? = some d := by
  induction l with
  | nil => intro n h; simp at h
  | cons b t ih =>
    intro n h
    cases n with
    | zero =>
      rcases List.mem_cons.mp h with rfl | h
      · right; simp
      · left; simp [h]
    | succ m =>
      rcases List.mem_cons.mp h with rfl | h
      · left; simp
      · rcases ih m h with h1 | h1
        · left; simp [h1]
        · right; simpa using h1

theorem mem_set_self {α : Type} (l : List α) (x : α) (n : Nat) (h : n < l.length) :
    x ∈ l.set n x := by
  rw [List.mem_iff_getElem?]
  exact ⟨n, by rw [List.getElem?_set_self h]⟩

/-! ## Branch lists -/

theorem getBranch_some {bs : List Branch} {lpsId : Int} {b : Branch}
    (h : getBranch bs lpsId = some b) : b.getConfig.lpsId = lpsId ∧ b ∈ bs := by
  induction bs with
  | nil => simp [getBranch] at h
  | cons a t ih =>
    unfold getBranch at h
    by_cases ha : a.getConfig.lpsId = lpsId
    · simp only [ha, if_true, Option.some.injEq] at h
      subst h
      exact ⟨ha, List.mem_cons_self _ _⟩
    · simp only [ha, if_false] at h
      exact ⟨(ih h).1, List.mem_cons_of_mem _ (ih h).2⟩

theorem mem_putBranch {bs : List Branch} {lpsId : Int} {nb x : Branch}
    (h : x ∈ putBranch bs lpsId nb) : x = nb ∨ x ∈ bs := by
  induction bs with
  | nil => simp [putBranch] at h
  | cons a t ih =>
    unfold putBranch at h
    by_cases ha : a.getConfig.lpsId = lpsId
    · simp only [ha, if_true] at h
      rcases List.mem_cons.mp h with h | h
      · exact Or.inl h
      · exact Or.inr (List.mem_cons_of_mem _ h)
    · simp only [ha, if_false] at h
      rcases List.mem_cons.mp h with h | h
      · exact Or.inr (h ▸ List.mem_cons_self _ _)
      · rcases ih h with h | h
        · exact Or.inl h
        · exact Or.inr (List.mem_cons_of_mem _ h)

theorem mem_putBranch_self {bs : List Branch} {lpsId : Int} {b : Branch} (nb : Branch)
    (h : getBranch bs lpsId = some b) : nb ∈ putBranch bs lpsId nb := by
  induction bs with
  | nil => simp [getBranch] at h
  | cons a t ih =>
    unfold getBranch at h
    unfold putBranch
    by_cases ha : a.getConfig.lpsId = lpsId
    · simp [ha]
    · simp only [ha, if_false] at h ⊢
      exact List.mem_cons_of_mem _ (ih h)

theorem mem_putBranch_of_mem {bs : List Branch} {lpsId : Int} {b x : Branch} (nb : Branch)
    (h : getBranch bs lpsId = some b) (hx : x ∈ bs) : x ∈ putBranch bs lpsId nb ∨ x = b := by
  induction bs with
  | nil => simp at hx
  | cons a t ih =>
    unfold getBranch at h
    unfold putBranch
    by_cases ha : a.getConfig.lpsId = lpsId
    · simp only [ha, if_true, Option.some.injEq] at h ⊢
      rcases List.mem_cons.mp hx with hx | hx
      · exact Or.inr (hx.trans h)
      · exact Or.inl (List.mem_cons_of_mem _ hx)
    · simp only [ha, if_false] at h ⊢
      rcases List.mem_cons.mp hx with hx | hx
      · exact Or.inl (hx ▸ List.mem_cons_self _ _)
      · rcases ih h hx with h1 | h1
        · exact Or.inl (List.mem_cons_of_mem _ h1)
        · exact Or.inr h1

theorem getBranch_putBranch {bs : List Branch} {lpsId : Int} {b nb : Branch}
    (h : getBranch bs lpsId = some b) (hnb : nb.getConfig.lpsId = lpsId) :
    getBranch (putBranch bs lpsId nb) lpsId = some nb := by
  induction bs with
  | nil => simp [getBranch] at h
  | cons a t ih =>
    unfold getBranch at h
    unfold putBranch
    by_cases ha : a.getConfig.lpsId = lpsId
    · simp only [ha, if_true]
      unfold getBranch
      simp [hnb]
    · simp only [ha, if_false] at h ⊢
      unfold getBranch
      simp only [ha, if_false]
      exact ih h

theorem putBranch_putBranch {bs : List Branch} {lpsId : Int} {nb : Branch} (nb2 : Branch)
    (hnb : nb.getConfig.lpsId = lpsId) :
    putBranch (putBranch bs lpsId nb) lpsId nb2 = putBranch bs lpsId nb2 := by
  induction bs with
  | nil => simp [putBranch]
  | cons a t ih =>
    by_cases ha : a.getConfig.lpsId = lpsId
    · simp [putBranch, ha, hnb]
    · simp [putBranch, ha, ih]

theorem getBranch_append_of_none {bs : List Branch} {lpsId : Int} (nb : Branch)
    (h : getBranch bs lpsId = none) (hnb : nb.getConfig.lpsId = lpsId) :
    getBranch (bs ++ [nb]) lpsId = some nb := by
  induction bs with
  | nil => simp [getBranch, hnb]
  | cons a t ih =>
    unfold getBranch at h
    by_cases ha : a.getConfig.lpsId = lpsId
    · simp [ha] at h
    · simp only [ha, if_false] at h
      simp only [List.cons_append, getBranch, ha, if_false]
      exact ih h

theorem putBranch_append_of_none {bs : List Branch} {lpsId : Int} (nb nb2 : Branch)
    (h : getBranch bs lpsId = none) (hnb : nb.getConfig.lpsId = lpsId) :
    putBranch (bs ++ [nb]) lpsId nb2 = bs ++ [nb2] := by
  induction bs with
  | nil => simp [putBranch, hnb]
  | cons a t ih =>
    unfold getBranch at h
    by_cases ha : a.getConfig.lpsId = lpsId
    · simp [ha] at h
    · simp only [ha, if_false] at h
      have := ih h
      simp [putBranch, ha, this]

/-! ## Frame facts of the node operations -/

@[simp] theorem Node.base_mapBase (f : Container → Container) (n : Node) :
    (n.mapBase f).base = f n.base := by
  cases n <;> rfl

@[simp] theorem Node.getBranches_mapBase (f : Container → Container) (n : Node) :
    (n.mapBase f).getBranches = n.getBranches := by
  cases n <;> rfl

@[simp] theorem Node.branches_mapBase (f : Container → Container) (n : Node) :
    (n.mapBase f).branches = n.branches := by
  cases n <;> rfl

@[simp] theorem Node.getLeaf_mapBase (f : Container → Container) (n : Node) :
    (n.mapBase f).getLeaf = n.getLeaf := by
  cases n <;> rfl

@[simp] theorem Node.isLeaf_mapBase (f : Container → Container) (n : Node) :
    (n.mapBase f).isLeaf = n.isLeaf := by
  cases n <;> rfl

@[simp] theorem Node.base_setBranches (n : Node) (bs : List Branch) :
    (n.setBranches bs).base = n.base := by
  cases n <;> rfl

@[simp] theorem Node.getLeaf_setBranches (n : Node) (bs : List Branch) :
    (n.setBranches bs).getLeaf = n.getLeaf := by
  cases n <;> rfl

@[simp] theorem Node.isLeaf_setBranches (n : Node) (bs : List Branch) :
    (n.setBranches bs).isLeaf = n.isLeaf := by
  cases n <;> rfl

theorem Node.getBranches_setBranches {n : Node} {bs0 : List Branch} (bs : List Branch)
    (h : n.getBranches = some bs0) : (n.setBranches bs).getBranches = some bs := by
  cases n with
  | leaf c => simp [Node.getBranches] at h
  | intermediate c b => rfl
  | hybrid c b l => rfl

theorem Node.branches_of_getBranches {n : Node} {bs : List Branch}
    (h : n.getBranches = some bs) : n.branches = bs := by
  simp [Node.branches, h]

theorem Node.getId_setParent (n : Node) (p : ParentPtr) : (n.setParent p).getId = n.getId := by
  cases n <;> rfl

theorem Node.getSegmentTags_setParent (n : Node) (p : ParentPtr) :
    (n.setParent p).getSegmentTags = n.getSegmentTags := by
  cases n <;> rfl

theorem Node.branches_setParent (n : Node) (p : ParentPtr) :
    (n.setParent p).branches = n.branches := by
  simp [Node.setParent]

theorem Node.getBranches_setParent (n : Node) (p : ParentPtr) :
    (n.setParent p).getBranches = n.getBranches := by
  simp [Node.setParent]

theorem Node.getLeaf_setParent (n : Node) (p : ParentPtr) :
    (n.setParent p).getLeaf = n.getLeaf := by
  simp [Node.setParent]

theorem newContainer_getId (cfg : LpsDimConfig) (cid : Int) (last : Bool) (tag : Int) :
    (newContainer cfg cid last tag).getId = cid := by
  cases last <;> rfl

theorem newContainer_branches (cfg : LpsDimConfig) (cid : Int) (last : Bool) (tag : Int) :
    (newContainer cfg cid last tag).branches = [] := by
  cases last <;> rfl

theorem newContainer_getSegmentTags (cfg : LpsDimConfig) (cid : Int) (last : Bool) (tag : Int) :
    (newContainer cfg cid last tag).getSegmentTags = [tag] := by
  cases last <;> rfl

/-- What `visitExisting` does to each kind of container. -/
theorem visitExisting_eq (old : Node) (last : Bool) (tag : Int) :
    visitExisting old last tag =
      match old, last with
      | .intermediate c bs, true =>
        some (.hybrid c bs
          { id := c.id, config := c.config, segmentTags := [tag], parent := c.parent }, true)
      | .leaf c, false =>
        some (.hybrid (((Container.new c.id c.config).addSegmentTag tag).addAllSegmentTags
          c.segmentTags) [] c, true)
      | .hybrid c bs l, true =>
        some (.hybrid (c.addSegmentTag tag) bs (l.addSegmentTag tag), false)
      | .hybrid c bs l, false => some (.hybrid (c.addSegmentTag tag) bs l, false)
      | .leaf c, true => some (.leaf (c.addSegmentTag tag), false)
      | .intermediate c bs, false => some (.intermediate (c.addSegmentTag tag) bs, false) := by
  cases old <;> cases last <;> rfl

theorem visitExisting_getId {old nc : Node} {last conv : Bool} {tag : Int}
    (h : visitExisting old last tag = some (nc, conv)) : nc.getId = old.getId := by
  rw [visitExisting_eq] at h
  cases old <;> cases last <;> simp only [Option.some.injEq, Prod.mk.injEq] at h <;>
    obtain ⟨rfl, _⟩ := h <;>
    simp [Node.getId, Node.base, Container.addSegmentTag_id,
      (Container.addAllSegmentTags_frame _ _).1, Container.new]

theorem visitExisting_branches {old nc : Node} {last conv : Bool} {tag : Int}
    (h : visitExisting old last tag = some (nc, conv)) : nc.branches = old.branches := by
  rw [visitExisting_eq] at h
  cases old <;> cases last <;> simp only [Option.some.injEq, Prod.mk.injEq] at h <;>
    obtain ⟨rfl, _⟩ := h <;> rfl

theorem visitExisting_getBranches {old nc : Node} {last conv : Bool} {tag : Int}
    (h : visitExisting old last tag = some (nc, conv)) (hl : last = false) :
    ∃ bs, nc.getBranches = some bs := by
  subst hl
  rw [visitExisting_eq] at h
  cases old <;> simp only [Option.some.injEq, Prod.mk.injEq] at h <;>
    obtain ⟨rfl, _⟩ := h <;> exact ⟨_, rfl⟩

theorem visitExisting_tags {old nc : Node} {last conv : Bool} {tag : Int}
    (h : visitExisting old last tag = some (nc, conv)) (t : Int)
    (ht : t ∈ nc.getSegmentTags) : t = tag ∨ t ∈ old.getSegmentTags := by
  rw [visitExisting_eq] at h
  cases old <;> cases last <;> simp only [Option.some.injEq, Prod.mk.injEq] at h <;>
    obtain ⟨rfl, _⟩ := h <;>
    simp only [Node.getSegmentTags, Node.base, Container.mem_addSegmentTag,
      Container.mem_addAllSegmentTags, Container.new, List.not_mem_nil, false_or] at ht ⊢ <;>
    tauto

/-! ## Objects of a tree -/

theorem mem_subnodesOfNodes (m : Node) (ds : List Node) :
    m ∈ subnodesOfNodes ds ↔ ∃ d ∈ ds, m ∈ d.subnodes := by
  induction ds with
  | nil => simp [subnodesOfNodes]
  | cons d t ih => simp [subnodesOfNodes, ih]

theorem mem_subnodesOfBranches (m : Node) (bs : List Branch) :
    m ∈ subnodesOfBranches bs ↔ ∃ b ∈ bs, ∃ d ∈ b.descendants, m ∈ d.subnodes := by
  induction bs with
  | nil => simp [subnodesOfBranches]
  | cons b t ih =>
    cases b with
    | mk cfg ids ds =>
      simp [subnodesOfBranches, Branch.subnodes, ih, mem_subnodesOfNodes, Branch.descendants]

theorem mem_subnodes_iff (m n : Node) :
    m ∈ n.subnodes ↔ m = n ∨ ∃ b ∈ n.branches, ∃ d ∈ b.descendants, m ∈ d.subnodes := by
  cases n with
  | leaf c => simp [Node.subnodes, Node.branches, Node.getBranches]
  | intermediate c bs =>
    simp [Node.subnodes, Node.branches, Node.getBranches, mem_subnodesOfBranches]
  | hybrid c bs l =>
    simp [Node.subnodes, Node.branches, Node.getBranches, mem_subnodesOfBranches]

theorem mem_subnodes_self (n : Node) : n ∈ n.subnodes :=
  (mem_subnodes_iff n n).mpr (Or.inl rfl)

theorem mem_leaves_iff (l : Container) (n : Node) :
    l ∈ n.leaves ↔ n.leafSide = some l ∨ ∃ b ∈ n.branches, ∃ d ∈ b.descendants, l ∈ d.leaves := by
  simp only [Node.leaves, List.mem_filterMap]
  constructor
  · rintro ⟨m, hm, hl⟩
    rcases (mem_subnodes_iff m n).mp hm with rfl | ⟨b, hb, d, hd, hmd⟩
    · exact Or.inl hl
    · exact Or.inr ⟨b, hb, d, hd, m, hmd, hl⟩
  · rintro (h | ⟨b, hb, d, hd, m, hmd, hl⟩)
    · exact ⟨n, mem_subnodes_self n, h⟩
    · exact ⟨m, (mem_subnodes_iff m n).mpr (Or.inr ⟨b, hb, d, hd, hmd⟩), hl⟩

theorem treeOk_iff (t : Node) :
    t.TreeOk ↔ ∀ b ∈ t.branches, b.Ok ∧ ∀ d ∈ b.descendants, d.TreeOk := by
  unfold Node.TreeOk
  constructor
  · intro h b hb
    refine ⟨h t (mem_subnodes_self t) b hb, ?_⟩
    intro d hd n hn
    exact h n ((mem_subnodes_iff n t).mpr (Or.inr ⟨b, hb, d, hd, hn⟩))
  · intro h n hn
    rcases (mem_subnodes_iff n t).mp hn with rfl | ⟨b, hb, d, hd, hnd⟩
    · intro b hb; exact (h b hb).1
    · exact (h b hb).2 d hd n hnd

theorem treeOk_of_branches_eq {n m : Node} (h : n.branches = m.branches) (hm : m.TreeOk) :
    n.TreeOk := by
  rw [treeOk_iff] at hm ⊢
  rw [h]; exact hm

theorem treeOk_of_branches_nil {n : Node} (h : n.branches = []) : n.TreeOk := by
  rw [treeOk_iff, h]
  intro b hb; simp at hb

/-! ## One step of `insertPart` -/

theorem Branch.getEntryAt_none {b : Branch} {cid : Int} (h : b.getEntryAt cid = some none) :
    binsearch.locateKey b.descendentIds cid = none := by
  unfold Branch.getEntryAt at h
  cases hk : binsearch.locateKey b.descendentIds cid with
  | none => rfl
  | some loc =>
    rw [hk] at h
    simp only at h
    cases hd : b.descendants.get? loc with
    | none => rw [hd] at h; simp at h
    | some d => rw [hd] at h; simp at h

theorem Branch.getEntryAt_some {b : Branch} {cid : Int} {loc : Nat} {d : Node}
    (h : b.getEntryAt cid = some (some (loc, d))) :
    binsearch.locateKey b.descendentIds cid = some loc ∧ b.descendants[loc]? = some d := by
  unfold Branch.getEntryAt at h
  cases hk : binsearch.locateKey b.descendentIds cid with
  | none => rw [hk] at h; simp at h
  | some loc1 =>
    rw [hk] at h
    simp only at h
    cases hd : b.descendants.get? loc1 with
    | none => rw [hd] at h; simp at h
    | some d1 =>
      rw [hd] at h
      simp only [Option.some.injEq, Prod.mk.injEq] at h
      obtain ⟨rfl, rfl⟩ := h
      exact ⟨rfl, by simpa using hd⟩

theorem Branch.getEntryAt_of {b : Branch} {cid : Int} {loc : Nat} {d : Node}
    (hk : binsearch.locateKey b.descendentIds cid = some loc)
    (hd : b.descendants[loc]? = some d) : b.getEntryAt cid = some (some (loc, d)) := by
  unfold Branch.getEntryAt
  rw [hk]
  simp [hd]

@[simp] theorem Branch.getConfig_mk (cfg : LpsDimConfig) (ids : List Int) (ds : List Node) :
    (Branch.mk cfg ids ds).getConfig = cfg := rfl

@[simp] theorem Branch.descendentIds_mk (cfg : LpsDimConfig) (ids : List Int)
    (ds : List Node) : (Branch.mk cfg ids ds).descendentIds = ids := rfl

@[simp] theorem Branch.descendants_mk (cfg : LpsDimConfig) (ids : List Int) (ds : List Node) :
    (Branch.mk cfg ids ds).descendants = ds := rfl

/-- The three ways one step of `insertPart` finds its container, and the branch list the
receiver has once the container, after the rest of the call, is `d`. -/
theorem locateOrCreate_cases {branches : List Branch} {cfg : LpsDimConfig} {cid : Int}
    {last : Bool} {tag : Int} {nc : Node} {branches1 : List Branch} {loc : Nat}
    (h : locateOrCreate branches cfg cid last tag = some (nc, branches1, loc)) :
    (getBranch branches cfg.lpsId = none ∧ nc = newContainer cfg cid last tag ∧
      ∀ d, storeContainer branches1 cfg.lpsId loc d = branches ++ [.mk cfg [cid] [d]]) ∨
    (∃ b, getBranch branches cfg.lpsId = some b ∧
      binsearch.locateKey b.descendentIds cid = none ∧ nc = newContainer cfg cid last tag ∧
      loc = binsearch.locatePointOfInsert b.descendentIds cid ∧ loc ≤ b.descendants.length ∧
      ∀ d, storeContainer branches1 cfg.lpsId loc d = putBranch branches cfg.lpsId
        (.mk b.getConfig (vectorInsert b.descendentIds loc cid)
          (vectorInsert b.descendants loc d))) ∨
    (∃ b l0 old conv, getBranch branches cfg.lpsId = some b ∧
      binsearch.locateKey b.descendentIds cid = some l0 ∧ b.descendants[l0]? = some old ∧
      visitExisting old last tag = some (nc, conv) ∧ loc < b.descendants.length ∧
      (conv = false → loc = l0) ∧
      (conv = true → binsearch.locateKey b.descendentIds nc.getId = some loc) ∧
      ∀ d, storeContainer branches1 cfg.lpsId loc d = putBranch branches cfg.lpsId
        (.mk b.getConfig b.descendentIds (b.descendants.set loc d))) := by
  unfold locateOrCreate at h
  simp only at h
  cases hb : getBranch branches cfg.lpsId with
  | none =>
    rw [hb] at h
    simp only [Option.some.injEq, Prod.mk.injEq] at h
    obtain ⟨rfl, rfl, rfl⟩ := h
    left
    refine ⟨rfl, rfl, ?_⟩
    intro d
    unfold storeContainer
    rw [getBranch_append_of_none _ hb (by rfl)]
    simp only
    rw [putBranch_append_of_none _ _ hb (by rfl)]
    simp [Branch.store, Branch.new, newContainer_getId]
  | some b =>
    rw [hb] at h
    simp only at h
    have hlps := (getBranch_some hb).1
    cases he : b.getEntryAt cid with
    | none => rw [he] at h; simp at h
    | some r =>
      rw [he] at h
      cases r with
      | none =>
        simp only at h
        right; left
        unfold Branch.addEntry at h
        simp only [newContainer_getId] at h
        by_cases hle : binsearch.locatePointOfInsert b.descendentIds cid ≤ b.descendants.length
        · simp only [hle, if_true, Option.some.injEq, Prod.mk.injEq] at h
          obtain ⟨rfl, rfl, rfl⟩ := h
          refine ⟨b, rfl, Branch.getEntryAt_none he, rfl, rfl, hle, ?_⟩
          intro d
          unfold storeContainer
          rw [getBranch_putBranch hb (by simpa using hlps)]
          simp only
          rw [putBranch_putBranch _ (by simpa using hlps)]
          simp only [Branch.store, Branch.getConfig_mk, Branch.descendentIds_mk,
            Branch.descendants_mk]
          rw [set_vectorInsert _ _ _ _ hle]
        · simp [hle] at h
      | some r =>
        obtain ⟨l0, old⟩ := r
        simp only at h
        obtain ⟨hk, hold⟩ := Branch.getEntryAt_some he
        have hl0 : l0 < b.descendants.length := by
          by_contra hc
          rw [List.getElem?_eq_none (Nat.le_of_not_lt hc)] at hold
          cases hold
        right; right
        cases hv : visitExisting old last tag with
        | none => rw [hv] at h; simp at h
        | some r =>
          obtain ⟨next, conv⟩ := r
          rw [hv] at h
          cases conv with
          | true =>
            simp only at h
            unfold Branch.replaceDescendant at h
            cases hk2 : binsearch.locateKey b.descendentIds next.getId with
            | none => rw [hk2] at h; simp at h
            | some loc2 =>
              rw [hk2] at h
              simp only at h
              by_cases hlt : loc2 < b.descendants.length
              · simp only [hlt, if_true, Option.some.injEq, Prod.mk.injEq] at h
                obtain ⟨rfl, rfl, rfl⟩ := h
                refine ⟨b, l0, old, true, rfl, hk, hold, hv, hlt, by simp, fun _ => hk2, ?_⟩
                intro d
                unfold storeContainer
                rw [getBranch_putBranch hb (by simpa using hlps)]
                simp only
                rw [putBranch_putBranch _ (by simpa using hlps)]
                simp only [Branch.store, Branch.getConfig_mk, Branch.descendentIds_mk,
                  Branch.descendants_mk]
                rw [vectorInsert_eraseIdx _ _ _ hlt, List.set_set]
              · simp [hlt] at h
          | false =>
            simp only [Option.some.injEq, Prod.mk.injEq] at h
            obtain ⟨rfl, rfl, rfl⟩ := h
            refine ⟨b, l0, old, false, rfl, hk, hold, hv, hl0, fun _ => rfl, by simp, ?_⟩
            intro d
            unfold storeContainer
            rw [getBranch_putBranch hb (by simpa [Branch.store] using hlps)]
            simp only
            rw [putBranch_putBranch _ (by simpa [Branch.store] using hlps)]
            simp only [Branch.store, Branch.getConfig_mk, Branch.descendentIds_mk,
              Branch.descendants_mk]
            rw [List.set_set]

/-- The parts of a successful `insertPart` call. -/
theorem insertPartFrom_cons_inv {cfg : LpsDimConfig} {rest : List LpsDimConfig} {tag : Int}
    {p : List (List Int)} {self self1 : Node}
    (h : insertPartFrom (cfg :: rest) tag p self = some self1) :
    ∃ branches cid nc branches1 loc nf,
      self.getBranches = some branches ∧ partIdEntry p cfg = some cid ∧
      locateOrCreate branches cfg cid rest.isEmpty tag = some (nc, branches1, loc) ∧
      ((rest = [] ∧ nf = nc.setParent self.base.ref) ∨
        (rest ≠ [] ∧ insertPartFrom rest tag p (nc.setParent self.base.ref) = some nf)) ∧
      self1 = self.setBranches (storeContainer branches1 cfg.lpsId loc nf) := by
  unfold insertPartFrom at h
  cases hb : self.getBranches with
  | none => rw [hb] at h; simp at h
  | some branches =>
    rw [hb] at h
    simp only at h
    cases hp : partIdEntry p cfg with
    | none => rw [hp] at h; simp at h
    | some cid =>
      rw [hp] at h
      simp only at h
      cases hl : locateOrCreate branches cfg cid rest.isEmpty tag with
      | none => rw [hl] at h; simp at h
      | some r =>
        obtain ⟨nc, branches1, loc⟩ := r
        rw [hl] at h
        simp only at h
        cases rest with
        | nil =>
          simp only [Option.some.injEq] at h
          exact ⟨branches, cid, nc, branches1, loc, _, rfl, rfl, hl, Or.inl ⟨rfl, rfl⟩, h.symm⟩
        | cons c2 r2 =>
          simp only at h
          cases hr : insertPartFrom (c2 :: r2) tag p (nc.setParent self.base.ref) with
          | none => rw [hr] at h; simp at h
          | some nf =>
            rw [hr] at h
            simp only [Option.some.injEq] at h
            exact ⟨branches, cid, nc, branches1, loc, nf, rfl, rfl, hl,
              Or.inr ⟨by simp, hr⟩, h.symm⟩

/-- A call of `insertPart` changes nothing of its receiver but the branches. -/
theorem insertPartFrom_frame {ds : List LpsDimConfig} {tag : Int} {p : List (List Int)}
    {self self1 : Node} (h : insertPartFrom ds tag p self = some self1) :
    self1.base = self.base ∧ self1.getLeaf = self.getLeaf ∧ self1.isLeaf = self.isLeaf ∧
    ∃ bs, self1.getBranches = some bs := by
  cases ds with
  | nil => simp [insertPartFrom] at h
  | cons cfg rest =>
    obtain ⟨branches, cid, nc, branches1, loc, nf, hb, _, _, _, rfl⟩ := insertPartFrom_cons_inv h
    exact ⟨by simp, by simp, by simp, _, Node.getBranches_setBranches _ hb⟩

/-! ## The branch invariant -/

theorem Branch.ok_singleton (cfg : LpsDimConfig) {cid : Int} {nf : Node}
    (hid : nf.getId = cid) : (Branch.mk cfg [cid] [nf]).Ok := by
  constructor
  · simp
  · simp [hid]

theorem Branch.ok_insert {b : Branch} (hok : b.Ok) {cid : Int} {nf : Node}
    (hk : binsearch.locateKey b.descendentIds cid = none) (hid : nf.getId = cid) :
    (Branch.mk b.getConfig
      (vectorInsert b.descendentIds (binsearch.locatePointOfInsert b.descendentIds cid) cid)
      (vectorInsert b.descendants (binsearch.locatePointOfInsert b.descendentIds cid) nf)).Ok := by
  constructor
  · exact sorted_vectorInsert hok.1 ((binsearch.locateKey_eq_none_iff hok.1 cid).mp hk)
  · simp only [Branch.descendentIds_mk, Branch.descendants_mk, map_vectorInsert, hid]
    rw [← hok.2]

theorem Branch.ok_set {b : Branch} (hok : b.Ok) {cid : Int} {nf : Node} {loc : Nat}
    (hk : binsearch.locateKey b.descendentIds cid = some loc) (hid : nf.getId = cid) :
    (Branch.mk b.getConfig b.descendentIds (b.descendants.set loc nf)).Ok := by
  constructor
  · exact hok.1
  · simp only [Branch.descendentIds_mk, Branch.descendants_mk, List.map_set, hid]
    rw [← hok.2]
    have := binsearch.locateKey_some hk
    rw [set_eq_self_of_getElem? _ _ _ (by rw [getD_of_lt _ this.1, this.2])]

theorem Branch.ok_getId {b : Branch} (hok : b.Ok) {cid : Int} {loc : Nat} {old : Node}
    (hk : binsearch.locateKey b.descendentIds cid = some loc)
    (hold : b.descendants[loc]? = some old) : old.getId = cid := by
  have h1 := binsearch.locateKey_some hk
  have h2 : b.descendentIds[loc]? = some old.getId := by
    rw [hok.2, List.getElem?_map, hold]; rfl
  rw [getD_of_lt _ h1.1, h1.2] at h2
  exact (Option.some.inj h2).symm

/-- The shape of a successful `insertPart` call on a receiver whose branches keep the branch
invariant: the container `nf` stored for the id is new in a new branch, new in an existing
branch, or takes the place of the container found. -/
theorem insertPartFrom_shape {cfg : LpsDimConfig} {rest : List LpsDimConfig} {tag : Int}
    {p : List (List Int)} {self self1 : Node}
    (h : insertPartFrom (cfg :: rest) tag p self = some self1)
    (hok : ∀ b ∈ self.branches, b.Ok) :
    ∃ branches cid nc nf,
      self.getBranches = some branches ∧ partIdEntry p cfg = some cid ∧ nf.getId = cid ∧
      ((rest = [] ∧ nf = nc.setParent self.base.ref) ∨
        (rest ≠ [] ∧ insertPartFrom rest tag p (nc.setParent self.base.ref) = some nf)) ∧
      ((getBranch branches cfg.lpsId = none ∧ nc = newContainer cfg cid rest.isEmpty tag ∧
          self1 = self.setBranches (branches ++ [.mk cfg [cid] [nf]])) ∨
        (∃ b, getBranch branches cfg.lpsId = some b ∧
          binsearch.locateKey b.descendentIds cid = none ∧
          nc = newContainer cfg cid rest.isEmpty tag ∧
          self1 = self.setBranches (putBranch branches cfg.lpsId
            (.mk b.getConfig
              (vectorInsert b.descendentIds
                (binsearch.locatePointOfInsert b.descendentIds cid) cid)
              (vectorInsert b.descendants
                (binsearch.locatePointOfInsert b.descendentIds cid) nf)))) ∨
        (∃ b loc old conv, getBranch branches cfg.lpsId = some b ∧
          binsearch.locateKey b.descendentIds cid = some loc ∧
          b.descendants[loc]? = some old ∧ old.getId = cid ∧
          visitExisting old rest.isEmpty tag = some (nc, conv) ∧
          self1 = self.setBranches (putBranch branches cfg.lpsId
            (.mk b.getConfig b.descendentIds (b.descendants.set loc nf))))) := by
  obtain ⟨branches, cid, nc, branches1, loc, nf, hb, hp, hl, hrec, rfl⟩ :=
    insertPartFrom_cons_inv h
  have hnf : nf.getId = nc.getId := by
    rcases hrec with ⟨_, rfl⟩ | ⟨_, hr⟩
    · exact Node.getId_setParent _ _
    · have := (insertPartFrom_frame hr).1
      unfold Node.getId
      rw [this]
      exact Node.getId_setParent _ _
  have hbr := Node.branches_of_getBranches hb
  refine ⟨branches, cid, nc, nf, hb, hp, ?_, hrec, ?_⟩
  · rcases locateOrCreate_cases hl with ⟨_, rfl, _⟩ | ⟨b, _, _, rfl, _⟩ |
      ⟨b, l0, old, conv, hgb, hk, hold, hv, _, _, _, _⟩
    · rw [hnf, newContainer_getId]
    · rw [hnf, newContainer_getId]
    · rw [hnf, visitExisting_getId hv]
      exact Branch.ok_getId (hok b (hbr ▸ (getBranch_some hgb).2)) hk hold
  · rcases locateOrCreate_cases hl with ⟨hgb, hnc, hst⟩ | ⟨b, hgb, hk, hnc, hloc, _, hst⟩ |
      ⟨b, l0, old, conv, hgb, hk, hold, hv, hlt, hc1, hc2, hst⟩
    · left
      exact ⟨hgb, hnc, by rw [hst]⟩
    · right; left
      refine ⟨b, hgb, hk, hnc, ?_⟩
      rw [hst, hloc]
    · right; right
      have hbok := hok b (hbr ▸ (getBranch_some hgb).2)
      have hid := Branch.ok_getId hbok hk hold
      have hloc : loc = l0 := by
        cases conv with
        | false => exact hc1 rfl
        | true =>
          have h2 := hc2 rfl
          rw [visitExisting_getId hv, hid, hk] at h2
          exact (Option.some.inj h2).symm
      subst hloc
      exact ⟨b, loc, old, conv, hgb, hk, hold, hid, hv, by rw [hst]⟩

theorem treeOk_newContainer (cfg : LpsDimConfig) (cid : Int) (last : Bool) (tag : Int)
    (pp : ParentPtr) : ((newContainer cfg cid last tag).setParent pp).TreeOk :=
  treeOk_of_branches_nil (by rw [Node.branches_setParent, newContainer_branches])

/-- A call of `insertPart` keeps the branch invariant throughout the tree. -/
theorem insertPartFrom_treeOk (tag : Int) (p : List (List Int)) :
    ∀ (ds : List LpsDimConfig) (self self1 : Node),
      insertPartFrom ds tag p self = some self1 → self.TreeOk → self1.TreeOk := by
  intro ds
  induction ds with
  | nil => intro self self1 h; simp [insertPartFrom] at h
  | cons cfg rest ih =>
    intro self self1 h hself
    have hself2 := (treeOk_iff self).mp hself
    obtain ⟨branches, cid, nc, nf, hb, hp, hid, hrec, hshape⟩ :=
      insertPartFrom_shape h (fun b hb => (hself2 b hb).1)
    have hbr := Node.branches_of_getBranches hb
    rw [hbr] at hself2
    -- the container stored keeps the invariant
    have hnf : (nc.setParent self.base.ref).TreeOk → nf.TreeOk := by
      intro hnc
      rcases hrec with ⟨_, rfl⟩ | ⟨_, hr⟩
      · exact hnc
      · exact ih _ _ hr hnc
    rw [treeOk_iff]
    rcases hshape with ⟨hgb, hnc, rfl⟩ | ⟨b, hgb, hk, hnc, rfl⟩ |
      ⟨b, loc, old, conv, hgb, hk, hold, hoid, hv, rfl⟩
    · rw [Node.branches_of_getBranches (Node.getBranches_setBranches _ hb)]
      have hnfok := hnf (hnc ▸ treeOk_newContainer _ _ _ _ _)
      intro b1 hb1
      rcases List.mem_append.mp hb1 with hb1 | hb1
      · exact hself2 b1 hb1
      · rw [List.mem_singleton] at hb1
        subst hb1
        refine ⟨Branch.ok_singleton cfg hid, ?_⟩
        intro d hd
        simp only [Branch.descendants_mk, List.mem_singleton] at hd
        rw [hd]; exact hnfok
    · rw [Node.branches_of_getBranches (Node.getBranches_setBranches _ hb)]
      have hnfok := hnf (hnc ▸ treeOk_newContainer _ _ _ _ _)
      have hbmem := (getBranch_some hgb).2
      intro b1 hb1
      rcases mem_putBranch hb1 with hb1 | hb1
      · subst hb1
        refine ⟨Branch.ok_insert (hself2 b hbmem).1 hk hid, ?_⟩
        intro d hd
        simp only [Branch.descendants_mk] at hd
        rcases (mem_vectorInsert _ _ _ _).mp hd with hd | hd
        · rw [hd]; exact hnfok
        · exact (hself2 b hbmem).2 d hd
      · exact hself2 b1 hb1
    · rw [Node.branches_of_getBranches (Node.getBranches_setBranches _ hb)]
      have hbmem := (getBranch_some hgb).2
      have holdok := (hself2 b hbmem).2 old (List.getElem?_mem hold)
      have hnfok := hnf (treeOk_of_branches_eq
        (by rw [Node.branches_setParent, visitExisting_branches hv]) holdok)
      intro b1 hb1
      rcases mem_putBranch hb1 with hb1 | hb1
      · subst hb1
        refine ⟨Branch.ok_set (hself2 b hbmem).1 hk hid, ?_⟩
        intro d hd
        simp only [Branch.descendants_mk] at hd
        rcases List.mem_or_eq_of_mem_set hd with hd | hd
        · exact (hself2 b hbmem).2 d hd
        · rw [hd]; exact hnfok
      · exact hself2 b1 hb1

theorem treeOk_emptyRoot (id : Int) (config : LpsDimConfig) : (emptyRoot id config).TreeOk :=
  treeOk_of_branches_nil rfl

theorem insertPart_zero (self : Node) (ds : List LpsDimConfig) (tag : Int)
    (p : List (List Int)) : insertPart self ds tag p 0 = insertPartFrom ds tag p self := by
  simp [insertPart]

/-- Induction over the calls that built a tree. -/
theorem insertAll_induction (P : Node → Prop)
    (hstep : ∀ (call : InsertCall) (t t1 : Node),
      insertPartFrom call.dimOrder call.segmentTag call.partId t = some t1 → P t → P t1) :
    ∀ (calls : List InsertCall) (root t : Node), insertAll root calls = some t → P root → P t := by
  intro calls
  induction calls with
  | nil =>
    intro root t h hroot
    simp only [insertAll, Option.some.injEq] at h
    exact h ▸ hroot
  | cons call rest ih =>
    intro root t h hroot
    unfold insertAll at h
    rw [insertPart_zero] at h
    cases hc : insertPartFrom call.dimOrder call.segmentTag call.partId root with
    | none => rw [hc] at h; simp at h
    | some root1 =>
      rw [hc] at h
      exact ih root1 t h (hstep call root root1 hc hroot)

theorem Branch.addEntry_ok {b : Branch} (hok : b.Ok) {d : Node}
    (h : b.getEntryAt d.getId = some none) :
    ∃ b1 loc, b.addEntry d = some (b1, loc) ∧ b1.Ok := by
  have hk := Branch.getEntryAt_none h
  have hle : binsearch.locatePointOfInsert b.descendentIds d.getId ≤ b.descendants.length := by
    have := binsearch.locatePointOfInsert_le b.descendentIds d.getId
    rw [hok.2, List.length_map] at this
    rw [hok.2]
    exact this
  refine ⟨_, _, by unfold Branch.addEntry; simp only [hle, if_true]; rfl, ?_⟩
  exact Branch.ok_insert hok hk rfl

theorem Branch.replaceDescendant_ok {b : Branch} (hok : b.Ok) {d old : Node} {loc : Nat}
    (h : b.getEntryAt d.getId = some (some (loc, old))) :
    ∃ b1, b.replaceDescendant d = some (b1, loc) ∧ b1.Ok ∧
      b1.descendants = b.descendants.set loc d := by
  obtain ⟨hk, hold⟩ := Branch.getEntryAt_some h
  have hlt : loc < b.descendants.length := by
    by_contra hc
    rw [List.getElem?_eq_none (Nat.le_of_not_lt hc)] at hold
    cases hold
  refine ⟨_, by unfold Branch.replaceDescendant; rw [hk]; simp only [hlt, if_true]; rfl, ?_, ?_⟩
  · rw [vectorInsert_eraseIdx _ _ _ hlt]
    exact Branch.ok_set hok hk rfl
  · rw [Branch.descendants_mk, vectorInsert_eraseIdx _ _ _ hlt]

/-! ## Tags of intermediate containers are carried by leaves -/

theorem leafCover_iff (t : Node) :
    t.LeafCover ↔ t.TagsWitnessed ∧ ∀ b ∈ t.branches, ∀ d ∈ b.descendants, d.LeafCover := by
  unfold Node.LeafCover
  constructor
  · intro h
    refine ⟨h t (mem_subnodes_self t), ?_⟩
    intro b hb d hd n hn
    exact h n ((mem_subnodes_iff n t).mpr (Or.inr ⟨b, hb, d, hd, hn⟩))
  · intro h n hn
    rcases (mem_subnodes_iff n t).mp hn with rfl | ⟨b, hb, d, hd, hnd⟩
    · exact h.1
    · exact h.2 b hb d hd n hnd

theorem Node.LeavesGrow.refl (n : Node) : n.LeavesGrow n :=
  fun l hl => ⟨l, hl, fun _ ht => ht⟩

theorem Node.LeavesGrow.trans {a b c : Node} (h1 : a.LeavesGrow b) (h2 : b.LeavesGrow c) :
    a.LeavesGrow c := by
  intro l hl
  obtain ⟨l1, hl1, h3⟩ := h1 l hl
  obtain ⟨l2, hl2, h4⟩ := h2 l1 hl1
  exact ⟨l2, hl2, fun t ht => h4 t (h3 t ht)⟩

/-- Leaves grow when the branches stay and the own leaf side keeps its tags. -/
theorem leavesGrow_of_branches_eq {n m : Node} (hb : m.branches = n.branches)
    (hs : ∀ l, n.leafSide = some l →
      ∃ l1, m.leafSide = some l1 ∧ ∀ t ∈ l.segmentTags, t ∈ l1.segmentTags) :
    n.LeavesGrow m := by
  intro l hl
  rcases (mem_leaves_iff l n).mp hl with h | ⟨b, hbm, d, hd, hld⟩
  · obtain ⟨l1, h1, h2⟩ := hs l h
    exact ⟨l1, (mem_leaves_iff l1 m).mpr (Or.inl h1), h2⟩
  · exact ⟨l, (mem_leaves_iff l m).mpr (Or.inr ⟨b, hb ▸ hbm, d, hd, hld⟩), fun _ ht => ht⟩

theorem leavesGrow_setParent (n : Node) (pp : ParentPtr) : n.LeavesGrow (n.setParent pp) := by
  apply leavesGrow_of_branches_eq (Node.branches_setParent n pp)
  intro l hl
  cases n with
  | leaf c =>
    simp only [Node.leafSide, Option.some.injEq] at hl
    subst hl
    exact ⟨_, rfl, fun _ ht => ht⟩
  | intermediate c bs => simp [Node.leafSide] at hl
  | hybrid c bs lf => exact ⟨l, hl, fun _ ht => ht⟩

theorem leavesGrow_visitExisting {old nc : Node} {last conv : Bool} {tag : Int}
    (h : visitExisting old last tag = some (nc, conv)) : old.LeavesGrow nc := by
  apply leavesGrow_of_branches_eq (visitExisting_branches h)
  intro l hl
  rw [visitExisting_eq] at h
  cases old <;> cases last <;> simp only [Option.some.injEq, Prod.mk.injEq] at h <;>
    obtain ⟨rfl, _⟩ := h <;>
    simp only [Node.leafSide, Option.some.injEq, reduceCtorEq] at hl ⊢ <;>
    subst hl <;>
    first
      | exact ⟨_, rfl, fun _ ht => ht⟩
      | exact ⟨_, rfl, fun t ht => (Container.mem_addSegmentTag _ _ t).mpr (Or.inl ht)⟩

/-- At the last position the container that was visited carries the tag on its leaf side. -/
theorem visitExisting_last_leafSide {old nc : Node} {conv : Bool} {tag : Int}
    (h : visitExisting old true tag = some (nc, conv)) :
    ∃ l, nc.leafSide = some l ∧ tag ∈ l.segmentTags := by
  rw [visitExisting_eq] at h
  cases old <;> simp only [Option.some.injEq, Prod.mk.injEq] at h <;>
    obtain ⟨rfl, _⟩ := h <;>
    first
      | exact ⟨_, rfl, (Container.mem_addSegmentTag _ _ _).mpr (Or.inr rfl)⟩
      | exact ⟨_, rfl, List.mem_singleton.mpr rfl⟩

theorem newContainer_last_leafSide (cfg : LpsDimConfig) (cid tag : Int) :
    ∃ l, (newContainer cfg cid true tag).leafSide = some l ∧ tag ∈ l.segmentTags :=
  ⟨_, rfl, (Container.mem_addSegmentTag _ _ _).mpr (Or.inr rfl)⟩

theorem leafSide_setParent_tags {n : Node} {l : Container} {tag : Int} (pp : ParentPtr)
    (h : n.leafSide = some l) (ht : tag ∈ l.segmentTags) :
    ∃ l1, (n.setParent pp).leafSide = some l1 ∧ tag ∈ l1.segmentTags := by
  cases n with
  | leaf c =>
    simp only [Node.leafSide, Option.some.injEq] at h
    subst h
    exact ⟨_, rfl, ht⟩
  | intermediate c bs => simp [Node.leafSide] at h
  | hybrid c bs lf => exact ⟨l, h, ht⟩

theorem tagsWitnessed_newContainer (cfg : LpsDimConfig) (cid : Int) (last : Bool) (tag : Int)
    {nf : Node} (hw : ∃ l ∈ nf.leaves, tag ∈ l.segmentTags)
    (ht : nf.getSegmentTags = (newContainer cfg cid last tag).getSegmentTags) :
    nf.TagsWitnessed := by
  intro t htm
  rw [ht, newContainer_getSegmentTags, List.mem_singleton] at htm
  rw [htm]; exact hw

/-- A call of `insertPart` on a tree that keeps the branch invariant: the containers below
the receiver still have their tags carried by leaves, a leaf below the receiver carries the
new tag, and no leaf loses a tag. -/
theorem insertPartFrom_leafCover (tag : Int) (p : List (List Int)) :
    ∀ (ds : List LpsDimConfig) (self self1 : Node),
      insertPartFrom ds tag p self = some self1 → self.TreeOk →
      (∀ b ∈ self.branches, ∀ d ∈ b.descendants, d.LeafCover) →
      (∀ b ∈ self1.branches, ∀ d ∈ b.descendants, d.LeafCover) ∧
      (∃ l ∈ self1.leaves, tag ∈ l.segmentTags) ∧ self.LeavesGrow self1 := by
  intro ds
  induction ds with
  | nil => intro self self1 h; simp [insertPartFrom] at h
  | cons cfg rest ih =>
    intro self self1 h hself hcov
    have hself2 := (treeOk_iff self).mp hself
    have hframe := insertPartFrom_frame h
    obtain ⟨branches, cid, nc, nf, hb, hp, hid, hrec, hshape⟩ :=
      insertPartFrom_shape h (fun b hb => (hself2 b hb).1)
    have hbr := Node.branches_of_getBranches hb
    rw [hbr] at hself2 hcov
    have hnftags : nf.getSegmentTags = nc.getSegmentTags := by
      rcases hrec with ⟨_, rfl⟩ | ⟨_, hr⟩
      · exact Node.getSegmentTags_setParent _ _
      · unfold Node.getSegmentTags
        rw [(insertPartFrom_frame hr).1]
        exact Node.getSegmentTags_setParent _ _
    -- what the rest of the call does to the container of this step
    have hstep : (nc.setParent self.base.ref).TreeOk →
        (∀ b ∈ nc.branches, ∀ d ∈ b.descendants, d.LeafCover) →
        (rest = [] → ∃ l, nc.leafSide = some l ∧ tag ∈ l.segmentTags) →
        (∀ b ∈ nf.branches, ∀ d ∈ b.descendants, d.LeafCover) ∧
        (∃ l ∈ nf.leaves, tag ∈ l.segmentTags) ∧ nc.LeavesGrow nf := by
      intro hok hch hlast
      rcases hrec with ⟨hr, rfl⟩ | ⟨_, hr⟩
      · refine ⟨by rw [Node.branches_setParent]; exact hch, ?_, leavesGrow_setParent _ _⟩
        obtain ⟨l, hl, ht⟩ := hlast hr
        obtain ⟨l1, hl1, ht1⟩ := leafSide_setParent_tags self.base.ref hl ht
        exact ⟨l1, (mem_leaves_iff _ _).mpr (Or.inl hl1), ht1⟩
      · have := ih _ _ hr hok (by rw [Node.branches_setParent]; exact hch)
        exact ⟨this.1, this.2.1, (leavesGrow_setParent _ _).trans this.2.2⟩
    have hself1br : ∀ bs, (self.setBranches bs).branches = bs := fun bs =>
      Node.branches_of_getBranches (Node.getBranches_setBranches bs hb)
    -- leaves of the receiver grow when each old child has a counterpart
    have hgrow : ∀ bs,
        (∀ b ∈ branches, ∀ d ∈ b.descendants,
          ∃ b1 ∈ bs, ∃ d1 ∈ b1.descendants, d.LeavesGrow d1) →
        self.LeavesGrow (self.setBranches bs) := by
      intro bs hall l hl
      rcases (mem_leaves_iff l self).mp hl with hs | ⟨b, hbm, d, hd, hld⟩
      · refine ⟨l, (mem_leaves_iff _ _).mpr (Or.inl ?_), fun _ ht => ht⟩
        cases self <;> exact hs
      · rw [hbr] at hbm
        obtain ⟨b1, hb1, d1, hd1, hg⟩ := hall b hbm d hd
        obtain ⟨l1, hl1, ht⟩ := hg l hld
        exact ⟨l1, (mem_leaves_iff _ _).mpr (Or.inr ⟨b1, (hself1br bs).symm ▸ hb1, d1, hd1, hl1⟩),
          ht⟩
    rcases hshape with ⟨hgb, hnc, rfl⟩ | ⟨b, hgb, hk, hnc, rfl⟩ |
      ⟨b, loc, old, conv, hgb, hk, hold, hoid, hv, rfl⟩
    · -- a new branch
      have hs := hstep (hnc ▸ treeOk_newContainer _ _ _ _ _)
        (by rw [hnc, newContainer_branches]; intro b hb; simp at hb)
        (by intro hr; rw [hnc, hr]; exact newContainer_last_leafSide _ _ _)
      have hnfcov : nf.LeafCover := (leafCover_iff nf).mpr
        ⟨tagsWitnessed_newContainer cfg cid rest.isEmpty tag hs.2.1 (hnc ▸ hnftags), hs.1⟩
      rw [hself1br]
      refine ⟨?_, ?_, ?_⟩
      · intro b1 hb1 d hd
        rcases List.mem_append.mp hb1 with hb1 | hb1
        · exact hcov b1 hb1 d hd
        · rw [List.mem_singleton] at hb1
          subst hb1
          simp only [Branch.descendants_mk, List.mem_singleton] at hd
          rw [hd]; exact hnfcov
      · obtain ⟨l, hl, ht⟩ := hs.2.1
        refine ⟨l, (mem_leaves_iff _ _).mpr
          (Or.inr ⟨Branch.mk cfg [cid] [nf], ?_, nf, ?_, hl⟩), ht⟩
        · rw [hself1br]; exact List.mem_append_right _ (List.mem_singleton.mpr rfl)
        · simp
      · apply hgrow
        intro b1 hb1 d hd
        exact ⟨b1, List.mem_append_left _ hb1, d, hd, Node.LeavesGrow.refl d⟩
    · -- a new container in an existing branch
      have hs := hstep (hnc ▸ treeOk_newContainer _ _ _ _ _)
        (by rw [hnc, newContainer_branches]; intro b hb; simp at hb)
        (by intro hr; rw [hnc, hr]; exact newContainer_last_leafSide _ _ _)
      have hnfcov : nf.LeafCover := (leafCover_iff nf).mpr
        ⟨tagsWitnessed_newContainer cfg cid rest.isEmpty tag hs.2.1 (hnc ▸ hnftags), hs.1⟩
      have hbmem := (getBranch_some hgb).2
      rw [hself1br]
      refine ⟨?_, ?_, ?_⟩
      · intro b1 hb1 d hd
        rcases mem_putBranch hb1 with hb1 | hb1
        · subst hb1
          simp only [Branch.descendants_mk] at hd
          rcases (mem_vectorInsert _ _ _ _).mp hd with hd | hd
          · rw [hd]; exact hnfcov
          · exact hcov b hbmem d hd
        · exact hcov b1 hb1 d hd
      · obtain ⟨l, hl, ht⟩ := hs.2.1
        refine ⟨l, (mem_leaves_iff _ _).mpr (Or.inr ⟨Branch.mk b.getConfig
            (vectorInsert b.descendentIds
              (binsearch.locatePointOfInsert b.descendentIds cid) cid)
            (vectorInsert b.descendants
              (binsearch.locatePointOfInsert b.descendentIds cid) nf), ?_, nf, ?_, hl⟩), ht⟩
        · rw [hself1br]; exact mem_putBranch_self _ hgb
        · simp only [Branch.descendants_mk]
          exact (mem_vectorInsert _ _ _ _).mpr (Or.inl rfl)
      · apply hgrow
        intro b1 hb1 d hd
        rcases mem_putBranch_of_mem
          (Branch.mk b.getConfig
            (vectorInsert b.descendentIds
              (binsearch.locatePointOfInsert b.descendentIds cid) cid)
            (vectorInsert b.descendants
              (binsearch.locatePointOfInsert b.descendentIds cid) nf)) hgb hb1 with h1 | h1
        · exact ⟨b1, h1, d, hd, Node.LeavesGrow.refl d⟩
        · subst h1
          refine ⟨_, mem_putBranch_self _ hgb, d, ?_, Node.LeavesGrow.refl d⟩
          simp only [Branch.descendants_mk]
          exact (mem_vectorInsert _ _ _ _).mpr (Or.inr hd)
    · -- an existing container
      have hbmem := (getBranch_some hgb).2
      have holdmem := List.getElem?_mem hold
      have holdcov := (leafCover_iff old).mp (hcov b hbmem old holdmem)
      have hs := hstep
        (treeOk_of_branches_eq (by rw [Node.branches_setParent, visitExisting_branches hv])
          ((hself2 b hbmem).2 old holdmem))
        (by rw [visitExisting_branches hv]; exact holdcov.2)
        (by
          intro hr
          rw [hr] at hv
          exact visitExisting_last_leafSide hv)
      have hgrowold : old.LeavesGrow nf := (leavesGrow_visitExisting hv).trans hs.2.2
      have hnfcov : nf.LeafCover := by
        refine (leafCover_iff nf).mpr ⟨?_, hs.1⟩
        intro t ht
        rw [hnftags] at ht
        rcases visitExisting_tags hv t ht with rfl | ht
        · exact hs.2.1
        · obtain ⟨l, hl, htl⟩ := holdcov.1 t ht
          obtain ⟨l1, hl1, h1⟩ := hgrowold l hl
          exact ⟨l1, hl1, h1 t htl⟩
      have hloc : loc < b.descendants.length := by
        by_contra hc
        rw [List.getElem?_eq_none (Nat.le_of_not_lt hc)] at hold
        cases hold
      rw [hself1br]
      refine ⟨?_, ?_, ?_⟩
      · intro b1 hb1 d hd
        rcases mem_putBranch hb1 with hb1 | hb1
        · subst hb1
          simp only [Branch.descendants_mk] at hd
          rcases List.mem_or_eq_of_mem_set hd with hd | hd
          · exact hcov b hbmem d hd
          · rw [hd]; exact hnfcov
        · exact hcov b1 hb1 d hd
      · obtain ⟨l, hl, ht⟩ := hs.2.1
        refine ⟨l, (mem_leaves_iff _ _).mpr (Or.inr
          ⟨Branch.mk b.getConfig b.descendentIds (b.descendants.set loc nf), ?_, nf, ?_, hl⟩),
          ht⟩
        · rw [hself1br]; exact mem_putBranch_self _ hgb
        · simp only [Branch.descendants_mk]
          exact mem_set_self _ _ _ hloc
      · apply hgrow
        intro b1 hb1 d hd
        rcases mem_putBranch_of_mem
          (Branch.mk b.getConfig b.descendentIds (b.descendants.set loc nf)) hgb hb1
          with h1 | h1
        · exact ⟨b1, h1, d, hd, Node.LeavesGrow.refl d⟩
        · subst h1
          rcases mem_set_or b1.descendants nf d loc hd with h2 | h2
          · exact ⟨_, mem_putBranch_self _ hgb, d, by simpa using h2, Node.LeavesGrow.refl d⟩
          · rw [hold] at h2
            have : old = d := Option.some.inj h2
            subst this
            exact ⟨_, mem_putBranch_self _ hgb, nf,
              by simpa using mem_set_self _ _ _ hloc, hgrowold⟩

/-- A call of `insertPart` keeps both tree invariants. -/
theorem insertPartFrom_invariants {ds : List LpsDimConfig} {tag : Int} {p : List (List Int)}
    {self self1 : Node} (h : insertPartFrom ds tag p self = some self1)
    (hinv : self.TreeOk ∧ self.LeafCover) : self1.TreeOk ∧ self1.LeafCover := by
  refine ⟨insertPartFrom_treeOk tag p ds self self1 h hinv.1, ?_⟩
  have hc := (leafCover_iff self).mp hinv.2
  have := insertPartFrom_leafCover tag p ds self self1 h hinv.1 hc.2
  refine (leafCover_iff self1).mpr ⟨?_, this.1⟩
  intro t ht
  have hb := (insertPartFrom_frame h).1
  unfold Node.getSegmentTags at ht
  rw [hb] at ht
  obtain ⟨l, hl, htl⟩ := hc.1 t ht
  obtain ⟨l1, hl1, h1⟩ := this.2.2 l hl
  exact ⟨l1, hl1, h1 t htl⟩

theorem leafCover_emptyRoot (id : Int) (config : LpsDimConfig) :
    (emptyRoot id config).LeafCover := by
  intro n hn
  simp only [emptyRoot, BranchingContainer.new, Node.subnodes, subnodesOfBranches,
    List.mem_singleton] at hn
  subst hn
  intro t ht
  simp [Node.getSegmentTags, Node.base, Container.new] at ht

theorem insertAll_invariants {id : Int} {config : LpsDimConfig} {calls : List InsertCall}
    {t : Node} (h : insertAll (emptyRoot id config) calls = some t) :
    t.TreeOk ∧ t.LeafCover :=
  insertAll_induction (fun t => t.TreeOk ∧ t.LeafCover)
    (fun _ _ _ hc ht => insertPartFrom_invariants hc ht) calls _ t h
    ⟨treeOk_emptyRoot id config, leafCover_emptyRoot id config⟩

/-! ## Looking a container up -/

theorem getElem?_vectorInsert_self {α : Type} (vec : List α) (x : α) :
    ∀ (n : Nat), n ≤ vec.length → (vectorInsert vec n x)[n]? = some x := by
  induction vec with
  | nil =>
    intro n hn
    have : n = 0 := by simpa using hn
    subst this
    simp [vectorInsert]
  | cons a t ih =>
    intro n hn
    cases n with
    | zero => simp [vectorInsert_zero]
    | succ m =>
      rw [vectorInsert_succ, List.getElem?_cons_succ]
      exact ih m (by simpa using hn)

theorem Branch.getEntry_of_none {b : Branch} {cid : Int}
    (hk : binsearch.locateKey b.descendentIds cid = none) : b.getEntry cid = some none := by
  simp [Branch.getEntry, Branch.getEntryAt, hk]

theorem Branch.getEntry_of_some {b : Branch} {cid : Int} (loc : Nat) {d : Node}
    (hk : binsearch.locateKey b.descendentIds cid = some loc)
    (hd : b.descendants[loc]? = some d) : b.getEntry cid = some (some d) := by
  simp [Branch.getEntry, Branch.getEntryAt_of hk hd]

/-- A lookup of one position reads the branch of the LPS at the id. -/
theorem getContainerFrom_single {self : Node} {branches : List Branch} {cfg : LpsDimConfig}
    {p : List (List Int)} {cid : Int} (hb : self.getBranches = some branches)
    (hp : partIdEntry p cfg = some cid) :
    getContainerFrom [cfg] p self =
      match getBranch branches cfg.lpsId with
      | none => some none
      | some b => b.getEntry cid := by
  unfold getContainerFrom
  rw [hb, hp]
  simp only
  cases getBranch branches cfg.lpsId with
  | none => rfl
  | some b =>
    simp only
    cases b.getEntry cid with
    | none => rfl
    | some r => cases r <;> rfl

/-- A lookup over several positions is a lookup of the first position followed by the lookup
of the rest in the container found. -/
theorem getContainerFrom_cons_cons (cfg c2 : LpsDimConfig) (r2 : List LpsDimConfig)
    (p : List (List Int)) (self : Node) :
    getContainerFrom (cfg :: c2 :: r2) p self =
      match getContainerFrom [cfg] p self with
      | none => none
      | some none => some none
      | some (some container) => getContainerFrom (c2 :: r2) p container := by
  conv_lhs => unfold getContainerFrom
  conv_rhs => unfold getContainerFrom
  cases self.getBranches with
  | none => rfl
  | some branches =>
    simp only
    cases partIdEntry p cfg with
    | none => rfl
    | some cid =>
      simp only
      cases getBranch branches cfg.lpsId with
      | none => rfl
      | some b =>
        simp only
        cases b.getEntry cid with
        | none => rfl
        | some r => cases r <;> rfl

/-- A lookup reads nothing of its receiver but the branches. -/
theorem getContainerFrom_congr {n m : Node} (h : n.getBranches = m.getBranches)
    (ds : List LpsDimConfig) (p : List (List Int)) :
    getContainerFrom ds p n = getContainerFrom ds p m := by
  cases ds with
  | nil => rfl
  | cons cfg rest =>
    unfold getContainerFrom
    rw [h]

/-- One step of `insertPart`, seen through lookups: the lookup of the coordinate gives NULL
before the call when the container is created, the container that is visited otherwise, and
after the call the container `nf` that the rest of the call leaves. -/
theorem insertPartFrom_lookup {cfg : LpsDimConfig} {rest : List LpsDimConfig} {tag : Int}
    {p : List (List Int)} {self self1 : Node}
    (h : insertPartFrom (cfg :: rest) tag p self = some self1)
    (hok : ∀ b ∈ self.branches, b.Ok) :
    ∃ cid nc nf,
      partIdEntry p cfg = some cid ∧ nf.getId = cid ∧
      ((rest = [] ∧ nf = nc.setParent self.base.ref) ∨
        (rest ≠ [] ∧ insertPartFrom rest tag p (nc.setParent self.base.ref) = some nf)) ∧
      (∀ (cfgq : LpsDimConfig) (pq : List (List Int)), cfgq.lpsId = cfg.lpsId →
        partIdEntry pq cfgq = some cid → getContainerFrom [cfgq] pq self1 = some (some nf)) ∧
      (((∀ (cfgq : LpsDimConfig) (pq : List (List Int)), cfgq.lpsId = cfg.lpsId →
            partIdEntry pq cfgq = some cid → getContainerFrom [cfgq] pq self = some none) ∧
          nc = newContainer cfg cid rest.isEmpty tag) ∨
        (∃ old conv,
          (∀ (cfgq : LpsDimConfig) (pq : List (List Int)), cfgq.lpsId = cfg.lpsId →
            partIdEntry pq cfgq = some cid →
            getContainerFrom [cfgq] pq self = some (some old)) ∧
          (∃ b ∈ self.branches, old ∈ b.descendants) ∧
          old.getId = cid ∧ visitExisting old rest.isEmpty tag = some (nc, conv))) := by
  obtain ⟨branches, cid, nc, nf, hb, hp, hid, hrec, hshape⟩ := insertPartFrom_shape h hok
  have hbr := Node.branches_of_getBranches hb
  refine ⟨cid, nc, nf, hp, hid, hrec, ?_, ?_⟩
  · intro cfgq pq hlps hpq
    rcases hshape with ⟨hgb, hnc, rfl⟩ | ⟨b, hgb, hk, hnc, rfl⟩ |
      ⟨b, loc, old, conv, hgb, hk, hold, hoid, hv, rfl⟩
    · rw [getContainerFrom_single (Node.getBranches_setBranches _ hb) hpq, hlps,
        getBranch_append_of_none _ hgb (by simp)]
      simp only
      exact Branch.getEntry_of_some 0
        (by simp [binsearch.locateKey, binsearch.locateKeyLoop]) (by simp)
    · have hbok := hok b (hbr ▸ (getBranch_some hgb).2)
      have hnew := Branch.ok_insert hbok hk hid
      have hle := binsearch.locatePointOfInsert_le b.descendentIds cid
      have hle2 : binsearch.locatePointOfInsert b.descendentIds cid ≤ b.descendants.length := by
        rw [hbok.2, List.length_map] at hle
        rw [hbok.2]; exact hle
      rw [getContainerFrom_single (Node.getBranches_setBranches _ hb) hpq, hlps,
        getBranch_putBranch hgb (by simpa using (getBranch_some hgb).1)]
      simp only
      apply Branch.getEntry_of_some (binsearch.locatePointOfInsert b.descendentIds cid)
      · apply binsearch.locateKey_of_getD hnew.1
        · simp only [Branch.descendentIds_mk, length_vectorInsert]; omega
        · simp only [Branch.descendentIds_mk]
          rw [List.getD_eq_getElem?_getD, getElem?_vectorInsert_self _ _ _ hle]
          rfl
      · simp only [Branch.descendants_mk]
        exact getElem?_vectorInsert_self _ _ _ hle2
    · have hloc : loc < b.descendants.length := by
        by_contra hc
        rw [List.getElem?_eq_none (Nat.le_of_not_lt hc)] at hold
        cases hold
      rw [getContainerFrom_single (Node.getBranches_setBranches _ hb) hpq, hlps,
        getBranch_putBranch hgb (by simpa using (getBranch_some hgb).1)]
      simp only
      exact Branch.getEntry_of_some loc (by simpa using hk)
        (by simp only [Branch.descendants_mk]; rw [List.getElem?_set_self hloc])
  · rcases hshape with ⟨hgb, hnc, _⟩ | ⟨b, hgb, hk, hnc, _⟩ |
      ⟨b, loc, old, conv, hgb, hk, hold, hoid, hv, _⟩
    · left
      refine ⟨?_, hnc⟩
      intro cfgq pq hlps hpq
      rw [getContainerFrom_single hb hpq, hlps, hgb]
    · left
      refine ⟨?_, hnc⟩
      intro cfgq pq hlps hpq
      rw [getContainerFrom_single hb hpq, hlps, hgb]
      exact Branch.getEntry_of_none hk
    · right
      refine ⟨old, conv, ?_, ⟨b, hbr ▸ (getBranch_some hgb).2, List.getElem?_mem hold⟩, hoid, hv⟩
      intro cfgq pq hlps hpq
      rw [getContainerFrom_single hb hpq, hlps, hgb]
      exact Branch.getEntry_of_some loc hk hold

/-! ## Lookups after a leaf became a hybrid -/

theorem visitExisting_nonlast {old nc : Node} {conv : Bool} {tag : Int}
    (h : visitExisting old false tag = some (nc, conv)) :
    nc.getLeaf = old.leafSide ∧ nc.getId = old.getId ∧ nc.base.config = old.base.config ∧
    (∀ x, x ∈ nc.getSegmentTags ↔ x ∈ old.getSegmentTags ∨ x = tag) ∧
    (∀ bs, old.getBranches = some bs → nc.getBranches = some bs) := by
  rw [visitExisting_eq] at h
  cases old with
  | leaf c =>
    simp only [Option.some.injEq, Prod.mk.injEq] at h
    obtain ⟨rfl, _⟩ := h
    obtain ⟨c1, h1, h2, h3, _, _, h6⟩ := convertLeaf_base c tag
    rw [convertLeaf_eq] at h1
    simp only [Option.some.injEq, Node.hybrid.injEq, and_true] at h1
    rw [h1]
    exact ⟨rfl, h2, h3, h6, by intro bs hbs; simp [Node.getBranches] at hbs⟩
  | intermediate c bs =>
    simp only [Option.some.injEq, Prod.mk.injEq] at h
    obtain ⟨rfl, _⟩ := h
    exact ⟨rfl, Container.addSegmentTag_id c tag, Container.addSegmentTag_config c tag,
      Container.mem_addSegmentTag c tag, fun _ hbs => hbs⟩
  | hybrid c bs l =>
    simp only [Option.some.injEq, Prod.mk.injEq] at h
    obtain ⟨rfl, _⟩ := h
    exact ⟨rfl, Container.addSegmentTag_id c tag, Container.addSegmentTag_config c tag,
      Container.mem_addSegmentTag c tag, fun _ hbs => hbs⟩

theorem Node.eq_hybrid_of_getLeaf {n : Node} {l : Container} (h : n.getLeaf = some l) :
    ∃ bs, n = .hybrid n.base bs l := by
  cases n with
  | leaf c => simp [Node.getLeaf] at h
  | intermediate c bs => simp [Node.getLeaf] at h
  | hybrid c bs lf =>
    simp only [Node.getLeaf, Option.some.injEq] at h
    exact ⟨bs, by rw [h]; rfl⟩

/-- The container an `insertPart` call stores for a visited container at a position that is
not the last keeps the leaf side of the visited container as its leaf half, and its id and
config. -/
theorem insertPartFrom_nonlast_container {old nc nf : Node} {conv : Bool} {tag : Int}
    {rest : List LpsDimConfig} {p : List (List Int)} {pp : ParentPtr}
    (hv : visitExisting old false tag = some (nc, conv))
    (hr : insertPartFrom rest tag p (nc.setParent pp) = some nf) :
    nf.getLeaf = old.leafSide ∧ nf.getId = old.getId ∧ nf.base.config = old.base.config ∧
    (∀ x, x ∈ nf.getSegmentTags ↔ x ∈ old.getSegmentTags ∨ x = tag) := by
  have hf := insertPartFrom_frame hr
  have hn := visitExisting_nonlast hv
  refine ⟨?_, ?_, ?_, ?_⟩
  · rw [hf.2.1, Node.getLeaf_setParent]; exact hn.1
  · unfold Node.getId
    rw [hf.1]
    exact (Node.getId_setParent _ _).trans hn.2.1
  · rw [hf.1]
    simp only [Node.setParent, Node.base_mapBase, Container.setParent]
    exact hn.2.2.1
  · intro x
    have h1 : nf.getSegmentTags = nc.getSegmentTags := by
      unfold Node.getSegmentTags
      rw [hf.1]
      exact Node.getSegmentTags_setParent nc pp
    rw [h1]
    exact hn.2.2.2.1 x

/-- A lookup that ends at a plain leaf, repeated after an `insertPart` call that runs
through the coordinates of the leaf and goes on below it, ends at a hybrid whose leaf half
is that leaf. -/
theorem getContainerFrom_converted_leaf (p p2 : List (List Int)) (s2 : Int) (L : Container)
    (ext : List LpsDimConfig) (hext : ext ≠ []) :
    ∀ (d1 d2 : List LpsDimConfig) (self self2 : Node),
      List.Forall₂ (fun a b => a.lpsId = b.lpsId ∧ partIdEntry p2 a = partIdEntry p b) d2 d1 →
      self.TreeOk → getContainerFrom d1 p self = some (some (.leaf L)) →
      insertPartFrom (d2 ++ ext) s2 p2 self = some self2 →
      ∃ c bs, getContainerFrom d1 p self2 = some (some (.hybrid c bs L)) ∧
        c.id = L.id ∧ c.config = L.config := by
  intro d1
  induction d1 with
  | nil => intro d2 self self2 _ _ hL; simp [getContainerFrom] at hL
  | cons cfg rest ih =>
    intro d2 self self2 hpath hok hL hins
    cases hpath with
    | cons hq hrestpath =>
      rename_i cfg2 rest2
      have hself2 := (treeOk_iff self).mp hok
      rw [List.cons_append] at hins
      obtain ⟨cid, nc, nf, hp2, hid, hrec, hafter, hbefore⟩ :=
        insertPartFrom_lookup hins (fun b hb => (hself2 b hb).1)
      have hpc : partIdEntry p cfg = some cid := by rw [← hq.2]; exact hp2
      have hne : rest2 ++ ext ≠ [] := by
        intro hc
        exact hext (List.append_eq_nil.mp hc).2
      have hempty : (rest2 ++ ext).isEmpty = false := by
        cases hl : rest2 ++ ext with
        | nil => exact absurd hl hne
        | cons a t => rfl
      have hr : insertPartFrom (rest2 ++ ext) s2 p2 (nc.setParent self.base.ref) = some nf := by
        rcases hrec with ⟨hc, _⟩ | ⟨_, hr⟩
        · exact absurd hc hne
        · exact hr
      have hnow := hafter cfg p hq.1.symm hpc
      cases rest with
      | nil =>
        rcases hbefore with ⟨hnone, _⟩ | ⟨old, conv, hsome, _, hoid, hv⟩
        · rw [hnone cfg p hq.1.symm hpc] at hL
          simp at hL
        · rw [hsome cfg p hq.1.symm hpc] at hL
          simp only [Option.some.injEq] at hL
          subst hL
          rw [hempty] at hv
          have hc := insertPartFrom_nonlast_container hv hr
          obtain ⟨bs, hnf⟩ := Node.eq_hybrid_of_getLeaf hc.1
          refine ⟨nf.base, bs, by rw [hnow, ← hnf], hc.2.1, hc.2.2.1⟩
      | cons c2 r2 =>
        rw [getContainerFrom_cons_cons] at hL ⊢
        rcases hbefore with ⟨hnone, _⟩ | ⟨old, conv, hsome, hmem, hoid, hv⟩
        · rw [hnone cfg p hq.1.symm hpc] at hL
          simp at hL
        · rw [hsome cfg p hq.1.symm hpc] at hL
          simp only at hL
          rw [hnow]
          simp only
          rw [hempty] at hv
          obtain ⟨b, hb, hold⟩ := hmem
          have holdok := (hself2 b hb).2 old hold
          have hbs : ∃ bs, old.getBranches = some bs := by
            cases hob : old.getBranches with
            | none =>
              unfold getContainerFrom at hL
              rw [hob] at hL
              simp at hL
            | some bs => exact ⟨bs, rfl⟩
          obtain ⟨bs, hbs⟩ := hbs
          have hncbs := (visitExisting_nonlast hv).2.2.2.2 bs hbs
          have hcongr : (nc.setParent self.base.ref).getBranches = old.getBranches := by
            rw [Node.getBranches_setParent, hncbs, hbs]
          apply ih rest2 (nc.setParent self.base.ref) nf hrestpath
            (treeOk_of_branches_eq
              (by rw [Node.branches_setParent, visitExisting_branches hv]) holdok)
            (by rw [getContainerFrom_congr hcongr]; exact hL) hr

theorem getContainer_zero (self : Node) (p : List (List Int)) (ds : List LpsDimConfig) :
    getContainer self p ds 0 = getContainerFrom ds p self := by
  simp [getContainer]

open Example

theorem Branch.getEntry_none_iff {b : Branch} {cid : Int} (h : b.getEntry cid = some none) :
    b.getEntryAt cid = some none := by
  unfold Branch.getEntry at h
  cases he : b.getEntryAt cid with
  | none => rw [he] at h; simp at h
  | some r =>
    cases r with
    | none => rfl
    | some x => rw [he] at h; simp at h

theorem Branch.getEntry_some_iff {b : Branch} {cid : Int} {old : Node}
    (h : b.getEntry cid = some (some old)) : ∃ loc, b.getEntryAt cid = some (some (loc, old)) := by
  unfold Branch.getEntry at h
  cases he : b.getEntryAt cid with
  | none => rw [he] at h; simp at h
  | some r =>
    cases r with
    | none => rw [he] at h; simp at h
    | some x =>
      obtain ⟨loc, d⟩ := x
      rw [he] at h
      simp only [Option.map_some', Option.some.injEq] at h
      exact ⟨loc, by rw [h]⟩

/-- C1. On the tree built by `insertPart([A, B], 1, [[0], [1]])` the call
`insertPart([A], 2, [[0], [1]])` lands on an existing intermediate container and converts it;
`getContainer([[0], [1]], [A])` then returns the hybrid, whose own tag set is still `[1]`:
`hasSegmentTag(2)` is false on the container returned. -/
theorem getContainer_after_insertPart_lacks_tag :
    insertAll root [{ dimOrder := [configA, configB], segmentTag := 1, partId := partId }]
      = some treeAB ∧
    insertPart treeAB [configA] 2 partId 0 = some treeABthenA ∧
    getContainer treeABthenA partId [configA] 0 = some (some hybridA) ∧
    hybridA.hasSegmentTag 2 = false ∧ hybridA.getSegmentTags = [1] :=
  ⟨rfl, rfl, rfl, rfl, rfl⟩

/-- C2. In every tree built from an empty root by `insertPart` calls, every tag of every
container, so of every container that is not a plain leaf, is carried by a leaf container
reachable from it; the leaf half of a hybrid counts as reachable from the hybrid (and a plain
leaf from itself). -/
theorem tags_carried_by_reachable_leaf (id : Int) (config : LpsDimConfig)
    (calls : List InsertCall) (t n : Node) (tag : Int)
    (hbuilt : insertAll (emptyRoot id config) calls = some t) (hn : n ∈ t.subnodes)
    (htag : tag ∈ n.getSegmentTags) :
    ∃ l ∈ n.leaves, tag ∈ l.segmentTags :=
  (insertAll_invariants hbuilt).2 n hn tag htag

/-- C2 at the intermediate container of a tree built by one call. -/
theorem tags_carried_by_reachable_leaf_witness :
    insertAll (emptyRoot 0 rootConfig)
      [{ dimOrder := [configA, configB], segmentTag := 1, partId := partId }] = some treeAB ∧
    interA ∈ treeAB.subnodes ∧ interA.isLeaf = false ∧ (1 : Int) ∈ interA.getSegmentTags ∧
    ∃ l ∈ interA.leaves, (1 : Int) ∈ l.segmentTags :=
  ⟨rfl, List.Mem.tail _ (List.Mem.head _), rfl, List.Mem.head _,
    tags_carried_by_reachable_leaf 0 rootConfig
      [{ dimOrder := [configA, configB], segmentTag := 1, partId := partId }] treeAB interA 1
      rfl (List.Mem.tail _ (List.Mem.head _)) (List.Mem.head _)⟩

/-- C3. In every tree built from an empty root by `insertPart` calls, every branch has a
strictly ascending id vector (the id at a smaller position is smaller) that holds, position
by position, the ids of its containers; and on such a branch `addEntry`, called as
`insertPart` calls it for an id `getEntry` did not find, and `replaceDescendant`, called for
the id of an entry `getEntry` found, succeed and give a branch with the same two properties. -/
theorem branch_ids_ascending_and_matching (id : Int) (config : LpsDimConfig)
    (calls : List InsertCall) (t n : Node) (b : Branch)
    (hbuilt : insertAll (emptyRoot id config) calls = some t) (hn : n ∈ t.subnodes)
    (hb : b ∈ n.branches) :
    b.descendentIds.Sorted (· < ·) ∧
    (∀ i j, i < j → j < b.descendentIds.length →
      b.descendentIds.getD i 0 < b.descendentIds.getD j 0) ∧
    b.descendentIds = b.descendants.map Node.getId ∧
    (∀ d : Node, b.getEntry d.getId = some none →
      ∃ b1 loc, b.addEntry d = some (b1, loc) ∧ b1.descendentIds.Sorted (· < ·) ∧
        b1.descendentIds = b1.descendants.map Node.getId) ∧
    (∀ d old : Node, b.getEntry d.getId = some (some old) →
      ∃ b1 loc, b.replaceDescendant d = some (b1, loc) ∧ b1.descendentIds.Sorted (· < ·) ∧
        b1.descendentIds = b1.descendants.map Node.getId) := by
  have hok : b.Ok := (insertAll_invariants hbuilt).1 n hn b hb
  refine ⟨hok.1, fun i j hij hj => sorted_getD_lt hok.1 hij hj, hok.2, ?_, ?_⟩
  · intro d hd
    obtain ⟨b1, loc, h1, h2⟩ := Branch.addEntry_ok hok (Branch.getEntry_none_iff hd)
    exact ⟨b1, loc, h1, h2.1, h2.2⟩
  · intro d old hd
    obtain ⟨loc, hloc⟩ := Branch.getEntry_some_iff hd
    obtain ⟨b1, h1, h2, _⟩ := Branch.replaceDescendant_ok hok hloc
    exact ⟨b1, loc, h1, h2.1, h2.2⟩

/-- C3 at the branch of the root of a tree built by one call. -/
theorem branch_ids_ascending_and_matching_witness :
    insertAll (emptyRoot 0 rootConfig)
      [{ dimOrder := [configA, configB], segmentTag := 1, partId := partId }] = some treeAB ∧
    treeAB ∈ treeAB.subnodes ∧ branchA ∈ treeAB.branches ∧
    branchA.descendentIds.Sorted (· < ·) ∧
    branchA.descendentIds = branchA.descendants.map Node.getId :=
  have h := branch_ids_ascending_and_matching 0 rootConfig
    [{ dimOrder := [configA, configB], segmentTag := 1, partId := partId }] treeAB treeAB
    branchA rfl (List.Mem.head _) (List.Mem.head _)
  ⟨rfl, List.Mem.head _, List.Mem.head _, h.1, h.2.2.1⟩

/-- C4. On the tree built by `insertPart([A, B], 1, [[0], [1]])` the call
`insertPart([A], 2, [[0], [1]])` converts the intermediate container 0 of LPS 1 with
`convertIntermediate`; the hybrid in the tree then has tag 2 on its leaf half and not in the
tag set of its intermediate half. -/
theorem convertIntermediate_leaf_tag_not_on_intermediate :
    HybridBranchingContainer.convertIntermediate interA 2 = some hybridA ∧
    insertAll root
      [{ dimOrder := [configA, configB], segmentTag := 1, partId := partId },
       { dimOrder := [configA], segmentTag := 2, partId := partId }] = some treeABthenA ∧
    hybridA ∈ treeABthenA.subnodes ∧
    hybridA.getLeaf.map Container.segmentTags = some [2] ∧
    hybridA.getSegmentTags = [1] ∧ (2 : Int) ∉ hybridA.getSegmentTags :=
  ⟨rfl, rfl, List.Mem.tail _ (List.Mem.head _), rfl, rfl, by decide⟩

/-- C5, as stated, fails: after the leaf inserted under `[A]` was converted by
`insertPart([A, B], 2, ..)`, `getContainer([[0], [1]], [A])` returns the hybrid container,
not the leaf container it returned before. -/
theorem getContainer_returns_hybrid_not_leaf :
    getContainer treeA partId [configA] 0 = some (some (.leaf leafA)) ∧
    insertPart treeA [configA, configB] 2 partId 0 = some treeAthenAB ∧
    getContainer treeAthenAB partId [configA] 0 = some (some hybridOfLeafA) ∧
    getContainer treeAthenAB partId [configA] 0 ≠ some (some (.leaf leafA)) :=
  ⟨rfl, rfl, rfl, fun h => by
    have h1 : some (some hybridOfLeafA) = some (some (Node.leaf leafA)) := h
    simp [hybridOfLeafA] at h1⟩

/-- C5, amended. If in a tree built from an empty root `getContainer(p, d1)` returns a plain
leaf, and a later `insertPart` with a longer dimension order runs through the coordinates of
that leaf (same LPS and same id at each position of `d1`) and goes on below it, then
`getContainer(p, d1)` returns the hybrid container that took the place of the leaf: it has
the id and config of the leaf, and its leaf half is the original leaf, unchanged. -/
theorem getContainer_returns_hybrid_holding_leaf (id : Int) (config : LpsDimConfig)
    (calls : List InsertCall) (t t2 : Node) (d1 d2 ext : List LpsDimConfig)
    (p p2 : List (List Int)) (s2 : Int) (L : Container)
    (hbuilt : insertAll (emptyRoot id config) calls = some t)
    (hleaf : getContainer t p d1 0 = some (some (.leaf L)))
    (hpath : List.Forall₂
      (fun a b => a.lpsId = b.lpsId ∧ partIdEntry p2 a = partIdEntry p b) d2 d1)
    (hext : ext ≠ [])
    (hins : insertPart t (d2 ++ ext) s2 p2 0 = some t2) :
    ∃ c bs, getContainer t2 p d1 0 = some (some (.hybrid c bs L)) ∧
      (Node.hybrid c bs L).getLeaf = some L ∧ c.id = L.id ∧ c.config = L.config := by
  rw [getContainer_zero] at hleaf ⊢
  rw [insertPart_zero] at hins
  obtain ⟨c, bs, h1, h2, h3⟩ := getContainerFrom_converted_leaf p p2 s2 L ext hext d1 d2 t t2
    hpath (insertAll_invariants hbuilt).1 hleaf hins
  exact ⟨c, bs, h1, rfl, h2, h3⟩

/-- C5, amended, at the leaf inserted under `[A]` and converted by a call with `[A, B]`. -/
theorem getContainer_returns_hybrid_holding_leaf_witness :
    insertAll (emptyRoot 0 rootConfig)
      [{ dimOrder := [configA], segmentTag := 1, partId := partId }] = some treeA ∧
    getContainer treeA partId [configA] 0 = some (some (.leaf leafA)) ∧
    insertPart treeA ([configA] ++ [configB]) 2 partId 0 = some treeAthenAB ∧
    ∃ c bs, getContainer treeAthenAB partId [configA] 0 = some (some (.hybrid c bs leafA)) ∧
      (Node.hybrid c bs leafA).getLeaf = some leafA ∧ c.id = leafA.id ∧
      c.config = leafA.config :=
  ⟨rfl, rfl, rfl,
    getContainer_returns_hybrid_holding_leaf 0 rootConfig
      [{ dimOrder := [configA], segmentTag := 1, partId := partId }] treeA treeAthenAB
      [configA] [configA] [configB] partId partId 2 leafA rfl rfl
      (List.Forall₂.cons ⟨rfl, rfl⟩ List.Forall₂.nil) (by simp) rfl⟩

/-- C9, as stated, fails: when `insertPart([A], 3, ..)` reaches its last position at an
existing hybrid, the tag set of the intermediate half changes from `[1, 2]` to
`[1, 2, 3]`. -/
theorem last_position_tags_intermediate_half_of_hybrid :
    getContainer treeAthenAB partId [configA] 0 = some (some hybridOfLeafA) ∧
    insertPart treeAthenAB [configA] 3 partId 0 = some treeAthenABthenA ∧
    getContainer treeAthenABthenA partId [configA] 0 = some (some hybridTagged3) ∧
    hybridOfLeafA.getSegmentTags = [1, 2] ∧ hybridTagged3.getSegmentTags = [1, 2, 3] ∧
    hybridTagged3.getSegmentTags ≠ hybridOfLeafA.getSegmentTags :=
  ⟨rfl, rfl, rfl, rfl, rfl, by decide⟩

/-- C9, amended. Let `insertPart`, at some position of its dimension order, find an existing
container `old` at its coordinate, in a tree built from an empty root. At the last position,
an existing hybrid gets the tag on its leaf half and also on its intermediate half, and an
existing intermediate container becomes a hybrid whose fresh leaf half carries exactly the
tag. At a position that is not the last, the tag is recorded on the intermediate side (the
container stored has the tags of `old` and the tag) and the leaf side of `old` is, unchanged,
the leaf half of the container stored (none when `old` is an intermediate container). -/
theorem insertPart_records_tag_by_position (id : Int) (config : LpsDimConfig)
    (calls : List InsertCall) (t self self1 old : Node) (cfg : LpsDimConfig)
    (rest : List LpsDimConfig) (tag : Int) (p : List (List Int))
    (hbuilt : insertAll (emptyRoot id config) calls = some t) (hself : self ∈ t.subnodes)
    (hold : getContainerFrom [cfg] p self = some (some old))
    (hins : insertPartFrom (cfg :: rest) tag p self = some self1) :
    ∃ new, getContainerFrom [cfg] p self1 = some (some new) ∧
      (rest = [] →
        (∀ c bs l, old = .hybrid c bs l → ∃ c1 l1, new = .hybrid c1 bs l1 ∧
          (∀ x, x ∈ c1.segmentTags ↔ x ∈ c.segmentTags ∨ x = tag) ∧
          (∀ x, x ∈ l1.segmentTags ↔ x ∈ l.segmentTags ∨ x = tag)) ∧
        (∀ c bs, old = .intermediate c bs → ∃ c1 l1, new = .hybrid c1 bs l1 ∧
          l1.segmentTags = [tag])) ∧
      (rest ≠ [] → new.getLeaf = old.leafSide ∧
        ∀ x, x ∈ new.getSegmentTags ↔ x ∈ old.getSegmentTags ∨ x = tag) := by
  have hok := (insertAll_invariants hbuilt).1 self hself
  obtain ⟨cid, nc, nf, hp, hid, hrec, hafter, hbefore⟩ := insertPartFrom_lookup hins hok
  refine ⟨nf, hafter cfg p rfl hp, ?_, ?_⟩
  · intro hr
    subst hr
    rcases hbefore with ⟨hnone, _⟩ | ⟨old1, conv, hsome, _, _, hv⟩
    · rw [hnone cfg p rfl hp] at hold
      simp at hold
    · rw [hsome cfg p rfl hp] at hold
      simp only [Option.some.injEq] at hold
      subst hold
      have hnf : nf = nc.setParent self.base.ref := by
        rcases hrec with ⟨_, h1⟩ | ⟨h1, _⟩
        · exact h1
        · exact absurd rfl h1
      rw [visitExisting_eq] at hv
      constructor
      · intro c bs l hc
        subst hc
        simp only [List.isEmpty_nil, Option.some.injEq, Prod.mk.injEq] at hv
        obtain ⟨rfl, _⟩ := hv
        exact ⟨_, _, hnf, Container.mem_addSegmentTag c tag, Container.mem_addSegmentTag l tag⟩
      · intro c bs hc
        subst hc
        simp only [List.isEmpty_nil, Option.some.injEq, Prod.mk.injEq] at hv
        obtain ⟨rfl, _⟩ := hv
        exact ⟨_, _, hnf, rfl⟩
  · intro hr
    rcases hbefore with ⟨hnone, _⟩ | ⟨old1, conv, hsome, _, _, hv⟩
    · rw [hnone cfg p rfl hp] at hold
      simp at hold
    · rw [hsome cfg p rfl hp] at hold
      simp only [Option.some.injEq] at hold
      subst hold
      have hempty : rest.isEmpty = false := by
        cases rest with
        | nil => exact absurd rfl hr
        | cons a t => rfl
      rw [hempty] at hv
      rcases hrec with ⟨h1, _⟩ | ⟨_, h1⟩
      · exact absurd h1 hr
      · have := insertPartFrom_nonlast_container hv h1
        exact ⟨this.1, this.2.2.2⟩

/-- C9, amended, at a call that ends at an existing hybrid. -/
theorem insertPart_records_tag_by_position_witness :
    insertAll (emptyRoot 0 rootConfig)
      [{ dimOrder := [configA], segmentTag := 1, partId := partId },
       { dimOrder := [configA, configB], segmentTag := 2, partId := partId }]
      = some treeAthenAB ∧
    treeAthenAB ∈ treeAthenAB.subnodes ∧
    getContainerFrom [configA] partId treeAthenAB = some (some hybridOfLeafA) ∧
    insertPartFrom [configA] 3 partId treeAthenAB = some treeAthenABthenA ∧
    ∃ new, getContainerFrom [configA] partId treeAthenABthenA = some (some new) ∧
      (([] : List LpsDimConfig) = [] →
        (∀ c bs l, hybridOfLeafA = .hybrid c bs l → ∃ c1 l1, new = .hybrid c1 bs l1 ∧
          (∀ x, x ∈ c1.segmentTags ↔ x ∈ c.segmentTags ∨ x = 3) ∧
          (∀ x, x ∈ l1.segmentTags ↔ x ∈ l.segmentTags ∨ x = 3)) ∧
        (∀ c bs, hybridOfLeafA = .intermediate c bs → ∃ c1 l1, new = .hybrid c1 bs l1 ∧
          l1.segmentTags = [3])) ∧
      (([] : List LpsDimConfig) ≠ [] → new.getLeaf = hybridOfLeafA.leafSide ∧
        ∀ x, x ∈ new.getSegmentTags ↔ x ∈ hybridOfLeafA.getSegmentTags ∨ x = 3) :=
  ⟨rfl, List.Mem.head _, rfl, rfl,
    insertPart_records_tag_by_position 0 rootConfig
      [{ dimOrder := [configA], segmentTag := 1, partId := partId },
       { dimOrder := [configA, configB], segmentTag := 2, partId := partId }]
      treeAthenAB treeAthenAB treeAthenABthenA hybridOfLeafA configA [] 3 partId
      rfl (List.Mem.head _) rfl rfl⟩

open Example

/-! ## Induction over a container tree -/

mutual
theorem Node.children_induction (P : Node → Prop)
    (h : ∀ n : Node, (∀ b ∈ n.branches, ∀ d ∈ b.descendants, P d) → P n) : ∀ n : Node, P n
  | .leaf c => h (.leaf c) (by intro b hb; simp [Node.branches, Node.getBranches] at hb)
  | .intermediate c bs => h (.intermediate c bs) (by
      have := Node.children_induction_branches P h bs
      simpa [Node.branches, Node.getBranches] using this)
  | .hybrid c bs l => h (.hybrid c bs l) (by
      have := Node.children_induction_branches P h bs
      simpa [Node.branches, Node.getBranches] using this)
theorem Node.children_induction_branches (P : Node → Prop)
    (h : ∀ n : Node, (∀ b ∈ n.branches, ∀ d ∈ b.descendants, P d) → P n) :
    ∀ bs : List Branch, ∀ b ∈ bs, ∀ d ∈ b.descendants, P d
  | [] => by intro b hb; simp at hb
  | b :: bs => by
      intro b1 hb1
      rcases List.mem_cons.mp hb1 with rfl | hb1
      · exact Node.children_induction_branch P h b1
      · exact Node.children_induction_branches P h bs b1 hb1
theorem Node.children_induction_branch (P : Node → Prop)
    (h : ∀ n : Node, (∀ b ∈ n.branches, ∀ d ∈ b.descendants, P d) → P n) :
    ∀ b : Branch, ∀ d ∈ b.descendants, P d
  | .mk _ _ ds => by
      have := Node.children_induction_nodes P h ds
      simpa using this
theorem Node.children_induction_nodes (P : Node → Prop)
    (h : ∀ n : Node, (∀ b ∈ n.branches, ∀ d ∈ b.descendants, P d) → P n) :
    ∀ ds : List Node, ∀ d ∈ ds, P d
  | [] => by intro d hd; simp at hd
  | d :: ds => by
      intro d1 hd1
      rcases List.mem_cons.mp hd1 with rfl | hd1
      · exact Node.children_induction P h d1
      · exact Node.children_induction_nodes P h ds d1 hd1
end

/-! ## Folds -/

mutual
theorem PartFolding.same_iff : ∀ a b : PartFolding, PartFolding.same a b = true ↔ a = b
  | .mk r1 d1 l1 ds1, .mk r2 d2 l2 ds2 => by
      have := PartFolding.sameList_iff ds1 ds2
      simp only [PartFolding.same, Bool.and_eq_true, decide_eq_true_eq, this,
        PartFolding.mk.injEq]
      tauto
theorem PartFolding.sameList_iff :
    ∀ as bs : List PartFolding, PartFolding.sameList as bs = true ↔ as = bs
  | [], [] => by simp [PartFolding.sameList]
  | [], _ :: _ => by simp [PartFolding.sameList]
  | _ :: _, [] => by simp [PartFolding.sameList]
  | a :: as, b :: bs => by
      have h1 := PartFolding.same_iff a b
      have h2 := PartFolding.sameList_iff as bs
      simp only [PartFolding.sameList, Bool.and_eq_true, h1, h2, List.cons.injEq]
end

theorem PartFolding.isEqualInContent_iff (f other : PartFolding) :
    f.isEqualInContent other = true ↔ f.getDescendants = other.getDescendants :=
  PartFolding.sameList_iff _ _

theorem coalesceOrAppend_nil (containerId : Int) (foldElement : PartFolding) :
    coalesceOrAppend [] containerId foldElement = [foldElement] := rfl

theorem coalesceOrAppend_append (init : List PartFolding) (prev : PartFolding)
    (containerId : Int) (foldElement : PartFolding) :
    coalesceOrAppend (init ++ [prev]) containerId foldElement =
      if prev.getIdRange.max = containerId - 1
          ∧ foldElement.isEqualInContent prev = true then
        init ++ [prev.coalesce { min := containerId, max := containerId }]
      else init ++ [prev, foldElement] := by
  unfold coalesceOrAppend
  rw [List.getLast?_append, List.dropLast_concat]
  simp only [List.getLast?_singleton, Option.or]
  split <;> simp

theorem coalesceOrAppend_merge (init : List PartFolding) (prev : PartFolding)
    (containerId : Int) (foldElement : PartFolding)
    (hnext : prev.getIdRange.max = containerId - 1)
    (hsame : foldElement.getDescendants = prev.getDescendants) :
    coalesceOrAppend (init ++ [prev]) containerId foldElement =
      init ++ [prev.coalesce { min := containerId, max := containerId }] := by
  rw [coalesceOrAppend_append, if_pos ⟨hnext, (PartFolding.isEqualInContent_iff _ _).mpr hsame⟩]

theorem coalesceOrAppend_separate (init : List PartFolding) (prev : PartFolding)
    (containerId : Int) (foldElement : PartFolding)
    (h : ¬ (prev.getIdRange.max = containerId - 1
          ∧ foldElement.getDescendants = prev.getDescendants)) :
    coalesceOrAppend (init ++ [prev]) containerId foldElement =
      init ++ [prev, foldElement] := by
  rw [coalesceOrAppend_append, if_neg]
  rw [PartFolding.isEqualInContent_iff]
  exact h

theorem PartFolding.coalesce_next (f : PartFolding) (containerId : Int)
    (hvalid : f.getIdRange.min ≤ f.getIdRange.max)
    (hnext : f.getIdRange.max = containerId - 1) :
    f.coalesce { min := containerId, max := containerId } =
      .mk { min := f.getIdRange.min, max := containerId } f.getDimNo f.getLevel
        f.getDescendants := by
  cases f with
  | mk r d l ds =>
    simp only [PartFolding.getIdRange] at hvalid hnext
    simp only [PartFolding.coalesce, PartFolding.getIdRange, PartFolding.getDimNo,
      PartFolding.getLevel, PartFolding.getDescendants, PartFolding.mk.injEq, Range.mk.injEq,
      and_true]
    constructor
    · exact min_eq_left (by omega)
    · exact max_eq_right (by omega)

open Example

/-! ## Coalescing of sibling folds -/

theorem foldContainerBranches_eq (segmentTag : Int) (dimOrder : List LpsDimConfig)
    (position : Nat) (fold : List PartFolding) (bs : List Branch) :
    foldContainerBranches segmentTag dimOrder position fold bs =
      match dimOrder.get? position with
      | none => none
      | some nextConfig =>
        match getBranch bs nextConfig.lpsId with
        | none => some fold
        | some b => foldContainerLoop segmentTag dimOrder position nextConfig fold b.descendants := by
  induction bs with
  | nil => unfold foldContainerBranches; cases dimOrder.get? position <;> simp [getBranch]
  | cons b bs ih =>
    unfold foldContainerBranches
    cases h : dimOrder.get? position with
    | none => simp
    | some nextConfig =>
      simp only [getBranch]
      by_cases hb : b.getConfig.lpsId = nextConfig.lpsId
      · simp only [hb, if_true]
        cases b with
        | mk cfg ids ds => simp [Branch.foldContainers, Branch.descendants]
      · simp only [hb, if_false]
        rw [ih, h]

theorem foldContainerLoop_leaf (segmentTag : Int) (dimOrder : List LpsDimConfig)
    (position : Nat) (nextConfig : LpsDimConfig) (fold : List PartFolding) (c : Container)
    (rest : List Node) (hlast : ¬ position + 1 < dimOrder.length - 1)
    (htag : c.hasSegmentTag segmentTag = true) :
    foldContainerLoop segmentTag dimOrder position nextConfig fold (.leaf c :: rest) =
      foldContainerLoop segmentTag dimOrder position nextConfig
        (coalesceOrAppend fold c.id (PartFolding.new c.id c.config.dimNo c.config.level))
        rest := by
  rw [foldContainerLoop]
  simp [Node.hasSegmentTag, Node.base, htag, hlast, Node.getLeaf, Node.foldContainerForSegment,
    Container.foldContainerForSegment, Node.getId]

theorem foldContainerLoop_sub (segmentTag : Int) (dimOrder : List LpsDimConfig)
    (position : Nat) (nextConfig : LpsDimConfig) (fold : List PartFolding) (container : Node)
    (rest : List Node) (d : PartFolding) (ds : List PartFolding)
    (hdeep : position + 1 < dimOrder.length - 1)
    (htag : container.hasSegmentTag segmentTag = true)
    (hsub : Node.foldContainer segmentTag dimOrder (position + 1) container = some (d :: ds)) :
    foldContainerLoop segmentTag dimOrder position nextConfig fold (container :: rest) =
      foldContainerLoop segmentTag dimOrder position nextConfig
        (coalesceOrAppend fold container.getId
          (.mk { min := container.getId, max := container.getId } nextConfig.dimNo
            nextConfig.level (d :: ds)))
        rest := by
  rw [foldContainerLoop]
  simp [htag, hdeep, hsub, PartFolding.new, PartFolding.setDescendants]

/-- The loop of `foldContainer` over the descendants of a branch is the loop over the list
`getContainersForSegment` returns. -/
theorem foldContainerLoop_getContainersForSegment (segmentTag : Int)
    (dimOrder : List LpsDimConfig) (position : Nat) (nextConfig : LpsDimConfig) :
    ∀ (ds : List Node) (fold : List PartFolding),
      foldContainerLoop segmentTag dimOrder position nextConfig fold ds =
        foldContainerLoop segmentTag dimOrder position nextConfig fold
          (ds.filter (fun container => container.hasSegmentTag segmentTag)) := by
  have hstep : ∀ (d : Node) (rest rest1 : List Node) (fold : List PartFolding),
      d.hasSegmentTag segmentTag = true →
      (∀ fold1, foldContainerLoop segmentTag dimOrder position nextConfig fold1 rest =
        foldContainerLoop segmentTag dimOrder position nextConfig fold1 rest1) →
      foldContainerLoop segmentTag dimOrder position nextConfig fold (d :: rest) =
        foldContainerLoop segmentTag dimOrder position nextConfig fold (d :: rest1) := by
    intro d rest rest1 fold htag h
    rw [foldContainerLoop, foldContainerLoop]
    simp only [htag, Bool.not_true, Bool.false_eq_true, if_false]
    split
    · split
      · rfl
      · exact h _
      · exact h _
    · split
      · split
        · exact h _
        · exact h _
      · split
        · rfl
        · exact h _
        · exact h _
  intro ds
  induction ds with
  | nil => intro fold; rfl
  | cons d ds ih =>
    intro fold
    cases htag : d.hasSegmentTag segmentTag with
    | false =>
      rw [foldContainerLoop]
      simp only [htag, Bool.not_false, if_true, List.filter_cons, Bool.false_eq_true, if_false]
      exact ih fold
    | true =>
      simp only [List.filter_cons, htag, if_true]
      exact hstep d ds _ fold htag ih

theorem Branch.foldContainers_getContainersForSegment (segmentTag : Int)
    (dimOrder : List LpsDimConfig) (position : Nat) (nextConfig : LpsDimConfig)
    (fold : List PartFolding) (b : Branch) :
    Branch.foldContainers segmentTag dimOrder position nextConfig fold b =
      foldContainerLoop segmentTag dimOrder position nextConfig fold
        (b.getContainersForSegment segmentTag) := by
  cases b with
  | mk cfg ids ds =>
    rw [Branch.foldContainers, foldContainerLoop_getContainersForSegment]
    rfl

/-- C11. While `foldContainer` builds the list of sibling folds, every fold element of a
container goes through the coalescing step: with no previous fold it is appended; it is merged
into the previous fold, whose id range is extended by the id of the container, exactly when
that id is the maximum of the previous range plus one and the element is equal in content to
the previous fold; otherwise it is appended as a new fold. Hence sibling ids `k`, `k + 1` with
equal descendants give one fold with range `(k, k + 1)`, with differing descendants two folds,
and ids that are not contiguous give separate folds, as the folds of built trees show. -/
theorem foldContainer_coalesces_contiguous_equal_siblings :
    (∀ (segmentTag : Int) (dimOrder : List LpsDimConfig) (position : Nat)
        (nextConfig : LpsDimConfig) (fold : List PartFolding) (c : Container)
        (rest : List Node),
        ¬ position + 1 < dimOrder.length - 1 → c.hasSegmentTag segmentTag = true →
        foldContainerLoop segmentTag dimOrder position nextConfig fold (.leaf c :: rest) =
          foldContainerLoop segmentTag dimOrder position nextConfig
            (coalesceOrAppend fold c.id (PartFolding.new c.id c.config.dimNo c.config.level))
            rest) ∧
    (∀ (segmentTag : Int) (dimOrder : List LpsDimConfig) (position : Nat)
        (nextConfig : LpsDimConfig) (fold : List PartFolding) (container : Node)
        (rest : List Node) (d : PartFolding) (ds : List PartFolding),
        position + 1 < dimOrder.length - 1 → container.hasSegmentTag segmentTag = true →
        Node.foldContainer segmentTag dimOrder (position + 1) container = some (d :: ds) →
        foldContainerLoop segmentTag dimOrder position nextConfig fold (container :: rest) =
          foldContainerLoop segmentTag dimOrder position nextConfig
            (coalesceOrAppend fold container.getId
              (.mk { min := container.getId, max := container.getId } nextConfig.dimNo
                nextConfig.level (d :: ds)))
            rest) ∧
    (∀ (containerId : Int) (foldElement : PartFolding),
        coalesceOrAppend [] containerId foldElement = [foldElement]) ∧
    (∀ (init : List PartFolding) (prev : PartFolding) (containerId : Int)
        (foldElement : PartFolding),
        (containerId = prev.getIdRange.max + 1
            ∧ foldElement.getDescendants = prev.getDescendants →
          coalesceOrAppend (init ++ [prev]) containerId foldElement =
            init ++ [prev.coalesce { min := containerId, max := containerId }]) ∧
        (¬ (containerId = prev.getIdRange.max + 1
            ∧ foldElement.getDescendants = prev.getDescendants) →
          coalesceOrAppend (init ++ [prev]) containerId foldElement =
            init ++ [prev, foldElement])) ∧
    (∀ (prev : PartFolding) (containerId : Int),
        prev.getIdRange.min ≤ prev.getIdRange.max → containerId = prev.getIdRange.max + 1 →
        prev.coalesce { min := containerId, max := containerId } =
          .mk { min := prev.getIdRange.min, max := containerId } prev.getDimNo prev.getLevel
            prev.getDescendants) ∧
    (∀ (k j d1 l1 d2 l2 : Int) (ds1 ds2 : List PartFolding),
        (j = k + 1 → ds2 = ds1 →
          coalesceOrAppend (coalesceOrAppend [] k (.mk { min := k, max := k } d1 l1 ds1)) j
              (.mk { min := j, max := j } d2 l2 ds2) =
            [.mk { min := k, max := k + 1 } d1 l1 ds1]) ∧
        (ds2 ≠ ds1 →
          coalesceOrAppend (coalesceOrAppend [] k (.mk { min := k, max := k } d1 l1 ds1)) j
              (.mk { min := j, max := j } d2 l2 ds2) =
            [.mk { min := k, max := k } d1 l1 ds1, .mk { min := j, max := j } d2 l2 ds2]) ∧
        (j ≠ k + 1 →
          coalesceOrAppend (coalesceOrAppend [] k (.mk { min := k, max := k } d1 l1 ds1)) j
              (.mk { min := j, max := j } d2 l2 ds2) =
            [.mk { min := k, max := k } d1 l1 ds1, .mk { min := j, max := j } d2 l2 ds2])) ∧
    foldAfter root [insertABC 1 0 1 2, insertABC 1 0 2 2] [[0]] [configA] 1 orderABC false
      = some (some (chain 0 0 [.mk { min := 1, max := 2 } 0 1 [chain 2 2 []]])) ∧
    foldAfter root [insertABC 1 0 1 2, insertABC 1 0 2 3] [[0]] [configA] 1 orderABC false
      = some (some (chain 0 0 [chain 1 1 [chain 2 2 []], chain 2 1 [chain 3 2 []]])) ∧
    foldAfter root [insertABC 1 0 1 2, insertABC 1 0 3 2] [[0]] [configA] 1 orderABC false
      = some (some (chain 0 0 [chain 1 1 [chain 2 2 []], chain 3 1 [chain 2 2 []]])) := by
  refine ⟨foldContainerLoop_leaf, foldContainerLoop_sub, coalesceOrAppend_nil, ?_, ?_, ?_,
    by rfl, by rfl, by rfl⟩
  · intro init prev containerId foldElement
    constructor
    · rintro ⟨h1, h2⟩
      exact coalesceOrAppend_merge init prev containerId foldElement (by omega) h2
    · intro h
      apply coalesceOrAppend_separate
      intro h1
      exact h ⟨by omega, h1.2⟩
  · intro prev containerId hvalid hnext
    exact PartFolding.coalesce_next prev containerId hvalid (by omega)
  · intro k j d1 l1 d2 l2 ds1 ds2
    rw [coalesceOrAppend_nil]
    refine ⟨?_, ?_, ?_⟩
    · intro hj hds
      subst hj hds
      have h := coalesceOrAppend_merge [] (.mk { min := k, max := k } d1 l1 ds2) (k + 1)
        (.mk { min := k + 1, max := k + 1 } d2 l2 ds2)
        (by simp [PartFolding.getIdRange]) (by simp [PartFolding.getDescendants])
      rw [List.nil_append] at h
      rw [h, PartFolding.coalesce_next _ _ (by simp [PartFolding.getIdRange])
        (by simp [PartFolding.getIdRange])]
      simp [PartFolding.getIdRange, PartFolding.getDimNo, PartFolding.getLevel,
        PartFolding.getDescendants]
    · intro hds
      have h := coalesceOrAppend_separate [] (.mk { min := k, max := k } d1 l1 ds1) j
        (.mk { min := j, max := j } d2 l2 ds2)
        (by simp [PartFolding.getDescendants, hds])
      simpa using h
    · intro hj
      have h := coalesceOrAppend_separate [] (.mk { min := k, max := k } d1 l1 ds1) j
        (.mk { min := j, max := j } d2 l2 ds2)
        (by
          simp only [PartFolding.getIdRange, not_and]
          intro h1
          omega)
      simpa using h

/-! ## Part ids -/

/-- C15. The leaf inserted by `insertPart([A, B], 1, [[0], [1]])` holds coordinate 0 in LPS 1
and coordinate 1 in LPS 2, yet `getPartId(1)` on it returns the array of LPS 2 alone: the
array under construction when the walk reaches the root is never inserted. A leaf whose path
runs through one LPS gets the empty vector. `getCurrentLevelPartId(1)` gives the coordinate of
the LPS of the leaf in both cases. -/
theorem getPartId_loses_topmost_lps :
    insertAll root [{ dimOrder := [configA, configB], segmentTag := 1, partId := partId }]
      = some treeAB ∧
    getContainer treeAB partId [configA, configB] 0 = some (some leafB1) ∧
    leafB1.base.getPartId 1 = some [[some 1]] ∧
    leafB1.base.getPartId 1 ≠ some [[some 0], [some 1]] ∧
    insertAll root [{ dimOrder := [configA], segmentTag := 1, partId := partId }]
      = some treeA ∧
    getContainer treeA partId [configA] 0 = some (some (.leaf leafA)) ∧
    leafA.getPartId 1 = some [] ∧
    leafB1.base.getCurrentLevelPartId 1 = some [some 1] ∧
    leafA.getCurrentLevelPartId 1 = some [some 0] := by
  refine ⟨by rfl, by rfl, by rfl, by decide, by rfl, by rfl, by rfl, by rfl, by rfl⟩

open Example

/-! ## Parent pointers, branch LPSes and levels of built trees -/

theorem wellFormed_iff (t : Node) :
    t.WellFormed ↔ t.LocalOk ∧ ∀ b ∈ t.branches, ∀ d ∈ b.descendants, d.WellFormed := by
  unfold Node.WellFormed
  constructor
  · intro h
    refine ⟨h t (mem_subnodes_self t), ?_⟩
    intro b hb d hd n hn
    exact h n ((mem_subnodes_iff n t).mpr (Or.inr ⟨b, hb, d, hd, hn⟩))
  · intro h n hn
    rcases (mem_subnodes_iff n t).mp hn with rfl | ⟨b, hb, d, hd, hnd⟩
    · exact h.1
    · exact h.2 b hb d hd n hnd

theorem wellFormed_of_branches_nil {n : Node} (h : n.branches = [])
    (hl : n.getLeaf = none) : n.WellFormed := by
  rw [wellFormed_iff, Node.LocalOk, h]
  refine ⟨⟨?_, ?_⟩, ?_⟩
  · intro b hb; simp at hb
  · intro l hl1; rw [hl] at hl1; cases hl1
  · intro b hb; simp at hb

theorem newContainer_base (cfg : LpsDimConfig) (cid : Int) (last : Bool) (tag : Int) :
    (newContainer cfg cid last tag).base.id = cid ∧
    (newContainer cfg cid last tag).base.config = cfg ∧
    (newContainer cfg cid last tag).getLeaf = none := by
  cases last <;>
    simp [newContainer, BranchingContainer.new, Node.addSegmentTag, Node.mapBase, Node.base,
      Node.getLeaf, Container.addSegmentTag_id, Container.addSegmentTag_config, Container.new]

theorem Node.base_setParent (n : Node) (pp : ParentPtr) :
    (n.setParent pp).base.id = n.base.id ∧ (n.setParent pp).base.config = n.base.config ∧
    (n.setParent pp).base.parent = pp ∧
    (n.setParent pp).base.segmentTags = n.base.segmentTags := by
  cases n <;> simp [Node.setParent, Node.mapBase, Node.base, Container.setParent]

theorem wellFormed_newContainer (cfg : LpsDimConfig) (cid : Int) (last : Bool) (tag : Int)
    (pp : ParentPtr) : ((newContainer cfg cid last tag).setParent pp).WellFormed :=
  wellFormed_of_branches_nil (by rw [Node.branches_setParent, newContainer_branches])
    (by rw [Node.getLeaf_setParent, (newContainer_base _ _ _ _).2.2])

theorem visitExisting_base {old nc : Node} {last conv : Bool} {tag : Int}
    (h : visitExisting old last tag = some (nc, conv)) :
    nc.base.id = old.base.id ∧ nc.base.config = old.base.config := by
  rw [visitExisting_eq] at h
  cases old <;> cases last <;> simp only [Option.some.injEq, Prod.mk.injEq] at h <;>
    obtain ⟨rfl, _⟩ := h <;>
    simp [Node.base, Container.addSegmentTag_id, Container.addSegmentTag_config,
      (Container.addAllSegmentTags_frame _ _).1, (Container.addAllSegmentTags_frame _ _).2.1,
      Container.new]

theorem visitExisting_leafOk {old nc : Node} {last conv : Bool} {tag : Int}
    (h : visitExisting old last tag = some (nc, conv))
    (hold : ∀ l, old.getLeaf = some l →
      l.id = old.base.id ∧ l.config = old.base.config ∧ l.parent = old.base.parent) :
    ∀ l, nc.getLeaf = some l →
      l.id = old.base.id ∧ l.config = old.base.config ∧ l.parent = old.base.parent := by
  rw [visitExisting_eq] at h
  cases old <;> cases last <;> simp only [Option.some.injEq, Prod.mk.injEq] at h <;>
    obtain ⟨rfl, _⟩ := h <;> intro l hl <;>
    simp only [Node.getLeaf, Option.some.injEq] at hl <;> try (cases hl)
  all_goals first
    | (simp [Node.base]; done)
    | (have hleaf := hold _ rfl
       simpa [Node.base, Node.getLeaf, Container.addSegmentTag_id,
         Container.addSegmentTag_config, Container.addSegmentTag_parent] using hleaf)

theorem partIdEntry_level {p : List (List Int)} {cfg : LpsDimConfig} {cid : Int}
    (h : partIdEntry p cfg = some cid) : 0 ≤ cfg.level := by
  unfold partIdEntry at h
  by_cases hc : cfg.level < 0 ∨ cfg.dimNo < 0
  · simp [hc] at h
  · push_neg at hc
    exact hc.1

theorem wellFormed_visitExisting {old nc : Node} {last conv : Bool} {tag : Int}
    (h : visitExisting old last tag = some (nc, conv)) (hold : old.WellFormed) :
    (nc.setParent old.base.parent).WellFormed := by
  rw [wellFormed_iff] at hold ⊢
  obtain ⟨hid, hcfg⟩ := visitExisting_base h
  obtain ⟨hpid, hpcfg, hpp, -⟩ := Node.base_setParent nc old.base.parent
  have href : (nc.setParent old.base.parent).base.ref = old.base.ref := by
    simp [Container.ref, hpid, hpcfg, hpp, hid, hcfg]
  refine ⟨⟨?_, ?_⟩, ?_⟩
  · rw [Node.branches_setParent, visitExisting_branches h, href]
    exact hold.1.1
  · rw [Node.getLeaf_setParent, hpid, hpcfg, hpp, hid, hcfg]
    exact visitExisting_leafOk h hold.1.2
  · rw [Node.branches_setParent, visitExisting_branches h]
    exact hold.2

/-- A call of `insertPart` keeps parent pointers, branch LPSes and levels in order. -/
theorem insertPartFrom_wellFormed (tag : Int) (p : List (List Int)) :
    ∀ (ds : List LpsDimConfig) (self self1 : Node),
      insertPartFrom ds tag p self = some self1 → self.TreeOk → self.WellFormed →
      self1.WellFormed := by
  intro ds
  induction ds with
  | nil => intro self self1 h; simp [insertPartFrom] at h
  | cons cfg rest ih =>
    intro self self1 h hok hself
    have hok2 := (treeOk_iff self).mp hok
    have hself2 := (wellFormed_iff self).mp hself
    unfold Node.LocalOk at hself2
    obtain ⟨branches, cid, nc, nf, hb, hp, hid, hrec, hshape⟩ :=
      insertPartFrom_shape h (fun b hb => (hok2 b hb).1)
    have hbr := Node.branches_of_getBranches hb
    rw [hbr] at hself2 hok2
    have hlevel := partIdEntry_level hp
    have hbase1 : self1.base = self.base := (insertPartFrom_frame h).1
    have hleaf1 : self1.getLeaf = self.getLeaf := (insertPartFrom_frame h).2.1
    -- the container stored keeps the invariant and its base
    have hnf : (nc.setParent self.base.ref).TreeOk → (nc.setParent self.base.ref).WellFormed →
        nf.WellFormed ∧ nf.base = (nc.setParent self.base.ref).base := by
      intro hnc1 hnc2
      rcases hrec with ⟨_, rfl⟩ | ⟨_, hr⟩
      · exact ⟨hnc2, rfl⟩
      · exact ⟨ih _ _ hr hnc1 hnc2, (insertPartFrom_frame hr).1⟩
    obtain ⟨hpid, hpcfg, hpp, -⟩ := Node.base_setParent nc self.base.ref
    rw [wellFormed_iff]
    unfold Node.LocalOk
    have hleafOk : ∀ l, self1.getLeaf = some l →
        l.id = self1.base.id ∧ l.config = self1.base.config ∧ l.parent = self1.base.parent := by
      rw [hleaf1, hbase1]; exact hself2.1.2
    rcases hshape with ⟨hgb, hnc, rfl⟩ | ⟨b, hgb, hk, hnc, rfl⟩ |
      ⟨b, loc, old, conv, hgb, hk, hold, hoid, hv, rfl⟩
    · rw [Node.branches_of_getBranches (Node.getBranches_setBranches _ hb)]
      obtain ⟨hnfok, hnfbase⟩ := hnf (hnc ▸ treeOk_newContainer _ _ _ _ _)
        (hnc ▸ wellFormed_newContainer _ _ _ _ _)
      have hchild : nf.base.parent = self.base.ref ∧ nf.base.config.lpsId = cfg.lpsId
          ∧ 0 ≤ nf.base.config.level := by
        rw [hnfbase, hpp, hpcfg, hnc, (newContainer_base _ _ _ _).2.1]
        exact ⟨rfl, rfl, hlevel⟩
      refine ⟨⟨?_, hleafOk⟩, ?_⟩
      · intro b1 hb1 d hd
        rw [hbase1]
        rcases List.mem_append.mp hb1 with hb1 | hb1
        · exact hself2.1.1 b1 hb1 d hd
        · rw [List.mem_singleton] at hb1
          subst hb1
          simp only [Branch.descendants_mk, List.mem_singleton] at hd
          subst hd
          exact hchild
      · intro b1 hb1 d hd
        rcases List.mem_append.mp hb1 with hb1 | hb1
        · exact hself2.2 b1 hb1 d hd
        · rw [List.mem_singleton] at hb1
          subst hb1
          simp only [Branch.descendants_mk, List.mem_singleton] at hd
          subst hd
          exact hnfok
    · rw [Node.branches_of_getBranches (Node.getBranches_setBranches _ hb)]
      obtain ⟨hnfok, hnfbase⟩ := hnf (hnc ▸ treeOk_newContainer _ _ _ _ _)
        (hnc ▸ wellFormed_newContainer _ _ _ _ _)
      obtain ⟨hblps, hbmem⟩ := getBranch_some hgb
      have hchild : nf.base.parent = self.base.ref ∧ nf.base.config.lpsId = b.getConfig.lpsId
          ∧ 0 ≤ nf.base.config.level := by
        rw [hnfbase, hpp, hpcfg, hnc, (newContainer_base _ _ _ _).2.1]
        exact ⟨rfl, hblps.symm, hlevel⟩
      refine ⟨⟨?_, hleafOk⟩, ?_⟩
      · intro b1 hb1 d hd
        rw [hbase1]
        rcases mem_putBranch hb1 with hb1 | hb1
        · subst hb1
          simp only [Branch.descendants_mk] at hd
          rcases (mem_vectorInsert _ _ _ _).mp hd with hd | hd
          · subst hd; exact hchild
          · exact hself2.1.1 b hbmem d hd
        · exact hself2.1.1 b1 hb1 d hd
      · intro b1 hb1 d hd
        rcases mem_putBranch hb1 with hb1 | hb1
        · subst hb1
          simp only [Branch.descendants_mk] at hd
          rcases (mem_vectorInsert _ _ _ _).mp hd with hd | hd
          · subst hd; exact hnfok
          · exact hself2.2 b hbmem d hd
        · exact hself2.2 b1 hb1 d hd
    · rw [Node.branches_of_getBranches (Node.getBranches_setBranches _ hb)]
      obtain ⟨hblps, hbmem⟩ := getBranch_some hgb
      have holdmem : old ∈ b.descendants := List.getElem?_mem hold
      have holdok := (hok2 b hbmem).2 old holdmem
      have holdwf := hself2.2 b hbmem old holdmem
      obtain ⟨holdp, holdlps, holdlevel⟩ := hself2.1.1 b hbmem old holdmem
      obtain ⟨hvid, hvcfg⟩ := visitExisting_base hv
      have hwf := wellFormed_visitExisting hv holdwf
      rw [holdp] at hwf
      obtain ⟨hnfok, hnfbase⟩ := hnf (treeOk_of_branches_eq
        (by rw [Node.branches_setParent, visitExisting_branches hv]) holdok) hwf
      have hchild : nf.base.parent = self.base.ref ∧ nf.base.config.lpsId = b.getConfig.lpsId
          ∧ 0 ≤ nf.base.config.level := by
        rw [hnfbase, hpp, hpcfg, hvcfg]
        exact ⟨rfl, holdlps, holdlevel⟩
      refine ⟨⟨?_, hleafOk⟩, ?_⟩
      · intro b1 hb1 d hd
        rw [hbase1]
        rcases mem_putBranch hb1 with hb1 | hb1
        · subst hb1
          simp only [Branch.descendants_mk] at hd
          rcases List.mem_or_eq_of_mem_set hd with hd | hd
          · exact hself2.1.1 b hbmem d hd
          · subst hd; exact hchild
        · exact hself2.1.1 b1 hb1 d hd
      · intro b1 hb1 d hd
        rcases mem_putBranch hb1 with hb1 | hb1
        · subst hb1
          simp only [Branch.descendants_mk] at hd
          rcases List.mem_or_eq_of_mem_set hd with hd | hd
          · exact hself2.2 b hbmem d hd
          · subst hd; exact hnfok
        · exact hself2.2 b1 hb1 d hd

theorem wellFormed_emptyRoot (id : Int) (config : LpsDimConfig) :
    (emptyRoot id config).WellFormed :=
  wellFormed_of_branches_nil rfl rfl

theorem insertAll_wellFormed {id : Int} {config : LpsDimConfig} {calls : List InsertCall}
    {t : Node} (h : insertAll (emptyRoot id config) calls = some t) :
    t.TreeOk ∧ t.WellFormed :=
  insertAll_induction (fun t => t.TreeOk ∧ t.WellFormed)
    (fun _ _ _ hc ht => ⟨insertPartFrom_treeOk _ _ _ _ _ hc ht.1,
      insertPartFrom_wellFormed _ _ _ _ _ hc ht.1 ht.2⟩) calls _ t h
    ⟨treeOk_emptyRoot id config, wellFormed_emptyRoot id config⟩

open Example

/-! ## Containers below a container -/

theorem mem_subnodes_trans {m n : Node} (hmn : m ∈ n.subnodes) :
    ∀ t : Node, n ∈ t.subnodes → m ∈ t.subnodes := by
  intro t
  induction t using Node.children_induction with
  | h t ih =>
    intro hn
    rcases (mem_subnodes_iff n t).mp hn with rfl | ⟨b, hb, d, hd, hnd⟩
    · exact hmn
    · exact (mem_subnodes_iff m t).mpr (Or.inr ⟨b, hb, d, hd, ih b hb d hd hnd⟩)

theorem mem_subnodes_child {n d t : Node} {b : Branch} (hn : n ∈ t.subnodes)
    (hb : b ∈ n.branches) (hd : d ∈ b.descendants) : d ∈ t.subnodes :=
  mem_subnodes_trans
    ((mem_subnodes_iff d n).mpr (Or.inr ⟨b, hb, d, hd, mem_subnodes_self d⟩)) t hn

theorem wellFormed_of_mem {t n : Node} (ht : t.WellFormed) (hn : n ∈ t.subnodes) :
    n.WellFormed := by
  intro m hm
  exact ht m (mem_subnodes_trans hm t hn)

theorem treeOk_of_mem {t n : Node} (ht : t.TreeOk) (hn : n ∈ t.subnodes) : n.TreeOk := by
  intro m hm
  exact ht m (mem_subnodes_trans hm t hn)

/-! ## Containers of an LPS -/

theorem listContainersOfBranches_eq (lpsId segmentTag : Int) (bs : List Branch) :
    listContainersOfBranches lpsId segmentTag bs =
      match getBranch bs lpsId with
      | none => []
      | some b => listContainersLoop lpsId segmentTag b.descendants := by
  induction bs with
  | nil => simp [listContainersOfBranches, getBranch]
  | cons b bs ih =>
    unfold listContainersOfBranches getBranch
    by_cases hb : b.getConfig.lpsId = lpsId
    · simp only [hb, if_true]
      cases b with
      | mk cfg ids ds => simp [Branch.listContainers, Branch.descendants]
    · simp only [hb, if_false]
      exact ih

theorem Node.listDescendantContainersForLps_eq (lpsId segmentTag : Int) (n : Node) :
    n.listDescendantContainersForLps lpsId segmentTag =
      match getBranch n.branches lpsId with
      | none => []
      | some b => listContainersLoop lpsId segmentTag b.descendants := by
  cases n with
  | leaf c => simp [Node.listDescendantContainersForLps, Node.branches, Node.getBranches, getBranch]
  | intermediate c bs =>
    simp only [Node.listDescendantContainersForLps, Node.branches, Node.getBranches,
      Option.getD_some]
    exact listContainersOfBranches_eq _ _ _
  | hybrid c bs l =>
    simp only [Node.listDescendantContainersForLps, Node.branches, Node.getBranches,
      Option.getD_some]
    exact listContainersOfBranches_eq _ _ _

/-- The loop of `listDescendantContainersForLps` over the descendants of a branch is the loop
over the list `getContainersForSegment` returns. -/
theorem listContainersLoop_getContainersForSegment (lpsId segmentTag : Int) (ds : List Node) :
    listContainersLoop lpsId segmentTag ds =
      listContainersLoop lpsId segmentTag
        (ds.filter (fun container => container.hasSegmentTag segmentTag)) := by
  induction ds with
  | nil => rfl
  | cons d ds ih =>
    cases htag : d.hasSegmentTag segmentTag with
    | false =>
      rw [listContainersLoop]
      simp only [htag, Bool.not_false, if_true, List.filter_cons, Bool.false_eq_true, if_false]
      exact ih
    | true =>
      simp only [List.filter_cons, htag, if_true]
      rw [listContainersLoop, listContainersLoop]
      simp only [htag, Bool.not_true, Bool.false_eq_true, if_false, ih]

theorem Branch.listContainers_getContainersForSegment (lpsId segmentTag : Int) (b : Branch) :
    Branch.listContainers lpsId segmentTag b =
      listContainersLoop lpsId segmentTag (b.getContainersForSegment segmentTag) := by
  cases b with
  | mk cfg ids ds =>
    rw [Branch.listContainers, listContainersLoop_getContainersForSegment]
    rfl

theorem mem_listContainersLoop (lpsId segmentTag : Int) (c : Node) (ds : List Node) :
    c ∈ listContainersLoop lpsId segmentTag ds ↔
      ∃ d ∈ ds, d.hasSegmentTag segmentTag = true ∧
        ((getBranch d.branches lpsId = none ∧ c = d) ∨
          (getBranch d.branches lpsId ≠ none ∧
            c ∈ d.listDescendantContainersForLps lpsId segmentTag)) := by
  induction ds with
  | nil => simp [listContainersLoop]
  | cons d ds ih =>
    rw [listContainersLoop]
    by_cases htag : d.hasSegmentTag segmentTag = true
    · by_cases hbr : getBranch d.branches lpsId = none
      · simp only [htag, hbr, Bool.not_true, Bool.false_eq_true, if_false, Option.isNone_none,
          if_true, List.mem_cons, ih, exists_eq_or_imp, true_and, ne_eq, not_true_eq_false,
          false_and, or_false]
      · have hbr2 : (getBranch d.branches lpsId).isNone = false := by
          cases h : getBranch d.branches lpsId with
          | none => exact absurd h hbr
          | some _ => rfl
        simp only [htag, hbr, hbr2, Bool.not_true, Bool.false_eq_true, if_false,
          List.mem_append, List.mem_cons, ih, exists_eq_or_imp, true_and, ne_eq,
          not_false_eq_true, false_and, false_or]
    · have htag2 : d.hasSegmentTag segmentTag = false := by simpa using htag
      simp only [htag2, Bool.not_false, if_true, ih, List.mem_cons, exists_eq_or_imp,
        Bool.false_eq_true, false_and, false_or]

theorem mem_listDescendantContainersForLps_of_listedFor {lpsId segmentTag : Int} {n c : Node}
    (h : ListedFor lpsId segmentTag n c) :
    c ∈ n.listDescendantContainersForLps lpsId segmentTag := by
  induction h with
  | accept hb hd htag hnone =>
    rw [Node.listDescendantContainersForLps_eq, hb]
    exact (mem_listContainersLoop _ _ _ _).mpr ⟨_, hd, htag, Or.inl ⟨hnone, rfl⟩⟩
  | descend hb hd htag hsome _ ih =>
    rw [Node.listDescendantContainersForLps_eq, hb]
    exact (mem_listContainersLoop _ _ _ _).mpr ⟨_, hd, htag, Or.inr ⟨hsome, ih⟩⟩

theorem listedFor_of_mem_listDescendantContainersForLps (lpsId segmentTag : Int) (c : Node) :
    ∀ n : Node, c ∈ n.listDescendantContainersForLps lpsId segmentTag →
      ListedFor lpsId segmentTag n c := by
  intro n
  induction n using Node.children_induction with
  | h n ih =>
    intro hc
    rw [Node.listDescendantContainersForLps_eq] at hc
    cases hb : getBranch n.branches lpsId with
    | none => rw [hb] at hc; simp at hc
    | some b =>
      rw [hb] at hc
      obtain ⟨d, hd, htag, hcase⟩ := (mem_listContainersLoop _ _ _ _).mp hc
      rcases hcase with ⟨hnone, rfl⟩ | ⟨hsome, hcd⟩
      · exact ListedFor.accept hb hd htag hnone
      · exact ListedFor.descend hb hd htag hsome (ih b (getBranch_some hb).2 d hd hcd)

theorem ListedFor.accepted {lpsId segmentTag : Int} {n c t : Node}
    (h : ListedFor lpsId segmentTag n c) (ht : t.WellFormed) (hn : n ∈ t.subnodes) :
    c ∈ t.subnodes ∧ c.hasSegmentTag segmentTag = true ∧ c.base.config.lpsId = lpsId ∧
      getBranch c.branches lpsId = none := by
  induction h with
  | accept hb hd htag hnone =>
    obtain ⟨hlps, hmem⟩ := getBranch_some hb
    exact ⟨mem_subnodes_child hn hmem hd, htag,
      ((ht _ hn).1 _ hmem _ hd).2.1.trans hlps, hnone⟩
  | descend hb hd _ _ _ ih =>
    exact ih (mem_subnodes_child hn (getBranch_some hb).2 hd)

/-- C14. In a tree built by `insertPart` calls, for every container `B`, LPS id `l` and segment
tag `s`, `listDescendantContainersForLps(l, s)` on `B` returns exactly the containers reached
from `B` by going down through branches of LPS `l` along containers that carry `s` and have a
branch of `l`, to a container that carries `s` and has no branch of `l`; every container
returned is in the tree, carries `s`, has a config of LPS `l` and is not branching for `l`;
and the list is empty when `B` has no branch for `l`. -/
theorem listDescendantContainersForLps_reachable (id : Int) (config : LpsDimConfig)
    (calls : List InsertCall) (tree : Node)
    (h : insertAll (emptyRoot id config) calls = some tree)
    (B : Node) (hB : B ∈ tree.subnodes) (l s : Int) :
    (∀ c, c ∈ B.listDescendantContainersForLps l s ↔ ListedFor l s B c) ∧
    (∀ c ∈ B.listDescendantContainersForLps l s,
      c ∈ tree.subnodes ∧ c.hasSegmentTag s = true ∧ c.base.config.lpsId = l ∧
        getBranch c.branches l = none) ∧
    (getBranch B.branches l = none → B.listDescendantContainersForLps l s = []) := by
  refine ⟨fun c => ⟨listedFor_of_mem_listDescendantContainersForLps l s c B,
    mem_listDescendantContainersForLps_of_listedFor⟩, ?_, ?_⟩
  · intro c hc
    exact (listedFor_of_mem_listDescendantContainersForLps l s c B hc).accepted
      (insertAll_wellFormed h).2 hB
  · intro hnone
    rw [Node.listDescendantContainersForLps_eq, hnone]

/-- C14 at the root of the tree built by `insertPart([A, B], 1, [[0], [1]])`, for LPS 1 and
tag 1: the list holds the container 0 of LPS 1. -/
theorem listDescendantContainersForLps_reachable_witness :
    insertAll (emptyRoot 0 rootConfig)
      [{ dimOrder := [configA, configB], segmentTag := 1, partId := partId }] = some treeAB ∧
    treeAB ∈ treeAB.subnodes ∧
    treeAB.listDescendantContainersForLps 1 1 = [interA] ∧
    (∀ c ∈ treeAB.listDescendantContainersForLps 1 1,
      c ∈ treeAB.subnodes ∧ c.hasSegmentTag 1 = true ∧ c.base.config.lpsId = 1 ∧
        getBranch c.branches 1 = none) :=
  ⟨rfl, List.Mem.head _, rfl,
    (listDescendantContainersForLps_reachable 0 rootConfig
      [{ dimOrder := [configA, configB], segmentTag := 1, partId := partId }] treeAB rfl
      treeAB (List.Mem.head _) 1 1).2.1⟩

open Example

/-! ## Folding back to the root -/

theorem foldBackChain_reverse (l : List Ancestor) :
    ∀ (tail : ParentPtr) (f : PartFolding), (∀ a ∈ l, a.config.level ≠ -1) →
      foldBackChain (l.reverse ++ tail) (some f) = foldBackChain tail (some (wrapAncestors l f)) := by
  induction l with
  | nil => intro tail f _; rfl
  | cons a l ih =>
    intro tail f hl
    rw [List.reverse_cons, List.append_assoc, List.singleton_append,
      ih (a :: tail) f (fun x hx => hl x (List.mem_cons_of_mem _ hx))]
    have ha := hl a (List.mem_cons_self _ _)
    simp [foldBackChain, ha, wrapAncestors, PartFolding.new, PartFolding.addDescendant,
      PartFolding.setDescendants, PartFolding.getDescendants]

theorem foldBackChain_to_root (l : List Ancestor) (r : Ancestor) (rest : ParentPtr)
    (f : PartFolding) (hl : ∀ a ∈ l, a.config.level ≠ -1) (hr : r.config.level = -1) :
    foldBackChain (l.reverse ++ r :: rest) (some f) = some (wrapAncestors l f) := by
  rw [foldBackChain_reverse l _ f hl]
  simp [foldBackChain, hr]

theorem Container.foldContainerForSegment_wrap (k : Container) (segmentTag : Int)
    (l : List Ancestor) (r : Ancestor) (rest : ParentPtr)
    (hk : k.config.level ≠ -1) (hp : k.parent = l.reverse ++ r :: rest)
    (hl : ∀ a ∈ l, a.config.level ≠ -1) (hr : r.config.level = -1) :
    k.foldContainerForSegment segmentTag true =
      (k.foldContainerForSegment segmentTag false).map (wrapAncestors l) := by
  unfold Container.foldContainerForSegment
  by_cases htag : k.hasSegmentTag segmentTag = true
  · simp only [htag, Bool.not_true, Bool.false_eq_true, if_false, if_true, Option.map_some']
    unfold Container.foldBackContainer Container.ref
    rw [foldBackChain]
    simp only [hk, if_false, hp]
    exact foldBackChain_to_root l r rest _ hl hr
  · simp [htag]

theorem below_parent {t c : Node} {chain : List Node} (h : Below t chain c)
    (ht : t.WellFormed) :
    c.base.parent = (chain.map Node.ancestor).reverse ++ t.base.ref ∧
    (∀ a ∈ chain, 0 ≤ a.base.config.level) ∧ 0 ≤ c.base.config.level ∧ c.WellFormed ∧
    c ∈ t.subnodes := by
  induction h with
  | child hb hd =>
    have hloc := ((wellFormed_iff _).mp ht).1.1 _ hb _ hd
    refine ⟨by simpa using hloc.1, by simp, hloc.2.2, ((wellFormed_iff _).mp ht).2 _ hb _ hd, ?_⟩
    exact mem_subnodes_child (mem_subnodes_self _) hb hd
  | step hb hd _ ih =>
    rename_i n d c b chain
    have hloc := ((wellFormed_iff _).mp ht).1.1 _ hb _ hd
    have hdwf := ((wellFormed_iff _).mp ht).2 _ hb _ hd
    obtain ⟨h1, h2, h3, h4, h5⟩ := ih hdwf
    refine ⟨?_, ?_, h3, h4, ?_⟩
    · rw [h1, List.map_cons, List.reverse_cons, List.append_assoc, List.singleton_append]
      simp [Container.ref, Node.ancestor, hloc.1]
    · intro a ha
      rcases List.mem_cons.mp ha with rfl | ha
      · exact hloc.2.2
      · exact h2 a ha
    · exact mem_subnodes_trans h5 _ (mem_subnodes_child (mem_subnodes_self _) hb hd)

/-- With `foldBack`, the fold of a container below a level `-1` root is the fold without
`foldBack` wrapped in the folds of its ancestors. -/
theorem Node.foldContainerForSegment_back (c : Node) (segmentTag : Int)
    (dimOrder : List LpsDimConfig) (l : List Ancestor) (r : Ancestor) (rest : ParentPtr)
    (hc : c.base.config.level ≠ -1) (hp : c.base.parent = l.reverse ++ r :: rest)
    (hl : ∀ a ∈ l, a.config.level ≠ -1) (hr : r.config.level = -1)
    (hloc : c.LocalOk) :
    Node.foldContainerForSegment segmentTag dimOrder true c =
      (Node.foldContainerForSegment segmentTag dimOrder false c).map
        (Option.map (wrapAncestors l)) := by
  cases c with
  | leaf k =>
    simp only [Node.foldContainerForSegment, Option.map_some']
    rw [Container.foldContainerForSegment_wrap k segmentTag l r rest hc hp hl hr]
  | intermediate k bs =>
    simp only [Node.base] at hc hp
    simp only [Node.foldContainerForSegment]
    split
    · rfl
    · split
      · rfl
      · split
        · rw [Container.foldContainerForSegment_wrap k segmentTag l r rest hc hp hl hr]
          rfl
        · split
          · rfl
          · rfl
          · simp only [if_true, Bool.false_eq_true, if_false, Option.map_some', hp]
            split
            · rename_i heq
              simp at heq
            · rename_i p ps heq
              rw [← heq, foldBackChain_to_root l r rest _ hl hr]
  | hybrid k bs leaf =>
    obtain ⟨h1, h2, h3⟩ := hloc.2 leaf rfl
    simp only [Node.base] at hc hp h1 h2 h3
    simp only [Node.foldContainerForSegment]
    split
    · rfl
    · split
      · rfl
      · split
        · rw [Container.foldContainerForSegment_wrap leaf segmentTag l r rest (h2 ▸ hc)
            (h3.trans hp) hl hr]
          rfl
        · split
          · rfl
          · rfl
          · simp only [if_true, Bool.false_eq_true, if_false, Option.map_some', hp]
            split
            · rename_i heq
              simp at heq
            · rename_i p ps heq
              rw [← heq, foldBackChain_to_root l r rest _ hl hr]

open Example

/-! ## Levels of a fold -/

theorem PartFolding.levelsOfList_append (a b : List PartFolding) :
    PartFolding.levelsOfList (a ++ b) = PartFolding.levelsOfList a ++ PartFolding.levelsOfList b := by
  induction a with
  | nil => simp [PartFolding.levelsOfList]
  | cons f fs ih => simp [PartFolding.levelsOfList, ih]

theorem PartFolding.levels_coalesce (f : PartFolding) (r : Range) :
    (f.coalesce r).levels = f.levels := by
  cases f; simp [PartFolding.coalesce, PartFolding.levels]

theorem PartFolding.levels_wrapAncestors (l : List Ancestor) (f : PartFolding) :
    (wrapAncestors l f).levels = l.map (fun a => a.config.level) ++ f.levels := by
  induction l with
  | nil => simp [wrapAncestors]
  | cons a l ih => simp [wrapAncestors, PartFolding.levels, PartFolding.levelsOfList, ih]

theorem levels_coalesceOrAppend (fold : List PartFolding) (containerId : Int)
    (foldElement : PartFolding) (x : Int)
    (hx : x ∈ PartFolding.levelsOfList (coalesceOrAppend fold containerId foldElement)) :
    x ∈ PartFolding.levelsOfList fold ∨ x ∈ foldElement.levels := by
  rcases List.eq_nil_or_concat fold with rfl | ⟨init, prev, rfl⟩
  · rw [coalesceOrAppend_nil] at hx
    simpa [PartFolding.levelsOfList] using hx
  · rw [List.concat_eq_append] at hx ⊢
    rw [coalesceOrAppend_append] at hx
    split at hx
    · left
      simpa [PartFolding.levelsOfList_append, PartFolding.levelsOfList,
        PartFolding.levels_coalesce] using hx
    · have : init ++ [prev, foldElement] = (init ++ [prev]) ++ [foldElement] := by simp
      rw [this, PartFolding.levelsOfList_append] at hx
      simpa [PartFolding.levelsOfList] using hx

theorem Container.levels_fold {k : Container} {segmentTag : Int}
    {f : PartFolding} (h : k.foldContainerForSegment segmentTag false = some f) :
    f.levels = [k.config.level] := by
  unfold Container.foldContainerForSegment at h
  split at h
  · cases h
  · simp only [Bool.false_eq_true, if_false, Option.some.injEq] at h
    subst h
    simp [PartFolding.new, PartFolding.levels, PartFolding.levelsOfList]

theorem levels_foldContainerLoop (segmentTag : Int) (dimOrder : List LpsDimConfig)
    (position : Nat) (nextConfig : LpsDimConfig) (hcfg : nextConfig.level ≠ -1) :
    ∀ (ds : List Node),
      (∀ d ∈ ds,
        (∀ pos fs, Node.foldContainer segmentTag dimOrder pos d = some fs →
          ∀ x ∈ PartFolding.levelsOfList fs, x ≠ -1) ∧
        (∀ f, Node.foldContainerForSegment segmentTag dimOrder false d = some (some f) →
          ∀ x ∈ f.levels, x ≠ -1) ∧
        (∀ l, d.getLeaf = some l → l.config.level ≠ -1)) →
      ∀ (fold fold1 : List PartFolding),
        (∀ x ∈ PartFolding.levelsOfList fold, x ≠ -1) →
        foldContainerLoop segmentTag dimOrder position nextConfig fold ds = some fold1 →
        ∀ x ∈ PartFolding.levelsOfList fold1, x ≠ -1 := by
  intro ds
  induction ds with
  | nil =>
    intro _ fold fold1 hfold h
    simp only [foldContainerLoop, Option.some.injEq] at h
    exact h ▸ hfold
  | cons d ds ih =>
    intro hds fold fold1 hfold h
    have hd := hds d (List.mem_cons_self _ _)
    have ih1 := ih (fun e he => hds e (List.mem_cons_of_mem _ he))
    have hstep : ∀ (id : Int) (f : PartFolding), (∀ x ∈ f.levels, x ≠ -1) →
        ∀ x ∈ PartFolding.levelsOfList (coalesceOrAppend fold id f), x ≠ -1 := by
      intro id f hf x hx
      rcases levels_coalesceOrAppend fold id f x hx with hx | hx
      · exact hfold x hx
      · exact hf x hx
    rw [foldContainerLoop] at h
    split at h
    · exact ih1 fold fold1 hfold h
    · simp only at h
      split at h
      · split at h
        · cases h
        · exact ih1 fold fold1 hfold h
        · rename_i f fs hsub
          refine ih1 _ fold1 (hstep _ _ ?_) h
          intro x hx
          simp only [PartFolding.new, PartFolding.setDescendants, PartFolding.levels,
            List.mem_cons] at hx
          rcases hx with rfl | hx
          · exact hcfg
          · exact hd.1 _ _ hsub x hx
      · split at h
        · rename_i leafContainer hleaf
          split at h
          · exact ih1 fold fold1 hfold h
          · rename_i f hf
            refine ih1 _ fold1 (hstep _ _ ?_) h
            intro x hx
            rw [Container.levels_fold hf, List.mem_singleton] at hx
            exact hx ▸ hd.2.2 _ hleaf
        · split at h
          · cases h
          · exact ih1 fold fold1 hfold h
          · rename_i f hf
            exact ih1 _ fold1 (hstep _ _ (hd.2.1 f hf)) h

theorem levels_foldContainerBranches (segmentTag : Int) (dimOrder : List LpsDimConfig)
    (hD : ∀ cfg ∈ dimOrder, cfg.level ≠ -1) (bs : List Branch)
    (hbs : ∀ b ∈ bs, ∀ d ∈ b.descendants,
      (∀ pos fs, Node.foldContainer segmentTag dimOrder pos d = some fs →
        ∀ x ∈ PartFolding.levelsOfList fs, x ≠ -1) ∧
      (∀ f, Node.foldContainerForSegment segmentTag dimOrder false d = some (some f) →
        ∀ x ∈ f.levels, x ≠ -1) ∧
      (∀ l, d.getLeaf = some l → l.config.level ≠ -1))
    (position : Nat) (fs : List PartFolding)
    (h : foldContainerBranches segmentTag dimOrder position [] bs = some fs) :
    ∀ x ∈ PartFolding.levelsOfList fs, x ≠ -1 := by
  rw [foldContainerBranches_eq] at h
  cases hcfg : dimOrder.get? position with
  | none => rw [hcfg] at h; cases h
  | some nextConfig =>
    rw [hcfg] at h
    simp only at h
    cases hb : getBranch bs nextConfig.lpsId with
    | none =>
      rw [hb] at h
      simp only [Option.some.injEq] at h
      subst h
      intro x hx
      simp [PartFolding.levelsOfList] at hx
    | some b =>
      rw [hb] at h
      exact levels_foldContainerLoop segmentTag dimOrder position nextConfig
        (hD _ (List.get?_mem hcfg)) b.descendants (hbs b (getBranch_some hb).2) [] fs
        (by intro x hx; simp [PartFolding.levelsOfList] at hx) h

/-- No fold of a container has a node of level `-1` when neither the dimension order nor the
containers below have that level. -/
theorem levels_foldContainerForSegment (segmentTag : Int) (dimOrder : List LpsDimConfig)
    (hD : ∀ cfg ∈ dimOrder, cfg.level ≠ -1) :
    ∀ n : Node,
      (∀ m ∈ n.subnodes, m.base.config.level ≠ -1 ∧
        ∀ l, m.getLeaf = some l → l.config.level ≠ -1) →
      (∀ pos fs, Node.foldContainer segmentTag dimOrder pos n = some fs →
        ∀ x ∈ PartFolding.levelsOfList fs, x ≠ -1) ∧
      (∀ f, Node.foldContainerForSegment segmentTag dimOrder false n = some (some f) →
        ∀ x ∈ f.levels, x ≠ -1) ∧
      (∀ l, n.getLeaf = some l → l.config.level ≠ -1) := by
  intro n
  induction n using Node.children_induction with
  | h n ih =>
    intro hn
    have hself := hn n (mem_subnodes_self n)
    have hbs : ∀ b ∈ n.branches, ∀ d ∈ b.descendants,
        (∀ pos fs, Node.foldContainer segmentTag dimOrder pos d = some fs →
          ∀ x ∈ PartFolding.levelsOfList fs, x ≠ -1) ∧
        (∀ f, Node.foldContainerForSegment segmentTag dimOrder false d = some (some f) →
          ∀ x ∈ f.levels, x ≠ -1) ∧
        (∀ l, d.getLeaf = some l → l.config.level ≠ -1) := by
      intro b hb d hd
      apply ih b hb d hd
      intro m hm
      exact hn m ((mem_subnodes_iff m n).mpr (Or.inr ⟨b, hb, d, hd, hm⟩))
    have hbranches := levels_foldContainerBranches segmentTag dimOrder hD n.branches hbs
    refine ⟨?_, ?_, hself.2⟩
    · intro pos fs h
      cases n with
      | leaf k => simp [Node.foldContainer] at h
      | intermediate k bs => exact hbranches pos fs h
      | hybrid k bs l => exact hbranches pos fs h
    · intro f h
      cases n with
      | leaf k =>
        simp only [Node.foldContainerForSegment, Option.some.injEq] at h
        intro x hx
        rw [Container.levels_fold h, List.mem_singleton] at hx
        exact hx ▸ hself.1
      | intermediate k bs =>
        simp only [Node.foldContainerForSegment] at h
        split at h
        · cases h
        · split at h
          · cases h
          · split at h
            · simp only [Option.some.injEq] at h
              intro x hx
              rw [Container.levels_fold h, List.mem_singleton] at hx
              exact hx ▸ hself.1
            · split at h
              · cases h
              · cases h
              · rename_i d ds hsub
                simp only [Bool.false_eq_true, if_false, Option.some.injEq] at h
                subst h
                intro x hx
                simp only [PartFolding.new, PartFolding.setDescendants, PartFolding.levels,
                  List.mem_cons] at hx
                rcases hx with rfl | hx
                · exact hself.1
                · exact hbranches _ _ hsub x hx
      | hybrid k bs l =>
        simp only [Node.foldContainerForSegment] at h
        split at h
        · cases h
        · split at h
          · cases h
          · split at h
            · simp only [Option.some.injEq] at h
              intro x hx
              rw [Container.levels_fold h, List.mem_singleton] at hx
              exact hx ▸ hself.2 l rfl
            · split at h
              · cases h
              · cases h
              · rename_i d ds hsub
                simp only [Bool.false_eq_true, if_false, Option.some.injEq] at h
                subst h
                intro x hx
                simp only [PartFolding.new, PartFolding.setDescendants, PartFolding.levels,
                  List.mem_cons] at hx
                rcases hx with rfl | hx
                · exact hself.1
                · exact hbranches _ _ hsub x hx

theorem levels_of_wellFormed : ∀ n : Node, n.WellFormed → 0 ≤ n.base.config.level →
    ∀ m ∈ n.subnodes, m.base.config.level ≠ -1 ∧
      ∀ l, m.getLeaf = some l → l.config.level ≠ -1 := by
  intro n
  induction n using Node.children_induction with
  | h n ih =>
    intro hwf hlevel m hm
    have hwf2 := (wellFormed_iff n).mp hwf
    rcases (mem_subnodes_iff m n).mp hm with rfl | ⟨b, hb, d, hd, hmd⟩
    · refine ⟨by omega, ?_⟩
      intro l hl
      rw [(hwf2.1.2 l hl).2.1]
      omega
    · exact ih b hb d hd (hwf2.2 b hb d hd) (hwf2.1.1 b hb d hd).2.2 m hmd

theorem Node.foldContainerForSegment_untagged (segmentTag : Int) (dimOrder : List LpsDimConfig)
    (foldBack : Bool) (n : Node) (h : n.hasSegmentTag segmentTag = false) :
    Node.foldContainerForSegment segmentTag dimOrder foldBack n = some none := by
  cases n <;>
    simp_all [Node.foldContainerForSegment, Container.foldContainerForSegment,
      Node.hasSegmentTag, Node.base]

open Example

theorem insertAll_base {id : Int} {config : LpsDimConfig} {calls : List InsertCall}
    {t : Node} (h : insertAll (emptyRoot id config) calls = some t) :
    t.base = Container.new id config :=
  insertAll_induction (fun t => t.base = Container.new id config)
    (fun _ _ _ hc ht => (insertPartFrom_frame hc).1.trans ht) calls _ t h rfl

/-- C13, as stated, fails: the hybrid at coordinate 0 of LPS 1, below a level `-1` root,
carries tag 2 (a part of segment 2 lies below it), but its leaf half does not, and
`foldContainerForSegment(2, [A], true)` on it returns NULL, not a fold. -/
theorem foldBack_null_for_tagged_hybrid :
    insertAll (emptyRoot 0 rootConfig)
      [{ dimOrder := [configA], segmentTag := 1, partId := partId },
       { dimOrder := [configA, configB], segmentTag := 2, partId := partId }]
      = some treeAthenAB ∧
    rootConfig.level = -1 ∧
    getContainer treeAthenAB partId [configA] 0 = some (some hybridOfLeafA) ∧
    hybridOfLeafA.hasSegmentTag 2 = true ∧
    Node.foldContainerForSegment 2 [configA] true hybridOfLeafA = some none :=
  ⟨rfl, rfl, rfl, rfl, rfl⟩

/-- C13, amended. In a tree built by `insertPart` calls from an empty root of level `-1`, let
`c` be a container and `chain` its ancestors below the root, topmost first. Then
`foldContainerForSegment(s, dimOrder, true)` on `c` returns NULL exactly when the call without
`foldBack` does (always when `c` does not carry `s`), and otherwise the fold of the call
without `foldBack` wrapped in one parent fold per ancestor of `chain`, in root-to-`c` order,
each with a single descendant; the root is not among them. No ancestor has level `-1`, and
when no config of `dimOrder` has level `-1`, no node of the fold returned has it. -/
theorem foldBack_wraps_ancestors (id : Int) (config : LpsDimConfig) (calls : List InsertCall)
    (tree : Node) (h : insertAll (emptyRoot id config) calls = some tree)
    (hroot : config.level = -1) (chain : List Node) (c : Node) (hc : Below tree chain c)
    (s : Int) (dimOrder : List LpsDimConfig) :
    Node.foldContainerForSegment s dimOrder true c =
      (Node.foldContainerForSegment s dimOrder false c).map
        (Option.map (wrapAncestors (chain.map Node.ancestor))) ∧
    (c.hasSegmentTag s = false →
      Node.foldContainerForSegment s dimOrder true c = some none) ∧
    (∀ a ∈ chain, a.base.config.level ≠ -1) ∧
    ((∀ cfg ∈ dimOrder, cfg.level ≠ -1) →
      ∀ f, Node.foldContainerForSegment s dimOrder true c = some (some f) →
        c.hasSegmentTag s = true ∧ ∀ x ∈ f.levels, x ≠ -1) := by
  have hwf := (insertAll_wellFormed h).2
  obtain ⟨hparent, hchain, hlevel, hcwf, -⟩ := below_parent hc hwf
  have hbase := insertAll_base h
  have hl : ∀ a ∈ chain.map Node.ancestor, a.config.level ≠ -1 := by
    intro a ha
    obtain ⟨n, hn, rfl⟩ := List.mem_map.mp ha
    have := hchain n hn
    simp only [Node.ancestor]
    omega
  have hback := Node.foldContainerForSegment_back c s dimOrder (chain.map Node.ancestor)
    { id := id, config := config } [] (by omega)
    (by rw [hparent, hbase]; rfl) hl hroot (hcwf c (mem_subnodes_self c))
  refine ⟨hback, Node.foldContainerForSegment_untagged s dimOrder true c, ?_, ?_⟩
  · intro a ha
    have := hchain a ha
    omega
  · intro hD f hf
    constructor
    · cases htag : c.hasSegmentTag s with
      | true => rfl
      | false =>
        rw [Node.foldContainerForSegment_untagged s dimOrder true c htag] at hf
        cases hf
    · rw [hback] at hf
      cases hfalse : Node.foldContainerForSegment s dimOrder false c with
      | none => rw [hfalse] at hf; cases hf
      | some r =>
        cases r with
        | none => rw [hfalse] at hf; cases hf
        | some g =>
          rw [hfalse] at hf
          simp only [Option.map_some', Option.some.injEq] at hf
          subst hf
          intro x hx
          rw [PartFolding.levels_wrapAncestors, List.mem_append] at hx
          rcases hx with hx | hx
          · obtain ⟨a, ha, rfl⟩ := List.mem_map.mp hx
            exact hl a ha
          · exact (levels_foldContainerForSegment s dimOrder hD c
              (levels_of_wellFormed c hcwf hlevel)).2.1 g hfalse x hx

/-- C13, amended, at the leaf 2 of LPS 3 in the tree built by
`insertPart(orderABC, 1, [[0], [1], [2]])` and `insertPart(orderABC, 2, [[0], [1], [3]])`:
the fold for tag 1 is the chain of the container 0 of LPS 1, the container 1 of LPS 2 and
the leaf. -/
theorem foldBack_wraps_ancestors_witness :
    insertAll (emptyRoot 0 rootConfig) [insertABC 1 0 1 2, insertABC 2 0 1 3] = some treeABC ∧
    rootConfig.level = -1 ∧ Below treeABC [interAB, interB] leafC2 ∧
    Node.foldContainerForSegment 1 orderABC false leafC2 = some (some (chain 2 2 [])) ∧
    Node.foldContainerForSegment 1 orderABC true leafC2
      = some (some (chain 0 0 [chain 1 1 [chain 2 2 []]])) ∧
    Node.foldContainerForSegment 1 orderABC true leafC2 =
      (Node.foldContainerForSegment 1 orderABC false leafC2).map
        (Option.map (wrapAncestors ([interAB, interB].map Node.ancestor))) :=
  ⟨rfl, rfl,
    Below.step (List.Mem.head _) (List.Mem.head _)
      (Below.step (List.Mem.head _) (List.Mem.head _)
        (Below.child (List.Mem.head _) (List.Mem.head _))),
    rfl, rfl,
    (foldBack_wraps_ancestors 0 rootConfig [insertABC 1 0 1 2, insertABC 2 0 1 3] treeABC rfl
      rfl [interAB, interB] leafC2
      (Below.step (List.Mem.head _) (List.Mem.head _)
        (Below.step (List.Mem.head _) (List.Mem.head _)
          (Below.child (List.Mem.head _) (List.Mem.head _))))
      1 orderABC).1⟩

open Example

/-! ## Trees built along one dimension order -/

theorem uniform_nil (r : Bool) (n : Node) :
    Node.Uniform r [] n ↔ n.isLeaf = true ∧ n.getSegmentTags.Sorted (· < ·) := Iff.rfl

theorem uniform_cons (r : Bool) (cfg : LpsDimConfig) (rest : List LpsDimConfig) (n : Node) :
    Node.Uniform r (cfg :: rest) n ↔
      n.isLeaf = false ∧ n.getLeaf = none ∧ n.getSegmentTags.Sorted (· < ·) ∧
      n.branches.length ≤ 1 ∧
      ∀ b ∈ n.branches, b.getConfig.lpsId = cfg.lpsId ∧
        ∀ d ∈ b.descendants, d.base.config = cfg ∧
          (r = false → ∀ t ∈ d.getSegmentTags, t ∈ n.getSegmentTags) ∧
          Node.Uniform false rest d := Iff.rfl

theorem length_putBranch (bs : List Branch) (lpsId : Int) (nb : Branch) :
    (putBranch bs lpsId nb).length = bs.length := by
  induction bs with
  | nil => rfl
  | cons a t ih =>
    unfold putBranch
    by_cases ha : a.getConfig.lpsId = lpsId
    · simp [ha]
    · simp [ha, ih]

theorem uniform_newContainer (cfg : LpsDimConfig) (cid : Int) (tag : Int) (pp : ParentPtr)
    (rest : List LpsDimConfig) :
    Node.Uniform false rest ((newContainer cfg cid rest.isEmpty tag).setParent pp) := by
  have hs : ((newContainer cfg cid rest.isEmpty tag).setParent pp).getSegmentTags.Sorted
      (· < ·) := by
    rw [Node.getSegmentTags_setParent, newContainer_getSegmentTags]
    exact List.sorted_singleton _
  cases rest with
  | nil => exact ⟨rfl, hs⟩
  | cons c r =>
    refine ⟨rfl, rfl, hs, ?_, ?_⟩
    · rw [Node.branches_setParent, newContainer_branches]; simp
    · rw [Node.branches_setParent, newContainer_branches]
      intro b hb; simp at hb

theorem uniform_visitExisting {old nc : Node} {conv : Bool} {tag : Int}
    {rest : List LpsDimConfig} (pp : ParentPtr)
    (h : visitExisting old rest.isEmpty tag = some (nc, conv))
    (hold : Node.Uniform false rest old) :
    Node.Uniform false rest (nc.setParent pp) ∧
    (∀ t, t ∈ nc.getSegmentTags ↔ t ∈ old.getSegmentTags ∨ t = tag) := by
  rw [visitExisting_eq] at h
  cases rest with
  | nil =>
    obtain ⟨hleaf, hs⟩ := hold
    cases old with
    | leaf c =>
      simp only [List.isEmpty_nil, Option.some.injEq, Prod.mk.injEq] at h
      obtain ⟨rfl, _⟩ := h
      refine ⟨⟨rfl, ?_⟩, ?_⟩
      · exact Container.sorted_addSegmentTag c tag hs
      · intro t; exact Container.mem_addSegmentTag c tag t
    | intermediate c bs => cases hleaf
    | hybrid c bs l => cases hleaf
  | cons cfg r =>
    obtain ⟨hleaf, hnoleaf, hs, hlen, hbs⟩ := hold
    cases old with
    | leaf c => cases hleaf
    | hybrid c bs l => cases hnoleaf
    | intermediate c bs =>
      simp only [List.isEmpty_cons, Option.some.injEq, Prod.mk.injEq] at h
      obtain ⟨rfl, _⟩ := h
      refine ⟨⟨rfl, rfl, Container.sorted_addSegmentTag c tag hs, hlen, ?_⟩, ?_⟩
      · intro b hb
        refine ⟨(hbs b hb).1, ?_⟩
        intro d hd
        obtain ⟨h1, h2, h3⟩ := (hbs b hb).2 d hd
        refine ⟨h1, ?_, h3⟩
        intro _ t ht
        exact (Container.mem_addSegmentTag c tag t).mpr (Or.inl (h2 rfl t ht))
      · intro t; exact Container.mem_addSegmentTag c tag t

/-- A call of `insertPart` along the dimension order of the tree keeps its shape. -/
theorem insertPartFrom_uniform (tag : Int) (p : List (List Int)) :
    ∀ (ds : List LpsDimConfig) (r : Bool) (self self1 : Node),
      insertPartFrom ds tag p self = some self1 → self.TreeOk → Node.Uniform r ds self →
      (r = false → tag ∈ self.getSegmentTags) → ds ≠ [] → Node.Uniform r ds self1 := by
  intro ds
  induction ds with
  | nil => intro r self self1 h; simp [insertPartFrom] at h
  | cons cfg rest ih =>
    intro r self self1 h hok hself htag _
    have hok2 := (treeOk_iff self).mp hok
    obtain ⟨hleaf, hnoleaf, hs, hlen, hbs⟩ := hself
    obtain ⟨branches, cid, nc, nf, hb, hp, hid, hrec, hshape⟩ :=
      insertPartFrom_shape h (fun b hb => (hok2 b hb).1)
    have hbr := Node.branches_of_getBranches hb
    rw [hbr] at hok2 hlen hbs
    obtain ⟨hbase1, hleaf1, hisleaf1, -⟩ := insertPartFrom_frame h
    have htags1 : self1.getSegmentTags = self.getSegmentTags := by
      unfold Node.getSegmentTags; rw [hbase1]
    -- the container stored keeps the shape and its tags
    have hnf : (nc.setParent self.base.ref).TreeOk →
        Node.Uniform false rest (nc.setParent self.base.ref) → tag ∈ nc.getSegmentTags →
        Node.Uniform false rest nf ∧ nf.getSegmentTags = nc.getSegmentTags ∧
          nf.base.config = nc.base.config := by
      intro hnc1 hnc2 hnc3
      obtain ⟨-, hpcfg, -, -⟩ := Node.base_setParent nc self.base.ref
      rcases hrec with ⟨_, rfl⟩ | ⟨hne, hr⟩
      · exact ⟨hnc2, Node.getSegmentTags_setParent _ _, hpcfg⟩
      · refine ⟨ih false _ _ hr hnc1 hnc2
          (fun _ => by rw [Node.getSegmentTags_setParent]; exact hnc3) hne, ?_, ?_⟩
        · unfold Node.getSegmentTags
          rw [(insertPartFrom_frame hr).1]
          exact Node.getSegmentTags_setParent _ _
        · rw [(insertPartFrom_frame hr).1]; exact hpcfg
    rw [uniform_cons]
    refine ⟨hisleaf1.trans hleaf, hleaf1.trans hnoleaf, htags1 ▸ hs, ?_⟩
    rcases hshape with ⟨hgb, hnc, rfl⟩ | ⟨b, hgb, hk, hnc, rfl⟩ |
      ⟨b, loc, old, conv, hgb, hk, hold, hoid, hv, rfl⟩
    · rw [Node.branches_of_getBranches (Node.getBranches_setBranches _ hb)]
      have hnil : branches = [] := by
        cases branches with
        | nil => rfl
        | cons b0 bs0 =>
          have := (hbs b0 (List.mem_cons_self _ _)).1
          simp [getBranch, this] at hgb
      subst hnil
      obtain ⟨h1, h2, h3⟩ := hnf (hnc ▸ treeOk_newContainer _ _ _ _ _)
        (hnc ▸ uniform_newContainer _ _ _ _ _)
        (by rw [hnc, newContainer_getSegmentTags]; simp)
      refine ⟨by simp, ?_⟩
      intro b1 hb1
      simp only [List.nil_append, List.mem_singleton] at hb1
      subst hb1
      refine ⟨rfl, ?_⟩
      intro d hd
      simp only [Branch.descendants_mk, List.mem_singleton] at hd
      subst hd
      refine ⟨?_, ?_, h1⟩
      · rw [h3, hnc, (newContainer_base _ _ _ _).2.1]
      · intro hr t ht
        rw [h2, hnc, newContainer_getSegmentTags, List.mem_singleton] at ht
        rw [htags1, ht]
        exact htag hr
    · rw [Node.branches_of_getBranches (Node.getBranches_setBranches _ hb)]
      obtain ⟨h1, h2, h3⟩ := hnf (hnc ▸ treeOk_newContainer _ _ _ _ _)
        (hnc ▸ uniform_newContainer _ _ _ _ _)
        (by rw [hnc, newContainer_getSegmentTags]; simp)
      obtain ⟨hblps, hbmem⟩ := getBranch_some hgb
      refine ⟨by rw [length_putBranch]; exact hlen, ?_⟩
      intro b1 hb1
      rcases mem_putBranch hb1 with hb1 | hb1
      · subst hb1
        refine ⟨hblps, ?_⟩
        intro d hd
        simp only [Branch.descendants_mk] at hd
        rcases (mem_vectorInsert _ _ _ _).mp hd with hd | hd
        · subst hd
          refine ⟨?_, ?_, h1⟩
          · rw [h3, hnc, (newContainer_base _ _ _ _).2.1]
          · intro hr t ht
            rw [h2, hnc, newContainer_getSegmentTags, List.mem_singleton] at ht
            rw [htags1, ht]
            exact htag hr
        · obtain ⟨g1, g2, g3⟩ := (hbs b hbmem).2 d hd
          exact ⟨g1, fun hr t ht => htags1 ▸ g2 hr t ht, g3⟩
      · obtain ⟨g0, g⟩ := hbs b1 hb1
        refine ⟨g0, fun d hd => ?_⟩
        obtain ⟨g1, g2, g3⟩ := g d hd
        exact ⟨g1, fun hr t ht => htags1 ▸ g2 hr t ht, g3⟩
    · rw [Node.branches_of_getBranches (Node.getBranches_setBranches _ hb)]
      obtain ⟨hblps, hbmem⟩ := getBranch_some hgb
      have holdmem : old ∈ b.descendants := List.getElem?_mem hold
      have holdok := (hok2 b hbmem).2 old holdmem
      obtain ⟨o1, o2, o3⟩ := (hbs b hbmem).2 old holdmem
      obtain ⟨hu, hvt⟩ := uniform_visitExisting self.base.ref hv o3
      obtain ⟨h1, h2, h3⟩ := hnf (treeOk_of_branches_eq
        (by rw [Node.branches_setParent, visitExisting_branches hv]) holdok) hu
        ((hvt tag).mpr (Or.inr rfl))
      refine ⟨by rw [length_putBranch]; exact hlen, ?_⟩
      intro b1 hb1
      rcases mem_putBranch hb1 with hb1 | hb1
      · subst hb1
        refine ⟨hblps, ?_⟩
        intro d hd
        simp only [Branch.descendants_mk] at hd
        rcases List.mem_or_eq_of_mem_set hd with hd | hd
        · obtain ⟨g1, g2, g3⟩ := (hbs b hbmem).2 d hd
          exact ⟨g1, fun hr t ht => htags1 ▸ g2 hr t ht, g3⟩
        · subst hd
          refine ⟨?_, ?_, h1⟩
          · rw [h3, (visitExisting_base hv).2]; exact o1
          · intro hr t ht
            rw [h2] at ht
            rw [htags1]
            rcases (hvt t).mp ht with ht | rfl
            · exact o2 hr t ht
            · exact htag hr
      · obtain ⟨g0, g⟩ := hbs b1 hb1
        refine ⟨g0, fun d hd => ?_⟩
        obtain ⟨g1, g2, g3⟩ := g d hd
        exact ⟨g1, fun hr t ht => htags1 ▸ g2 hr t ht, g3⟩

open Example

/-! ## What a fold covers -/

theorem Range.ids_single (id : Int) : Range.ids { min := id, max := id } = [id] := by
  simp [Range.ids, List.range_succ]

theorem Range.ids_extend (r : Range) (h : r.min ≤ r.max) :
    Range.ids { min := r.min, max := r.max + 1 } = r.ids ++ [r.max + 1] := by
  unfold Range.ids
  have h1 : (r.max + 1 - r.min + 1).toNat = (r.max - r.min + 1).toNat + 1 := by omega
  simp only [h1, List.range_succ, List.map_append, List.map_cons, List.map_nil]
  congr 2
  have : Int.ofNat (r.max - r.min + 1).toNat = r.max - r.min + 1 :=
    Int.toNat_of_nonneg (by omega)
  rw [this]; ring

theorem PartFolding.pathsOfList_append (a b : List PartFolding) :
    PartFolding.pathsOfList (a ++ b) = PartFolding.pathsOfList a ++ PartFolding.pathsOfList b := by
  induction a with
  | nil => simp [PartFolding.pathsOfList]
  | cons f fs ih => simp [PartFolding.pathsOfList, ih]

theorem PartFolding.pathsOfList_singleton (f : PartFolding) :
    PartFolding.pathsOfList [f] = f.paths := by
  simp [PartFolding.pathsOfList]

/-- Coalescing keeps what the list of folds covers: the paths of the new element come after
those of the list. -/
theorem paths_coalesceOrAppend (fold : List PartFolding) (containerId : Int)
    (foldElement : PartFolding)
    (hvalid : ∀ f ∈ fold, f.getIdRange.min ≤ f.getIdRange.max)
    (hrange : foldElement.getIdRange = { min := containerId, max := containerId }) :
    PartFolding.pathsOfList (coalesceOrAppend fold containerId foldElement) =
      PartFolding.pathsOfList fold ++ foldElement.paths ∧
    ∀ f ∈ coalesceOrAppend fold containerId foldElement,
      f.getIdRange.min ≤ f.getIdRange.max := by
  rcases List.eq_nil_or_concat fold with rfl | ⟨init, prev, rfl⟩
  · rw [coalesceOrAppend_nil]
    refine ⟨by simp [PartFolding.pathsOfList], ?_⟩
    intro f hf
    rw [List.mem_singleton] at hf
    subst hf
    rw [hrange]
  · rw [List.concat_eq_append] at hvalid ⊢
    have hprev := hvalid prev (by simp)
    have hinit : ∀ f ∈ init, f.getIdRange.min ≤ f.getIdRange.max :=
      fun f hf => hvalid f (by simp [hf])
    rw [coalesceOrAppend_append]
    split
    · rename_i hcond
      obtain ⟨hmax, hsame⟩ := hcond
      rw [PartFolding.isEqualInContent_iff] at hsame
      rw [PartFolding.coalesce_next prev containerId hprev hmax]
      constructor
      · rw [PartFolding.pathsOfList_append, PartFolding.pathsOfList_append,
          PartFolding.pathsOfList_singleton, PartFolding.pathsOfList_singleton,
          List.append_assoc]
        congr 1
        cases prev with
        | mk r dn lv ds =>
          cases foldElement with
          | mk rF dF lF dsF =>
            simp only [PartFolding.getIdRange, PartFolding.getDescendants,
              PartFolding.getDimNo, PartFolding.getLevel] at *
            subst hrange hsame
            have hext := Range.ids_extend r hprev
            have hid : containerId = r.max + 1 := by omega
            simp only [PartFolding.paths, hid, hext, List.flatMap_append, Range.ids_single,
              List.flatMap_cons, List.flatMap_nil, List.append_nil]
      · intro f hf
        rcases List.mem_append.mp hf with hf | hf
        · exact hinit f hf
        · rw [List.mem_singleton] at hf
          subst hf
          simp only [PartFolding.getIdRange] at hprev hmax ⊢
          omega
    · constructor
      · have : init ++ [prev, foldElement] = (init ++ [prev]) ++ [foldElement] := by simp
        rw [this, PartFolding.pathsOfList_append, PartFolding.pathsOfList_singleton]
      · intro f hf
        simp only [List.mem_append, List.mem_cons, List.mem_singleton, List.not_mem_nil,
          or_false] at hf
        rcases hf with hf | rfl | rfl
        · exact hinit f hf
        · exact hprev
        · rw [hrange]

theorem locateConfig_append (cfg : LpsDimConfig) (rest : List LpsDimConfig) :
    ∀ (pre : List LpsDimConfig) (k : Nat), cfg ∉ pre →
      locateConfig cfg (pre ++ cfg :: rest) k = some (k + pre.length) := by
  intro pre
  induction pre with
  | nil => intro k _; simp [locateConfig]
  | cons a pre ih =>
    intro k hk
    have ha : a ≠ cfg := fun h => hk (h ▸ List.mem_cons_self _ _)
    have hpre : cfg ∉ pre := fun h => hk (List.mem_cons_of_mem _ h)
    rw [List.cons_append, locateConfig]
    simp only [ha, if_false]
    rw [ih (k + 1) hpre]
    simp only [List.length_cons, Option.some.injEq]
    omega

theorem taggedLeafPathsOfNodes_eq (s : Int) (ds : List Node) :
    taggedLeafPathsOfNodes s ds = ds.flatMap (Node.taggedLeafPaths s) := by
  induction ds with
  | nil => simp [taggedLeafPathsOfNodes]
  | cons d ds ih => simp [taggedLeafPathsOfNodes, ih]

theorem taggedLeafPathsOfBranches_eq (s : Int) (bs : List Branch) :
    taggedLeafPathsOfBranches s bs =
      bs.flatMap (fun b => taggedLeafPathsOfNodes s b.descendants) := by
  induction bs with
  | nil => simp [taggedLeafPathsOfBranches]
  | cons b bs ih =>
    cases b with
    | mk cfg ids ds =>
      simp [taggedLeafPathsOfBranches, Branch.taggedLeafPaths, ih]

theorem Node.taggedLeafPaths_eq (s : Int) (n : Node) :
    n.taggedLeafPaths s =
      (match n.leafSide with
        | some l => if l.hasSegmentTag s then [[n.getId]] else []
        | none => [])
      ++ (taggedLeafPathsOfBranches s n.branches).map (fun p => n.getId :: p) := by
  cases n <;>
    simp [Node.taggedLeafPaths, Node.leafSide, Node.branches, Node.getBranches, Node.getId,
      Node.base, taggedLeafPathsOfBranches]

open Example

theorem Node.hasSegmentTag_iff_mem (n : Node) (hs : n.getSegmentTags.Sorted (· < ·)) (s : Int) :
    n.hasSegmentTag s = true ↔ s ∈ n.getSegmentTags :=
  Container.hasSegmentTag_iff n.base hs s

theorem uniform_sorted {r : Bool} {rest : List LpsDimConfig} {n : Node}
    (h : Node.Uniform r rest n) : n.getSegmentTags.Sorted (· < ·) := by
  cases rest with
  | nil => exact h.2
  | cons c rest => exact h.2.2.1

/-- Below a container without the tag there is no leaf container with the tag. -/
theorem uniform_untagged (s : Int) :
    ∀ (rest : List LpsDimConfig) (d : Node), Node.Uniform false rest d →
      d.hasSegmentTag s = false → d.taggedLeafPaths s = [] := by
  intro rest
  induction rest with
  | nil =>
    intro d hd htag
    cases d with
    | leaf k =>
      simp only [Node.hasSegmentTag, Node.base] at htag
      simp [Node.taggedLeafPaths, htag]
    | intermediate k bs => cases hd.1
    | hybrid k bs l => cases hd.1
  | cons cfg rest ih =>
    intro d hd htag
    have hsorted := uniform_sorted hd
    obtain ⟨hleaf, hnoleaf, -, -, hbs⟩ := hd
    have hnot : s ∉ d.getSegmentTags := by
      intro hmem
      rw [(Node.hasSegmentTag_iff_mem d hsorted s).mpr hmem] at htag
      cases htag
    have hside : d.leafSide = none := by
      cases d with
      | leaf k => cases hleaf
      | intermediate k bs => rfl
      | hybrid k bs l => cases hnoleaf
    rw [Node.taggedLeafPaths_eq, hside, taggedLeafPathsOfBranches_eq]
    simp only [List.nil_append, List.map_eq_nil_iff, List.flatMap_eq_nil_iff]
    intro b hb
    rw [taggedLeafPathsOfNodes_eq, List.flatMap_eq_nil_iff]
    intro c hc
    obtain ⟨-, h2, h3⟩ := (hbs b hb).2 c hc
    apply ih c h3
    cases hct : c.hasSegmentTag s with
    | false => rfl
    | true =>
      exact absurd (h2 rfl s ((Node.hasSegmentTag_iff_mem c (uniform_sorted h3) s).mp hct)) hnot

/-- The loop of `foldContainer` adds, for each container of the branch, what the fold of the
container covers. -/
theorem paths_foldContainerLoop (s : Int) (D : List LpsDimConfig) (position : Nat)
    (nextConfig : LpsDimConfig) :
    ∀ (ds : List Node),
      (∀ d ∈ ds,
        (d.hasSegmentTag s = false → d.taggedLeafPaths s = []) ∧
        (position + 1 < D.length - 1 →
          ∃ fs, Node.foldContainer s D (position + 1) d = some fs ∧
            (PartFolding.pathsOfList fs).map (fun p => d.getId :: p) = d.taggedLeafPaths s) ∧
        (¬ position + 1 < D.length - 1 →
          d.getLeaf = none ∧
          ∃ r, Node.foldContainerForSegment s D false d = some r ∧
            (r = none → d.taggedLeafPaths s = []) ∧
            ∀ f, r = some f →
              f.getIdRange = { min := d.getId, max := d.getId } ∧
              f.paths = d.taggedLeafPaths s)) →
      ∀ (fold : List PartFolding), (∀ f ∈ fold, f.getIdRange.min ≤ f.getIdRange.max) →
        ∃ fold1, foldContainerLoop s D position nextConfig fold ds = some fold1 ∧
          PartFolding.pathsOfList fold1 =
            PartFolding.pathsOfList fold ++ taggedLeafPathsOfNodes s ds ∧
          ∀ f ∈ fold1, f.getIdRange.min ≤ f.getIdRange.max := by
  intro ds
  induction ds with
  | nil =>
    intro _ fold hvalid
    exact ⟨fold, rfl, by simp [taggedLeafPathsOfNodes], hvalid⟩
  | cons d ds ih =>
    intro hds fold hvalid
    obtain ⟨huntagged, hdeep, hlast⟩ := hds d (List.mem_cons_self _ _)
    have ih1 := ih (fun e he => hds e (List.mem_cons_of_mem _ he))
    rw [foldContainerLoop]
    cases htag : d.hasSegmentTag s with
    | false =>
      obtain ⟨fold1, h1, h2, h3⟩ := ih1 fold hvalid
      refine ⟨fold1, by simpa using h1, ?_, h3⟩
      rw [h2, taggedLeafPathsOfNodes, huntagged htag, List.nil_append]
    | true =>
      by_cases hpos : position + 1 < D.length - 1
      · obtain ⟨fs, hfs, hpaths⟩ := hdeep hpos
        simp only [Bool.not_true, Bool.false_eq_true, if_false, hpos, if_true, hfs]
        cases fs with
        | nil =>
          obtain ⟨fold1, h1, h2, h3⟩ := ih1 fold hvalid
          refine ⟨fold1, h1, ?_, h3⟩
          rw [h2, taggedLeafPathsOfNodes, ← hpaths]
          simp [PartFolding.pathsOfList]
        | cons f fs =>
          obtain ⟨g1, g2⟩ := paths_coalesceOrAppend fold d.getId
            ((PartFolding.new d.getId nextConfig.dimNo nextConfig.level).setDescendants
              (f :: fs)) hvalid rfl
          obtain ⟨fold1, h1, h2, h3⟩ := ih1 _ g2
          refine ⟨fold1, h1, ?_, h3⟩
          rw [h2, g1, taggedLeafPathsOfNodes, ← hpaths, List.append_assoc]
          congr 2
          simp [PartFolding.new, PartFolding.setDescendants, PartFolding.paths,
            Range.ids_single]
      · obtain ⟨hleaf, r, hr, hnone, hsome⟩ := hlast hpos
        simp only [Bool.not_true, Bool.false_eq_true, if_false, hpos, hleaf, hr]
        cases r with
        | none =>
          obtain ⟨fold1, h1, h2, h3⟩ := ih1 fold hvalid
          refine ⟨fold1, h1, ?_, h3⟩
          rw [h2, taggedLeafPathsOfNodes, hnone rfl, List.nil_append]
        | some f =>
          obtain ⟨hrange, hpaths⟩ := hsome f rfl
          obtain ⟨g1, g2⟩ := paths_coalesceOrAppend fold d.getId f hvalid hrange
          obtain ⟨fold1, h1, h2, h3⟩ := ih1 _ g2
          refine ⟨fold1, h1, ?_, h3⟩
          rw [h2, g1, taggedLeafPathsOfNodes, hpaths, List.append_assoc]

open Example

theorem getElem?_append_cons_succ (pre : List LpsDimConfig) (cfg cfg1 : LpsDimConfig)
    (rest : List LpsDimConfig) :
    (pre ++ cfg :: cfg1 :: rest).get? (pre.length + 1) = some cfg1 := by
  induction pre with
  | nil => rfl
  | cons a pre ih => simpa using ih

/-- Along the dimension order of the tree, the fold of a container covers the paths to the
leaf containers below it that carry the tag. -/
theorem paths_foldContainerForSegment (s : Int) (D : List LpsDimConfig) (hD : D.Nodup) :
    ∀ (rest pre : List LpsDimConfig) (cfg : LpsDimConfig) (d : Node),
      D = pre ++ cfg :: rest → d.base.config = cfg → Node.Uniform false rest d →
      (∃ r, Node.foldContainerForSegment s D false d = some r ∧
        (r = none → d.taggedLeafPaths s = []) ∧
        ∀ f, r = some f →
          f.getIdRange = { min := d.getId, max := d.getId } ∧
          f.paths = d.taggedLeafPaths s) ∧
      (rest ≠ [] → ∃ fs, Node.foldContainer s D (pre.length + 1) d = some fs ∧
        (PartFolding.pathsOfList fs).map (fun p => d.getId :: p) = d.taggedLeafPaths s) := by
  intro rest
  induction rest with
  | nil =>
    intro pre cfg d _ _ hu
    refine ⟨?_, fun h => absurd rfl h⟩
    cases d with
    | intermediate k bs => cases hu.1
    | hybrid k bs l => cases hu.1
    | leaf k =>
      simp only [Node.foldContainerForSegment, Container.foldContainerForSegment,
        Node.taggedLeafPaths, Node.getId, Node.base]
      cases htag : k.hasSegmentTag s with
      | false => exact ⟨none, rfl, fun _ => by simp, fun f hf => by cases hf⟩
      | true =>
        refine ⟨_, rfl, (fun h => by simp at h), ?_⟩
        intro f hf
        simp only [Bool.not_true, Bool.false_eq_true, if_false, Option.some.injEq] at hf
        subst hf
        simp [PartFolding.new, PartFolding.getIdRange, PartFolding.paths, Range.ids_single]
  | cons cfg1 rest1 ih =>
    intro pre cfg d hDeq hcfg hu
    have hu0 := hu
    obtain ⟨hleaf, hnoleaf, hsorted, hlen, hbs⟩ := hu
    have hlength : D.length = pre.length + 2 + rest1.length := by
      rw [hDeq]; simp; omega
    have hDeq1 : D = (pre ++ [cfg]) ++ cfg1 :: rest1 := by rw [hDeq]; simp
    -- the containers of the branch
    have hchildren : ∀ b ∈ d.branches, ∀ c ∈ b.descendants,
        (c.hasSegmentTag s = false → c.taggedLeafPaths s = []) ∧
        (pre.length + 1 + 1 < D.length - 1 →
          ∃ fs, Node.foldContainer s D (pre.length + 1 + 1) c = some fs ∧
            (PartFolding.pathsOfList fs).map (fun p => c.getId :: p)
              = c.taggedLeafPaths s) ∧
        (¬ pre.length + 1 + 1 < D.length - 1 →
          c.getLeaf = none ∧
          ∃ r, Node.foldContainerForSegment s D false c = some r ∧
            (r = none → c.taggedLeafPaths s = []) ∧
            ∀ f, r = some f →
              f.getIdRange = { min := c.getId, max := c.getId } ∧
              f.paths = c.taggedLeafPaths s) := by
      intro b hb c hc
      obtain ⟨h1, -, h3⟩ := (hbs b hb).2 c hc
      obtain ⟨i1, i2⟩ := ih (pre ++ [cfg]) cfg1 c hDeq1 h1 h3
      refine ⟨uniform_untagged s rest1 c h3, ?_, ?_⟩
      · intro hpos
        have hne : rest1 ≠ [] := by
          intro h; subst h; simp at hlength; omega
        simpa using i2 hne
      · intro _
        refine ⟨?_, i1⟩
        cases rest1 with
        | nil =>
          cases c with
          | leaf k => rfl
          | intermediate k bs => cases h3.1
          | hybrid k bs l => cases h3.1
        | cons c2 r2 => exact h3.2.1
    -- the list of sub-folds
    have hsub : ∃ fs, foldContainerBranches s D (pre.length + 1) [] d.branches = some fs ∧
        PartFolding.pathsOfList fs = taggedLeafPathsOfBranches s d.branches := by
      rw [foldContainerBranches_eq, hDeq, getElem?_append_cons_succ]
      simp only
      cases hbr : d.branches with
      | nil => exact ⟨[], by simp [getBranch], by simp [taggedLeafPathsOfBranches,
          PartFolding.pathsOfList]⟩
      | cons b bs =>
        have hbs0 : bs = [] := by
          rw [hbr] at hlen
          cases bs with
          | nil => rfl
          | cons _ _ => simp at hlen
        subst hbs0
        have hb : b ∈ d.branches := by rw [hbr]; exact List.mem_cons_self _ _
        have hlps := (hbs b hb).1
        obtain ⟨fold1, h1, h2, -⟩ := paths_foldContainerLoop s D (pre.length + 1) cfg1
          b.descendants (hchildren b hb) [] (by intro f hf; simp at hf)
        refine ⟨fold1, ?_, ?_⟩
        · simp only [getBranch, hlps, if_true]
          rw [← hDeq]
          exact h1
        · rw [h2, taggedLeafPathsOfBranches_eq]
          simp [PartFolding.pathsOfList]
    have hside : d.leafSide = none := by
      cases d with
      | leaf k => cases hleaf
      | intermediate k bs => rfl
      | hybrid k bs l => cases hnoleaf
    have hpaths : d.taggedLeafPaths s =
        (taggedLeafPathsOfBranches s d.branches).map (fun p => d.getId :: p) := by
      rw [Node.taggedLeafPaths_eq, hside]; rfl
    obtain ⟨fs, hfs, hfspaths⟩ := hsub
    have hlocate : locateConfig cfg D 0 = some pre.length := by
      rw [hDeq, locateConfig_append cfg _ pre 0]
      · simp
      · intro hmem
        rw [hDeq] at hD
        exact (List.nodup_append.mp hD).2.2 hmem (List.mem_cons_self _ _)
    have hnotlast : ¬ pre.length = D.length - 1 := by omega
    constructor
    · cases d with
      | leaf k => cases hleaf
      | hybrid k bs l => cases hnoleaf
      | intermediate k bs =>
        simp only [Node.base] at hcfg
        simp only [Node.branches, Node.getBranches, Option.getD_some] at hfs hfspaths hpaths
        simp only [Node.foldContainerForSegment]
        cases htag : k.hasSegmentTag s with
        | true =>
          simp only [Bool.not_true, Bool.false_eq_true, if_false, hcfg, hlocate, hnotlast,
            hfs]
          cases fs with
          | nil =>
            refine ⟨none, rfl, fun _ => ?_, fun f hf => by cases hf⟩
            rw [hpaths, ← hfspaths]
            simp [PartFolding.pathsOfList]
          | cons f fs =>
            refine ⟨_, rfl, (fun h => by cases h), ?_⟩
            intro g hg
            simp only [Option.some.injEq] at hg
            subst hg
            refine ⟨rfl, ?_⟩
            rw [hpaths, ← hfspaths]
            simp [PartFolding.new, PartFolding.setDescendants, PartFolding.paths,
              Range.ids_single, Node.getId, Node.base, Node.branches, Node.getBranches]
        | false =>
          refine ⟨none, by simp, fun _ => ?_, fun f hf => by cases hf⟩
          exact uniform_untagged s _ _ hu0 htag
    · intro _
      refine ⟨fs, ?_, ?_⟩
      · cases d with
        | leaf k => cases hleaf
        | hybrid k bs l => cases hnoleaf
        | intermediate k bs => exact hfs
      · rw [hpaths, hfspaths]

open Example

theorem uniform_emptyRoot (id : Int) (config cfg : LpsDimConfig) (rest : List LpsDimConfig) :
    Node.Uniform true (cfg :: rest) (emptyRoot id config) := by
  refine ⟨rfl, rfl, ?_, ?_, ?_⟩
  · simp [emptyRoot, BranchingContainer.new, Node.getSegmentTags, Node.base, Container.new]
  · simp [emptyRoot, BranchingContainer.new, Node.branches, Node.getBranches]
  · intro b hb
    simp [emptyRoot, BranchingContainer.new, Node.branches, Node.getBranches] at hb

theorem insertAll_uniform (D : List LpsDimConfig) (hD : D ≠ []) :
    ∀ (calls : List InsertCall) (root t : Node), (∀ call ∈ calls, call.dimOrder = D) →
      insertAll root calls = some t → root.TreeOk → Node.Uniform true D root →
      Node.Uniform true D t := by
  intro calls
  induction calls with
  | nil =>
    intro root t _ h _ hroot
    simp only [insertAll, Option.some.injEq] at h
    exact h ▸ hroot
  | cons call rest ih =>
    intro root t hcalls h hok hroot
    unfold insertAll at h
    rw [insertPart_zero, hcalls call (List.mem_cons_self _ _)] at h
    cases hc : insertPartFrom D call.segmentTag call.partId root with
    | none => rw [hc] at h; simp at h
    | some root1 =>
      rw [hc] at h
      exact ih root1 t (fun c hcm => hcalls c (List.mem_cons_of_mem _ hcm)) h
        (insertPartFrom_treeOk _ _ _ _ _ hc hok)
        (insertPartFrom_uniform _ _ _ _ _ _ hc hok hroot (fun hr => by cases hr) hD)

/-- Where a container of a tree built along one dimension order stands in the order. -/
theorem uniform_locate (D : List LpsDimConfig) :
    ∀ (tail pre : List LpsDimConfig) (r : Bool) (n : Node), D = pre ++ tail →
      Node.Uniform r tail n →
      ∀ b ∈ n.branches, ∀ d ∈ b.descendants, ∀ c ∈ d.subnodes,
        ∃ pre1 cfg rest, D = pre1 ++ cfg :: rest ∧ c.base.config = cfg ∧
          Node.Uniform false rest c := by
  intro tail
  induction tail with
  | nil =>
    intro pre r n _ hu b hb
    cases n with
    | leaf k => simp [Node.branches, Node.getBranches] at hb
    | intermediate k bs => cases hu.1
    | hybrid k bs l => cases hu.1
  | cons cfg rest ih =>
    intro pre r n hDeq hu b hb d hd c hc
    obtain ⟨h1, -, h3⟩ := (hu.2.2.2.2 b hb).2 d hd
    rcases (mem_subnodes_iff c d).mp hc with rfl | ⟨b1, hb1, d1, hd1, hc1⟩
    · exact ⟨pre, cfg, rest, hDeq, h1, h3⟩
    · exact ih (pre ++ [cfg]) false d (by rw [hDeq]; simp) h3 b1 hb1 d1 hd1 c hc1

/-- A leaf container with the tag below a container gives a path to it. -/
theorem uniform_leaf_path (s : Int) :
    ∀ (rest : List LpsDimConfig) (c : Node) (l : Container), Node.Uniform false rest c →
      l ∈ c.leaves → s ∈ l.segmentTags → c.taggedLeafPaths s ≠ [] := by
  intro rest
  induction rest with
  | nil =>
    intro c l hu hl hs
    cases c with
    | intermediate k bs => cases hu.1
    | hybrid k bs l => cases hu.1
    | leaf k =>
      rcases (mem_leaves_iff l _).mp hl with hside | ⟨b, hb, -⟩
      · simp only [Node.leafSide, Option.some.injEq] at hside
        subst hside
        have := (Container.hasSegmentTag_iff k hu.2 s).mpr hs
        simp [Node.taggedLeafPaths, this]
      · simp [Node.branches, Node.getBranches] at hb
  | cons cfg rest ih =>
    intro c l hu hl hs
    obtain ⟨hleaf, hnoleaf, -, -, hbs⟩ := hu
    have hside : c.leafSide = none := by
      cases c with
      | leaf k => cases hleaf
      | intermediate k bs => rfl
      | hybrid k bs l => cases hnoleaf
    rcases (mem_leaves_iff l _).mp hl with h | ⟨b, hb, d, hd, hld⟩
    · rw [hside] at h; cases h
    · have hdpaths := ih d l ((hbs b hb).2 d hd).2.2 hld hs
      obtain ⟨p, hp⟩ := List.exists_mem_of_ne_nil _ hdpaths
      rw [Node.taggedLeafPaths_eq, hside, taggedLeafPathsOfBranches_eq]
      apply List.ne_nil_of_mem (a := c.getId :: p)
      simp only [List.nil_append, List.mem_map, List.mem_flatMap]
      refine ⟨p, ⟨b, hb, ?_⟩, rfl⟩
      rw [taggedLeafPathsOfNodes_eq, List.mem_flatMap]
      exact ⟨d, hd, hp⟩

/-- C12, as stated, fails: the container 0 of LPS 1 carries tag 2 and the leaf 5 of LPS 3
below it carries tag 2, but along the dimension order `[A, B]` no container of the branch of
LPS 2 carries tag 2, and `foldContainerForSegment(2, [A, B], false)` returns NULL: the leaf is
not covered. -/
theorem fold_null_for_tagged_container :
    insertAll (emptyRoot 0 rootConfig)
      [{ dimOrder := [configA, configB], segmentTag := 1, partId := [[0], [1], [5]] },
       { dimOrder := [configA, configC], segmentTag := 2, partId := [[0], [1], [5]] }]
      = some treeABAC ∧
    getContainer treeABAC [[0]] [configA] 0 = some (some interABAC) ∧
    interABAC.hasSegmentTag 2 = true ∧
    interABAC.taggedLeafPaths 2 = [[0, 5]] ∧
    Node.foldContainerForSegment 2 [configA, configB] false interABAC = some none :=
  ⟨rfl, rfl, rfl, rfl, rfl⟩

/-- In a tree built from an empty root by `insertPart` calls that all use the dimension
order `D`, without a repeated config, let `c` be a container below the root. Then
`foldContainerForSegment(s, D, false)` on `c` returns NULL when `c` does not carry `s`, and
otherwise a fold with the id of `c` on top that covers exactly the paths from `c` to the leaf
containers under it that carry `s`. -/
theorem one_order_fold_covers_tagged_leaves (id : Int) (config : LpsDimConfig)
    (calls : List InsertCall) (D : List LpsDimConfig) (tree : Node) (hD : D.Nodup)
    (hcalls : ∀ call ∈ calls, call.dimOrder = D)
    (h : insertAll (emptyRoot id config) calls = some tree)
    (b : Branch) (hb : b ∈ tree.branches) (d : Node) (hd : d ∈ b.descendants)
    (c : Node) (hc : c ∈ d.subnodes) (s : Int) :
    (c.hasSegmentTag s = false → Node.foldContainerForSegment s D false c = some none) ∧
    (c.hasSegmentTag s = true →
      ∃ f, Node.foldContainerForSegment s D false c = some (some f) ∧
        f.getIdRange = { min := c.getId, max := c.getId } ∧
        f.paths = c.taggedLeafPaths s ∧ f.paths ≠ []) := by
  refine ⟨Node.foldContainerForSegment_untagged s D false c, ?_⟩
  intro htag
  cases D with
  | nil =>
    cases calls with
    | nil =>
      simp only [insertAll, Option.some.injEq] at h
      subst h
      simp [emptyRoot, BranchingContainer.new, Node.branches, Node.getBranches] at hb
    | cons call rest =>
      unfold insertAll at h
      rw [insertPart_zero, hcalls call (List.mem_cons_self _ _)] at h
      simp [insertPartFrom] at h
  | cons cfg0 rest0 =>
    have hu := insertAll_uniform (cfg0 :: rest0) (by simp) calls _ tree hcalls h
      (treeOk_emptyRoot id config) (uniform_emptyRoot id config cfg0 rest0)
    obtain ⟨pre, cfg, rest, hDeq, hcfg, hcu⟩ :=
      uniform_locate (cfg0 :: rest0) (cfg0 :: rest0) [] true tree rfl hu b hb d hd c hc
    obtain ⟨⟨r, hr, hnone, hsome⟩, -⟩ :=
      paths_foldContainerForSegment s (cfg0 :: rest0) hD rest pre cfg c hDeq hcfg hcu
    have hcmem : c ∈ tree.subnodes :=
      mem_subnodes_trans hc tree (mem_subnodes_child (mem_subnodes_self tree) hb hd)
    have hwit := (insertAll_invariants h).2 c hcmem
    obtain ⟨l, hl, hsl⟩ := hwit s
      ((Node.hasSegmentTag_iff_mem c (uniform_sorted hcu) s).mp htag)
    have hne := uniform_leaf_path s rest c l hcu hl hsl
    cases r with
    | none => exact absurd (hnone rfl) hne
    | some f =>
      obtain ⟨h1, h2⟩ := hsome f rfl
      exact ⟨f, hr, h1, h2, h2 ▸ hne⟩

open Example

/-! ## Lookups in a branch that keeps the branch invariant -/

/-- A branch that keeps the invariant holds at most one container of an id. -/
theorem Branch.ok_unique {b : Branch} (hok : b.Ok) {d e : Node} (hd : d ∈ b.descendants)
    (he : e ∈ b.descendants) (hid : d.getId = e.getId) : d = e := by
  have hnodup : (b.descendants.map Node.getId).Nodup := by
    rw [← hok.2]
    exact hok.1.nodup
  exact List.inj_on_of_nodup_map hnodup hd he hid

/-- The lookup of an id in a branch that keeps the invariant: NULL when no container has the
id, and the container of the id otherwise. -/
theorem Branch.getEntry_of_ok {b : Branch} (hok : b.Ok) (cid : Int) :
    (b.getEntry cid = some none ∧ ∀ d ∈ b.descendants, d.getId ≠ cid) ∨
    (∃ d, b.getEntry cid = some (some d) ∧ d ∈ b.descendants ∧ d.getId = cid) := by
  cases hk : binsearch.locateKey b.descendentIds cid with
  | none =>
    left
    refine ⟨Branch.getEntry_of_none hk, ?_⟩
    intro d hd hid
    have hnot := (binsearch.locateKey_eq_none_iff hok.1 cid).mp hk
    apply hnot
    rw [hok.2, ← hid]
    exact List.mem_map_of_mem _ hd
  | some loc =>
    right
    have h1 := binsearch.locateKey_some hk
    have hlen : loc < b.descendants.length := by
      have := h1.1
      rw [hok.2, List.length_map] at this
      exact this
    have hd : b.descendants[loc]? = some (b.descendants[loc]) := List.getElem?_eq_getElem hlen
    exact ⟨_, Branch.getEntry_of_some loc hk hd, List.getElem_mem _, Branch.ok_getId hok hk hd⟩

/-- Two branches that keep the invariant and hold the same containers of an id give the same
lookup of the id. -/
theorem Branch.getEntry_congr {b c : Branch} (hb : b.Ok) (hc : c.Ok) (cid : Int)
    (hmem : ∀ d, d.getId = cid → (d ∈ c.descendants ↔ d ∈ b.descendants)) :
    c.getEntry cid = b.getEntry cid := by
  rcases Branch.getEntry_of_ok hb cid with ⟨h1, h2⟩ | ⟨d, h1, h2, h3⟩
  · rcases Branch.getEntry_of_ok hc cid with ⟨g1, _⟩ | ⟨e, _, g2, g3⟩
    · rw [h1, g1]
    · exact absurd g3 (h2 e ((hmem e g3).mp g2))
  · rcases Branch.getEntry_of_ok hc cid with ⟨_, g2⟩ | ⟨e, g1, g2, g3⟩
    · exact absurd h3 (g2 d ((hmem d h3).mpr h2))
    · rw [h1, g1, Branch.ok_unique hb h2 ((hmem e g3).mp g2) (h3.trans g3.symm)]

/-- A lookup in an object without branches returns no container. -/
theorem getContainerFrom_of_branches_nil {n : Node} (h : n.branches = [])
    (ds : List LpsDimConfig) (q : List (List Int)) (c : Node) :
    getContainerFrom ds q n ≠ some (some c) := by
  cases ds with
  | nil => simp [getContainerFrom]
  | cons cfg rest =>
    unfold getContainerFrom
    cases hb : n.getBranches with
    | none => simp
    | some branches =>
      have hnil : branches = [] := by
        rw [← Node.branches_of_getBranches hb]; exact h
      subst hnil
      cases partIdEntry q cfg with
      | none => simp
      | some cid => simp [getBranch]

/-- A lookup of one position at another id than the one a call of `insertPart` takes gives
after the call what it gave before. -/
theorem insertPartFrom_lookup_other {cfg : LpsDimConfig} {rest : List LpsDimConfig} {tag : Int}
    {p : List (List Int)} {self self1 : Node}
    (h : insertPartFrom (cfg :: rest) tag p self = some self1)
    (hok : ∀ b ∈ self.branches, b.Ok) (q : List (List Int)) (cidq : Int)
    (hq : partIdEntry q cfg = some cidq) (hne : partIdEntry p cfg ≠ some cidq) :
    getContainerFrom [cfg] q self1 = getContainerFrom [cfg] q self := by
  obtain ⟨branches, cid, nc, nf, hb, hp, hid, hrec, hshape⟩ := insertPartFrom_shape h hok
  have hbr := Node.branches_of_getBranches hb
  have hcid : cid ≠ cidq := by
    intro hc
    exact hne (hc ▸ hp)
  rcases hshape with ⟨hgb, hnc, rfl⟩ | ⟨b, hgb, hk, hnc, rfl⟩ |
    ⟨b, loc, old, conv, hgb, hk, hold, hoid, hv, rfl⟩
  · rw [getContainerFrom_single (Node.getBranches_setBranches _ hb) hq,
      getContainerFrom_single hb hq, hgb, getBranch_append_of_none _ hgb (by simp)]
    simp only
    rcases Branch.getEntry_of_ok (Branch.ok_singleton cfg hid) cidq with ⟨h1, _⟩ | ⟨d, _, h2, h3⟩
    · exact h1
    · simp only [Branch.descendants_mk, List.mem_singleton] at h2
      subst h2
      exact absurd (hid.symm.trans h3) hcid
  · have hbok := hok b (hbr ▸ (getBranch_some hgb).2)
    rw [getContainerFrom_single (Node.getBranches_setBranches _ hb) hq,
      getContainerFrom_single hb hq, hgb,
      getBranch_putBranch hgb (by simpa using (getBranch_some hgb).1)]
    simp only
    apply Branch.getEntry_congr hbok (Branch.ok_insert hbok hk hid)
    intro d hd
    simp only [Branch.descendants_mk, mem_vectorInsert]
    constructor
    · rintro (rfl | hm)
      · exact absurd (hid.symm.trans hd) hcid
      · exact hm
    · exact Or.inr
  · have hbok := hok b (hbr ▸ (getBranch_some hgb).2)
    rw [getContainerFrom_single (Node.getBranches_setBranches _ hb) hq,
      getContainerFrom_single hb hq, hgb,
      getBranch_putBranch hgb (by simpa using (getBranch_some hgb).1)]
    simp only
    apply Branch.getEntry_congr hbok (Branch.ok_set hbok hk hid)
    intro d hd
    simp only [Branch.descendants_mk]
    constructor
    · intro hm
      rcases List.mem_or_eq_of_mem_set hm with hm | rfl
      · exact hm
      · exact absurd (hid.symm.trans hd) hcid
    · intro hm
      rcases mem_set_or _ nf d loc hm with h1 | h1
      · exact h1
      · rw [hold] at h1
        cases h1
        exact absurd (hoid.symm.trans hd) hcid

open Example

/-! ## Calls of `insertPart` along one dimension order, seen through lookups -/

/-- A lookup faults when the path has no entry for the first position. -/
theorem getContainerFrom_of_partIdEntry_none {n : Node} {cfg : LpsDimConfig}
    (rest : List LpsDimConfig) {q : List (List Int)} (hq : partIdEntry q cfg = none) :
    getContainerFrom (cfg :: rest) q n = none := by
  unfold getContainerFrom
  cases n.getBranches with
  | none => rfl
  | some branches => simp [hq]

/-- One call of `insertPart` along the dimension order of the tree, seen through the lookups
along the order: a path that agrees with the inserted path on every position finds a
container that carries the tag and the tags of the container found before, if there was one;
any other path finds what it found before. -/
theorem insertPartFrom_getContainerFrom (tag : Int) (p : List (List Int)) :
    ∀ (ds : List LpsDimConfig) (r : Bool) (self self1 : Node),
      insertPartFrom ds tag p self = some self1 → self.TreeOk → Node.Uniform r ds self →
      ∀ q : List (List Int),
        ((∀ cfg ∈ ds, partIdEntry q cfg = partIdEntry p cfg) →
          ∃ c1, getContainerFrom ds q self1 = some (some c1) ∧
            ∀ x, x ∈ c1.getSegmentTags ↔
              x = tag ∨ ∃ c0, getContainerFrom ds q self = some (some c0) ∧
                x ∈ c0.getSegmentTags) ∧
        (¬ (∀ cfg ∈ ds, partIdEntry q cfg = partIdEntry p cfg) →
          ∀ c, getContainerFrom ds q self1 = some (some c) ↔
            getContainerFrom ds q self = some (some c)) := by
  intro ds
  induction ds with
  | nil => intro r self self1 h; simp [insertPartFrom] at h
  | cons cfg rest ih =>
    intro r self self1 h hok hself q
    have hok2 := (treeOk_iff self).mp hok
    obtain ⟨hleaf, hnoleaf, hs, hlen, hbs⟩ := hself
    have hokb : ∀ b ∈ self.branches, b.Ok := fun b hb => (hok2 b hb).1
    obtain ⟨cid, nc, nf, hp, hid, hrec, hafter, hbefore⟩ := insertPartFrom_lookup h hokb
    have hother := insertPartFrom_lookup_other h hokb q
    by_cases hq : partIdEntry q cfg = some cid
    · have h1 : getContainerFrom [cfg] q self1 = some (some nf) := hafter cfg q rfl hq
      cases rest with
      | nil =>
        have hnf : nf = nc.setParent self.base.ref := by
          rcases hrec with ⟨_, hnf⟩ | ⟨hne, _⟩
          · exact hnf
          · exact absurd rfl hne
        refine ⟨fun _ => ?_, fun hn => absurd (by simpa [hq] using hp.symm) hn⟩
        refine ⟨nf, h1, ?_⟩
        intro x
        rcases hbefore with ⟨hnone, hnc⟩ | ⟨old, conv, hsome, ⟨b, hbm, holdm⟩, hoid, hv⟩
        · rw [hnf, Node.getSegmentTags_setParent, hnc, newContainer_getSegmentTags,
            hnone cfg q rfl hq]
          simp
        · have hvt := (uniform_visitExisting self.base.ref hv ((hbs b hbm).2 old holdm).2.2).2 x
          rw [hnf, Node.getSegmentTags_setParent, hvt, hsome cfg q rfl hq]
          simp only [Option.some.injEq, exists_eq_left']
          tauto
      | cons c2 r2 =>
        have hr : insertPartFrom (c2 :: r2) tag p (nc.setParent self.base.ref) = some nf := by
          rcases hrec with ⟨hnil, _⟩ | ⟨_, hr⟩
          · cases hnil
          · exact hr
        have hagree : (∀ c ∈ cfg :: c2 :: r2, partIdEntry q c = partIdEntry p c) ↔
            (∀ c ∈ c2 :: r2, partIdEntry q c = partIdEntry p c) := by
          constructor
          · intro hall c hc
            exact hall c (List.mem_cons_of_mem _ hc)
          · intro hall c hc
            rcases List.mem_cons.mp hc with rfl | hc
            · rw [hq, hp]
            · exact hall c hc
        rw [hagree, getContainerFrom_cons_cons cfg c2 r2 q self1,
          getContainerFrom_cons_cons cfg c2 r2 q self, h1]
        simp only
        rcases hbefore with ⟨hnone, hnc⟩ | ⟨old, conv, hsome, ⟨b, hbm, holdm⟩, hoid, hv⟩
        · have ihq := ih false _ _ hr (hnc ▸ treeOk_newContainer _ _ _ _ _)
            (hnc ▸ uniform_newContainer _ _ _ _ _) q
          have hno : ∀ c, getContainerFrom (c2 :: r2) q (nc.setParent self.base.ref)
              ≠ some (some c) :=
            getContainerFrom_of_branches_nil
              (by rw [Node.branches_setParent, hnc, newContainer_branches]) _ _
          rw [hnone cfg q rfl hq]
          simp only
          constructor
          · intro hag
            obtain ⟨c1, hc1, htags⟩ := ihq.1 hag
            refine ⟨c1, hc1, ?_⟩
            intro x
            rw [htags x]
            constructor
            · rintro (hx | ⟨c0, hc0, _⟩)
              · exact Or.inl hx
              · exact absurd hc0 (hno c0)
            · rintro (hx | ⟨c0, hc0, _⟩)
              · exact Or.inl hx
              · cases hc0
          · intro hag c
            rw [ihq.2 hag c]
            constructor
            · intro hc; exact absurd hc (hno c)
            · intro hc; cases hc
        · have holdok := (hok2 b hbm).2 old holdm
          obtain ⟨hu, -⟩ := uniform_visitExisting self.base.ref hv ((hbs b hbm).2 old holdm).2.2
          have ihq := ih false _ _ hr (treeOk_of_branches_eq
            (by rw [Node.branches_setParent, visitExisting_branches hv]) holdok) hu q
          have hgb : nc.getBranches = old.getBranches := by
            have hvn := @visitExisting_nonlast old nc conv tag (by simpa using hv)
            have holdleaf := ((hbs b hbm).2 old holdm).2.2.1
            cases hob : old.getBranches with
            | none =>
              cases old with
              | leaf k => cases holdleaf
              | intermediate k bs => cases hob
              | hybrid k bs l => cases hob
            | some bs => exact hvn.2.2.2.2 bs hob
          have hcongr : getContainerFrom (c2 :: r2) q (nc.setParent self.base.ref) =
              getContainerFrom (c2 :: r2) q old :=
            getContainerFrom_congr (by rw [Node.getBranches_setParent, hgb]) _ _
          rw [hcongr] at ihq
          rw [hsome cfg q rfl hq]
          exact ihq
    · refine ⟨fun hag => absurd ((hag cfg (List.mem_cons_self _ _)).trans hp) hq, fun _ => ?_⟩
      cases hqe : partIdEntry q cfg with
      | none =>
        intro c
        rw [getContainerFrom_of_partIdEntry_none rest hqe,
          getContainerFrom_of_partIdEntry_none rest hqe]
      | some cidq =>
        have hsame := hother cidq hqe (by
          rw [hp]
          intro hc
          apply hq
          rw [hqe, ← hc])
        intro c
        cases rest with
        | nil => rw [hsame]
        | cons c2 r2 =>
          rw [getContainerFrom_cons_cons cfg c2 r2 q self1,
            getContainerFrom_cons_cons cfg c2 r2 q self, hsame]

open Example

/-- A sequence of `insertPart` calls along the dimension order of the tree, seen through the
lookups along the order: a path finds a container exactly when it found one before or
agrees with the path of a call on every position, and the container found carries the tags
of the container found before together with the tags of the calls the path agrees with. -/
theorem insertAll_getContainerFrom (D : List LpsDimConfig) :
    ∀ (calls : List InsertCall) (root tree : Node), (∀ call ∈ calls, call.dimOrder = D) →
      insertAll root calls = some tree → root.TreeOk → Node.Uniform true D root →
      ∀ q : List (List Int),
        ((∃ c, getContainerFrom D q tree = some (some c)) ↔
          (∃ c0, getContainerFrom D q root = some (some c0)) ∨
            ∃ call ∈ calls, ∀ cfg ∈ D, partIdEntry q cfg = partIdEntry call.partId cfg) ∧
        (∀ c, getContainerFrom D q tree = some (some c) → ∀ x, x ∈ c.getSegmentTags ↔
          (∃ c0, getContainerFrom D q root = some (some c0) ∧ x ∈ c0.getSegmentTags) ∨
            ∃ call ∈ calls, call.segmentTag = x ∧
              ∀ cfg ∈ D, partIdEntry q cfg = partIdEntry call.partId cfg) := by
  intro calls
  induction calls with
  | nil =>
    intro root tree _ h _ _ q
    simp only [insertAll, Option.some.injEq] at h
    subst h
    constructor
    · simp
    · intro c hc x
      simp [hc]
  | cons call rest ih =>
    intro root tree hcalls h hok hroot q
    unfold insertAll at h
    rw [insertPart_zero, hcalls call (List.mem_cons_self _ _)] at h
    cases hc : insertPartFrom D call.segmentTag call.partId root with
    | none => rw [hc] at h; simp at h
    | some root1 =>
      rw [hc] at h
      have hD : D ≠ [] := by
        intro hnil
        rw [hnil] at hc
        simp [insertPartFrom] at hc
      obtain ⟨ih1, ih2⟩ := ih root1 tree (fun c hcm => hcalls c (List.mem_cons_of_mem _ hcm)) h
        (insertPartFrom_treeOk _ _ _ _ _ hc hok)
        (insertPartFrom_uniform _ _ _ _ _ _ hc hok hroot (fun hr => by cases hr) hD) q
      obtain ⟨step1, step2⟩ := insertPartFrom_getContainerFrom call.segmentTag call.partId D true
        root root1 hc hok hroot q
      by_cases hag : ∀ cfg ∈ D, partIdEntry q cfg = partIdEntry call.partId cfg
      · obtain ⟨c1, hc1, htags⟩ := step1 hag
        constructor
        · rw [ih1]
          constructor
          · intro _
            exact Or.inr ⟨call, List.mem_cons_self _ _, hag⟩
          · intro _
            exact Or.inl ⟨c1, hc1⟩
        · intro c hcc x
          rw [ih2 c hcc x]
          constructor
          · rintro (⟨c0, hc0, hx⟩ | ⟨call1, hm, ht, ha⟩)
            · rw [hc1] at hc0
              cases hc0
              rcases (htags x).mp hx with hx | hx
              · exact Or.inr ⟨call, List.mem_cons_self _ _, hx.symm, hag⟩
              · exact Or.inl hx
            · exact Or.inr ⟨call1, List.mem_cons_of_mem _ hm, ht, ha⟩
          · rintro (hx | ⟨call1, hm, ht, ha⟩)
            · exact Or.inl ⟨c1, hc1, (htags x).mpr (Or.inr hx)⟩
            · rcases List.mem_cons.mp hm with rfl | hm
              · exact Or.inl ⟨c1, hc1, (htags x).mpr (Or.inl ht.symm)⟩
              · exact Or.inr ⟨call1, hm, ht, ha⟩
      · have hsame := step2 hag
        constructor
        · rw [ih1]
          constructor
          · rintro (⟨c0, hc0⟩ | ⟨call1, hm, ha⟩)
            · exact Or.inl ⟨c0, (hsame c0).mp hc0⟩
            · exact Or.inr ⟨call1, List.mem_cons_of_mem _ hm, ha⟩
          · rintro (⟨c0, hc0⟩ | ⟨call1, hm, ha⟩)
            · exact Or.inl ⟨c0, (hsame c0).mpr hc0⟩
            · rcases List.mem_cons.mp hm with rfl | hm
              · exact absurd ha hag
              · exact Or.inr ⟨call1, hm, ha⟩
        · intro c hcc x
          rw [ih2 c hcc x]
          constructor
          · rintro (⟨c0, hc0, hx⟩ | ⟨call1, hm, ht, ha⟩)
            · exact Or.inl ⟨c0, (hsame c0).mp hc0, hx⟩
            · exact Or.inr ⟨call1, List.mem_cons_of_mem _ hm, ht, ha⟩
          · rintro (⟨c0, hc0, hx⟩ | ⟨call1, hm, ht, ha⟩)
            · exact Or.inl ⟨c0, (hsame c0).mpr hc0, hx⟩
            · rcases List.mem_cons.mp hm with rfl | hm
              · exact absurd ha hag
              · exact Or.inr ⟨call1, hm, ht, ha⟩

/-- C26. Let a tree be built from an empty root by `insertPart` calls that all use the
dimension order `D`. Then `getContainer(q, D)` returns a container exactly when `q` agrees
with the path of some call on every coordinate `D` references, and the tags of the container
returned are exactly the tags of the calls whose paths `q` agrees with. Further calls along
`D` remove neither a container nor a tag: a path that found a container finds one afterwards,
with at least the tags it had. -/
theorem getContainer_finds_exactly_the_inserted_paths (id : Int) (config : LpsDimConfig)
    (D : List LpsDimConfig) (calls : List InsertCall) (tree : Node)
    (hcalls : ∀ call ∈ calls, call.dimOrder = D)
    (h : insertAll (emptyRoot id config) calls = some tree) (q : List (List Int)) :
    ((∃ c, getContainer tree q D 0 = some (some c)) ↔
      ∃ call ∈ calls, ∀ cfg ∈ D, partIdEntry q cfg = partIdEntry call.partId cfg) ∧
    (∀ c, getContainer tree q D 0 = some (some c) → ∀ s, s ∈ c.getSegmentTags ↔
      ∃ call ∈ calls, call.segmentTag = s ∧
        ∀ cfg ∈ D, partIdEntry q cfg = partIdEntry call.partId cfg) ∧
    (∀ (more : List InsertCall) (tree2 : Node), (∀ call ∈ more, call.dimOrder = D) →
      insertAll tree more = some tree2 →
      ∀ c, getContainer tree q D 0 = some (some c) →
        ∃ c2, getContainer tree2 q D 0 = some (some c2) ∧
          ∀ s ∈ c.getSegmentTags, s ∈ c2.getSegmentTags) := by
  cases D with
  | nil =>
    have hfault : ∀ t : Node, getContainer t q [] 0 = none := by
      intro t
      rw [getContainer_zero]
      rfl
    refine ⟨?_, ?_, ?_⟩
    · rw [hfault]
      constructor
      · rintro ⟨c, hc⟩; cases hc
      · rintro ⟨call, hm, _⟩
        cases calls with
        | nil => cases hm
        | cons call0 rest =>
          unfold insertAll at h
          rw [insertPart_zero, hcalls call0 (List.mem_cons_self _ _)] at h
          simp [insertPartFrom] at h
    · intro c hc
      rw [hfault] at hc
      cases hc
    · intro more tree2 _ _ c hc
      rw [hfault] at hc
      cases hc
  | cons cfg rest =>
    have hroot : ∀ c0, getContainerFrom (cfg :: rest) q (emptyRoot id config)
        ≠ some (some c0) :=
      getContainerFrom_of_branches_nil
        (by simp [emptyRoot, BranchingContainer.new, Node.branches, Node.getBranches]) _ _
    obtain ⟨h1, h2⟩ := insertAll_getContainerFrom (cfg :: rest) calls _ tree hcalls h
      (treeOk_emptyRoot id config) (uniform_emptyRoot id config cfg rest) q
    refine ⟨?_, ?_, ?_⟩
    · rw [getContainer_zero, h1]
      constructor
      · rintro (⟨c0, hc0⟩ | hcall)
        · exact absurd hc0 (hroot c0)
        · exact hcall
      · exact Or.inr
    · intro c hc s
      rw [getContainer_zero] at hc
      rw [h2 c hc s]
      constructor
      · rintro (⟨c0, hc0, _⟩ | hcall)
        · exact absurd hc0 (hroot c0)
        · exact hcall
      · exact Or.inr
    · intro more tree2 hmore hins c hc
      rw [getContainer_zero] at hc
      have htreeOk : tree.TreeOk := (insertAll_invariants h).1
      have htreeU : Node.Uniform true (cfg :: rest) tree :=
        insertAll_uniform (cfg :: rest) (by simp) calls _ tree hcalls h
          (treeOk_emptyRoot id config) (uniform_emptyRoot id config cfg rest)
      obtain ⟨g1, g2⟩ := insertAll_getContainerFrom (cfg :: rest) more tree tree2 hmore hins
        htreeOk htreeU q
      obtain ⟨c2, hc2⟩ := g1.mpr (Or.inl ⟨c, hc⟩)
      refine ⟨c2, by rw [getContainer_zero]; exact hc2, ?_⟩
      intro s hs
      exact (g2 c2 hc2 s).mpr (Or.inl ⟨c, hc, hs⟩)

/-- C26 at the tree built by `insertPart([A, B], 1, [[0], [1]])`: the lookup of `[[0], [1]]`
along `[A, B]` returns a container, and its tags are those of the calls with this path. -/
theorem getContainer_finds_exactly_the_inserted_paths_witness :
    insertAll (emptyRoot 0 rootConfig)
      [{ dimOrder := [configA, configB], segmentTag := 1, partId := partId }] = some treeAB ∧
    ((∃ c, getContainer treeAB partId [configA, configB] 0 = some (some c)) ↔
      ∃ call ∈ [({ dimOrder := [configA, configB], segmentTag := 1, partId := partId } :
          InsertCall)],
        ∀ cfg ∈ [configA, configB], partIdEntry partId cfg = partIdEntry call.partId cfg) :=
  ⟨rfl, (getContainer_finds_exactly_the_inserted_paths 0 rootConfig [configA, configB]
    [{ dimOrder := [configA, configB], segmentTag := 1, partId := partId }] treeAB
    (by simp) rfl partId).1⟩

/-- C27. On the tree built by `insertPart([A, B], 1, [[0], [1]])` the call
`insertPart([A], 2, [[0], [1]])` converts the intermediate container 0 of LPS 1 into a hybrid
whose intermediate half keeps the tags `[1]`; the same call once more lands on the hybrid and
puts tag 2 on the intermediate half too, so the tree after two calls is not the tree after
one call. A third call changes nothing. -/
theorem insertPart_twice_differs_after_convertIntermediate :
    insertAll (emptyRoot 0 rootConfig)
      [{ dimOrder := [configA, configB], segmentTag := 1, partId := partId }] = some treeAB ∧
    insertPart treeAB [configA] 2 partId 0 = some treeABthenA ∧
    insertPart treeABthenA [configA] 2 partId 0 = some treeABthenAthenA ∧
    insertPart treeABthenAthenA [configA] 2 partId 0 = some treeABthenAthenA ∧
    getContainer treeABthenA partId [configA] 0 = some (some hybridA) ∧
    getContainer treeABthenAthenA partId [configA] 0 = some (some hybridATagged2) ∧
    hybridA.getSegmentTags = [1] ∧ hybridATagged2.getSegmentTags = [1, 2] ∧
    treeABthenAthenA ≠ treeABthenA := by
  refine ⟨rfl, rfl, rfl, rfl, rfl, rfl, rfl, rfl, ?_⟩
  intro heq
  have h1 : getContainer treeABthenAthenA partId [configA] 0 = some (some hybridATagged2) := rfl
  rw [heq] at h1
  have h2 : getContainer treeABthenA partId [configA] 0 = some (some hybridA) := rfl
  rw [h2] at h1
  have h3 := congrArg (fun r => r.join.map Node.getSegmentTags) h1
  simp [hybridA, hybridATagged2, Node.getSegmentTags, Node.base] at h3

open Example

/-! ## A second call of `insertPart` along the dimension order of the tree -/

theorem putBranch_self {bs : List Branch} {lpsId : Int} {b : Branch}
    (h : getBranch bs lpsId = some b) : putBranch bs lpsId b = bs := by
  induction bs with
  | nil => rfl
  | cons a t ih =>
    unfold getBranch at h
    unfold putBranch
    by_cases ha : a.getConfig.lpsId = lpsId
    · simp only [ha, if_true, Option.some.injEq] at h ⊢
      rw [h]
    · simp only [ha, if_false] at h ⊢
      rw [ih h]

theorem Branch.store_self {b : Branch} {loc : Nat} {d : Node}
    (h : b.descendants[loc]? = some d) : b.store loc d = b := by
  cases b with
  | mk cfg ids ds =>
    simp only [Branch.descendants_mk] at h
    simp [Branch.store, set_eq_self_of_getElem? ds d loc h]

theorem Node.setParent_self {n : Node} {pp : ParentPtr} (h : n.base.parent = pp) :
    n.setParent pp = n := by
  cases n <;> simp only [Node.base] at h <;> subst h <;> rfl

theorem Node.setBranches_self {n : Node} {bs : List Branch} (h : n.getBranches = some bs) :
    n.setBranches bs = n := by
  cases n with
  | leaf c => cases h
  | intermediate c bs0 =>
    simp only [Node.getBranches, Option.some.injEq] at h
    subst h; rfl
  | hybrid c bs0 l =>
    simp only [Node.getBranches, Option.some.injEq] at h
    subst h; rfl

/-- A container of a tree built along one dimension order that carries the tag is visited
without a change. -/
theorem visitExisting_of_tagged {rest : List LpsDimConfig} {n : Node} {tag : Int}
    (hu : Node.Uniform false rest n) (htag : tag ∈ n.getSegmentTags) :
    visitExisting n rest.isEmpty tag = some (n, false) := by
  have hs := uniform_sorted hu
  rw [visitExisting_eq]
  cases rest with
  | nil =>
    cases n with
    | leaf c =>
      simp only [List.isEmpty_nil, Node.addSegmentTag, Node.mapBase]
      rw [Container.addSegmentTag_of_mem c tag hs htag]
    | intermediate c bs => cases hu.1
    | hybrid c bs l => cases hu.1
  | cons cfg r =>
    cases n with
    | leaf c => cases hu.1
    | hybrid c bs l => cases hu.2.1
    | intermediate c bs =>
      simp only [List.isEmpty_cons, Node.addSegmentTag, Node.mapBase]
      rw [Container.addSegmentTag_of_mem c tag hs htag]

/-- In a tree built along one dimension order, a second call of `insertPart` with the
arguments of the first leaves the tree as the first call left it. -/
theorem insertPartFrom_idempotent (tag : Int) (p : List (List Int)) :
    ∀ (ds : List LpsDimConfig) (r : Bool) (self self1 : Node),
      insertPartFrom ds tag p self = some self1 → self.TreeOk → Node.Uniform r ds self →
      (r = false → tag ∈ self.getSegmentTags) →
      insertPartFrom ds tag p self1 = some self1 := by
  intro ds
  induction ds with
  | nil => intro r self self1 h; simp [insertPartFrom] at h
  | cons cfg rest ih =>
    intro r self self1 h hok hself htag
    have hok2 := (treeOk_iff self).mp hok
    have hokb : ∀ b ∈ self.branches, b.Ok := fun b hb => (hok2 b hb).1
    obtain ⟨cid, nc, nf, hp, hid, hrec, hafter, hbefore⟩ := insertPartFrom_lookup h hokb
    obtain ⟨hbase1, -, -, bs1, hbs1⟩ := insertPartFrom_frame h
    have htree1 := insertPartFrom_treeOk _ _ _ _ _ h hok
    have hunif1 := insertPartFrom_uniform _ _ _ _ _ _ h hok hself htag (by simp)
    have hbr1 := Node.branches_of_getBranches hbs1
    -- the container the first call left at the id
    have hlook := hafter cfg p rfl hp
    rw [getContainerFrom_single hbs1 hp] at hlook
    cases hgb : getBranch bs1 cfg.lpsId with
    | none => rw [hgb] at hlook; cases hlook
    | some b1 =>
      rw [hgb] at hlook
      simp only at hlook
      obtain ⟨loc, hentry⟩ := Branch.getEntry_some_iff hlook
      obtain ⟨hk, hd⟩ := Branch.getEntryAt_some hentry
      have hb1 : b1 ∈ self1.branches := hbr1 ▸ (getBranch_some hgb).2
      have hnfmem : nf ∈ b1.descendants := List.getElem?_mem hd
      have hnfu : Node.Uniform false rest nf := ((hunif1.2.2.2.2 b1 hb1).2 nf hnfmem).2.2
      -- the container the first call started from
      have hnc : (nc.setParent self.base.ref).TreeOk ∧
          Node.Uniform false rest (nc.setParent self.base.ref) ∧ tag ∈ nc.getSegmentTags := by
        rcases hbefore with ⟨-, hnew⟩ | ⟨old, conv, -, ⟨b, hbm, holdm⟩, -, hv⟩
        · exact ⟨hnew ▸ treeOk_newContainer _ _ _ _ _, hnew ▸ uniform_newContainer _ _ _ _ _,
            by rw [hnew, newContainer_getSegmentTags]; simp⟩
        · obtain ⟨hu, hvt⟩ := uniform_visitExisting self.base.ref hv
            ((hself.2.2.2.2 b hbm).2 old holdm).2.2
          exact ⟨treeOk_of_branches_eq
            (by rw [Node.branches_setParent, visitExisting_branches hv])
            ((hok2 b hbm).2 old holdm), hu, (hvt tag).mpr (Or.inr rfl)⟩
      obtain ⟨hnc1, hnc2, hnc3⟩ := hnc
      have hnfbase : nf.base = (nc.setParent self.base.ref).base := by
        rcases hrec with ⟨_, rfl⟩ | ⟨_, hr⟩
        · rfl
        · exact (insertPartFrom_frame hr).1
      have hnftag : tag ∈ nf.getSegmentTags := by
        unfold Node.getSegmentTags
        rw [hnfbase, (Node.base_setParent nc self.base.ref).2.2.2]
        exact hnc3
      have hnfparent : nf.setParent self1.base.ref = nf := by
        apply Node.setParent_self
        rw [hnfbase, (Node.base_setParent nc self.base.ref).2.2.1, hbase1]
      have hvisit := visitExisting_of_tagged hnfu hnftag
      have hstore : putBranch bs1 cfg.lpsId (b1.store loc nf) = bs1 := by
        rw [Branch.store_self hd, putBranch_self hgb]
      have hloc : locateOrCreate bs1 cfg cid rest.isEmpty tag = some (nf, bs1, loc) := by
        unfold locateOrCreate
        simp only [hgb, hentry, hvisit, hstore]
      have hsc : storeContainer bs1 cfg.lpsId loc nf = bs1 := by
        unfold storeContainer
        rw [hgb]
        exact hstore
      unfold insertPartFrom
      simp only [hbs1, hp, hloc, hnfparent]
      cases rest with
      | nil =>
        simp only
        rw [hsc, Node.setBranches_self hbs1]
      | cons c2 r2 =>
        have hr : insertPartFrom (c2 :: r2) tag p (nc.setParent self.base.ref) = some nf := by
          rcases hrec with ⟨hnil, _⟩ | ⟨_, hr⟩
          · cases hnil
          · exact hr
        have hagain := ih false _ _ hr hnc1 hnc2
          (fun _ => by rw [Node.getSegmentTags_setParent]; exact hnc3)
        simp only
        rw [hagain]
        simp only
        rw [hsc, Node.setBranches_self hbs1]

/-- In a tree built from an empty root by `insertPart` calls along one dimension order, a
call along this order made twice in a row leaves the tree the first of the two calls
leaves. -/
theorem insertPart_idempotent_along_one_order (id : Int) (config : LpsDimConfig)
    (D : List LpsDimConfig) (calls : List InsertCall) (tree tree1 : Node) (tag : Int)
    (p : List (List Int)) (hcalls : ∀ call ∈ calls, call.dimOrder = D)
    (h : insertAll (emptyRoot id config) calls = some tree)
    (h1 : insertPart tree D tag p 0 = some tree1) :
    insertPart tree1 D tag p 0 = some tree1 := by
  rw [insertPart_zero] at h1 ⊢
  cases D with
  | nil => simp [insertPartFrom] at h1
  | cons cfg rest =>
    exact insertPartFrom_idempotent tag p (cfg :: rest) true tree tree1 h1
      (insertAll_invariants h).1
      (insertAll_uniform (cfg :: rest) (by simp) calls _ tree hcalls h
        (treeOk_emptyRoot id config) (uniform_emptyRoot id config cfg rest))
      (fun hr => by cases hr)

open Example

/-! ## Trees built along several dimension orders -/

theorem along_nil (r : Bool) (n : Node) :
    Node.Along r [] n ↔ n.isLeaf = true ∧ n.getSegmentTags.Sorted (· < ·) := Iff.rfl

theorem along_cons (r : Bool) (cfg : LpsDimConfig) (rest : List LpsDimConfig) (n : Node) :
    Node.Along r (cfg :: rest) n ↔
      n.isLeaf = false ∧ n.getLeaf = none ∧ n.getSegmentTags.Sorted (· < ·) ∧
      ∀ b, getBranch n.branches cfg.lpsId = some b →
        ∀ d ∈ b.descendants, d.base.config = cfg ∧
          (r = false → ∀ t ∈ d.getSegmentTags, t ∈ n.getSegmentTags) ∧
          Node.Along false rest d := Iff.rfl

theorem along_sorted {r : Bool} {rest : List LpsDimConfig} {n : Node}
    (h : Node.Along r rest n) : n.getSegmentTags.Sorted (· < ·) := by
  cases rest with
  | nil => exact h.2
  | cons c rest => exact h.2.2.1

theorem compatibleOrders_refl : ∀ D : List LpsDimConfig, compatibleOrders D D = true := by
  intro D
  induction D with
  | nil => rfl
  | cons d D ih => simp [compatibleOrders, ih]

theorem compatibleOrders_cons {o d : LpsDimConfig} {order D : List LpsDimConfig}
    (h : compatibleOrders (o :: order) (d :: D) = true) :
    o.lpsId ≠ d.lpsId ∨ (o = d ∧ compatibleOrders order D = true) := by
  simpa [compatibleOrders] using h

theorem compatibleOrders_isEmpty : ∀ {order D : List LpsDimConfig},
    compatibleOrders order D = true → order.isEmpty = D.isEmpty := by
  intro order D h
  cases order <;> cases D <;> simp_all [compatibleOrders]

theorem getBranch_putBranch_ne {lpsId lpsId1 : Int} {nb : Branch}
    (hnb : nb.getConfig.lpsId = lpsId) (hne : lpsId ≠ lpsId1) :
    ∀ bs : List Branch, getBranch (putBranch bs lpsId nb) lpsId1 = getBranch bs lpsId1 := by
  intro bs
  induction bs with
  | nil => rfl
  | cons a t ih =>
    unfold putBranch
    by_cases ha : a.getConfig.lpsId = lpsId
    · have h1 : ¬ nb.getConfig.lpsId = lpsId1 := by rw [hnb]; exact hne
      have h2 : ¬ a.getConfig.lpsId = lpsId1 := by rw [ha]; exact hne
      simp only [ha, if_true]
      unfold getBranch
      simp only [h1, h2, if_false]
    · simp only [ha, if_false]
      unfold getBranch
      rw [ih]

theorem getBranch_append_ne {lpsId1 : Int} {nb : Branch}
    (hne : nb.getConfig.lpsId ≠ lpsId1) :
    ∀ bs : List Branch, getBranch (bs ++ [nb]) lpsId1 = getBranch bs lpsId1 := by
  intro bs
  induction bs with
  | nil => simp [getBranch, hne]
  | cons a t ih =>
    rw [List.cons_append]
    unfold getBranch
    rw [ih]

theorem along_newContainer (cfg : LpsDimConfig) (cid : Int) (tag : Int) (pp : ParentPtr)
    (rest : List LpsDimConfig) :
    Node.Along false rest ((newContainer cfg cid rest.isEmpty tag).setParent pp) := by
  have hs : ((newContainer cfg cid rest.isEmpty tag).setParent pp).getSegmentTags.Sorted
      (· < ·) := by
    rw [Node.getSegmentTags_setParent, newContainer_getSegmentTags]
    exact List.sorted_singleton _
  cases rest with
  | nil => exact ⟨rfl, hs⟩
  | cons c r =>
    refine ⟨rfl, rfl, hs, ?_⟩
    intro b hb
    rw [Node.branches_setParent, newContainer_branches] at hb
    simp [getBranch] at hb

theorem along_visitExisting {old nc : Node} {conv : Bool} {tag : Int}
    {rest : List LpsDimConfig} (pp : ParentPtr)
    (h : visitExisting old rest.isEmpty tag = some (nc, conv))
    (hold : Node.Along false rest old) :
    Node.Along false rest (nc.setParent pp) ∧
    (∀ t, t ∈ nc.getSegmentTags ↔ t ∈ old.getSegmentTags ∨ t = tag) := by
  rw [visitExisting_eq] at h
  cases rest with
  | nil =>
    obtain ⟨hleaf, hs⟩ := hold
    cases old with
    | leaf c =>
      simp only [List.isEmpty_nil, Option.some.injEq, Prod.mk.injEq] at h
      obtain ⟨rfl, _⟩ := h
      refine ⟨⟨rfl, ?_⟩, ?_⟩
      · exact Container.sorted_addSegmentTag c tag hs
      · intro t; exact Container.mem_addSegmentTag c tag t
    | intermediate c bs => cases hleaf
    | hybrid c bs l => cases hleaf
  | cons cfg r =>
    obtain ⟨hleaf, hnoleaf, hs, hbs⟩ := hold
    cases old with
    | leaf c => cases hleaf
    | hybrid c bs l => cases hnoleaf
    | intermediate c bs =>
      simp only [List.isEmpty_cons, Option.some.injEq, Prod.mk.injEq] at h
      obtain ⟨rfl, _⟩ := h
      refine ⟨⟨rfl, rfl, Container.sorted_addSegmentTag c tag hs, ?_⟩, ?_⟩
      · intro b hb d hd
        obtain ⟨h1, h2, h3⟩ := hbs b hb d hd
        refine ⟨h1, ?_, h3⟩
        intro _ t ht
        exact (Container.mem_addSegmentTag c tag t).mpr (Or.inl (h2 rfl t ht))
      · intro t; exact Container.mem_addSegmentTag c tag t

/-- A call of `insertPart` whose order goes together with a dimension order keeps the shape
of the tree along that order. -/
theorem insertPartFrom_along (tag : Int) (p : List (List Int)) :
    ∀ (order D : List LpsDimConfig) (r : Bool) (self self1 : Node),
      insertPartFrom order tag p self = some self1 → self.TreeOk → Node.Along r D self →
      (r = false → tag ∈ self.getSegmentTags) → compatibleOrders order D = true →
      Node.Along r D self1 := by
  intro order
  induction order with
  | nil => intro D r self self1 h; simp [insertPartFrom] at h
  | cons cfg rest ih =>
    intro D r self self1 h hok hself htag hcompat
    cases D with
    | nil => simp [compatibleOrders] at hcompat
    | cons dcfg drest =>
    have hok2 := (treeOk_iff self).mp hok
    obtain ⟨hleaf, hnoleaf, hs, hbs⟩ := hself
    obtain ⟨branches, cid, nc, nf, hb, hp, hid, hrec, hshape⟩ :=
      insertPartFrom_shape h (fun b hb => (hok2 b hb).1)
    have hbr := Node.branches_of_getBranches hb
    rw [hbr] at hok2 hbs
    obtain ⟨hbase1, hleaf1, hisleaf1, -⟩ := insertPartFrom_frame h
    have htags1 : self1.getSegmentTags = self.getSegmentTags := by
      unfold Node.getSegmentTags; rw [hbase1]
    rw [along_cons]
    refine ⟨hisleaf1.trans hleaf, hleaf1.trans hnoleaf, htags1 ▸ hs, ?_⟩
    -- the branch of the LPS of `dcfg` when the insertion takes another branch
    have hkeep : cfg.lpsId ≠ dcfg.lpsId →
        ∀ b, getBranch self1.branches dcfg.lpsId = some b →
          getBranch branches dcfg.lpsId = some b := by
      intro hne b hgb1
      rcases hshape with ⟨hgb, hnc, rfl⟩ | ⟨b0, hgb, hk, hnc, rfl⟩ |
        ⟨b0, loc, old, conv, hgb, hk, hold, hoid, hv, rfl⟩
      · rw [Node.branches_of_getBranches (Node.getBranches_setBranches _ hb),
          getBranch_append_ne (by exact hne)] at hgb1
        exact hgb1
      · rw [Node.branches_of_getBranches (Node.getBranches_setBranches _ hb),
          getBranch_putBranch_ne (by exact (getBranch_some hgb).1) hne] at hgb1
        exact hgb1
      · rw [Node.branches_of_getBranches (Node.getBranches_setBranches _ hb),
          getBranch_putBranch_ne (by exact (getBranch_some hgb).1) hne] at hgb1
        exact hgb1
    rcases compatibleOrders_cons hcompat with hne | ⟨hcfg, hrest⟩
    · intro b hgb1 d hd
      obtain ⟨g1, g2, g3⟩ := hbs b (hkeep hne b hgb1) d hd
      exact ⟨g1, fun hr t ht => htags1 ▸ g2 hr t ht, g3⟩
    · subst hcfg
      have hempty : rest.isEmpty = drest.isEmpty := compatibleOrders_isEmpty hrest
      -- the container stored keeps the shape and its tags
      have hnf : (nc.setParent self.base.ref).TreeOk →
          Node.Along false drest (nc.setParent self.base.ref) → tag ∈ nc.getSegmentTags →
          Node.Along false drest nf ∧ nf.getSegmentTags = nc.getSegmentTags ∧
            nf.base.config = nc.base.config := by
        intro hnc1 hnc2 hnc3
        obtain ⟨-, hpcfg, -, -⟩ := Node.base_setParent nc self.base.ref
        rcases hrec with ⟨_, rfl⟩ | ⟨_, hr⟩
        · exact ⟨hnc2, Node.getSegmentTags_setParent _ _, hpcfg⟩
        · refine ⟨ih drest false _ _ hr hnc1 hnc2
            (fun _ => by rw [Node.getSegmentTags_setParent]; exact hnc3) hrest, ?_, ?_⟩
          · unfold Node.getSegmentTags
            rw [(insertPartFrom_frame hr).1]
            exact Node.getSegmentTags_setParent _ _
          · rw [(insertPartFrom_frame hr).1]; exact hpcfg
      rcases hshape with ⟨hgb, hnc, rfl⟩ | ⟨b, hgb, hk, hnc, rfl⟩ |
        ⟨b, loc, old, conv, hgb, hk, hold, hoid, hv, rfl⟩
      · rw [Node.branches_of_getBranches (Node.getBranches_setBranches _ hb),
          getBranch_append_of_none (.mk cfg [cid] [nf]) hgb rfl]
        obtain ⟨h1, h2, h3⟩ := hnf (hnc ▸ treeOk_newContainer _ _ _ _ _)
          (by rw [hnc, hempty]; exact along_newContainer _ _ _ _ _)
          (by rw [hnc, newContainer_getSegmentTags]; simp)
        intro b1 hb1 d hd
        simp only [Option.some.injEq] at hb1
        subst hb1
        simp only [Branch.descendants_mk, List.mem_singleton] at hd
        subst hd
        refine ⟨?_, ?_, h1⟩
        · rw [h3, hnc, (newContainer_base _ _ _ _).2.1]
        · intro hr t ht
          rw [h2, hnc, newContainer_getSegmentTags, List.mem_singleton] at ht
          rw [htags1, ht]
          exact htag hr
      · rw [Node.branches_of_getBranches (Node.getBranches_setBranches _ hb),
          getBranch_putBranch hgb (by exact (getBranch_some hgb).1)]
        obtain ⟨h1, h2, h3⟩ := hnf (hnc ▸ treeOk_newContainer _ _ _ _ _)
          (by rw [hnc, hempty]; exact along_newContainer _ _ _ _ _)
          (by rw [hnc, newContainer_getSegmentTags]; simp)
        intro b1 hb1 d hd
        simp only [Option.some.injEq] at hb1
        subst hb1
        simp only [Branch.descendants_mk] at hd
        rcases (mem_vectorInsert _ _ _ _).mp hd with hd | hd
        · subst hd
          refine ⟨?_, ?_, h1⟩
          · rw [h3, hnc, (newContainer_base _ _ _ _).2.1]
          · intro hr t ht
            rw [h2, hnc, newContainer_getSegmentTags, List.mem_singleton] at ht
            rw [htags1, ht]
            exact htag hr
        · obtain ⟨g1, g2, g3⟩ := hbs b hgb d hd
          exact ⟨g1, fun hr t ht => htags1 ▸ g2 hr t ht, g3⟩
      · rw [Node.branches_of_getBranches (Node.getBranches_setBranches _ hb),
          getBranch_putBranch hgb (by exact (getBranch_some hgb).1)]
        obtain ⟨hblps, hbmem⟩ := getBranch_some hgb
        have holdmem : old ∈ b.descendants := List.getElem?_mem hold
        have holdok := (hok2 b hbmem).2 old holdmem
        obtain ⟨o1, o2, o3⟩ := hbs b hgb old holdmem
        obtain ⟨hu, hvt⟩ := along_visitExisting self.base.ref (hempty ▸ hv) o3
        obtain ⟨h1, h2, h3⟩ := hnf (treeOk_of_branches_eq
          (by rw [Node.branches_setParent, visitExisting_branches hv]) holdok) hu
          ((hvt tag).mpr (Or.inr rfl))
        intro b1 hb1 d hd
        simp only [Option.some.injEq] at hb1
        subst hb1
        simp only [Branch.descendants_mk] at hd
        rcases List.mem_or_eq_of_mem_set hd with hd | hd
        · obtain ⟨g1, g2, g3⟩ := hbs b hgb d hd
          exact ⟨g1, fun hr t ht => htags1 ▸ g2 hr t ht, g3⟩
        · subst hd
          refine ⟨?_, ?_, h1⟩
          · rw [h3, (visitExisting_base hv).2]; exact o1
          · intro hr t ht
            rw [h2] at ht
            rw [htags1]
            rcases (hvt t).mp ht with ht | rfl
            · exact o2 hr t ht
            · exact htag hr

theorem along_emptyRoot (id : Int) (config cfg : LpsDimConfig) (rest : List LpsDimConfig) :
    Node.Along true (cfg :: rest) (emptyRoot id config) := by
  refine ⟨rfl, rfl, ?_, ?_⟩
  · simp [emptyRoot, BranchingContainer.new, Node.getSegmentTags, Node.base, Container.new]
  · intro b hb
    simp [emptyRoot, BranchingContainer.new, Node.branches, Node.getBranches, getBranch] at hb

theorem insertAll_along (D : List LpsDimConfig) :
    ∀ (calls : List InsertCall) (root t : Node),
      (∀ call ∈ calls, compatibleOrders call.dimOrder D = true) →
      insertAll root calls = some t → root.TreeOk → Node.Along true D root →
      Node.Along true D t := by
  intro calls
  induction calls with
  | nil =>
    intro root t _ h _ hroot
    simp only [insertAll, Option.some.injEq] at h
    exact h ▸ hroot
  | cons call rest ih =>
    intro root t hcalls h hok hroot
    unfold insertAll at h
    rw [insertPart_zero] at h
    cases hc : insertPartFrom call.dimOrder call.segmentTag call.partId root with
    | none => rw [hc] at h; simp at h
    | some root1 =>
      rw [hc] at h
      exact ih root1 t (fun c hcm => hcalls c (List.mem_cons_of_mem _ hcm)) h
        (insertPartFrom_treeOk _ _ _ _ _ hc hok)
        (insertPartFrom_along _ _ _ _ _ _ _ hc hok hroot (fun hr => by cases hr)
          (hcalls call (List.mem_cons_self _ _)))

open Example

/-! ## The container `getContainer` finds along a dimension order -/

/-- One step of `getContainer`: the container found is in the branch of the LPS of the
config, and the lookup goes on from it when the order goes on. -/
theorem getContainerFrom_cons_some {cfg : LpsDimConfig} {rest : List LpsDimConfig}
    {path : List (List Int)} {n c : Node}
    (h : getContainerFrom (cfg :: rest) path n = some (some c)) :
    ∃ b d, getBranch n.branches cfg.lpsId = some b ∧ d ∈ b.descendants ∧
      ((rest = [] ∧ c = d) ∨ (rest ≠ [] ∧ getContainerFrom rest path d = some (some c))) := by
  unfold getContainerFrom at h
  cases hb : n.getBranches with
  | none => rw [hb] at h; cases h
  | some branches =>
    rw [hb] at h
    simp only at h
    cases hp : partIdEntry path cfg with
    | none => rw [hp] at h; cases h
    | some cid =>
      rw [hp] at h
      simp only at h
      cases hgb : getBranch branches cfg.lpsId with
      | none => rw [hgb] at h; cases h
      | some b =>
        rw [hgb] at h
        simp only at h
        cases he : b.getEntry cid with
        | none => rw [he] at h; cases h
        | some e =>
          cases e with
          | none => rw [he] at h; cases h
          | some d =>
            rw [he] at h
            simp only at h
            obtain ⟨loc, hentry⟩ := Branch.getEntry_some_iff he
            have hd : d ∈ b.descendants := List.getElem?_mem (Branch.getEntryAt_some hentry).2
            refine ⟨b, d, by rw [Node.branches_of_getBranches hb]; exact hgb, hd, ?_⟩
            cases rest with
            | nil =>
              simp only [Option.some.injEq] at h
              exact Or.inl ⟨rfl, h.symm⟩
            | cons c2 r2 => exact Or.inr ⟨by simp, h⟩

/-- The container `getContainer` finds is a container of the tree. -/
theorem getContainerFrom_mem_subnodes (path : List (List Int)) :
    ∀ (ds : List LpsDimConfig) (n c : Node),
      getContainerFrom ds path n = some (some c) →
      ∃ b ∈ n.branches, ∃ d ∈ b.descendants, c ∈ d.subnodes := by
  intro ds
  induction ds with
  | nil => intro n c h; simp [getContainerFrom] at h
  | cons cfg rest ih =>
    intro n c h
    obtain ⟨b, d, hgb, hd, hrest⟩ := getContainerFrom_cons_some h
    refine ⟨b, (getBranch_some hgb).2, d, hd, ?_⟩
    rcases hrest with ⟨_, rfl⟩ | ⟨_, hr⟩
    · exact mem_subnodes_self _
    · obtain ⟨b1, hb1, d1, hd1, hc⟩ := ih d c hr
      exact (mem_subnodes_iff c d).mpr (Or.inr ⟨b1, hb1, d1, hd1, hc⟩)

/-- The container `getContainer` finds along the beginning of a dimension order, up to the
config `cfg`, has the config `cfg` and the shape for the rest of the order. -/
theorem getContainerFrom_along (path : List (List Int)) (cfg : LpsDimConfig)
    (rest : List LpsDimConfig) :
    ∀ (before : List LpsDimConfig) (r : Bool) (n c : Node),
      Node.Along r (before ++ cfg :: rest) n →
      getContainerFrom (before ++ [cfg]) path n = some (some c) →
      c.base.config = cfg ∧ Node.Along false rest c := by
  intro before
  induction before with
  | nil =>
    intro r n c hn h
    obtain ⟨b, d, hgb, hd, hrest⟩ := getContainerFrom_cons_some h
    rcases hrest with ⟨_, rfl⟩ | ⟨hne, _⟩
    · obtain ⟨h1, -, h3⟩ := hn.2.2.2 b hgb c hd
      exact ⟨h1, h3⟩
    · exact absurd rfl hne
  | cons a before ih =>
    intro r n c hn h
    obtain ⟨b, d, hgb, hd, hrest⟩ := getContainerFrom_cons_some h
    rcases hrest with ⟨hnil, _⟩ | ⟨_, hr⟩
    · simp at hnil
    · exact ih false d c (hn.2.2.2 b hgb d hd).2.2 hr

/-- In a tree built along one dimension order, the container `getContainer` finds along the
beginning of the order has the shape for the rest of the order. -/
theorem getContainerFrom_uniform (path : List (List Int)) (cfg : LpsDimConfig)
    (rest : List LpsDimConfig) :
    ∀ (before : List LpsDimConfig) (r : Bool) (n c : Node),
      Node.Uniform r (before ++ cfg :: rest) n →
      getContainerFrom (before ++ [cfg]) path n = some (some c) →
      Node.Uniform false rest c := by
  intro before
  induction before with
  | nil =>
    intro r n c hn h
    obtain ⟨b, d, hgb, hd, hrest⟩ := getContainerFrom_cons_some h
    rcases hrest with ⟨_, rfl⟩ | ⟨hne, _⟩
    · exact ((hn.2.2.2.2 b (getBranch_some hgb).2).2 c hd).2.2
    · exact absurd rfl hne
  | cons a before ih =>
    intro r n c hn h
    obtain ⟨b, d, hgb, hd, hrest⟩ := getContainerFrom_cons_some h
    rcases hrest with ⟨hnil, _⟩ | ⟨_, hr⟩
    · simp at hnil
    · exact ih false d c ((hn.2.2.2.2 b (getBranch_some hgb).2).2 d hd).2.2 hr

/-! ## What a fold covers along its dimension order -/

theorem Node.leafPathsAlong_nil (s : Int) (n : Node) :
    n.leafPathsAlong s [] =
      match n.leafSide with
      | some l => if l.hasSegmentTag s then [[n.getId]] else []
      | none => [] := rfl

theorem Node.leafPathsAlong_cons (s : Int) (cfg : LpsDimConfig) (rest : List LpsDimConfig)
    (n : Node) :
    n.leafPathsAlong s (cfg :: rest) =
      match getBranch n.branches cfg.lpsId with
      | none => []
      | some b =>
        (b.descendants.flatMap (fun d => d.leafPathsAlong s rest)).map
          (fun p => n.getId :: p) := rfl

/-- Every path along a dimension order to a leaf container with the tag is a path to a leaf
container below the object that carries the tag. -/
theorem leafPathsAlong_subset (s : Int) :
    ∀ (rest : List LpsDimConfig) (n : Node), ∀ p ∈ n.leafPathsAlong s rest,
      p ∈ n.taggedLeafPaths s := by
  intro rest
  induction rest with
  | nil =>
    intro n p hp
    rw [Node.leafPathsAlong_nil] at hp
    rw [Node.taggedLeafPaths_eq]
    exact List.mem_append_left _ hp
  | cons cfg rest ih =>
    intro n p hp
    rw [Node.leafPathsAlong_cons] at hp
    cases hgb : getBranch n.branches cfg.lpsId with
    | none => rw [hgb] at hp; cases hp
    | some b =>
      rw [hgb] at hp
      simp only [List.mem_map, List.mem_flatMap] at hp
      obtain ⟨q, ⟨d, hd, hq⟩, rfl⟩ := hp
      rw [Node.taggedLeafPaths_eq, taggedLeafPathsOfBranches_eq]
      apply List.mem_append_right
      simp only [List.mem_map, List.mem_flatMap]
      refine ⟨q, ⟨b, (getBranch_some hgb).2, ?_⟩, rfl⟩
      rw [taggedLeafPathsOfNodes_eq, List.mem_flatMap]
      exact ⟨d, hd, ih d q hq⟩

/-- Along the order, below a container without the tag there is no leaf container with the
tag. -/
theorem along_untagged (s : Int) :
    ∀ (rest : List LpsDimConfig) (d : Node), Node.Along false rest d →
      d.hasSegmentTag s = false → d.leafPathsAlong s rest = [] := by
  intro rest
  induction rest with
  | nil =>
    intro d hd htag
    cases d with
    | leaf k =>
      simp only [Node.hasSegmentTag, Node.base] at htag
      simp [Node.leafPathsAlong, Node.leafSide, htag]
    | intermediate k bs => cases hd.1
    | hybrid k bs l => cases hd.1
  | cons cfg rest ih =>
    intro d hd htag
    have hsorted := along_sorted hd
    obtain ⟨-, -, -, hbs⟩ := hd
    have hnot : s ∉ d.getSegmentTags := by
      intro hmem
      rw [(Node.hasSegmentTag_iff_mem d hsorted s).mpr hmem] at htag
      cases htag
    rw [Node.leafPathsAlong_cons]
    cases hgb : getBranch d.branches cfg.lpsId with
    | none => rfl
    | some b =>
      simp only [List.map_eq_nil_iff, List.flatMap_eq_nil_iff]
      intro c hc
      obtain ⟨-, h2, h3⟩ := hbs b hgb c hc
      apply ih c h3
      cases hct : c.hasSegmentTag s with
      | false => rfl
      | true =>
        exact absurd (h2 rfl s ((Node.hasSegmentTag_iff_mem c (along_sorted h3) s).mp hct)) hnot

/-- The loop of `foldContainer` adds, for each container of the branch, what the fold of the
container covers, for any account `P` of what the folds of the containers cover. -/
theorem paths_foldContainerLoop_of (P : Node → List (List Int)) (s : Int)
    (D : List LpsDimConfig) (position : Nat) (nextConfig : LpsDimConfig) :
    ∀ (ds : List Node),
      (∀ d ∈ ds,
        (d.hasSegmentTag s = false → P d = []) ∧
        (position + 1 < D.length - 1 →
          ∃ fs, Node.foldContainer s D (position + 1) d = some fs ∧
            (PartFolding.pathsOfList fs).map (fun p => d.getId :: p) = P d ∧
            (P d = [] → fs = [])) ∧
        (¬ position + 1 < D.length - 1 →
          d.getLeaf = none ∧
          ∃ r, Node.foldContainerForSegment s D false d = some r ∧
            (r = none → P d = []) ∧
            ∀ f, r = some f →
              f.getIdRange = { min := d.getId, max := d.getId } ∧ f.paths = P d ∧
              P d ≠ [])) →
      ∀ (fold : List PartFolding), (∀ f ∈ fold, f.getIdRange.min ≤ f.getIdRange.max) →
        ∃ fold1, foldContainerLoop s D position nextConfig fold ds = some fold1 ∧
          PartFolding.pathsOfList fold1 = PartFolding.pathsOfList fold ++ ds.flatMap P ∧
          (∀ f ∈ fold1, f.getIdRange.min ≤ f.getIdRange.max) ∧
          (ds.flatMap P = [] → fold1 = fold) := by
  intro ds
  induction ds with
  | nil =>
    intro _ fold hvalid
    exact ⟨fold, rfl, by simp, hvalid, fun _ => rfl⟩
  | cons d ds ih =>
    intro hds fold hvalid
    obtain ⟨huntagged, hdeep, hlast⟩ := hds d (List.mem_cons_self _ _)
    have ih1 := ih (fun e he => hds e (List.mem_cons_of_mem _ he))
    have hsplit : (d :: ds).flatMap P = [] → P d = [] ∧ ds.flatMap P = [] := by
      intro h0
      rw [List.flatMap_cons] at h0
      exact List.append_eq_nil.mp h0
    rw [foldContainerLoop]
    cases htag : d.hasSegmentTag s with
    | false =>
      obtain ⟨fold1, h1, h2, h3, h4⟩ := ih1 fold hvalid
      refine ⟨fold1, by simpa using h1, ?_, h3, fun h0 => h4 (hsplit h0).2⟩
      rw [h2, List.flatMap_cons, huntagged htag, List.nil_append]
    | true =>
      by_cases hpos : position + 1 < D.length - 1
      · obtain ⟨fs, hfs, hpaths, hnil⟩ := hdeep hpos
        simp only [Bool.not_true, Bool.false_eq_true, if_false, hpos, if_true, hfs]
        cases fs with
        | nil =>
          obtain ⟨fold1, h1, h2, h3, h4⟩ := ih1 fold hvalid
          refine ⟨fold1, h1, ?_, h3, fun h0 => h4 (hsplit h0).2⟩
          rw [h2, List.flatMap_cons, ← hpaths]
          simp [PartFolding.pathsOfList]
        | cons f fs =>
          obtain ⟨g1, g2⟩ := paths_coalesceOrAppend fold d.getId
            ((PartFolding.new d.getId nextConfig.dimNo nextConfig.level).setDescendants
              (f :: fs)) hvalid rfl
          obtain ⟨fold1, h1, h2, h3, -⟩ := ih1 _ g2
          refine ⟨fold1, h1, ?_, h3, fun h0 => ?_⟩
          · rw [h2, g1, List.flatMap_cons, ← hpaths, List.append_assoc]
            congr 2
            simp [PartFolding.new, PartFolding.setDescendants, PartFolding.paths,
              Range.ids_single]
          · exact absurd (hnil (hsplit h0).1) (by simp)
      · obtain ⟨hleaf, r, hr, hnone, hsome⟩ := hlast hpos
        simp only [Bool.not_true, Bool.false_eq_true, if_false, hpos, hleaf, hr]
        cases r with
        | none =>
          obtain ⟨fold1, h1, h2, h3, h4⟩ := ih1 fold hvalid
          refine ⟨fold1, h1, ?_, h3, fun h0 => h4 (hsplit h0).2⟩
          rw [h2, List.flatMap_cons, hnone rfl, List.nil_append]
        | some f =>
          obtain ⟨hrange, hpaths, hne⟩ := hsome f rfl
          obtain ⟨g1, g2⟩ := paths_coalesceOrAppend fold d.getId f hvalid hrange
          obtain ⟨fold1, h1, h2, h3, -⟩ := ih1 _ g2
          refine ⟨fold1, h1, ?_, h3, fun h0 => absurd (hsplit h0).1 hne⟩
          rw [h2, g1, List.flatMap_cons, hpaths, List.append_assoc]

/-- The fold of a container along the dimension order covers the paths along the order to
the leaf containers that carry the tag, and it is NULL when there is no such path. -/
theorem paths_foldContainerForSegment_along (s : Int) (D : List LpsDimConfig) (hD : D.Nodup) :
    ∀ (rest pre : List LpsDimConfig) (cfg : LpsDimConfig) (d : Node),
      D = pre ++ cfg :: rest → d.base.config = cfg → Node.Along false rest d →
      (∃ r, Node.foldContainerForSegment s D false d = some r ∧
        (r = none → d.leafPathsAlong s rest = []) ∧
        ∀ f, r = some f →
          f.getIdRange = { min := d.getId, max := d.getId } ∧
          f.paths = d.leafPathsAlong s rest ∧ d.leafPathsAlong s rest ≠ []) ∧
      (rest ≠ [] → ∃ fs, Node.foldContainer s D (pre.length + 1) d = some fs ∧
        (PartFolding.pathsOfList fs).map (fun p => d.getId :: p) = d.leafPathsAlong s rest ∧
        (d.leafPathsAlong s rest = [] → fs = [])) := by
  intro rest
  induction rest with
  | nil =>
    intro pre cfg d _ _ hu
    refine ⟨?_, fun h => absurd rfl h⟩
    cases d with
    | intermediate k bs => cases hu.1
    | hybrid k bs l => cases hu.1
    | leaf k =>
      simp only [Node.foldContainerForSegment, Container.foldContainerForSegment,
        Node.leafPathsAlong, Node.leafSide, Node.getId, Node.base]
      cases htag : k.hasSegmentTag s with
      | false => exact ⟨none, rfl, fun _ => by simp, fun f hf => by cases hf⟩
      | true =>
        refine ⟨_, rfl, (fun h => by simp at h), ?_⟩
        intro f hf
        simp only [Bool.not_true, Bool.false_eq_true, if_false, Option.some.injEq] at hf
        subst hf
        simp [PartFolding.new, PartFolding.getIdRange, PartFolding.paths, Range.ids_single]
  | cons cfg1 rest1 ih =>
    intro pre cfg d hDeq hcfg hu
    have hu0 := hu
    obtain ⟨hleaf, hnoleaf, hsorted, hbs⟩ := hu
    have hlength : D.length = pre.length + 2 + rest1.length := by
      rw [hDeq]; simp; omega
    have hDeq1 : D = (pre ++ [cfg]) ++ cfg1 :: rest1 := by rw [hDeq]; simp
    -- the containers of the branch
    have hchildren : ∀ b, getBranch d.branches cfg1.lpsId = some b → ∀ c ∈ b.descendants,
        (c.hasSegmentTag s = false → c.leafPathsAlong s rest1 = []) ∧
        (pre.length + 1 + 1 < D.length - 1 →
          ∃ fs, Node.foldContainer s D (pre.length + 1 + 1) c = some fs ∧
            (PartFolding.pathsOfList fs).map (fun p => c.getId :: p)
              = c.leafPathsAlong s rest1 ∧
            (c.leafPathsAlong s rest1 = [] → fs = [])) ∧
        (¬ pre.length + 1 + 1 < D.length - 1 →
          c.getLeaf = none ∧
          ∃ r, Node.foldContainerForSegment s D false c = some r ∧
            (r = none → c.leafPathsAlong s rest1 = []) ∧
            ∀ f, r = some f →
              f.getIdRange = { min := c.getId, max := c.getId } ∧
              f.paths = c.leafPathsAlong s rest1 ∧ c.leafPathsAlong s rest1 ≠ []) := by
      intro b hb c hc
      obtain ⟨h1, -, h3⟩ := hbs b hb c hc
      obtain ⟨i1, i2⟩ := ih (pre ++ [cfg]) cfg1 c hDeq1 h1 h3
      refine ⟨along_untagged s rest1 c h3, ?_, ?_⟩
      · intro hpos
        have hne : rest1 ≠ [] := by
          intro h; subst h; simp at hlength; omega
        simpa using i2 hne
      · intro _
        refine ⟨?_, i1⟩
        cases rest1 with
        | nil =>
          cases c with
          | leaf k => rfl
          | intermediate k bs => cases h3.1
          | hybrid k bs l => cases h3.1
        | cons c2 r2 => exact h3.2.1
    -- the list of sub-folds
    have hsub : ∃ fs, foldContainerBranches s D (pre.length + 1) [] d.branches = some fs ∧
        (PartFolding.pathsOfList fs).map (fun p => d.getId :: p)
          = d.leafPathsAlong s (cfg1 :: rest1) ∧
        (d.leafPathsAlong s (cfg1 :: rest1) = [] → fs = []) := by
      rw [foldContainerBranches_eq, hDeq, getElem?_append_cons_succ, Node.leafPathsAlong_cons]
      simp only
      cases hgb : getBranch d.branches cfg1.lpsId with
      | none => exact ⟨[], rfl, by simp [PartFolding.pathsOfList], fun _ => rfl⟩
      | some b =>
        obtain ⟨fold1, h1, h2, -, h4⟩ := paths_foldContainerLoop_of
          (fun c => c.leafPathsAlong s rest1) s D (pre.length + 1) cfg1
          b.descendants (hchildren b hgb) [] (by intro f hf; simp at hf)
        refine ⟨fold1, ?_, ?_, ?_⟩
        · simp only
          rw [← hDeq]
          exact h1
        · rw [h2]
          simp [PartFolding.pathsOfList]
        · intro h0
          exact h4 (List.map_eq_nil_iff.mp h0)
    obtain ⟨fs, hfs, hfspaths, hfsnil⟩ := hsub
    have hlocate : locateConfig cfg D 0 = some pre.length := by
      rw [hDeq, locateConfig_append cfg _ pre 0]
      · simp
      · intro hmem
        rw [hDeq] at hD
        exact (List.nodup_append.mp hD).2.2 hmem (List.mem_cons_self _ _)
    have hnotlast : ¬ pre.length = D.length - 1 := by omega
    constructor
    · cases d with
      | leaf k => cases hleaf
      | hybrid k bs l => cases hnoleaf
      | intermediate k bs =>
        simp only [Node.base] at hcfg
        simp only [Node.branches, Node.getBranches, Option.getD_some] at hfs
        simp only [Node.foldContainerForSegment]
        cases htag : k.hasSegmentTag s with
        | true =>
          simp only [Bool.not_true, Bool.false_eq_true, if_false, hcfg, hlocate, hnotlast,
            hfs]
          cases fs with
          | nil =>
            refine ⟨none, rfl, fun _ => ?_, fun f hf => by cases hf⟩
            rw [← hfspaths]
            simp [PartFolding.pathsOfList]
          | cons f fs =>
            refine ⟨_, rfl, (fun h => by cases h), ?_⟩
            intro g hg
            simp only [Option.some.injEq] at hg
            subst hg
            refine ⟨rfl, ?_, fun h0 => absurd (hfsnil h0) (by simp)⟩
            rw [← hfspaths]
            simp [PartFolding.new, PartFolding.setDescendants, PartFolding.paths,
              Range.ids_single, Node.getId, Node.base]
        | false =>
          refine ⟨none, by simp, fun _ => ?_, fun f hf => by cases hf⟩
          exact along_untagged s _ _ hu0 htag
    · intro _
      refine ⟨fs, ?_, hfspaths, hfsnil⟩
      cases d with
      | leaf k => cases hleaf
      | hybrid k bs l => cases hnoleaf
      | intermediate k bs => exact hfs

/-- In a tree built along one dimension order, every leaf container below a container is
reached along the order. -/
theorem uniform_leafPathsAlong (s : Int) :
    ∀ (rest : List LpsDimConfig) (d : Node), Node.Uniform false rest d →
      d.leafPathsAlong s rest = d.taggedLeafPaths s := by
  intro rest
  induction rest with
  | nil =>
    intro d hd
    cases d with
    | leaf k => rfl
    | intermediate k bs => cases hd.1
    | hybrid k bs l => cases hd.1
  | cons cfg rest ih =>
    intro d hd
    obtain ⟨hleaf, hnoleaf, -, hlen, hbs⟩ := hd
    have hside : d.leafSide = none := by
      cases d with
      | leaf k => cases hleaf
      | intermediate k bs => rfl
      | hybrid k bs l => cases hnoleaf
    rw [Node.leafPathsAlong_cons, Node.taggedLeafPaths_eq, hside, taggedLeafPathsOfBranches_eq]
    cases hbr : d.branches with
    | nil => simp [getBranch]
    | cons b bs =>
      have hbs0 : bs = [] := by
        rw [hbr] at hlen
        cases bs with
        | nil => rfl
        | cons _ _ => simp at hlen
      subst hbs0
      have hb : b ∈ d.branches := by rw [hbr]; exact List.mem_cons_self _ _
      have hlps := (hbs b hb).1
      simp only [getBranch, hlps, if_true, List.nil_append, List.flatMap_cons,
        List.flatMap_nil, List.append_nil]
      rw [taggedLeafPathsOfNodes_eq]
      congr 1
      apply List.flatMap_congr
      intro c hc
      exact ih c ((hbs b hb).2 c hc).2.2

open Example

/-! ## The fold of a container of a tree built along several dimension orders -/

/-- Where the order of an insertion is a beginning of the dimension order of the fold, the
loop of `foldContainer` does not follow the order to its end. After
`insertPart([A, B], 1, [[0], [1], [2]])` and `insertPart([A, B, C], 1, [[0], [1], [2]])` the
container 1 of LPS 2 is a hybrid at the last but one position of `[A, B, C]`. Lines 293-294
take its leaf half there, so the fold of the container 0 of LPS 1 for tag 1 is the chain of
the ids 0, 1 and leaves out the leaf 2 of LPS 3, which carries the tag. Called on the hybrid
itself, `foldContainerForSegment` takes the leaf half at the last position only (lines
250-254) and gives the chain of the ids 1, 2. After `insertPart([A, B, C], 1, ..)` and
`insertPart([A, B], 2, ..)` the leaf half of the hybrid carries tag 2 only, and the fold of
the container 0 of LPS 1 for tag 1 is NULL, while the fold of the hybrid itself covers the
leaf 2 of LPS 3. -/
theorem foldContainer_takes_leaf_half_before_last_position :
    compatibleOrders orderAB orderABC = false ∧
    foldAfter (emptyRoot 0 rootConfig) callsABthenABC [[0]] [configA] 1 orderABC false
      = some (some (chain 0 0 [chain 1 1 []])) ∧
    foldAfter (emptyRoot 0 rootConfig) callsABthenABC [[0], [1]] orderAB 1 orderABC false
      = some (some (chain 1 1 [chain 2 2 []])) ∧
    foldAfter (emptyRoot 0 rootConfig) callsABCthenAB [[0]] [configA] 1 orderABC false
      = some none ∧
    foldAfter (emptyRoot 0 rootConfig) callsABCthenAB [[0], [1]] orderAB 1 orderABC false
      = some (some (chain 1 1 [chain 2 2 []])) :=
  ⟨rfl, rfl, rfl, rfl, rfl⟩

/-- C12, amended. Let a tree be built from an empty root by `insertPart` calls, and let `D`
be a dimension order without a repeated config such that the order of every call is `D` or
is the same as `D` up to a position at which the two have different LPSes (so no order is a
beginning of the other). Let `c` be the container `getContainer` finds along the beginning
of `D` up to a config `cfg`, and `rest` what follows `cfg` in `D`. Then
`foldContainerForSegment(s, D, false)` on `c` returns NULL when `c` does not carry `s` and
when no leaf container that carries `s` is reached from `c` along `rest`; otherwise it
returns a fold with the id of `c` on top whose covered id paths are exactly the paths from
`c` along `rest` to the leaf containers that carry `s`. Each of these is a path to a leaf
container under `c` that carries `s`; a leaf container under `c` that carries `s` and is not
reached along `rest` is not covered. When all calls use the order `D`, every leaf container
under `c` is reached along `rest`, and the fold of a container that carries `s` is not
NULL. -/
theorem fold_covers_leaves_along_order (id : Int) (config : LpsDimConfig)
    (calls : List InsertCall) (D before : List LpsDimConfig) (cfg : LpsDimConfig)
    (rest : List LpsDimConfig) (tree : Node) (hD : D.Nodup)
    (hDeq : D = before ++ cfg :: rest)
    (hcalls : ∀ call ∈ calls, compatibleOrders call.dimOrder D = true)
    (h : insertAll (emptyRoot id config) calls = some tree)
    (path : List (List Int)) (c : Node)
    (hc : getContainer tree path (before ++ [cfg]) 0 = some (some c)) (s : Int) :
    (c.hasSegmentTag s = false → Node.foldContainerForSegment s D false c = some none) ∧
    (c.hasSegmentTag s = true →
      (c.leafPathsAlong s rest = [] →
        Node.foldContainerForSegment s D false c = some none) ∧
      (c.leafPathsAlong s rest ≠ [] →
        ∃ f, Node.foldContainerForSegment s D false c = some (some f) ∧
          f.getIdRange = { min := c.getId, max := c.getId } ∧
          f.paths = c.leafPathsAlong s rest)) ∧
    (∀ p ∈ c.leafPathsAlong s rest, p ∈ c.taggedLeafPaths s) ∧
    (∀ p ∈ c.taggedLeafPaths s, p ∉ c.leafPathsAlong s rest →
      ∀ f, Node.foldContainerForSegment s D false c = some (some f) → p ∉ f.paths) ∧
    ((∀ call ∈ calls, call.dimOrder = D) →
      c.leafPathsAlong s rest = c.taggedLeafPaths s ∧
      (c.hasSegmentTag s = true → c.leafPathsAlong s rest ≠ [])) := by
  rw [getContainer_zero] at hc
  have hne : D ≠ [] := by rw [hDeq]; simp
  obtain ⟨cfg0, rest0, hD0⟩ := List.exists_cons_of_ne_nil hne
  have halong : Node.Along true D tree := by
    rw [hD0]
    exact insertAll_along (cfg0 :: rest0) calls _ tree (hD0 ▸ hcalls) h
      (treeOk_emptyRoot id config) (along_emptyRoot id config cfg0 rest0)
  obtain ⟨hcfg, hcu⟩ := getContainerFrom_along path cfg rest before true tree c
    (hDeq ▸ halong) hc
  obtain ⟨⟨r, hr, hnone, hsome⟩, -⟩ :=
    paths_foldContainerForSegment_along s D hD rest before cfg c hDeq hcfg hcu
  refine ⟨Node.foldContainerForSegment_untagged s D false c, ?_,
    leafPathsAlong_subset s rest c, ?_, ?_⟩
  · intro _
    constructor
    · intro hempty
      cases r with
      | none => exact hr
      | some f => exact absurd hempty (hsome f rfl).2.2
    · intro hnonempty
      cases r with
      | none => exact absurd (hnone rfl) hnonempty
      | some f => exact ⟨f, hr, (hsome f rfl).1, (hsome f rfl).2.1⟩
  · intro p _ hp f hf
    rw [hr] at hf
    simp only [Option.some.injEq] at hf
    rw [(hsome f hf).2.1]
    exact hp
  · intro hone
    have hu : Node.Uniform true D tree := by
      rw [hD0]
      exact insertAll_uniform (cfg0 :: rest0) (by simp) calls _ tree (hD0 ▸ hone) h
        (treeOk_emptyRoot id config) (uniform_emptyRoot id config cfg0 rest0)
    have hcu1 := getContainerFrom_uniform path cfg rest before true tree c (hDeq ▸ hu) hc
    have heq := uniform_leafPathsAlong s rest c hcu1
    refine ⟨heq, ?_⟩
    intro htag
    obtain ⟨b, hb, d, hd, hcd⟩ := getContainerFrom_mem_subnodes path _ tree c hc
    have hcmem : c ∈ tree.subnodes :=
      mem_subnodes_trans hcd tree (mem_subnodes_child (mem_subnodes_self tree) hb hd)
    obtain ⟨l, hl, hsl⟩ := (insertAll_invariants h).2 c hcmem s
      ((Node.hasSegmentTag_iff_mem c (uniform_sorted hcu1) s).mp htag)
    rw [heq]
    exact uniform_leaf_path s rest c l hcu1 hl hsl

/-- C12, amended, at two trees. In the tree built by `insertPart([A, B], 1, [[0], [1], [5]])`
and `insertPart([A, C], 2, [[0], [1], [5]])`, the container 0 of LPS 1 carries both tags;
along `[A, B]` its fold for tag 1 covers the path of the ids 0, 1, and its fold for tag 2 is
NULL, as the leaf 5 of LPS 3 that carries tag 2 is not reached along `[A, B]`. In the tree
built by `insertPart([A, B, C], 1, [[0], [1], [2]])` and
`insertPart([A, B, C], 2, [[0], [1], [3]])`, the fold of the container 0 of LPS 1 for tag 1
is the chain of the ids 0, 1, 2 and the fold for tag 2 the chain of the ids 0, 1, 3, which
covers every leaf container under it that carries tag 2. -/
theorem fold_covers_leaves_along_order_witness :
    (orderAB.Nodup ∧
      (∀ call ∈ callsABAC, compatibleOrders call.dimOrder orderAB = true) ∧
      insertAll (emptyRoot 0 rootConfig) callsABAC = some treeABAC ∧
      getContainer treeABAC [[0]] [configA] 0 = some (some interABAC) ∧
      interABAC.hasSegmentTag 1 = true ∧ interABAC.hasSegmentTag 2 = true ∧
      interABAC.leafPathsAlong 1 [configB] = [[0, 1]] ∧
      interABAC.leafPathsAlong 2 [configB] = [] ∧
      interABAC.taggedLeafPaths 2 = [[0, 5]] ∧
      Node.foldContainerForSegment 2 orderAB false interABAC = some none ∧
      ∃ f, Node.foldContainerForSegment 1 orderAB false interABAC = some (some f) ∧
        f.getIdRange = { min := interABAC.getId, max := interABAC.getId } ∧
        f.paths = interABAC.leafPathsAlong 1 [configB]) ∧
    (orderABC.Nodup ∧
      insertAll (emptyRoot 0 rootConfig) [insertABC 1 0 1 2, insertABC 2 0 1 3]
        = some treeABC ∧
      getContainer treeABC [[0]] [configA] 0 = some (some interAB) ∧
      Node.foldContainerForSegment 1 orderABC false interAB
        = some (some (chain 0 0 [chain 1 1 [chain 2 2 []]])) ∧
      Node.foldContainerForSegment 2 orderABC false interAB
        = some (some (chain 0 0 [chain 1 1 [chain 3 2 []]])) ∧
      (chain 0 0 [chain 1 1 [chain 3 2 []]]).paths = [[0, 1, 3]] ∧
      interAB.leafPathsAlong 2 [configB, configC] = [[0, 1, 3]] ∧
      interAB.leafPathsAlong 2 [configB, configC] = interAB.taggedLeafPaths 2 ∧
      ∃ f, Node.foldContainerForSegment 2 orderABC false interAB = some (some f) ∧
        f.getIdRange = { min := interAB.getId, max := interAB.getId } ∧
        f.paths = interAB.leafPathsAlong 2 [configB, configC]) :=
  ⟨⟨by decide, by decide, rfl, rfl, rfl, rfl, by decide, by decide, rfl,
      ((fold_covers_leaves_along_order 0 rootConfig callsABAC orderAB [] configA [configB]
        treeABAC (by decide) rfl (by decide) rfl [[0]] interABAC rfl 2).2.1 rfl).1
        (by decide),
      ((fold_covers_leaves_along_order 0 rootConfig callsABAC orderAB [] configA [configB]
        treeABAC (by decide) rfl (by decide) rfl [[0]] interABAC rfl 1).2.1 rfl).2
        (by decide)⟩,
    ⟨by decide, rfl, rfl, rfl, rfl, by decide, by decide,
      ((fold_covers_leaves_along_order 0 rootConfig [insertABC 1 0 1 2, insertABC 2 0 1 3]
        orderABC [] configA [configB, configC] treeABC (by decide) rfl (by decide) rfl [[0]]
        interAB rfl 2).2.2.2.2 (by decide)).1,
      ((fold_covers_leaves_along_order 0 rootConfig [insertABC 1 0 1 2, insertABC 2 0 1 3]
        orderABC [] configA [configB, configC] treeABC (by decide) rfl (by decide) rfl [[0]]
        interAB rfl 2).2.1 rfl).2 (by decide)⟩⟩

end PartDistribution

namespace ComputeFlow

open Example

/-! ## Adding sync stages -/

theorem addSyncStages_eq (syncs : List SyncStage) :
    ∀ w : CompositeStage × ImplantState,
      addSyncStages syncs w =
        ({ space := w.1.space, index := w.1.index,
           stageList := w.1.stageList ++ syncs.map FlowStage.syncStage },
         { checkpoints := w.2.checkpoints, currStageList := w.2.currStageList,
           trace := w.2.trace ++ syncs.map Event.addStageAtEnd }) := by
  induction syncs with
  | nil => intro w; simp [addSyncStages]
  | cons s rest ih =>
    intro w
    rw [addSyncStages, ih]
    simp [addSyncStage, CompositeStage.addStageAtEnd, ImplantState.log]

theorem addSyncStageIfAny_eq (sync : Option SyncStage) (w : CompositeStage × ImplantState) :
    addSyncStageIfAny sync w = addSyncStages sync.toList w := by
  cases sync <;> rfl

/-- The ascending branch of the loop of `addSyncStagesBeforeExecution`. -/
theorem beforeExecutionStep_ascending (env : Collaborators) (nextStageIndex : Int)
    (oldSpace newSpace : Space) (w : CompositeStage × ImplantState)
    (oldCheckpoint : SpaceEntryCheckpoint)
    (hcp : w.2.getCheckpoint oldSpace = some oldCheckpoint)
    (hup : oldSpace.isParentSpace newSpace = true) :
    CompositeStage.beforeExecutionStep env nextStageIndex oldSpace newSpace w =
      .ok (ascendingOutcome env (nextStageIndex - 1) oldSpace newSpace oldCheckpoint w) := by
  unfold CompositeStage.beforeExecutionStep ascendingOutcome
  simp only [hup, if_true, hcp, addSyncStageIfAny_eq, addSyncStages_eq]
  cases oldCheckpoint.entrySyncStage <;>
    simp [ImplantState.removeACheckpoint, ImplantState.log, List.append_assoc]

/-- The body of the loop of `addSyncStagesOnReturn`. -/
theorem onReturnStep_ascending (env : Collaborators) (lastStageIndex : Int)
    (oldSpace newSpace : Space) (w : CompositeStage × ImplantState)
    (oldCheckpoint : SpaceEntryCheckpoint)
    (hcp : w.2.getCheckpoint oldSpace = some oldCheckpoint) :
    CompositeStage.onReturnStep env lastStageIndex oldSpace newSpace w =
      .ok (ascendingOutcome env lastStageIndex oldSpace newSpace oldCheckpoint w) := by
  unfold CompositeStage.onReturnStep ascendingOutcome
  simp only [hcp, addSyncStageIfAny_eq, addSyncStages_eq]
  cases oldCheckpoint.entrySyncStage <;>
    simp [ImplantState.removeACheckpoint, ImplantState.log, List.append_assoc]

theorem Space.isParentSpace_length {s t : Space} (h : s.isParentSpace t = true) :
    t.path.length < s.path.length := by
  unfold Space.isParentSpace at h
  simp only [Bool.and_eq_true, decide_eq_true_eq] at h
  exact h.2

theorem Space.isParentSpace_asymm {s t : Space} (h : s.isParentSpace t = true) :
    t.isParentSpace s = false := by
  have h1 := Space.isParentSpace_length h
  cases h2 : t.isParentSpace s with
  | false => rfl
  | true =>
    have := Space.isParentSpace_length h2
    omega

theorem Space.isParentSpace_irrefl (s : Space) : s.isParentSpace s = false := by
  simp [Space.isParentSpace]

/-- The descending branch of the loop of `addSyncStagesBeforeExecution`. -/
theorem beforeExecutionStep_descending (env : Collaborators) (nextStageIndex : Int)
    (oldSpace newSpace : Space) (w : CompositeStage × ImplantState)
    (hdown : newSpace.isParentSpace oldSpace = true) :
    CompositeStage.beforeExecutionStep env nextStageIndex oldSpace newSpace w =
      .ok (addSyncStageIfAny (env.generateEntrySyncStage newSpace)
        (w.1, (w.2.addACheckpointIfApplicable newSpace nextStageIndex).setEntrySyncStage
          newSpace (env.generateEntrySyncStage newSpace))) := by
  unfold CompositeStage.beforeExecutionStep
  simp [Space.isParentSpace_asymm hdown, hdown]

/-- C19. The loop body of `addSyncStagesBeforeExecution` ends in the fatal exit for the pair
`(oldSpace, newSpace)` if and only if neither space is an ancestor of the other and the two
differ; a pair of equal spaces is skipped: nothing is added and nothing changes. The only
other way the step does not complete is an ascending step without a checkpoint for
`oldSpace`. The step from `B` to its sibling `C` ends in the fatal exit. -/
theorem disjoint_transition_is_fatal (env : Collaborators) (nextStageIndex : Int)
    (oldSpace newSpace : Space) (w : CompositeStage × ImplantState) :
    (CompositeStage.beforeExecutionStep env nextStageIndex oldSpace newSpace w
        = .error (.disjointTransition oldSpace newSpace) ↔
      (oldSpace.isParentSpace newSpace = false ∧ newSpace.isParentSpace oldSpace = false ∧
        oldSpace ≠ newSpace)) ∧
    (∀ fault, CompositeStage.beforeExecutionStep env nextStageIndex oldSpace newSpace w
        = .error fault →
      fault = .disjointTransition oldSpace newSpace ∨
        (fault = .nullCheckpoint oldSpace ∧ oldSpace.isParentSpace newSpace = true ∧
          w.2.getCheckpoint oldSpace = none)) ∧
    (oldSpace = newSpace →
      CompositeStage.beforeExecutionStep env nextStageIndex oldSpace newSpace w = .ok w) ∧
    CompositeStage.beforeExecutionStep env nextStageIndex oldSpace oldSpace w = .ok w ∧
    CompositeStage.beforeExecutionStep generator 3 spaceB spaceC (flowAB, insideB)
      = .error (.disjointTransition spaceB spaceC) := by
  have hsame : CompositeStage.beforeExecutionStep env nextStageIndex oldSpace oldSpace w
      = .ok w := by
    unfold CompositeStage.beforeExecutionStep
    simp [Space.isParentSpace_irrefl]
  refine ⟨?_, ?_, ?_, hsame, rfl⟩
  · unfold CompositeStage.beforeExecutionStep
    cases hup : oldSpace.isParentSpace newSpace with
    | true =>
      cases hcp : w.2.getCheckpoint oldSpace <;> simp
    | false =>
      cases hdown : newSpace.isParentSpace oldSpace with
      | true => simp
      | false =>
        by_cases hne : oldSpace = newSpace
        · simp [hne]
        · simp [hne]
  · intro fault hfault
    have hfault0 := hfault
    unfold CompositeStage.beforeExecutionStep at hfault
    cases hup : oldSpace.isParentSpace newSpace with
    | true =>
      cases hcp : w.2.getCheckpoint oldSpace with
      | none =>
        simp only [hup, if_true, hcp, Except.error.injEq] at hfault
        exact Or.inr ⟨hfault.symm, rfl, rfl⟩
      | some cp => simp [hup, hcp] at hfault
    | false =>
      cases hdown : newSpace.isParentSpace oldSpace with
      | true => simp [hup, hdown] at hfault
      | false =>
        by_cases hne : oldSpace = newSpace
        · subst hne
          rw [hsame] at hfault0
          cases hfault0
        · simp only [hup, hdown, Bool.false_eq_true, if_false, ne_eq, hne, not_false_eq_true,
            if_true, Except.error.injEq] at hfault
          exact Or.inl hfault.symm
  · intro h
    subst h
    exact hsame

open Example

/-! ## Implantation only adds sync stages -/

mutual
theorem FlowStage.induction_on (P : FlowStage → Prop)
    (hinst : ∀ space index name, P (.stageInstanciation space index name))
    (hsync : ∀ sync, P (.syncStage sync))
    (hcomp : ∀ space index stageList, (∀ s ∈ stageList, P s) →
      P (.compositeStage space index stageList)) : ∀ s : FlowStage, P s
  | .stageInstanciation space index name => hinst space index name
  | .syncStage sync => hsync sync
  | .compositeStage space index stageList =>
    hcomp space index stageList (FlowStage.induction_on_list P hinst hsync hcomp stageList)
theorem FlowStage.induction_on_list (P : FlowStage → Prop)
    (hinst : ∀ space index name, P (.stageInstanciation space index name))
    (hsync : ∀ sync, P (.syncStage sync))
    (hcomp : ∀ space index stageList, (∀ s ∈ stageList, P s) →
      P (.compositeStage space index stageList)) : ∀ l : List FlowStage, ∀ s ∈ l, P s
  | [] => by intro s hs; simp at hs
  | a :: l => by
      intro s hs
      rcases List.mem_cons.mp hs with rfl | hs
      · exact FlowStage.induction_on P hinst hsync hcomp s
      · exact FlowStage.induction_on_list P hinst hsync hcomp l s hs
end

theorem withoutSyncStagesOfList_eq (l : List FlowStage) :
    withoutSyncStagesOfList l =
      (l.filter FlowStage.isComputeStage).map FlowStage.withoutSyncStages := by
  induction l with
  | nil => simp [withoutSyncStagesOfList]
  | cons s l ih =>
    cases s <;>
      simp [withoutSyncStagesOfList, FlowStage.isComputeStage, FlowStage.isSyncStage,
        FlowStage.withoutSyncStages, ih]

theorem withoutSyncStagesOfList_append (a b : List FlowStage) :
    withoutSyncStagesOfList (a ++ b) = withoutSyncStagesOfList a ++ withoutSyncStagesOfList b := by
  simp [withoutSyncStagesOfList_eq]

theorem withoutSyncStagesOfList_syncs (syncs : List SyncStage) :
    withoutSyncStagesOfList (syncs.map FlowStage.syncStage) = [] := by
  induction syncs with
  | nil => simp [withoutSyncStagesOfList]
  | cons s l ih => simp [withoutSyncStagesOfList, ih]

theorem beforeExecutionStep_same (env : Collaborators) (nextStageIndex : Int) (space : Space)
    (w : CompositeStage × ImplantState) :
    CompositeStage.beforeExecutionStep env nextStageIndex space space w = .ok w := by
  unfold CompositeStage.beforeExecutionStep
  simp [Space.isParentSpace_irrefl]

theorem beforeExecutionStep_only_syncs {env : Collaborators} {nextStageIndex : Int}
    {oldSpace newSpace : Space} {w out : CompositeStage × ImplantState}
    (h : CompositeStage.beforeExecutionStep env nextStageIndex oldSpace newSpace w = .ok out) :
    out.1.space = w.1.space ∧ out.1.index = w.1.index ∧
    out.2.currStageList = w.2.currStageList ∧
    ∃ syncs : List SyncStage, out.1.stageList = w.1.stageList ++ syncs.map FlowStage.syncStage := by
  cases hup : oldSpace.isParentSpace newSpace with
  | true =>
    cases hcp : w.2.getCheckpoint oldSpace with
    | none =>
      unfold CompositeStage.beforeExecutionStep at h
      simp [hup, hcp] at h
    | some cp =>
      rw [beforeExecutionStep_ascending env nextStageIndex oldSpace newSpace w cp hcp hup] at h
      cases h
      exact ⟨rfl, rfl, rfl, _, rfl⟩
  | false =>
    cases hdown : newSpace.isParentSpace oldSpace with
    | true =>
      rw [beforeExecutionStep_descending env nextStageIndex oldSpace newSpace w hdown,
        addSyncStageIfAny_eq, addSyncStages_eq] at h
      cases h
      refine ⟨rfl, rfl, ?_, _, rfl⟩
      unfold ImplantState.addACheckpointIfApplicable
      cases w.2.getCheckpoint newSpace <;> rfl
    | false =>
      by_cases hne : oldSpace = newSpace
      · subst hne
        rw [beforeExecutionStep_same] at h
        cases h
        exact ⟨rfl, rfl, rfl, [], by simp⟩
      · unfold CompositeStage.beforeExecutionStep at h
        simp [hup, hdown, hne] at h

theorem beforeExecutionLoop_only_syncs {env : Collaborators} {nextStageIndex : Int} :
    ∀ (chain : List Space) {w out : CompositeStage × ImplantState},
      CompositeStage.beforeExecutionLoop env nextStageIndex chain w = .ok out →
      out.1.space = w.1.space ∧ out.1.index = w.1.index ∧
      out.2.currStageList = w.2.currStageList ∧
      ∃ syncs : List SyncStage,
        out.1.stageList = w.1.stageList ++ syncs.map FlowStage.syncStage := by
  intro chain
  induction chain with
  | nil =>
    intro w out h
    simp only [CompositeStage.beforeExecutionLoop, Except.ok.injEq] at h
    subst h
    exact ⟨rfl, rfl, rfl, [], by simp⟩
  | cons a rest ih =>
    intro w out h
    cases rest with
    | nil =>
      simp only [CompositeStage.beforeExecutionLoop, Except.ok.injEq] at h
      subst h
      exact ⟨rfl, rfl, rfl, [], by simp⟩
    | cons b rest =>
      rw [CompositeStage.beforeExecutionLoop] at h
      cases hstep : CompositeStage.beforeExecutionStep env nextStageIndex a b w with
      | error f => rw [hstep] at h; cases h
      | ok w1 =>
        rw [hstep] at h
        obtain ⟨h1, h2, h3, s1, h4⟩ := beforeExecutionStep_only_syncs hstep
        obtain ⟨g1, g2, g3, s2, g4⟩ := ih h
        refine ⟨g1.trans h1, g2.trans h2, g3.trans h3, s1 ++ s2, ?_⟩
        rw [g4, h4]; simp

theorem addSyncStagesBeforeExecution_only_syncs {env : Collaborators} {nextStage : FlowStage}
    {w out : CompositeStage × ImplantState}
    (h : CompositeStage.addSyncStagesBeforeExecution env nextStage w = .ok out) :
    out.1.space = w.1.space ∧ out.1.index = w.1.index ∧
    out.2.currStageList = w.2.currStageList ∧
    ∃ syncs : List SyncStage, out.1.stageList = w.1.stageList ++ syncs.map FlowStage.syncStage := by
  unfold CompositeStage.addSyncStagesBeforeExecution at h
  cases hchain : w.1.transitionChain nextStage with
  | none =>
    rw [hchain] at h
    simp only [Except.ok.injEq] at h
    subst h
    exact ⟨rfl, rfl, rfl, [], by simp⟩
  | some chain =>
    rw [hchain] at h
    exact beforeExecutionLoop_only_syncs chain h

theorem onReturnLoop_only_syncs {env : Collaborators} {lastStageIndex : Int} :
    ∀ (chain : List Space) {w out : CompositeStage × ImplantState},
      CompositeStage.onReturnLoop env lastStageIndex chain w = .ok out →
      out.1.space = w.1.space ∧ out.1.index = w.1.index ∧
      out.2.currStageList = w.2.currStageList ∧
      ∃ syncs : List SyncStage,
        out.1.stageList = w.1.stageList ++ syncs.map FlowStage.syncStage := by
  intro chain
  induction chain with
  | nil =>
    intro w out h
    simp only [CompositeStage.onReturnLoop, Except.ok.injEq] at h
    subst h
    exact ⟨rfl, rfl, rfl, [], by simp⟩
  | cons a rest ih =>
    intro w out h
    cases rest with
    | nil =>
      simp only [CompositeStage.onReturnLoop, Except.ok.injEq] at h
      subst h
      exact ⟨rfl, rfl, rfl, [], by simp⟩
    | cons b rest =>
      rw [CompositeStage.onReturnLoop] at h
      cases hstep : CompositeStage.onReturnStep env lastStageIndex a b w with
      | error f => rw [hstep] at h; cases h
      | ok w1 =>
        rw [hstep] at h
        have hw1 : w1.1.space = w.1.space ∧ w1.1.index = w.1.index ∧
            w1.2.currStageList = w.2.currStageList ∧
            ∃ syncs : List SyncStage,
              w1.1.stageList = w.1.stageList ++ syncs.map FlowStage.syncStage := by
          cases hcp : w.2.getCheckpoint a with
          | none =>
            unfold CompositeStage.onReturnStep at hstep
            simp [hcp] at hstep
          | some cp =>
            rw [onReturnStep_ascending env lastStageIndex a b w cp hcp] at hstep
            cases hstep
            exact ⟨rfl, rfl, rfl, _, rfl⟩
        obtain ⟨h1, h2, h3, s1, h4⟩ := hw1
        obtain ⟨g1, g2, g3, s2, g4⟩ := ih h
        refine ⟨g1.trans h1, g2.trans h2, g3.trans h3, s1 ++ s2, ?_⟩
        rw [g4, h4]; simp

theorem addSyncStagesOnReturn_only_syncs {env : Collaborators}
    {w out : CompositeStage × ImplantState}
    (h : CompositeStage.addSyncStagesOnReturn env w = .ok out) :
    out.1.space = w.1.space ∧ out.1.index = w.1.index ∧
    out.2.currStageList = w.2.currStageList ∧
    ∃ syncs : List SyncStage, out.1.stageList = w.1.stageList ++ syncs.map FlowStage.syncStage := by
  unfold CompositeStage.addSyncStagesOnReturn at h
  simp only at h
  cases hchain : w.1.getLastNonSyncStagesSpace.getConnetingSpaceSequenceForSpacePair
      w.1.space with
  | none =>
    rw [hchain] at h
    cases h
    exact ⟨rfl, rfl, rfl, [], by simp⟩
  | some chain =>
    rw [hchain] at h
    cases chain with
    | nil =>
      cases h
      exact ⟨rfl, rfl, rfl, [], by simp⟩
    | cons s chain =>
      simp only at h
      cases hlast : w.1.getLastNonSyncStage with
      | none => rw [hlast] at h; cases h
      | some lastNonSyncStage =>
        rw [hlast] at h
        exact onReturnLoop_only_syncs _ h

theorem implantInContainer_only_syncs {env : Collaborators} {stage : FlowStage}
    {w out : CompositeStage × ImplantState}
    (h : FlowStage.implantInContainer env stage w = .ok out) :
    out.1.space = w.1.space ∧ out.1.index = w.1.index ∧
    ∃ syncs : List SyncStage,
      out.1.stageList = w.1.stageList ++ syncs.map FlowStage.syncStage ++ [stage] := by
  unfold FlowStage.implantInContainer at h
  cases hb : CompositeStage.addSyncStagesBeforeExecution env stage w with
  | error f => rw [hb] at h; cases h
  | ok w1 =>
    rw [hb] at h
    simp only [Except.ok.injEq] at h
    subst h
    obtain ⟨h1, h2, -, syncs, h4⟩ := addSyncStagesBeforeExecution_only_syncs hb
    exact ⟨h1, h2, syncs, by simp [CompositeStage.addStageAtEnd, h4]⟩

open Example

theorem withoutSyncStagesOfList_singleton (stage : FlowStage) :
    withoutSyncStagesOfList [stage] =
      if stage.isSyncStage then [] else [stage.withoutSyncStages] := by
  cases stage <;> simp [withoutSyncStagesOfList, FlowStage.isSyncStage, FlowStage.withoutSyncStages]

theorem implantNestedStages_only_syncs (env : Collaborators) :
    ∀ (l : List FlowStage),
      (∀ s ∈ l, ∀ w out, FlowStage.implantSyncStagesInFlow env s w = .ok out →
        out.1.space = w.1.space ∧ out.1.index = w.1.index ∧
        ∃ (syncs : List SyncStage) (s1 : FlowStage),
          out.1.stageList = w.1.stageList ++ syncs.map FlowStage.syncStage ++ [s1] ∧
          s1.withoutSyncStages = s.withoutSyncStages ∧ s1.isSyncStage = s.isSyncStage) →
      ∀ (w out : CompositeStage × ImplantState), implantNestedStages env l w = .ok out →
        out.1.space = w.1.space ∧ out.1.index = w.1.index ∧
        withoutSyncStagesOfList out.1.stageList =
          withoutSyncStagesOfList w.1.stageList ++ withoutSyncStagesOfList l := by
  intro l
  induction l with
  | nil =>
    intro _ w out h
    simp only [implantNestedStages, Except.ok.injEq] at h
    subst h
    simp [withoutSyncStagesOfList]
  | cons s l ih =>
    intro hl w out h
    rw [implantNestedStages] at h
    cases hs : FlowStage.implantSyncStagesInFlow env s w with
    | error f => rw [hs] at h; cases h
    | ok w1 =>
      rw [hs] at h
      obtain ⟨h1, h2, syncs, s1, h3, h4, h5⟩ := hl s (List.mem_cons_self _ _) w w1 hs
      obtain ⟨g1, g2, g3⟩ := ih (fun t ht => hl t (List.mem_cons_of_mem _ ht)) w1 out h
      refine ⟨g1.trans h1, g2.trans h2, ?_⟩
      have hcons : withoutSyncStagesOfList (s :: l) =
          withoutSyncStagesOfList [s] ++ withoutSyncStagesOfList l := by
        rw [← withoutSyncStagesOfList_append]; rfl
      rw [g3, h3, withoutSyncStagesOfList_append, withoutSyncStagesOfList_append,
        withoutSyncStagesOfList_syncs, hcons, withoutSyncStagesOfList_singleton,
        withoutSyncStagesOfList_singleton, h4, h5]
      simp

/-- One call of `implantSyncStagesInFlow` in a container adds sync stages and the stage, which
is the stage it was but for the sync stages added inside it. -/
theorem implantSyncStagesInFlow_only_syncs (env : Collaborators) :
    ∀ (s : FlowStage) (w out : CompositeStage × ImplantState),
      FlowStage.implantSyncStagesInFlow env s w = .ok out →
      out.1.space = w.1.space ∧ out.1.index = w.1.index ∧
      ∃ (syncs : List SyncStage) (s1 : FlowStage),
        out.1.stageList = w.1.stageList ++ syncs.map FlowStage.syncStage ++ [s1] ∧
        s1.withoutSyncStages = s.withoutSyncStages ∧ s1.isSyncStage = s.isSyncStage := by
  intro s
  induction s using FlowStage.induction_on with
  | hinst space index name =>
    intro w out h
    rw [FlowStage.implantSyncStagesInFlow] at h
    obtain ⟨h1, h2, syncs, h3⟩ := implantInContainer_only_syncs h
    exact ⟨h1, h2, syncs, _, h3, rfl, rfl⟩
  | hsync sync =>
    intro w out h
    rw [FlowStage.implantSyncStagesInFlow] at h
    obtain ⟨h1, h2, syncs, h3⟩ := implantInContainer_only_syncs h
    exact ⟨h1, h2, syncs, _, h3, rfl, rfl⟩
  | hcomp space index stageList ih =>
    intro w out h
    rw [FlowStage.implantSyncStagesInFlow] at h
    cases h1 : FlowStage.implantInContainer env (.compositeStage space index []) w with
    | error f => rw [h1] at h; cases h
    | ok w1 =>
      rw [h1] at h
      simp only at h
      cases h2 : implantNestedStages env stageList
          ({ space := space, index := index, stageList := [] }, w1.2) with
      | error f => rw [h2] at h; cases h
      | ok w2 =>
        rw [h2] at h
        simp only at h
        cases h3 : CompositeStage.addSyncStagesOnReturn env w2 with
        | error f => rw [h3] at h; cases h
        | ok w3 =>
          rw [h3] at h
          simp only [Except.ok.injEq] at h
          subst h
          obtain ⟨a1, a2, syncs, a3⟩ := implantInContainer_only_syncs h1
          obtain ⟨b1, b2, b3⟩ := implantNestedStages_only_syncs env stageList ih _ _ h2
          obtain ⟨c1, c2, -, syncs3, c3⟩ := addSyncStagesOnReturn_only_syncs h3
          refine ⟨a1, a2, syncs, w3.1.toFlowStage, ?_, ?_, rfl⟩
          · simp only
            rw [a3, List.dropLast_concat]
          · simp only [CompositeStage.toFlowStage, FlowStage.withoutSyncStages, c1, c2, b1, b2,
              FlowStage.compositeStage.injEq, true_and]
            rw [c3, withoutSyncStagesOfList_append, withoutSyncStagesOfList_syncs, b3]
            simp [withoutSyncStagesOfList]

theorem map_withoutSyncStages_eq_self :
    ∀ (m l : List FlowStage),
      (∀ s ∈ l, ∃ space index name, s = FlowStage.stageInstanciation space index name) →
      m.map FlowStage.withoutSyncStages = l → m = l := by
  intro m
  induction m with
  | nil => intro l _ h; simpa using h
  | cons a m ih =>
    intro l hl h
    cases l with
    | nil => simp at h
    | cons b l =>
      simp only [List.map_cons, List.cons.injEq] at h
      obtain ⟨space, index, name, hb⟩ := hl b (List.mem_cons_self _ _)
      have ha : a = b := by
        rw [hb] at h ⊢
        cases a <;> simp [FlowStage.withoutSyncStages] at h ⊢
        exact h.1
      rw [ha, ih l (fun s hs => hl s (List.mem_cons_of_mem _ hs)) h.2]

theorem filter_isComputeStage_eq_self (l : List FlowStage)
    (hl : ∀ s ∈ l, ∃ space index name, s = FlowStage.stageInstanciation space index name) :
    (l.filter FlowStage.isComputeStage).map FlowStage.withoutSyncStages = l := by
  induction l with
  | nil => rfl
  | cons a l ih =>
    obtain ⟨space, index, name, ha⟩ := hl a (List.mem_cons_self _ _)
    subst ha
    simp [FlowStage.isComputeStage, FlowStage.isSyncStage, FlowStage.withoutSyncStages,
      ih (fun s hs => hl s (List.mem_cons_of_mem _ hs))]

/-- C16. `CompositeStage::implantSyncStagesInFlow` only adds sync stages. When the call
completes, the composite stage has its space and index, and the stages of its list that are
not sync stages are its original stages in the original order, each as it was but for the
sync stages added inside it; when the original stages are stage instanciations, they are the
original list itself. This holds for the composite stage the implantation starts with and
for a composite stage re-inserted in a container. For the composite stage on `A` with the
stages `[A, B, A]`, where `B` is a child of `A`, and a generator that makes an entry and an
exit sync stage, the rewritten list is `[A, entrySync(B), B, exitSync(B), A]`. -/
theorem implantSyncStagesInFlow_only_adds_sync_stages (env : Collaborators) :
    (∀ (c : CompositeStage) (σ : ImplantState) (out : CompositeStage × ImplantState),
      CompositeStage.implantSyncStagesInFlow env c σ = .ok out →
      out.1.space = c.space ∧ out.1.index = c.index ∧
      (out.1.stageList.filter FlowStage.isComputeStage).map FlowStage.withoutSyncStages =
        (c.stageList.filter FlowStage.isComputeStage).map FlowStage.withoutSyncStages ∧
      ((∀ s ∈ c.stageList, ∃ space index name, s = FlowStage.stageInstanciation space index name) →
        out.1.stageList.filter FlowStage.isComputeStage = c.stageList)) ∧
    (∀ (space : Space) (index : Int) (stageList : List FlowStage)
        (w out : CompositeStage × ImplantState),
      FlowStage.implantSyncStagesInFlow env (.compositeStage space index stageList) w = .ok out →
      ∃ (syncs : List SyncStage) (stageList1 : List FlowStage),
        out.1.stageList =
          w.1.stageList ++ syncs.map FlowStage.syncStage
            ++ [.compositeStage space index stageList1] ∧
        (stageList1.filter FlowStage.isComputeStage).map FlowStage.withoutSyncStages =
          (stageList.filter FlowStage.isComputeStage).map FlowStage.withoutSyncStages ∧
        ((∀ s ∈ stageList, ∃ space index name, s = FlowStage.stageInstanciation space index name) →
          stageList1.filter FlowStage.isComputeStage = stageList)) ∧
    (CompositeStage.implantSyncStagesInFlow generator flowABA start).map
        (fun out => out.1.stageList) =
      .ok [stage spaceA 1, .syncStage (entrySync spaceB), stage spaceB 2,
        .syncStage (exitSync spaceB), stage spaceA 3] := by
  refine ⟨?_, ?_, rfl⟩
  · intro c σ out h
    unfold CompositeStage.implantSyncStagesInFlow at h
    simp only at h
    cases h2 : implantNestedStages env c.stageList
        ({ space := c.space, index := c.index, stageList := [] },
          σ.append (CompositeStage.toFlowStage
            { space := c.space, index := c.index, stageList := [] })) with
    | error f => rw [h2] at h; cases h
    | ok w2 =>
      rw [h2] at h
      simp only at h
      obtain ⟨b1, b2, b3⟩ := implantNestedStages_only_syncs env c.stageList
        (fun s _ => implantSyncStagesInFlow_only_syncs env s) _ _ h2
      obtain ⟨c1, c2, -, syncs3, c3⟩ := addSyncStagesOnReturn_only_syncs h
      have hkeep : withoutSyncStagesOfList out.1.stageList =
          withoutSyncStagesOfList c.stageList := by
        rw [c3, withoutSyncStagesOfList_append, withoutSyncStagesOfList_syncs, b3]
        simp [withoutSyncStagesOfList]
      rw [withoutSyncStagesOfList_eq, withoutSyncStagesOfList_eq] at hkeep
      refine ⟨c1.trans b1, c2.trans b2, hkeep, ?_⟩
      intro hinst
      apply map_withoutSyncStages_eq_self _ _ hinst
      rw [hkeep, filter_isComputeStage_eq_self _ hinst]
  · intro space index stageList w out h
    obtain ⟨-, -, syncs, s1, h1, h2, -⟩ := implantSyncStagesInFlow_only_syncs env _ w out h
    cases s1 with
    | stageInstanciation sp i n => simp [FlowStage.withoutSyncStages] at h2
    | syncStage sync => simp [FlowStage.withoutSyncStages] at h2
    | compositeStage sp i l1 =>
      simp only [FlowStage.withoutSyncStages, FlowStage.compositeStage.injEq] at h2
      obtain ⟨rfl, rfl, h3⟩ := h2
      rw [withoutSyncStagesOfList_eq, withoutSyncStagesOfList_eq] at h3
      refine ⟨syncs, l1, h1, h3, ?_⟩
      intro hinst
      apply map_withoutSyncStages_eq_self _ _ hinst
      rw [h3, filter_isComputeStage_eq_self _ hinst]

open Example

/-! ## The last stage of a composite stage that is not a sync stage -/

/-- The scan from the end finds nothing exactly when every stage is a sync stage. -/
theorem lastNonSyncStageOf_eq_none (l : List FlowStage) :
    lastNonSyncStageOf l = none ↔ ∀ s ∈ l, s.isSyncStage = true := by
  induction l with
  | nil => simp [lastNonSyncStageOf]
  | cons stage rest ih =>
    rw [lastNonSyncStageOf]
    by_cases h : stage.isSyncStage = true
    · simp [h, ih]
    · simp [h]

/-- The scan from the end finds the first stage of the list that is not a sync stage. -/
theorem lastNonSyncStageOf_eq_some (l : List FlowStage) (stage : FlowStage) :
    lastNonSyncStageOf l = some stage ↔
      ∃ syncs rest, l = syncs ++ stage :: rest ∧ stage.isSyncStage = false ∧
        ∀ s ∈ syncs, s.isSyncStage = true := by
  induction l with
  | nil => simp [lastNonSyncStageOf]
  | cons first others ih =>
    rw [lastNonSyncStageOf]
    by_cases h : first.isSyncStage = true
    · rw [if_pos h, ih]
      constructor
      · rintro ⟨syncs, rest, rfl, h1, h2⟩
        refine ⟨first :: syncs, rest, rfl, h1, ?_⟩
        intro s hs
        rcases List.mem_cons.mp hs with rfl | hs
        · exact h
        · exact h2 s hs
      · rintro ⟨syncs, rest, heq, h1, h2⟩
        cases syncs with
        | nil =>
          simp only [List.nil_append, List.cons.injEq] at heq
          rw [heq.1, h1] at h
          cases h
        | cons s0 syncs =>
          simp only [List.cons_append, List.cons.injEq] at heq
          exact ⟨syncs, rest, heq.2, h1, fun s hs => h2 s (List.mem_cons_of_mem _ hs)⟩
    · rw [if_neg h]
      have hf : first.isSyncStage = false := by simpa using h
      constructor
      · intro heq
        cases heq
        exact ⟨[], others, rfl, hf, by simp⟩
      · rintro ⟨syncs, rest, heq, h1, h2⟩
        cases syncs with
        | nil =>
          simp only [List.nil_append, List.cons.injEq] at heq
          rw [heq.1]
        | cons s0 syncs =>
          simp only [List.cons_append, List.cons.injEq] at heq
          have := h2 s0 (List.mem_cons_self _ _)
          rw [← heq.1, hf] at this
          cases this

/-- The stage `getLastNonSyncStage` returns, by the place it has in the stage list. -/
theorem CompositeStage.getLastNonSyncStage_eq_some (c : CompositeStage) (stage : FlowStage) :
    c.getLastNonSyncStage = some stage ↔
      ∃ before syncs, c.stageList = before ++ stage :: syncs ∧ stage.isSyncStage = false ∧
        ∀ s ∈ syncs, s.isSyncStage = true := by
  unfold CompositeStage.getLastNonSyncStage
  rw [lastNonSyncStageOf_eq_some]
  constructor
  · rintro ⟨syncs, rest, heq, h1, h2⟩
    refine ⟨rest.reverse, syncs.reverse, ?_, h1, ?_⟩
    · have := congrArg List.reverse heq
      simpa using this
    · intro s hs
      exact h2 s (List.mem_reverse.mp hs)
  · rintro ⟨before, syncs, heq, h1, h2⟩
    refine ⟨syncs.reverse, before.reverse, ?_, h1, ?_⟩
    · rw [heq]; simp
    · intro s hs
      exact h2 s (List.mem_reverse.mp hs)

/-- The call `getLastNonSyncStage` returns NULL exactly when every stage of the list is a sync
stage. -/
theorem CompositeStage.getLastNonSyncStage_eq_none (c : CompositeStage) :
    c.getLastNonSyncStage = none ↔ ∀ s ∈ c.stageList, s.isSyncStage = true := by
  unfold CompositeStage.getLastNonSyncStage
  rw [lastNonSyncStageOf_eq_none]
  simp

/-- C29. For every composite stage, `getLastNonSyncStage` returns the last stage of the stage
list that is not a sync stage: the stage list is `before ++ stage :: syncs` with `stage` not
a sync stage and only sync stages after it. It returns NULL exactly when every stage of the
list is a sync stage, so also for the empty list. `getLastNonSyncStagesSpace` returns the
space of that stage, and the space of the composite stage when there is none.
`isStageListEmpty` is true exactly when every stage of the list is a sync stage; it is true
for a list that holds one sync stage. -/
theorem getLastNonSyncStage_is_last_stage_that_is_no_sync_stage (c : CompositeStage) :
    (∀ stage, c.getLastNonSyncStage = some stage ↔
      ∃ before syncs, c.stageList = before ++ stage :: syncs ∧ stage.isSyncStage = false ∧
        ∀ s ∈ syncs, s.isSyncStage = true) ∧
    (c.getLastNonSyncStage = none ↔ ∀ s ∈ c.stageList, s.isSyncStage = true) ∧
    (c.stageList = [] → c.getLastNonSyncStage = none) ∧
    (∀ stage, c.getLastNonSyncStage = some stage →
      c.getLastNonSyncStagesSpace = stage.getSpace) ∧
    (c.getLastNonSyncStage = none → c.getLastNonSyncStagesSpace = c.space) ∧
    (c.isStageListEmpty = true ↔ ∀ s ∈ c.stageList, s.isSyncStage = true) ∧
    (c.isStageListEmpty = true ↔ c.getLastNonSyncStage = none) ∧
    CompositeStage.isStageListEmpty
      { space := spaceA, index := 0, stageList := [.syncStage (entrySync spaceB)] } = true := by
  refine ⟨c.getLastNonSyncStage_eq_some, c.getLastNonSyncStage_eq_none, ?_, ?_, ?_, ?_, ?_, rfl⟩
  · intro h
    rw [c.getLastNonSyncStage_eq_none, h]
    simp
  · intro stage h
    unfold CompositeStage.getLastNonSyncStagesSpace
    rw [h]
  · intro h
    unfold CompositeStage.getLastNonSyncStagesSpace
    rw [h]
  · rw [← c.getLastNonSyncStage_eq_none]
    unfold CompositeStage.isStageListEmpty
    simp
  · unfold CompositeStage.isStageListEmpty
    simp

/-! ## The return to the space of a composite stage without a stage -/

/-- C28. When the composite stage has no stage that is not a sync stage
(`getLastNonSyncStage()` is NULL), `getLastNonSyncStagesSpace()` is the space of the composite
stage, the transition chain of the pair of this space with itself is NULL, and
`addSyncStagesOnReturn` returns with the composite stage and the state as they are: no stage
is added, and the index of the missing stage is not read. -/
theorem addSyncStagesOnReturn_returns_early_without_stage (env : Collaborators)
    (w : CompositeStage × ImplantState) (hnone : w.1.getLastNonSyncStage = none) :
    w.1.getLastNonSyncStagesSpace = w.1.space ∧
    Space.getConnetingSpaceSequenceForSpacePair w.1.getLastNonSyncStagesSpace w.1.space = none ∧
    CompositeStage.addSyncStagesOnReturn env w = .ok w ∧
    CompositeStage.addSyncStagesOnReturn env w ≠ .error .nullStage := by
  have hspace : w.1.getLastNonSyncStagesSpace = w.1.space := by
    unfold CompositeStage.getLastNonSyncStagesSpace
    rw [hnone]
  have hchain : Space.getConnetingSpaceSequenceForSpacePair w.1.getLastNonSyncStagesSpace
      w.1.space = none := by
    rw [hspace]
    unfold Space.getConnetingSpaceSequenceForSpacePair
    simp
  have hok : CompositeStage.addSyncStagesOnReturn env w = .ok w := by
    unfold CompositeStage.addSyncStagesOnReturn
    simp only [hchain]
  refine ⟨hspace, hchain, hok, ?_⟩
  rw [hok]
  intro h
  cases h

/-- C28 at a composite stage on `A` whose stage list holds one sync stage. -/
theorem addSyncStagesOnReturn_returns_early_without_stage_witness :
    CompositeStage.getLastNonSyncStage
      { space := spaceA, index := 0, stageList := [.syncStage (entrySync spaceB)] } = none ∧
    CompositeStage.addSyncStagesOnReturn fullGenerator
      ({ space := spaceA, index := 0, stageList := [.syncStage (entrySync spaceB)] }, insideB)
      = .ok ({ space := spaceA, index := 0, stageList := [.syncStage (entrySync spaceB)] },
        insideB) :=
  ⟨rfl, (addSyncStagesOnReturn_returns_early_without_stage fullGenerator
    ({ space := spaceA, index := 0, stageList := [.syncStage (entrySync spaceB)] }, insideB)
    rfl).2.2.1⟩

end ComputeFlow

namespace CodeGenerator

open Example

/-! ## The scan of the mapping tree -/

theorem MappingNode.nodesOfList_append (a b : List MappingNode) :
    MappingNode.nodesOfList (a ++ b) = MappingNode.nodesOfList a ++ MappingNode.nodesOfList b := by
  induction a with
  | nil => simp [MappingNode.nodesOfList]
  | cons c cs ih => simp [MappingNode.nodesOfList, ih]

theorem MappingNode.sizeOfList_append (a b : List MappingNode) :
    MappingNode.sizeOfList (a ++ b) = MappingNode.sizeOfList a + MappingNode.sizeOfList b := by
  induction a with
  | nil => simp [MappingNode.sizeOfList]
  | cons c cs ih => simp [MappingNode.sizeOfList, ih]; omega

theorem MappingNode.nodes_eq (n : MappingNode) :
    n.nodes = n :: MappingNode.nodesOfList n.children := by
  cases n; simp [MappingNode.nodes, MappingNode.children]

theorem MappingNode.size_eq (n : MappingNode) :
    n.size = 1 + MappingNode.sizeOfList n.children := by
  cases n; simp [MappingNode.size, MappingNode.children]

theorem mem_nodesOfList_queue (node : MappingNode) (rest : List MappingNode) (n : MappingNode) :
    n ∈ MappingNode.nodesOfList (node :: rest) ↔
      n = node ∨ n ∈ MappingNode.nodesOfList (rest ++ node.children) := by
  rw [MappingNode.nodesOfList, MappingNode.nodes_eq, MappingNode.nodesOfList_append]
  simp only [List.cons_append, List.mem_cons, List.mem_append]
  tauto

/-- What every visit keeps, the scan keeps. -/
theorem scanLoop_invariant (P : PpsLimits → Prop) :
    ∀ (fuel : Nat) (queue : List MappingNode) (limits : PpsLimits),
      (∀ n ∈ MappingNode.nodesOfList queue, ∀ l, P l → P (visitNode n l)) → P limits →
      P (scanLoop fuel queue limits) := by
  intro fuel
  induction fuel with
  | zero => intro queue limits _ h; exact h
  | succ fuel ih =>
    intro queue limits hq h
    cases queue with
    | nil => exact h
    | cons node rest =>
      rw [scanLoop]
      apply ih
      · intro n hn
        exact hq n ((mem_nodesOfList_queue node rest n).mpr (Or.inr hn))
      · exact hq node ((mem_nodesOfList_queue node rest node).mpr (Or.inl rfl)) limits h

theorem visitNode_lowest (n : MappingNode) (l : PpsLimits) :
    (visitNode n l).lowestPpsId = min n.pps.id l.lowestPpsId := by
  unfold visitNode
  simp only
  split_ifs <;> simp only <;> omega

theorem visitNode_highestUnpartitioned_le (n : MappingNode) (l : PpsLimits) :
    (visitNode n l).highestUnpartitionedPpsId ≤ l.highestUnpartitionedPpsId := by
  unfold visitNode
  simp only
  split_ifs <;> simp only <;> omega

theorem scanLoop_lowest_le (fuel : Nat) (queue : List MappingNode) (limits : PpsLimits) :
    (scanLoop fuel queue limits).lowestPpsId ≤ limits.lowestPpsId :=
  scanLoop_invariant (fun l => l.lowestPpsId ≤ limits.lowestPpsId) fuel queue limits
    (fun n _ l hl => by
      show (visitNode n l).lowestPpsId ≤ limits.lowestPpsId
      rw [visitNode_lowest]; omega)
    (le_refl _)

/-- With fuel for every node of the queue, the scan takes every node into account. -/
theorem scanLoop_lowest_le_node :
    ∀ (fuel : Nat) (queue : List MappingNode) (limits : PpsLimits),
      MappingNode.sizeOfList queue ≤ fuel →
      ∀ n ∈ MappingNode.nodesOfList queue, (scanLoop fuel queue limits).lowestPpsId ≤ n.pps.id := by
  intro fuel
  induction fuel with
  | zero =>
    intro queue limits hsize n hn
    cases queue with
    | nil => simp [MappingNode.nodesOfList] at hn
    | cons node rest =>
      rw [MappingNode.sizeOfList, MappingNode.size_eq] at hsize
      omega
  | succ fuel ih =>
    intro queue limits hsize n hn
    cases queue with
    | nil => simp [MappingNode.nodesOfList] at hn
    | cons node rest =>
      rw [scanLoop]
      have hsize1 : MappingNode.sizeOfList (rest ++ node.children) ≤ fuel := by
        rw [MappingNode.sizeOfList, MappingNode.size_eq] at hsize
        rw [MappingNode.sizeOfList_append]
        omega
      rcases (mem_nodesOfList_queue node rest n).mp hn with rfl | hn
      · have h1 := scanLoop_lowest_le fuel (rest ++ n.children) (visitNode n limits)
        rw [visitNode_lowest] at h1
        omega
      · exact ih _ _ hsize1 n hn

theorem nodesOfList_singleton (root : MappingNode) :
    MappingNode.nodesOfList [root] = root.nodes := by
  simp [MappingNode.nodesOfList]

theorem sizeOfList_singleton (root : MappingNode) :
    MappingNode.sizeOfList [root] = root.size := by
  simp [MappingNode.sizeOfList]

/-- The limits the scan finds. -/
theorem scanMappingTree_spec (root : MappingNode) (topPpsId : Int) :
    (∀ n ∈ root.nodes, (scanMappingTree root topPpsId).lowestPpsId ≤ n.pps.id) ∧
    (scanMappingTree root topPpsId).lowestPpsId ≤ topPpsId ∧
    ((scanMappingTree root topPpsId).lowestPpsId = topPpsId ∨
      ∃ n ∈ root.nodes, n.pps.id = (scanMappingTree root topPpsId).lowestPpsId) ∧
    (scanMappingTree root topPpsId).highestUnpartitionedPpsId ≤ topPpsId ∧
    ((∀ n ∈ root.nodes, n.lpsDimensionCount = 0 → topPpsId ≤ n.pps.id) →
      (scanMappingTree root topPpsId).highestUnpartitionedPpsId = topPpsId) := by
  unfold scanMappingTree
  refine ⟨?_, ?_, ?_, ?_, ?_⟩
  · intro n hn
    apply scanLoop_lowest_le_node _ _ _ (by rw [sizeOfList_singleton]) n
    rw [nodesOfList_singleton]; exact hn
  · exact scanLoop_lowest_le _ _ _
  · apply scanLoop_invariant
      (fun l => l.lowestPpsId = topPpsId ∨ ∃ n ∈ root.nodes, n.pps.id = l.lowestPpsId)
    · intro n hn l hl
      rw [nodesOfList_singleton] at hn
      show (visitNode n l).lowestPpsId = topPpsId ∨ _
      rw [visitNode_lowest]
      by_cases h : n.pps.id ≤ l.lowestPpsId
      · right; exact ⟨n, hn, by rw [min_eq_left h]⟩
      · rw [min_eq_right (by omega)]; exact hl
    · left; rfl
  · apply scanLoop_invariant (fun l => l.highestUnpartitionedPpsId ≤ topPpsId)
    · intro n _ l hl
      exact le_trans (visitNode_highestUnpartitioned_le n l) hl
    · exact le_refl _
  · intro hall
    apply scanLoop_invariant (fun l => l.highestUnpartitionedPpsId = topPpsId)
    · intro n hn l hl
      rw [nodesOfList_singleton] at hn
      show (visitNode n l).highestUnpartitionedPpsId = topPpsId
      have hn0 := hall n hn
      by_cases hdim : n.lpsDimensionCount = 0
      · have hge := hn0 hdim
        have hno : ¬ (n.pps.id > l.highestPartitionedPpsId
            ∧ n.pps.id < l.highestUnpartitionedPpsId) := by
          rw [hl]; omega
        unfold visitNode
        simp only [hdim, hno]
        split_ifs <;> first | contradiction | simp only [hl]
      · unfold visitNode
        simp only [hdim]
        split_ifs <;> first | contradiction | simp only [hl]
    · rfl

/-! ## The product of the unit counts -/

theorem productInt_eq : ∀ (l : List Int) (acc v : Int),
    productInt l acc = some v → v = acc * l.prod := by
  intro l
  induction l with
  | nil => intro acc v h; simp [productInt] at h; simp [h]
  | cons x rest ih =>
    intro acc v h
    rw [productInt] at h
    cases hm : mulInt acc x with
    | none => rw [hm] at h; cases h
    | some acc1 =>
      rw [hm] at h
      have h1 : acc1 = acc * x := by
        unfold mulInt at hm
        split_ifs at hm
        exact (Option.some.inj hm).symm
      rw [ih acc1 v h, h1, List.prod_cons, mul_assoc]

/-- The second loop multiplies the unit counts of the PPSes from below the bound down to the
lowest PPS, both given by their ids, when the ids of the list are descending. -/
theorem totalThreadsLoop_eq (bound lowest : Int) (hlow : lowest < bound) :
    ∀ (l : List PPS_Definition) (acc : Int),
      (l.map PPS_Definition.id).Pairwise (· > ·) → (∃ p ∈ l, p.id = lowest) →
      totalThreadsLoop bound lowest l acc =
        productInt ((l.filter (fun p => decide (lowest ≤ p.id ∧ p.id < bound))).map
          PPS_Definition.units) acc := by
  intro l
  induction l with
  | nil => intro acc _ h; obtain ⟨p, hp, _⟩ := h; simp at hp
  | cons p rest ih =>
    intro acc hdesc hmem
    rw [List.map_cons, List.pairwise_cons] at hdesc
    obtain ⟨hp, hrest⟩ := hdesc
    have hle : lowest ≤ p.id := by
      obtain ⟨q, hq, hql⟩ := hmem
      rcases List.mem_cons.mp hq with rfl | hq
      · omega
      · have := hp q.id (List.mem_map_of_mem _ hq)
        omega
    rw [totalThreadsLoop]
    by_cases hskip : p.id ≥ bound
    · have hmem1 : ∃ q ∈ rest, q.id = lowest := by
        obtain ⟨q, hq, hql⟩ := hmem
        rcases List.mem_cons.mp hq with rfl | hq
        · omega
        · exact ⟨q, hq, hql⟩
      have hnot : ¬ (lowest ≤ p.id ∧ p.id < bound) := by omega
      simp only [hskip, if_true, List.filter_cons, hnot, decide_False, Bool.false_eq_true,
        if_false]
      exact ih acc hrest hmem1
    · have hin : lowest ≤ p.id ∧ p.id < bound := ⟨hle, by omega⟩
      simp only [hskip, if_false, List.filter_cons, hin, and_self, decide_True, if_true,
        List.map_cons, productInt]
      cases hm : mulInt acc p.units with
      | none => rfl
      | some acc1 =>
        simp only
        by_cases hlast : p.id = lowest
        · have hnone : rest.filter (fun q => decide (lowest ≤ q.id ∧ q.id < bound)) = [] := by
            rw [List.filter_eq_nil_iff]
            intro q hq
            have := hp q.id (List.mem_map_of_mem _ hq)
            simp only [decide_eq_true_eq, not_and]
            intro h1
            omega
          rw [if_pos hlast, hnone]
          rfl
        · have hmem1 : ∃ q ∈ rest, q.id = lowest := by
            obtain ⟨q, hq, hql⟩ := hmem
            rcases List.mem_cons.mp hq with rfl | hq
            · exact absurd hql hlast
            · exact ⟨q, hq, hql⟩
          simp only [hlast, if_false]
          exact ih acc1 hrest hmem1

/-- C20, as stated, fails: for the PPS list `[{id=3, units=2}, {id=2, units=4}, {id=1,
units=2, core}]` and a mapping tree all of whose LPSes are partitioned, one mapped to each
PPS, the constant `Total_Threads` is 8, not 16: the units of the topmost PPS are not
multiplied. The same holds when the root LPS, which is not partitioned, is on the topmost
PPS. -/
theorem total_threads_leaves_out_topmost_pps :
    (∀ n ∈ allPartitioned.nodes, n.lpsDimensionCount > 0) ∧
    (∃ n ∈ allPartitioned.nodes, n.pps.id = 3) ∧
    (∃ n ∈ allPartitioned.nodes, n.pps.id = 1) ∧
    generateThreadCountConstants allPartitioned pcubes = some 8 ∧
    generateThreadCountConstants rootAndPartitioned pcubes = some 8 ∧
    (pcubes.map PPS_Definition.units).prod = 16 := by
  refine ⟨?_, ?_, ?_, by decide, by decide, by decide⟩
  · intro n hn
    simp only [allPartitioned, MappingNode.nodes, MappingNode.nodesOfList, List.append_nil,
      List.mem_cons, List.mem_singleton, List.not_mem_nil, or_false] at hn
    rcases hn with rfl | rfl | rfl <;> decide
  · exact ⟨allPartitioned, List.Mem.head _, rfl⟩
  · exact ⟨.mk { name := "B", dimensionCount := 2, subpartitionSpace := false }
      { id := 1, units := 2, coreSpace := true } [],
      List.Mem.tail _ (List.Mem.tail _ (List.Mem.head _)), rfl⟩

/-- C20, amended. Let the PPS list be given top to bottom with descending ids, let every PPS
an LPS is mapped to be in the list, and let `lowest` and `bound` be the limits the scan of the
mapping tree finds: `lowest` is the lowest PPS id any LPS is mapped to, and `bound`, at most
the id of the topmost PPS and equal to it when no LPS without dimensions is mapped below the
topmost PPS, is the PPS id from which on upwards no units are counted. When `lowest` is below
`bound`, the constant `Total_Threads` is the product of the unit counts of the PPSes with
`lowest ≤ id < bound`, taken in the type `int`; the topmost PPS is never among them. -/
theorem total_threads_product (mappingRoot : MappingNode) (top : PPS_Definition)
    (rest : List PPS_Definition)
    (hdesc : ((top :: rest).map PPS_Definition.id).Pairwise (· > ·))
    (hmapped : ∀ n ∈ mappingRoot.nodes, ∃ p ∈ top :: rest, p.id = n.pps.id)
    (hbelow : (scanMappingTree mappingRoot top.id).lowestPpsId
      < (scanMappingTree mappingRoot top.id).highestUnpartitionedPpsId) :
    generateThreadCountConstants mappingRoot (top :: rest) =
      productInt (((top :: rest).filter (fun p =>
        decide ((scanMappingTree mappingRoot top.id).lowestPpsId ≤ p.id
          ∧ p.id < (scanMappingTree mappingRoot top.id).highestUnpartitionedPpsId))).map
        PPS_Definition.units) 1 ∧
    (∀ v, generateThreadCountConstants mappingRoot (top :: rest) = some v →
      v = (((top :: rest).filter (fun p =>
        decide ((scanMappingTree mappingRoot top.id).lowestPpsId ≤ p.id
          ∧ p.id < (scanMappingTree mappingRoot top.id).highestUnpartitionedPpsId))).map
        PPS_Definition.units).prod) ∧
    (∀ n ∈ mappingRoot.nodes, (scanMappingTree mappingRoot top.id).lowestPpsId ≤ n.pps.id) ∧
    (∃ n ∈ mappingRoot.nodes, n.pps.id = (scanMappingTree mappingRoot top.id).lowestPpsId) ∧
    (scanMappingTree mappingRoot top.id).highestUnpartitionedPpsId ≤ top.id ∧
    ((∀ n ∈ mappingRoot.nodes, n.lpsDimensionCount = 0 → top.id ≤ n.pps.id) →
      (scanMappingTree mappingRoot top.id).highestUnpartitionedPpsId = top.id) := by
  obtain ⟨h1, h2, h3, h4, h5⟩ := scanMappingTree_spec mappingRoot top.id
  have hnode : ∃ n ∈ mappingRoot.nodes,
      n.pps.id = (scanMappingTree mappingRoot top.id).lowestPpsId := by
    rcases h3 with h3 | h3
    · omega
    · exact h3
  have hmem : ∃ p ∈ top :: rest, p.id = (scanMappingTree mappingRoot top.id).lowestPpsId := by
    obtain ⟨n, hn, hnl⟩ := hnode
    obtain ⟨p, hp, hpn⟩ := hmapped n hn
    exact ⟨p, hp, hpn.trans hnl⟩
  have heq : generateThreadCountConstants mappingRoot (top :: rest) =
      productInt (((top :: rest).filter (fun p =>
        decide ((scanMappingTree mappingRoot top.id).lowestPpsId ≤ p.id
          ∧ p.id < (scanMappingTree mappingRoot top.id).highestUnpartitionedPpsId))).map
        PPS_Definition.units) 1 := by
    unfold generateThreadCountConstants
    exact totalThreadsLoop_eq _ _ hbelow (top :: rest) 1 hdesc hmem
  refine ⟨heq, ?_, h1, hnode, h4, h5⟩
  intro v hv
  rw [heq] at hv
  have := productInt_eq _ _ _ hv
  rw [this, one_mul]

/-- C20, amended, at the PPS list of three spaces with the root LPS on the topmost PPS and a
partitioned LPS on each PPS below: the limits are 1 and 3, and `Total_Threads` is the product
8 of the unit counts of the PPSes 2 and 1. -/
theorem total_threads_product_witness :
    (pcubes.map PPS_Definition.id).Pairwise (· > ·) ∧
    (∀ n ∈ rootAndPartitioned.nodes, ∃ p ∈ pcubes, p.id = n.pps.id) ∧
    scanMappingTree rootAndPartitioned 3
      = { lowestPpsId := 1, highestPartitionedPpsId := 2, highestUnpartitionedPpsId := 3 } ∧
    generateThreadCountConstants rootAndPartitioned pcubes = some 8 ∧
    (∀ v, generateThreadCountConstants rootAndPartitioned pcubes = some v →
      v = ((pcubes.filter (fun p => decide (1 ≤ p.id ∧ p.id < 3))).map
        PPS_Definition.units).prod) :=
  have hmapped : ∀ n ∈ rootAndPartitioned.nodes, ∃ p ∈ pcubes, p.id = n.pps.id := by
    intro n hn
    simp only [rootAndPartitioned, MappingNode.nodes, MappingNode.nodesOfList, List.append_nil,
      List.mem_cons, List.mem_singleton, List.not_mem_nil, or_false] at hn
    rcases hn with rfl | rfl | rfl
    · exact ⟨_, List.Mem.head _, rfl⟩
    · exact ⟨_, List.Mem.tail _ (List.Mem.head _), rfl⟩
    · exact ⟨_, List.Mem.tail _ (List.Mem.tail _ (List.Mem.head _)), rfl⟩
  ⟨by decide, hmapped, by decide, by decide,
    (total_threads_product rootAndPartitioned { id := 3, units := 2, coreSpace := false }
      [{ id := 2, units := 4, coreSpace := false }, { id := 1, units := 2, coreSpace := true }]
      (by decide) hmapped (by decide)).2.1⟩

open Example

/-! ## The loops over the PPS list by id -/

theorem idsRunDown_cons (pps : PPS_Definition) (rest : List PPS_Definition) :
    idsRunDown (pps :: rest) ↔ pps.id = rest.length + 1 ∧ idsRunDown rest := by
  unfold idsRunDown
  simp only [List.map_cons, List.length_cons, List.iota, List.cons.injEq]
  constructor
  · rintro ⟨h1, h2⟩
    exact ⟨by rw [h1]; simp, h2⟩
  · rintro ⟨h1, h2⟩
    exact ⟨by rw [h1]; simp, h2⟩

/-- When the ids run from the length down to 1, every id is between 1 and the length. -/
theorem idsRunDown_mem : ∀ (l : List PPS_Definition), idsRunDown l →
    ∀ q ∈ l, 1 ≤ q.id ∧ q.id ≤ l.length := by
  intro l
  induction l with
  | nil => intro _ q hq; cases hq
  | cons p rest ih =>
    intro h q hq
    rw [idsRunDown_cons] at h
    rcases List.mem_cons.mp hq with rfl | hq
    · rw [h.1]
      simp only [List.length_cons, Nat.cast_add, Nat.cast_one]
      omega
    · have := ih h.2 q hq
      simp only [List.length_cons, Nat.cast_add, Nat.cast_one]
      omega

theorem nth_cons_succ (pps : PPS_Definition) (rest : List PPS_Definition) (k : Int)
    (hk : 0 ≤ k) : nth (pps :: rest) (k + 1) = nth rest k := by
  unfold nth
  have h1 : ¬ (k + 1 < 0) := by omega
  have h2 : ¬ (k < 0) := by omega
  rw [if_neg h1, if_neg h2]
  have : (k + 1).toNat = k.toNat + 1 := by omega
  rw [this]
  rfl

/-- The rounds of the loop below the id of the first PPS read the rest of the list. -/
theorem unitsLoop_cons (pps : PPS_Definition) (rest : List PPS_Definition) (lowest : Int) :
    ∀ (rounds : Nat) (i product : Int), i ≤ rest.length →
      unitsLoop (pps :: rest) lowest rounds i product = unitsLoop rest lowest rounds i product := by
  intro rounds
  induction rounds with
  | zero => intro i product _; rfl
  | succ rounds ih =>
    intro i product hi
    unfold unitsLoop
    by_cases hge : i ≥ lowest
    · simp only [hge, if_true]
      have hidx : ((pps :: rest).length : Int) - i = ((rest.length : Int) - i) + 1 := by
        simp only [List.length_cons, Nat.cast_add, Nat.cast_one]
        omega
      rw [hidx, nth_cons_succ pps rest _ (by omega)]
      cases nth rest (rest.length - i) with
      | none => rfl
      | some q =>
        simp only
        cases mulInt product q.units with
        | none => rfl
        | some product1 => exact ih (i - 1) product1 (by omega)
    · simp only [hge, if_false]

/-- When the ids of the PPS list run from its length down to 1, the loop from `high - 1` down
to `low` multiplies the unit counts of the PPSes with `low ≤ id < high`, top to bottom. -/
theorem unitsLoop_eq : ∀ (l : List PPS_Definition), idsRunDown l →
    ∀ (low high product : Int), 1 ≤ low → high ≤ l.length + 1 →
      unitsLoop l low (high - 1 - low + 1).toNat (high - 1) product =
        productInt ((l.filter (fun pps => decide (low ≤ pps.id ∧ pps.id < high))).map
          PPS_Definition.units) product := by
  intro l
  induction l with
  | nil =>
    intro _ low high product hlow hhigh
    simp only [List.length_nil, Nat.cast_zero, zero_add] at hhigh
    have : (high - 1 - low + 1).toNat = 0 := by omega
    rw [this]
    rfl
  | cons p rest ih =>
    intro h low high product hlow hhigh
    rw [idsRunDown_cons] at h
    obtain ⟨hp, hrest⟩ := h
    have hmem := idsRunDown_mem rest hrest
    simp only [List.length_cons, Nat.cast_add, Nat.cast_one] at hhigh
    by_cases htop : high ≤ rest.length + 1
    · -- the first PPS is above the range
      have hnot : ¬ (low ≤ p.id ∧ p.id < high) := by omega
      rw [unitsLoop_cons p rest low _ _ _ (by omega), List.filter_cons]
      simp only [hnot, decide_False, Bool.false_eq_true, if_false]
      exact ih hrest low high product hlow htop
    · have hhigh2 : high = rest.length + 2 := by omega
      by_cases hempty : low ≥ high
      · have hr : (high - 1 - low + 1).toNat = 0 := by omega
        have hnone : (p :: rest).filter (fun pps => decide (low ≤ pps.id ∧ pps.id < high))
            = [] := by
          rw [List.filter_eq_nil_iff]
          intro q _
          simp only [decide_eq_true_eq, not_and]
          intro h1
          omega
        rw [hr, hnone]
        rfl
      · have hin : low ≤ p.id ∧ p.id < high := by omega
        have hr : (high - 1 - low + 1).toNat = (high - 1 - 1 - low + 1).toNat + 1 := by omega
        rw [hr, List.filter_cons]
        simp only [hin, and_self, decide_True, if_true, List.map_cons]
        unfold unitsLoop
        have hge : high - 1 ≥ low := by omega
        have hidx : ((p :: rest).length : Int) - (high - 1) = 0 := by
          simp only [List.length_cons, Nat.cast_add, Nat.cast_one]
          omega
        simp only [hge, if_true, hidx]
        have hn0 : nth (p :: rest) 0 = some p := rfl
        rw [hn0]
        simp only
        rw [productInt]
        cases mulInt product p.units with
        | none => rfl
        | some product1 =>
          simp only
          rw [unitsLoop_cons p rest low _ _ _ (by omega)]
          have hfilter : rest.filter (fun pps => decide (low ≤ pps.id ∧ pps.id < high)) =
              rest.filter (fun pps => decide (low ≤ pps.id ∧ pps.id < high - 1)) := by
            apply List.filter_congr
            intro q hq
            have := hmem q hq
            simp only [decide_eq_decide]
            omega
          rw [hfilter]
          exact ih hrest low (high - 1) product1 hlow (by omega)

/-- The loop `for (i = high - 1; i >= low; i--)` as a product in the type `int`. -/
theorem unitsFrom_eq (l : List PPS_Definition) (h : idsRunDown l) (low high : Int)
    (hlow : 1 ≤ low) (hhigh : high ≤ l.length + 1) :
    unitsFrom l (high - 1) low =
      productInt ((l.filter (fun pps => decide (low ≤ pps.id ∧ pps.id < high))).map
        PPS_Definition.units) 1 :=
  unitsLoop_eq l h low high 1 hlow hhigh

theorem coreSpaceLoop_eq : ∀ (l : List PPS_Definition) (core : PPS_Definition) (start : Int),
    l.find? (fun pps => pps.coreSpace) = some core → coreSpaceLoop l start = core.id := by
  intro l
  induction l with
  | nil => intro core start h; simp at h
  | cons p rest ih =>
    intro core start h
    unfold coreSpaceLoop
    rw [List.find?_cons] at h
    cases hc : p.coreSpace with
    | true =>
      rw [hc] at h
      simp only [Option.some.injEq] at h
      simp [h]
    | false =>
      rw [hc] at h
      simp only [Bool.false_eq_true, if_false]
      exact ih core start h

open Example

/-- The lowest PPS id the scan finds is the id of a PPS an LPS is mapped to, when every such
PPS is in the list and the ids of the list run from its length down to 1. -/
theorem lowestPpsId_spec (mappingRoot : MappingNode) (top : PPS_Definition)
    (rest : List PPS_Definition) (hids : idsRunDown (top :: rest))
    (hmapped : ∀ n ∈ mappingRoot.nodes, ∃ p ∈ top :: rest, p.id = n.pps.id) :
    (∀ n ∈ mappingRoot.nodes, (scanMappingTree mappingRoot top.id).lowestPpsId ≤ n.pps.id) ∧
    (∃ n ∈ mappingRoot.nodes, n.pps.id = (scanMappingTree mappingRoot top.id).lowestPpsId) ∧
    1 ≤ (scanMappingTree mappingRoot top.id).lowestPpsId ∧
    (scanMappingTree mappingRoot top.id).lowestPpsId ≤ top.id := by
  obtain ⟨h1, h2, h3, -, -⟩ := scanMappingTree_spec mappingRoot top.id
  have htop : top.id = (top :: rest).length := by
    rw [(idsRunDown_cons top rest).mp hids |>.1]
    simp
  have hroot : mappingRoot ∈ mappingRoot.nodes := by
    rw [MappingNode.nodes_eq]
    exact List.mem_cons_self _ _
  have hnode : ∃ n ∈ mappingRoot.nodes,
      n.pps.id = (scanMappingTree mappingRoot top.id).lowestPpsId := by
    rcases h3 with h3 | h3
    · refine ⟨mappingRoot, hroot, ?_⟩
      obtain ⟨p, hp, hpid⟩ := hmapped mappingRoot hroot
      have hb := (idsRunDown_mem _ hids p hp).2
      have := h1 mappingRoot hroot
      omega
    · exact h3
  refine ⟨h1, hnode, ?_, h2⟩
  obtain ⟨n, hn, hnl⟩ := hnode
  obtain ⟨p, hp, hpid⟩ := hmapped n hn
  have := (idsRunDown_mem _ hids p hp).1
  omega

/-- C21. Let the ids of the PPS list run from its length down to 1, let `core` be the
(first) PPS flagged as the core space, let every PPS an LPS is mapped to be in the list, and
let `Total_Threads` be written without a fault. Then `Threads_Par_Core` is the product, taken
in the type `int`, of the unit counts of the PPSes with `lowest ≤ id < core.id`, where
`lowest` is the lowest PPS id an LPS is mapped to; its value is the product of these unit
counts, and it is 1 when no LPS is mapped below the core space. -/
theorem threads_par_core_product (mappingRoot : MappingNode) (top : PPS_Definition)
    (rest : List PPS_Definition) (core : PPS_Definition) (total : Int)
    (hids : idsRunDown (top :: rest))
    (hcore : (top :: rest).find? (fun pps => pps.coreSpace) = some core)
    (hmapped : ∀ n ∈ mappingRoot.nodes, ∃ p ∈ top :: rest, p.id = n.pps.id)
    (htotal : generateThreadCountConstants mappingRoot (top :: rest) = some total) :
    (∀ n ∈ mappingRoot.nodes, (scanMappingTree mappingRoot top.id).lowestPpsId ≤ n.pps.id) ∧
    (∃ n ∈ mappingRoot.nodes, n.pps.id = (scanMappingTree mappingRoot top.id).lowestPpsId) ∧
    threadsParCore mappingRoot (top :: rest) =
      productInt (((top :: rest).filter (fun pps =>
        decide ((scanMappingTree mappingRoot top.id).lowestPpsId ≤ pps.id
          ∧ pps.id < core.id))).map PPS_Definition.units) 1 ∧
    (∀ v, threadsParCore mappingRoot (top :: rest) = some v →
      v = unitsBetween (top :: rest) (scanMappingTree mappingRoot top.id).lowestPpsId core.id) ∧
    (core.id ≤ (scanMappingTree mappingRoot top.id).lowestPpsId →
      threadsParCore mappingRoot (top :: rest) = some 1) := by
  obtain ⟨h1, h2, h3, h4⟩ := lowestPpsId_spec mappingRoot top rest hids hmapped
  have hcoremem : core ∈ top :: rest := List.mem_of_find?_eq_some hcore
  have hcoreid := (idsRunDown_mem _ hids core hcoremem).2
  have heq : threadsParCore mappingRoot (top :: rest) =
      productInt (((top :: rest).filter (fun pps =>
        decide ((scanMappingTree mappingRoot top.id).lowestPpsId ≤ pps.id
          ∧ pps.id < core.id))).map PPS_Definition.units) 1 := by
    unfold threadsParCore
    rw [htotal]
    simp only
    rw [coreSpaceLoop_eq _ core _ hcore]
    exact unitsFrom_eq _ hids _ _ h3 (by omega)
  refine ⟨h1, h2, heq, ?_, ?_⟩
  · intro v hv
    rw [heq] at hv
    have := productInt_eq _ _ _ hv
    rw [this, one_mul]
    rfl
  · intro hle
    rw [heq]
    have hnone : (top :: rest).filter (fun pps =>
        decide ((scanMappingTree mappingRoot top.id).lowestPpsId ≤ pps.id
          ∧ pps.id < core.id)) = [] := by
      rw [List.filter_eq_nil_iff]
      intro q _
      simp only [decide_eq_true_eq, not_and]
      intro hq
      omega
    rw [hnone]
    rfl

/-- C21 at the PPS list `[{id=3, units=2}, {id=2, units=4}, {id=1, units=2, core}]` with the
root LPS on the topmost PPS and a partitioned LPS on each PPS below: the lowest PPS an LPS is
mapped to is the core space, and `Threads_Par_Core` is 1, as it is when all the LPSes are
partitioned. -/
theorem threads_par_core_product_witness :
    idsRunDown pcubes ∧
    pcubes.find? (fun pps => pps.coreSpace) = some { id := 1, units := 2, coreSpace := true } ∧
    generateThreadCountConstants rootAndPartitioned pcubes = some 8 ∧
    (scanMappingTree rootAndPartitioned 3).lowestPpsId = 1 ∧
    threadsParCore allPartitioned pcubes = some 1 ∧
    threadsParCore rootAndPartitioned pcubes = some 1 :=
  have hmapped : ∀ n ∈ rootAndPartitioned.nodes, ∃ p ∈ pcubes, p.id = n.pps.id := by
    intro n hn
    simp only [rootAndPartitioned, MappingNode.nodes, MappingNode.nodesOfList, List.append_nil,
      List.mem_cons, List.mem_singleton, List.not_mem_nil, or_false] at hn
    rcases hn with rfl | rfl | rfl
    · exact ⟨_, List.Mem.head _, rfl⟩
    · exact ⟨_, List.Mem.tail _ (List.Mem.head _), rfl⟩
    · exact ⟨_, List.Mem.tail _ (List.Mem.tail _ (List.Mem.head _)), rfl⟩
  ⟨by decide, by decide, by decide, by decide, by decide,
    (threads_par_core_product rootAndPartitioned { id := 3, units := 2, coreSpace := false }
      [{ id := 2, units := 4, coreSpace := false }, { id := 1, units := 2, coreSpace := true }]
      { id := 1, units := 2, coreSpace := true } 8 (by decide) (by decide) hmapped
      (by decide)).2.2.2.2 (by decide)⟩

open Example

/-! ## The statements written for one node -/

@[simp] theorem Memory.set_same (memory : Memory) (v : Var) (value : Int) :
    (memory.set v value) v = value := by
  simp [Memory.set]

theorem Memory.set_other (memory : Memory) {v w : Var} (value : Int) (h : w ≠ v) :
    (memory.set v value) w = memory w := by
  simp [Memory.set, h]

/-- The run of the statements written for a node that is not a sub-partition. -/
theorem run_emitNode_plain (pcubesConfig : List PPS_Definition) (parentIsRoot : Bool)
    (parent node : MappingNode) (constants : Constants) (threadNo : Int) (memory : Memory)
    (count groupSize groupId groupThreadId : Int)
    (hsub : node.lps.subpartitionSpace = false)
    (hcount : partitionCount pcubesConfig parent.pps node.pps = some count)
    (hsize : (if node.lps.dimensionCount > 0 then
        divInt (if parentIsRoot then constants.Total_Threads
          else memory (.ppuIds parent.lps.name .groupSize)) count
      else some (if parentIsRoot then constants.Total_Threads
          else memory (.ppuIds parent.lps.name .groupSize))) = some groupSize)
    (hid : divInt (if parentIsRoot then memory (.idsArray "Root")
        else memory (.idsArray parent.lps.name)) groupSize = some groupId)
    (hthread : modInt (if parentIsRoot then memory (.idsArray "Root")
        else memory (.idsArray parent.lps.name)) groupSize = some groupThreadId) :
    ∃ statements, emitNode pcubesConfig parentIsRoot parent node = some statements ∧
      runStatements constants threadNo statements memory =
        some ((((((((memory.set .threadCount
            (if parentIsRoot then constants.Total_Threads
              else memory (.ppuIds parent.lps.name .groupSize))).set
          .groupSize groupSize).set
          .groupThreadId groupThreadId).set
          (.ppuIds node.lps.name .groupId) groupId).set
          (.ppuIds node.lps.name .ppuCount) count).set
          (.ppuIds node.lps.name .groupSize) groupSize).set
          (.ppuIds node.lps.name .id)
            (if groupThreadId = 0 then groupId else constants.INVALID_ID)).set
          (.idsArray node.lps.name) groupThreadId) := by
  unfold emitNode
  simp only [hcount, hsub, Bool.false_eq_true, if_false]
  refine ⟨_, rfl, ?_⟩
  cases parentIsRoot with
  | true =>
    simp only [if_true] at hsize hid hthread ⊢
    by_cases hdim : node.lps.dimensionCount > 0
    · simp only [hdim, if_true] at hsize ⊢
      by_cases hz : groupThreadId = 0
      · simp [runStatements, Statement.run, Term.eval, hsize, hid, hthread, Memory.set, hz]
      · simp [runStatements, Statement.run, Term.eval, hsize, hid, hthread, Memory.set, hz]
    · simp only [hdim, if_false, Option.some.injEq] at hsize ⊢
      subst hsize
      by_cases hz : groupThreadId = 0
      · simp [runStatements, Statement.run, Term.eval, hid, hthread, Memory.set, hz]
      · simp [runStatements, Statement.run, Term.eval, hid, hthread, Memory.set, hz]
  | false =>
    simp only [Bool.false_eq_true, if_false] at hsize hid hthread ⊢
    by_cases hdim : node.lps.dimensionCount > 0
    · simp only [hdim, if_true] at hsize ⊢
      by_cases hz : groupThreadId = 0
      · simp [runStatements, Statement.run, Term.eval, hsize, hid, hthread, Memory.set, hz]
      · simp [runStatements, Statement.run, Term.eval, hsize, hid, hthread, Memory.set, hz]
    · simp only [hdim, if_false, Option.some.injEq] at hsize ⊢
      subst hsize
      by_cases hz : groupThreadId = 0
      · simp [runStatements, Statement.run, Term.eval, hid, hthread, Memory.set, hz]
      · simp [runStatements, Statement.run, Term.eval, hid, hthread, Memory.set, hz]

/-- The run of the statements written for a node that is a sub-partition. -/
theorem run_emitNode_subpartition (pcubesConfig : List PPS_Definition) (parentIsRoot : Bool)
    (parent node : MappingNode) (constants : Constants) (threadNo : Int) (memory : Memory)
    (count : Int) (hsub : node.lps.subpartitionSpace = true)
    (hcount : partitionCount pcubesConfig parent.pps node.pps = some count) :
    ∃ statements, emitNode pcubesConfig parentIsRoot parent node = some statements ∧
      runStatements constants threadNo statements memory =
        some (((((memory.set (.ppuIds node.lps.name .groupId) 0).set
          (.ppuIds node.lps.name .ppuCount) 1).set
          (.ppuIds node.lps.name .groupSize) (memory (.ppuIds parent.lps.name .groupSize))).set
          (.ppuIds node.lps.name .id) 0).set
          (.idsArray node.lps.name) (memory (.idsArray parent.lps.name))) := by
  unfold emitNode
  simp only [hcount, hsub, if_true]
  refine ⟨_, rfl, ?_⟩
  simp only [runStatements, Statement.run, Term.eval]
  have h1 : ((memory.set (.ppuIds node.lps.name .groupId) 0).set
      (.ppuIds node.lps.name .ppuCount) 1) (.ppuIds parent.lps.name .groupSize) =
      memory (.ppuIds parent.lps.name .groupSize) := by
    simp [Memory.set]
  have h2 : ((((memory.set (.ppuIds node.lps.name .groupId) 0).set
      (.ppuIds node.lps.name .ppuCount) 1).set
      (.ppuIds node.lps.name .groupSize) (memory (.ppuIds parent.lps.name .groupSize))).set
      (.ppuIds node.lps.name .id) 0) (.idsArray parent.lps.name) =
      memory (.idsArray parent.lps.name) := by
    simp [Memory.set]
  rw [h1, h2]

open Example

/-! ## The nodes the generator visits -/

theorem MappingNode.entries_eq (parentIsRoot : Bool) (n : MappingNode) :
    n.entries parentIsRoot = MappingNode.entriesFrom parentIsRoot n n.children := by
  cases n; simp [MappingNode.entries, MappingNode.children]

theorem mem_entriesFrom (parentIsRoot : Bool) (parent : MappingNode) (e : QueueEntry) :
    ∀ cs : List MappingNode, e ∈ MappingNode.entriesFrom parentIsRoot parent cs ↔
      ∃ c ∈ cs, e = { parentIsRoot := parentIsRoot, parent := parent, node := c } ∨
        e ∈ c.entries false := by
  intro cs
  induction cs with
  | nil => simp [MappingNode.entriesFrom]
  | cons c cs ih =>
    rw [MappingNode.entriesFrom]
    simp only [List.mem_cons, List.mem_append, ih, exists_eq_or_imp]
    constructor
    · rintro (h | h | h)
      · exact Or.inl (Or.inl h)
      · exact Or.inl (Or.inr h)
      · exact Or.inr h
    · rintro ((h | h) | h)
      · exact Or.inl h
      · exact Or.inr (Or.inl h)
      · exact Or.inr (Or.inr h)

theorem mem_childEntries (parentIsRoot : Bool) (parent : MappingNode) (e : QueueEntry) :
    e ∈ childEntries parentIsRoot parent ↔
      ∃ c ∈ parent.children,
        e = { parentIsRoot := parentIsRoot, parent := parent, node := c } := by
  unfold childEntries
  simp only [List.mem_map]
  constructor
  · rintro ⟨c, hc, rfl⟩; exact ⟨c, hc, rfl⟩
  · rintro ⟨c, hc, rfl⟩; exact ⟨c, hc, rfl⟩

/-- The entries below a node are those of its children and the entries below them. -/
theorem mem_entries (parentIsRoot : Bool) (n : MappingNode) (e : QueueEntry) :
    e ∈ n.entries parentIsRoot ↔
      e ∈ childEntries parentIsRoot n ∨
        ∃ q ∈ childEntries parentIsRoot n, e ∈ q.node.entries false := by
  rw [MappingNode.entries_eq, mem_entriesFrom, mem_childEntries]
  constructor
  · rintro ⟨c, hc, rfl | h⟩
    · exact Or.inl ⟨c, hc, rfl⟩
    · exact Or.inr ⟨_, (mem_childEntries _ _ _).mpr ⟨c, hc, rfl⟩, h⟩
  · rintro (⟨c, hc, rfl⟩ | ⟨q, hq, h⟩)
    · exact ⟨c, hc, Or.inl rfl⟩
    · obtain ⟨c, hc, rfl⟩ := (mem_childEntries _ _ _).mp hq
      exact ⟨c, hc, Or.inr h⟩

theorem reachable_cons (entry : QueueEntry) (rest : List QueueEntry) (e : QueueEntry) :
    reachable (entry :: rest) e ↔
      e = entry ∨ reachable (rest ++ childEntries false entry.node) e := by
  unfold reachable
  simp only [List.mem_cons, List.mem_append, exists_eq_or_imp]
  rw [mem_entries false entry.node e]
  constructor
  · rintro ((h | h) | (h | h) | ⟨q, hq, h⟩)
    · exact Or.inl h
    · exact Or.inr (Or.inl (Or.inl h))
    · exact Or.inr (Or.inl (Or.inr h))
    · obtain ⟨q, hq, h⟩ := h
      exact Or.inr (Or.inr ⟨q, Or.inr hq, h⟩)
    · exact Or.inr (Or.inr ⟨q, Or.inl hq, h⟩)
  · rintro (h | (h | h) | ⟨q, hq | hq, h⟩)
    · exact Or.inl (Or.inl h)
    · exact Or.inl (Or.inr h)
    · exact Or.inr (Or.inl (Or.inl h))
    · exact Or.inr (Or.inr ⟨q, hq, h⟩)
    · exact Or.inr (Or.inl (Or.inr ⟨q, hq, h⟩))

theorem sizeOfList_childEntries (parentIsRoot : Bool) (n : MappingNode) :
    MappingNode.sizeOfList ((childEntries parentIsRoot n).map QueueEntry.node) =
      MappingNode.sizeOfList n.children := by
  unfold childEntries
  rw [List.map_map]
  have : (QueueEntry.node ∘ fun child =>
      ({ parentIsRoot := parentIsRoot, parent := n, node := child } : QueueEntry)) = id := by
    funext c; rfl
  rw [this, List.map_id]

/-- With fuel for every node of the queue and below, the statements written are, for every
such node, the statements of the node, between those of the nodes visited before and
after. -/
theorem emitLoop_blocks (pcubesConfig : List PPS_Definition) :
    ∀ (fuel : Nat) (queue : List QueueEntry) (body : List Statement),
      emitLoop pcubesConfig fuel queue = some body →
      MappingNode.sizeOfList (queue.map QueueEntry.node) ≤ fuel →
      ∀ e, reachable queue e →
        ∃ before after statements, body = before ++ statements ++ after ∧
          emitNode pcubesConfig e.parentIsRoot e.parent e.node = some statements := by
  intro fuel
  induction fuel with
  | zero =>
    intro queue body _ hsize e he
    cases queue with
    | nil =>
      rcases he with he | ⟨q, hq, _⟩
      · cases he
      · cases hq
    | cons entry rest =>
      simp only [List.map_cons, MappingNode.sizeOfList] at hsize
      rw [MappingNode.size_eq] at hsize
      omega
  | succ fuel ih =>
    intro queue body h hsize e he
    cases queue with
    | nil =>
      rcases he with he | ⟨q, hq, _⟩
      · cases he
      · cases hq
    | cons entry rest =>
      rw [emitLoop] at h
      cases h1 : emitNode pcubesConfig entry.parentIsRoot entry.parent entry.node with
      | none => rw [h1] at h; cases h
      | some statements =>
        rw [h1] at h
        simp only at h
        cases h2 : emitLoop pcubesConfig fuel (rest ++ childEntries false entry.node) with
        | none => rw [h2] at h; cases h
        | some more =>
          rw [h2] at h
          simp only [Option.some.injEq] at h
          subst h
          rcases (reachable_cons entry rest e).mp he with rfl | he
          · exact ⟨[], more, statements, by simp, h1⟩
          · have hsize1 : MappingNode.sizeOfList
                ((rest ++ childEntries false entry.node).map QueueEntry.node) ≤ fuel := by
              simp only [List.map_cons, MappingNode.sizeOfList] at hsize
              rw [MappingNode.size_eq] at hsize
              rw [List.map_append, MappingNode.sizeOfList_append, sizeOfList_childEntries]
              omega
            obtain ⟨before, after, st, hb, hst⟩ := ih _ _ h2 hsize1 e he
            exact ⟨statements ++ before, after, st, by rw [hb]; simp, hst⟩

/-- The routine holds, for every node below the root, the statements of the node. -/
theorem routine_blocks (mappingRoot : MappingNode) (pcubesConfig : List PPS_Definition)
    (routine : List Statement)
    (h : generateFnForThreadIdsAllocation mappingRoot pcubesConfig = some routine) :
    ∀ e ∈ mappingRoot.entries true,
      ∃ before after statements, routine = before ++ statements ++ after ∧
        emitNode pcubesConfig e.parentIsRoot e.parent e.node = some statements := by
  intro e he
  unfold generateFnForThreadIdsAllocation at h
  cases h1 : emitLoop pcubesConfig (MappingNode.sizeOfList mappingRoot.children)
      (childEntries true mappingRoot) with
  | none => rw [h1] at h; cases h
  | some body =>
    rw [h1] at h
    simp only [Option.some.injEq] at h
    subst h
    have hreach : reachable (childEntries true mappingRoot) e :=
      (mem_entries true mappingRoot e).mp he
    obtain ⟨before, after, st, hb, hst⟩ := emitLoop_blocks pcubesConfig _ _ _ h1
      (by rw [sizeOfList_childEntries]) e hreach
    exact ⟨.assign (.idsArray "Root") .threadNo :: before, after, st, by rw [hb]; simp, hst⟩

open Example

theorem divInt_eq {a b v : Int} (h : divInt a b = some v) : v = Int.tdiv a b ∧ b ≠ 0 := by
  unfold divInt at h
  split_ifs at h with hc
  simp only [Option.some.injEq] at h
  exact ⟨h.symm, fun hb => hc (Or.inl hb)⟩

theorem modInt_eq {a b v : Int} (h : modInt a b = some v) : v = Int.tmod a b ∧ b ≠ 0 := by
  unfold modInt at h
  split_ifs at h with hc
  simp only [Option.some.injEq] at h
  exact ⟨h.symm, fun hb => hc (Or.inl hb)⟩

/-- The number of partitions written for a node is the product of the unit counts of the
PPSes from the PPS of the node up to just below the PPS of the parent. -/
theorem partitionCount_eq (pcubesConfig : List PPS_Definition) (parentPps pps : PPS_Definition)
    (count : Int) (hids : idsRunDown pcubesConfig) (hlow : 1 ≤ pps.id)
    (hhigh : parentPps.id ≤ pcubesConfig.length + 1)
    (h : partitionCount pcubesConfig parentPps pps = some count) :
    count = unitsBetween pcubesConfig pps.id parentPps.id := by
  unfold partitionCount at h
  rw [unitsFrom_eq pcubesConfig hids pps.id parentPps.id hlow hhigh] at h
  have := productInt_eq _ _ _ h
  rw [this, one_mul]
  rfl

/-- C23, as stated, fails for a PPS list whose ids do not run from its length down to 1. In
the list with the ids 2, 1, 0 and the unit counts 2, 8, 4, let the root LPS be on the PPS
with id 2 and the partitioned LPS `A` on the PPS with id 1. The product of the unit counts
from just below the PPS of the parent down to the PPS of `A` is 8, the unit count of the PPS
with id 1, but the generator reads `Nth(ppsCount - 1)`, the PPS with id 0, and writes the
partition count 4. With `Total_Threads` 8 and the thread number 5 the routine leaves
`ppuCount = 4`, `groupSize = 8 / 4 = 2`, `groupId = 5 / 2 = 2` and `id = INVALID_ID`, where
the claim gives 8, 1, 5 and 5. -/
theorem partitionCount_reads_the_pps_by_position :
    ¬ idsRunDown pcubesFromZero ∧
    nodeAOnOne.lps.subpartitionSpace = false ∧
    unitsBetween pcubesFromZero nodeAOnOne.pps.id onPcubesFromZero.pps.id = 8 ∧
    partitionCount pcubesFromZero onPcubesFromZero.pps nodeAOnOne.pps = some 4 ∧
    generateThreadCountConstants onPcubesFromZero pcubesFromZero = some 8 ∧
    (generateFnForThreadIdsAllocation onPcubesFromZero pcubesFromZero).isSome = true ∧
    (∀ routine, generateFnForThreadIdsAllocation onPcubesFromZero pcubesFromZero = some routine →
      ∀ memory : Memory, ∃ memory1,
        getPpuIdsForThread routine (constants 8) 5 memory = some memory1 ∧
        memory1 (.ppuIds "A" .ppuCount) = 4 ∧
        memory1 (.ppuIds "A" .groupSize) = 2 ∧
        memory1 (.ppuIds "A" .groupId) = 2 ∧
        memory1 (.ppuIds "A" .id) = -1) ∧
    divInt 8 8 = some 1 ∧ divInt 5 1 = some 5 ∧ modInt 5 1 = some 0 := by
  refine ⟨by decide, rfl, by decide, by decide, by decide, by decide, ?_, by decide, by decide,
    by decide⟩
  intro routine h memory
  have hr : routine =
      (generateFnForThreadIdsAllocation onPcubesFromZero pcubesFromZero).getD [] := by
    rw [h]; rfl
  subst hr
  exact ⟨_, rfl, rfl, rfl, rfl, rfl⟩

/-- C23, amended. Let the ids of the PPS list run from its length down to 1, and let a node
whose LPS is not a sub-partition and its parent node be mapped to PPSes of the list. Let
`count` be the number of partitions the generator computes, let `parentThreadCount` be
`Total_Threads` when the parent is the root and the `groupSize` of the parent LPS otherwise,
and `parentIdx` the element of `idsArray` of the root, respectively of the parent LPS. Then
`count` is the product of the unit counts of the PPSes from just below the PPS of the parent
down to the PPS of the node, and, when the quotients and the remainder are defined, the
statements written for the node leave `ppuCount = count`,
`groupSize = parentThreadCount / count` when the LPS has dimensions and
`groupSize = parentThreadCount` otherwise, `groupId = parentIdx / groupSize`,
`groupThreadId = parentIdx % groupSize`, `id = groupId` when `groupThreadId` is 0 and
`id = INVALID_ID` otherwise, and `groupThreadId` as the element of `idsArray` of the LPS.
The statements are part of the routine written for any mapping tree that holds the node
below the root. -/
theorem plain_lps_ids (pcubesConfig : List PPS_Definition) (parentIsRoot : Bool)
    (parent node : MappingNode) (constants : Constants) (threadNo : Int) (memory : Memory)
    (count groupSize groupId groupThreadId : Int)
    (hids : idsRunDown pcubesConfig)
    (hnode : node.pps ∈ pcubesConfig) (hparent : parent.pps ∈ pcubesConfig)
    (hsub : node.lps.subpartitionSpace = false)
    (hcount : partitionCount pcubesConfig parent.pps node.pps = some count)
    (hsize : (if node.lps.dimensionCount > 0 then
        divInt (if parentIsRoot then constants.Total_Threads
          else memory (.ppuIds parent.lps.name .groupSize)) count
      else some (if parentIsRoot then constants.Total_Threads
          else memory (.ppuIds parent.lps.name .groupSize))) = some groupSize)
    (hid : divInt (if parentIsRoot then memory (.idsArray "Root")
        else memory (.idsArray parent.lps.name)) groupSize = some groupId)
    (hthread : modInt (if parentIsRoot then memory (.idsArray "Root")
        else memory (.idsArray parent.lps.name)) groupSize = some groupThreadId) :
    count = unitsBetween pcubesConfig node.pps.id parent.pps.id ∧
    ∃ statements memory1,
      emitNode pcubesConfig parentIsRoot parent node = some statements ∧
      runStatements constants threadNo statements memory = some memory1 ∧
      memory1 (.ppuIds node.lps.name .ppuCount) = count ∧
      memory1 (.ppuIds node.lps.name .groupSize) = groupSize ∧
      memory1 (.ppuIds node.lps.name .groupId) = groupId ∧
      memory1 .groupThreadId = groupThreadId ∧
      memory1 (.ppuIds node.lps.name .id) =
        (if groupThreadId = 0 then groupId else constants.INVALID_ID) ∧
      memory1 (.idsArray node.lps.name) = groupThreadId ∧
      (node.lps.dimensionCount > 0 →
        groupSize = Int.tdiv (if parentIsRoot then constants.Total_Threads
          else memory (.ppuIds parent.lps.name .groupSize)) count) ∧
      (¬ node.lps.dimensionCount > 0 →
        groupSize = (if parentIsRoot then constants.Total_Threads
          else memory (.ppuIds parent.lps.name .groupSize))) ∧
      groupId = Int.tdiv (if parentIsRoot then memory (.idsArray "Root")
        else memory (.idsArray parent.lps.name)) groupSize ∧
      groupThreadId = Int.tmod (if parentIsRoot then memory (.idsArray "Root")
        else memory (.idsArray parent.lps.name)) groupSize ∧
      (∀ (mappingRoot : MappingNode) (routine : List Statement),
        generateFnForThreadIdsAllocation mappingRoot pcubesConfig = some routine →
        { parentIsRoot := parentIsRoot, parent := parent, node := node }
          ∈ mappingRoot.entries true →
        ∃ before after, routine = before ++ statements ++ after) := by
  obtain ⟨statements, hemit, hrun⟩ := run_emitNode_plain pcubesConfig parentIsRoot parent node
    constants threadNo memory count groupSize groupId groupThreadId hsub hcount hsize hid
    hthread
  have hlow := (idsRunDown_mem pcubesConfig hids node.pps hnode).1
  have hhigh := (idsRunDown_mem pcubesConfig hids parent.pps hparent).2
  refine ⟨partitionCount_eq pcubesConfig parent.pps node.pps count hids hlow (by omega) hcount,
    statements, _, hemit, hrun, ?_, ?_, ?_, ?_, ?_, ?_, ?_, ?_, (divInt_eq hid).1,
    (modInt_eq hthread).1, ?_⟩
  · simp [Memory.set]
  · simp [Memory.set]
  · simp [Memory.set]
  · simp [Memory.set]
  · simp [Memory.set]
  · simp [Memory.set]
  · intro hdim
    rw [if_pos hdim] at hsize
    exact (divInt_eq hsize).1
  · intro hdim
    rw [if_neg hdim] at hsize
    exact (Option.some.inj hsize).symm
  · intro mappingRoot routine hroutine hmem
    obtain ⟨before, after, st, hb, hst⟩ :=
      routine_blocks mappingRoot pcubesConfig routine hroutine _ hmem
    rw [hemit] at hst
    cases hst
    exact ⟨before, after, hb⟩

/-- C23, amended, at the LPS `A`, partitioned in one dimension and mapped to PPS 2 under the
root on PPS 3 of the list `[{id=3, units=2}, {id=2, units=4}, {id=1, units=2, core}]`, with
`Total_Threads` 32 and the thread index 5: the number of partitions is 4, the unit count of
PPS 2, the group size is `32 / 4 = 8`, the group id `5 / 8 = 0`, the index in the group
`5 % 8 = 5`, and the id is `INVALID_ID`. -/
theorem plain_lps_ids_witness :
    idsRunDown pcubes ∧ nodeA.pps ∈ pcubes ∧ withSubpartition.pps ∈ pcubes ∧
    partitionCount pcubes withSubpartition.pps nodeA.pps = some 4 ∧
    divInt 32 4 = some 8 ∧ divInt 5 8 = some 0 ∧ modInt 5 8 = some 5 ∧
    (4 : Int) = unitsBetween pcubes nodeA.pps.id withSubpartition.pps.id ∧
    ∃ statements memory1,
      emitNode pcubes true withSubpartition nodeA = some statements ∧
      runStatements (constants 32) 5 statements memoryAt5 = some memory1 ∧
      memory1 (.ppuIds "A" .ppuCount) = 4 ∧
      memory1 (.ppuIds "A" .groupSize) = 8 ∧
      memory1 (.ppuIds "A" .groupId) = 0 ∧
      memory1 .groupThreadId = 5 ∧
      memory1 (.ppuIds "A" .id) = -1 :=
  ⟨by decide, by decide, by decide, by decide, by decide, by decide, by decide,
    (plain_lps_ids pcubes true withSubpartition nodeA (constants 32) 5 memoryAt5 4 8 0 5
      (by decide) (by decide) (by decide) rfl (by decide) (by decide) (by decide)
      (by decide)).1,
    let ⟨statements, memory1, h1, h2, h3, h4, h5, h6, h7, _⟩ :=
      (plain_lps_ids pcubes true withSubpartition nodeA (constants 32) 5 memoryAt5 4 8 0 5
        (by decide) (by decide) (by decide) rfl (by decide) (by decide) (by decide)
        (by decide)).2
    ⟨statements, memory1, h1, h2, h3, h4, h5, h6, h7⟩⟩

/-- C24. For a node whose LPS is a sub-partition, with its parent node, the statements
written for the node leave, for every thread number and whatever the memory holds,
`groupId = 0`, `ppuCount = 1`, `id = 0`, the `groupSize` of the parent LPS as `groupSize`,
and the element of `idsArray` of the parent LPS as the element of `idsArray` of the LPS. The
statements are part of the routine written for any mapping tree that holds the node below
the root. -/
theorem subpartition_lps_ids (pcubesConfig : List PPS_Definition) (parentIsRoot : Bool)
    (parent node : MappingNode) (constants : Constants) (threadNo : Int) (memory : Memory)
    (count : Int) (hsub : node.lps.subpartitionSpace = true)
    (hcount : partitionCount pcubesConfig parent.pps node.pps = some count) :
    ∃ statements memory1,
      emitNode pcubesConfig parentIsRoot parent node = some statements ∧
      runStatements constants threadNo statements memory = some memory1 ∧
      memory1 (.ppuIds node.lps.name .groupId) = 0 ∧
      memory1 (.ppuIds node.lps.name .ppuCount) = 1 ∧
      memory1 (.ppuIds node.lps.name .id) = 0 ∧
      memory1 (.ppuIds node.lps.name .groupSize) = memory (.ppuIds parent.lps.name .groupSize) ∧
      memory1 (.idsArray node.lps.name) = memory (.idsArray parent.lps.name) ∧
      (∀ (mappingRoot : MappingNode) (routine : List Statement),
        generateFnForThreadIdsAllocation mappingRoot pcubesConfig = some routine →
        { parentIsRoot := parentIsRoot, parent := parent, node := node }
          ∈ mappingRoot.entries true →
        ∃ before after, routine = before ++ statements ++ after) := by
  obtain ⟨statements, hemit, hrun⟩ := run_emitNode_subpartition pcubesConfig parentIsRoot
    parent node constants threadNo memory count hsub hcount
  refine ⟨statements, _, hemit, hrun, ?_, ?_, ?_, ?_, ?_, ?_⟩
  · simp [Memory.set]
  · simp [Memory.set]
  · simp [Memory.set]
  · simp [Memory.set]
  · simp [Memory.set]
  · intro mappingRoot routine hroutine hmem
    obtain ⟨before, after, st, hb, hst⟩ :=
      routine_blocks mappingRoot pcubesConfig routine hroutine _ hmem
    rw [hemit] at hst
    cases hst
    exact ⟨before, after, hb⟩

/-- C24 at the sub-partition `B` of `A`, in a memory where the `groupSize` of `A` and its
element of `idsArray` are 7. -/
theorem subpartition_lps_ids_witness :
    partitionCount pcubes nodeA.pps nodeB.pps = some 2 ∧
    ∃ statements memory1,
      emitNode pcubes false nodeA nodeB = some statements ∧
      runStatements (constants 8) 5 statements Example.memory = some memory1 ∧
      memory1 (.ppuIds "B" .groupId) = 0 ∧
      memory1 (.ppuIds "B" .ppuCount) = 1 ∧
      memory1 (.ppuIds "B" .id) = 0 ∧
      memory1 (.ppuIds "B" .groupSize) = 7 ∧
      memory1 (.idsArray "B") = 7 :=
  ⟨by decide,
    let ⟨statements, memory1, h1, h2, h3, h4, h5, h6, h7, _⟩ :=
      subpartition_lps_ids pcubes false nodeA nodeB (constants 8) 5 Example.memory 2 rfl
        (by decide)
    ⟨statements, memory1, h1, h2, h3, h4, h5, h6, h7⟩⟩

open Example

/-! ## Products of unit counts -/

theorem unitsBetween_nil (low high : Int) : unitsBetween [] low high = 1 := rfl

theorem unitsBetween_cons (p : PPS_Definition) (l : List PPS_Definition) (low high : Int) :
    unitsBetween (p :: l) low high =
      (if low ≤ p.id ∧ p.id < high then p.units else 1) * unitsBetween l low high := by
  unfold unitsBetween
  rw [List.filter_cons]
  by_cases h : low ≤ p.id ∧ p.id < high
  · simp [h]
  · simp [h]

/-- The product over a range of ids is the product over its lower and its upper part. -/
theorem unitsBetween_split (l : List PPS_Definition) (low mid high : Int) (h1 : low ≤ mid)
    (h2 : mid ≤ high) :
    unitsBetween l low high = unitsBetween l low mid * unitsBetween l mid high := by
  induction l with
  | nil => simp [unitsBetween_nil]
  | cons p l ih =>
    rw [unitsBetween_cons, unitsBetween_cons, unitsBetween_cons, ih]
    by_cases ha : low ≤ p.id ∧ p.id < mid
    · have hb : ¬ (mid ≤ p.id ∧ p.id < high) := by omega
      have hc : low ≤ p.id ∧ p.id < high := by omega
      rw [if_pos ha, if_neg hb, if_pos hc]
      ring
    · by_cases hb : mid ≤ p.id ∧ p.id < high
      · have hc : low ≤ p.id ∧ p.id < high := by omega
        rw [if_neg ha, if_pos hb, if_pos hc]
        ring
      · have hc : ¬ (low ≤ p.id ∧ p.id < high) := by omega
        rw [if_neg ha, if_neg hb, if_neg hc]
        ring

theorem unitsBetween_pos (l : List PPS_Definition) (hunits : ∀ p ∈ l, 0 < p.units)
    (low high : Int) : 0 < unitsBetween l low high := by
  induction l with
  | nil => simp [unitsBetween_nil]
  | cons p l ih =>
    rw [unitsBetween_cons]
    have hp := hunits p (List.mem_cons_self _ _)
    have hl := ih (fun q hq => hunits q (List.mem_cons_of_mem _ hq))
    split_ifs
    · exact mul_pos hp hl
    · simpa using hl

theorem unitsBetween_empty (l : List PPS_Definition) (low high : Int) (h : high ≤ low) :
    unitsBetween l low high = 1 := by
  induction l with
  | nil => rfl
  | cons p l ih =>
    rw [unitsBetween_cons, ih]
    have : ¬ (low ≤ p.id ∧ p.id < high) := by omega
    simp [this]

/-- The product over a lower range divides the product over a range that extends it
upwards. -/
theorem unitsBetween_dvd (l : List PPS_Definition) (low mid high : Int) (h1 : low ≤ mid)
    (h2 : mid ≤ high) : unitsBetween l low mid ∣ unitsBetween l low high :=
  ⟨unitsBetween l mid high, unitsBetween_split l low mid high h1 h2⟩

/-- A product of positive values that stays in the type `int` is computed without a fault. -/
theorem productInt_of_bound : ∀ (l : List Int) (acc : Int), (∀ x ∈ l, 0 < x) → 0 < acc →
    acc * l.prod ≤ 2147483647 → productInt l acc = some (acc * l.prod) := by
  intro l
  induction l with
  | nil => intro acc _ _ _; simp [productInt]
  | cons x rest ih =>
    intro acc hpos hacc hbound
    have hx := hpos x (List.mem_cons_self _ _)
    have hrest : 0 < rest.prod := List.prod_pos (fun y hy => hpos y (List.mem_cons_of_mem _ hy))
    rw [List.prod_cons, ← mul_assoc] at hbound
    have hax : 0 < acc * x := mul_pos hacc hx
    have hle : acc * x ≤ acc * x * rest.prod := by nlinarith
    rw [productInt]
    have hm : mulInt acc x = some (acc * x) := by
      unfold mulInt
      rw [if_pos ⟨by omega, by omega⟩]
    rw [hm]
    simp only
    rw [ih (acc * x) (fun y hy => hpos y (List.mem_cons_of_mem _ hy)) hax hbound,
      List.prod_cons, mul_assoc]

theorem mulInt_pos {a b v : Int} (h : mulInt a b = some v) (ha : 0 < a) (hb : 0 < b) :
    0 < v ∧ v ≤ 2147483647 := by
  unfold mulInt at h
  split_ifs at h with hc
  simp only [Option.some.injEq] at h
  subst h
  exact ⟨mul_pos ha hb, hc.2⟩

/-- The number of threads the second loop computes from positive unit counts is positive and
of type `int`. -/
theorem totalThreadsLoop_pos (bound lowest : Int) : ∀ (l : List PPS_Definition) (acc v : Int),
    (∀ p ∈ l, 0 < p.units) → 0 < acc → acc ≤ 2147483647 →
    totalThreadsLoop bound lowest l acc = some v → 0 < v ∧ v ≤ 2147483647 := by
  intro l
  induction l with
  | nil =>
    intro acc v _ hacc hmax h
    simp only [totalThreadsLoop, Option.some.injEq] at h
    subst h
    exact ⟨hacc, hmax⟩
  | cons p rest ih =>
    intro acc v hunits hacc hmax h
    have hrest : ∀ q ∈ rest, 0 < q.units := fun q hq => hunits q (List.mem_cons_of_mem _ hq)
    rw [totalThreadsLoop] at h
    by_cases hskip : p.id ≥ bound
    · rw [if_pos hskip] at h
      exact ih acc v hrest hacc hmax h
    · rw [if_neg hskip] at h
      cases hm : mulInt acc p.units with
      | none => rw [hm] at h; cases h
      | some acc1 =>
        rw [hm] at h
        simp only at h
        have hacc1 := mulInt_pos hm hacc (hunits p (List.mem_cons_self _ _))
        by_cases hlast : p.id = lowest
        · rw [if_pos hlast] at h
          cases h
          exact hacc1
        · rw [if_neg hlast] at h
          exact ih acc1 v hrest hacc1.1 hacc1.2 h

/-- The number of partitions of a node is computed without a fault when the product of the
unit counts is of type `int`. -/
theorem partitionCount_of_bound (pcubesConfig : List PPS_Definition)
    (parentPps pps : PPS_Definition) (hids : idsRunDown pcubesConfig)
    (hunits : ∀ p ∈ pcubesConfig, 0 < p.units) (hlow : 1 ≤ pps.id)
    (hhigh : parentPps.id ≤ pcubesConfig.length + 1)
    (hbound : unitsBetween pcubesConfig pps.id parentPps.id ≤ 2147483647) :
    partitionCount pcubesConfig parentPps pps =
      some (unitsBetween pcubesConfig pps.id parentPps.id) := by
  unfold partitionCount
  rw [unitsFrom_eq pcubesConfig hids pps.id parentPps.id hlow hhigh]
  have := productInt_of_bound
    ((pcubesConfig.filter (fun q => decide (pps.id ≤ q.id ∧ q.id < parentPps.id))).map
      PPS_Definition.units) 1
    (by
      intro x hx
      obtain ⟨q, hq, rfl⟩ := List.mem_map.mp hx
      exact hunits q (List.mem_of_mem_filter hq))
    (by norm_num)
    (by rw [one_mul]; exact hbound)
  rw [this, one_mul]
  rfl

open Example

/-! ## The run of the statements of one node -/

/-- The arithmetic of one node: a group of `size` threads, a multiple of `below * count`, is
cut in `count` groups. -/
theorem group_arithmetic (size index count below : Int) (hsize : 0 < size)
    (hdvd : below * count ∣ size) (hcount : 0 < count) (_hbelow : 0 < below)
    (hindex : 0 ≤ index ∧ index < size) :
    0 < size / count ∧ size / count ≤ size ∧ below ∣ size / count ∧
    0 ≤ index / (size / count) ∧ index / (size / count) < count ∧
    0 ≤ index % (size / count) ∧ index % (size / count) < size / count := by
  obtain ⟨k, hk⟩ := hdvd
  have hq : size / count = below * k := by
    rw [hk, mul_assoc, mul_comm count k, ← mul_assoc]
    exact Int.mul_ediv_cancel _ (by omega)
  have hqpos : 0 < size / count := by
    apply Int.ediv_pos_of_pos_of_dvd hsize (by omega)
    exact ⟨below * k, by rw [hk]; ring⟩
  have hmul : size = count * (size / count) := by
    rw [hq, hk]; ring
  refine ⟨hqpos, ?_, ⟨k, hq⟩, ?_, ?_, ?_, ?_⟩
  · nlinarith
  · exact Int.ediv_nonneg hindex.1 (by omega)
  · apply Int.ediv_lt_of_lt_mul hqpos
    rw [← hmul]
    exact hindex.2
  · exact Int.emod_nonneg _ (by omega)
  · exact Int.emod_lt_of_pos _ hqpos

theorem divInt_of_nonneg {a b : Int} (ha : 0 ≤ a) (hb : 0 < b) : divInt a b = some (a / b) := by
  unfold divInt
  rw [if_neg (by omega), Int.tdiv_eq_ediv ha (by omega)]

theorem modInt_of_nonneg {a b : Int} (ha : 0 ≤ a) (hb : 0 < b) : modInt a b = some (a % b) := by
  unfold modInt
  rw [if_neg (by omega), Int.tmod_eq_emod ha (by omega)]

/-- The run of the statements of a node whose parent has a group of `size` threads with the
thread at `index`: the node gets a group and PPU ids in range, and no variable of another
LPS is written. -/
theorem run_entry (pcubesConfig : List PPS_Definition) (lowest total invalid threadNo : Int)
    (hids : idsRunDown pcubesConfig) (hunits : ∀ p ∈ pcubesConfig, 0 < p.units)
    (hlow : 1 ≤ lowest) (htotal : 0 < total ∧ total ≤ 2147483647)
    (e : QueueEntry) (memory : Memory) (he : entryOk pcubesConfig lowest total e)
    (hroot : e.parentIsRoot = true →
      0 ≤ memory (.idsArray "Root") ∧ memory (.idsArray "Root") < total)
    (hparent : e.parentIsRoot = false → groupOk pcubesConfig lowest memory e.parent) :
    ∃ statements memory1,
      emitNode pcubesConfig e.parentIsRoot e.parent e.node = some statements ∧
      runStatements { Total_Threads := total, INVALID_ID := invalid } threadNo statements
        memory = some memory1 ∧
      groupOk pcubesConfig lowest memory1 e.node ∧
      ppuIdsInRange pcubesConfig { Total_Threads := total, INVALID_ID := invalid } memory1 e ∧
      (∀ w : Var, w ≠ .threadCount → w ≠ .groupSize → w ≠ .groupThreadId →
        (∀ f, w ≠ .ppuIds e.node.lps.name f) → w ≠ .idsArray e.node.lps.name →
        memory1 w = memory w) := by
  obtain ⟨parentIsRoot, parent, node⟩ := e
  obtain ⟨he1, he2, he3, he4⟩ := he
  simp only at he1 he2 he3 he4 hroot hparent ⊢
  -- the group of the parent
  have hgroup : ∃ size index : Int,
      size = (if parentIsRoot then total else memory (.ppuIds parent.lps.name .groupSize)) ∧
      index = (if parentIsRoot then memory (.idsArray "Root")
        else memory (.idsArray parent.lps.name)) ∧
      0 < size ∧ size ≤ 2147483647 ∧ unitsBetween pcubesConfig lowest parent.pps.id ∣ size ∧
      0 ≤ index ∧ index < size := by
    cases parentIsRoot with
    | true =>
      exact ⟨_, _, rfl, rfl, htotal.1, htotal.2, (he4 rfl).2, (hroot rfl).1, (hroot rfl).2⟩
    | false =>
      obtain ⟨g1, g2, g3, g4, g5⟩ := hparent rfl
      exact ⟨_, _, rfl, rfl, g1, g2, g3, g4, g5⟩
  obtain ⟨size, index, hsize, hindex, hs1, hs2, hs3, hi1, hi2⟩ := hgroup
  -- the number of partitions
  have hsplit := unitsBetween_split pcubesConfig lowest node.pps.id parent.pps.id he1 he2
  have hcpos := unitsBetween_pos pcubesConfig hunits node.pps.id parent.pps.id
  have hbpos := unitsBetween_pos pcubesConfig hunits lowest node.pps.id
  have hcdvd : unitsBetween pcubesConfig node.pps.id parent.pps.id ∣ size :=
    Dvd.dvd.trans ⟨unitsBetween pcubesConfig lowest node.pps.id, by rw [hsplit]; ring⟩ hs3
  have hcle : unitsBetween pcubesConfig node.pps.id parent.pps.id ≤ 2147483647 :=
    le_trans (Int.le_of_dvd hs1 hcdvd) hs2
  have hcount := partitionCount_of_bound pcubesConfig parent.pps node.pps hids hunits
    (by omega) (by omega) hcle
  have hbdvd : unitsBetween pcubesConfig lowest node.pps.id ∣ size :=
    Dvd.dvd.trans ⟨unitsBetween pcubesConfig node.pps.id parent.pps.id, hsplit⟩ hs3
  cases hsub : node.lps.subpartitionSpace with
  | true =>
    have hnotroot : parentIsRoot = false := by
      cases parentIsRoot with
      | false => rfl
      | true => rw [(he4 rfl).1] at hsub; cases hsub
    subst hnotroot
    simp only [Bool.false_eq_true, if_false] at hsize hindex
    obtain ⟨statements, hemit, hrun⟩ := run_emitNode_subpartition pcubesConfig false parent node
      { Total_Threads := total, INVALID_ID := invalid } threadNo memory _ hsub hcount
    refine ⟨statements, _, hemit, hrun, ?_, ?_, ?_⟩
    · unfold groupOk
      simp only [Memory.set, Var.ppuIds.injEq, Var.idsArray.injEq, reduceCtorEq, and_false,
        and_true, if_false, if_true, and_self]
      rw [← hsize, ← hindex]
      exact ⟨hs1, hs2, hbdvd, hi1, hi2⟩
    · unfold ppuIdsInRange
      simp [Memory.set, hsub]
    · intro w h1 h2 h3 h4 h5
      simp [Memory.set, h4 .groupId, h4 .ppuCount, h4 .groupSize, h4 .id, h5]
  | false =>
    by_cases hdim : node.lps.dimensionCount > 0
    · obtain ⟨a1, a2, a3, a4, a5, a6, a7⟩ := group_arithmetic size index
        (unitsBetween pcubesConfig node.pps.id parent.pps.id)
        (unitsBetween pcubesConfig lowest node.pps.id) hs1 (by rw [← hsplit]; exact hs3)
        hcpos hbpos ⟨hi1, hi2⟩
      obtain ⟨statements, hemit, hrun⟩ := run_emitNode_plain pcubesConfig parentIsRoot parent
        node { Total_Threads := total, INVALID_ID := invalid } threadNo memory
        (unitsBetween pcubesConfig node.pps.id parent.pps.id)
        (size / unitsBetween pcubesConfig node.pps.id parent.pps.id)
        (index / (size / unitsBetween pcubesConfig node.pps.id parent.pps.id))
        (index % (size / unitsBetween pcubesConfig node.pps.id parent.pps.id))
        hsub hcount
        (by rw [if_pos hdim, ← hsize]; exact divInt_of_nonneg (by omega) hcpos)
        (by rw [← hindex]; exact divInt_of_nonneg hi1 a1)
        (by rw [← hindex]; exact modInt_of_nonneg hi1 a1)
      refine ⟨statements, _, hemit, hrun, ?_, ?_, ?_⟩
      · unfold groupOk
        simp only [Memory.set, Var.ppuIds.injEq, Var.idsArray.injEq, reduceCtorEq, and_false,
          and_true, if_false, if_true, and_self]
        exact ⟨a1, by omega, a3, a6, a7⟩
      · unfold ppuIdsInRange
        simp only [Memory.set, Var.ppuIds.injEq, Var.idsArray.injEq, reduceCtorEq, and_false,
          and_true, if_false, if_true, and_self, hsub, Bool.false_eq_true]
        refine ⟨a4, a5, ?_⟩
        split_ifs
        · exact Or.inl rfl
        · exact Or.inr rfl
      · intro w h1 h2 h3 h4 h5
        simp [Memory.set, h1, h2, h3, h4 .groupId, h4 .ppuCount, h4 .groupSize, h4 .id, h5]
    · obtain ⟨statements, hemit, hrun⟩ := run_emitNode_plain pcubesConfig parentIsRoot parent
        node { Total_Threads := total, INVALID_ID := invalid } threadNo memory
        (unitsBetween pcubesConfig node.pps.id parent.pps.id) size (index / size)
        (index % size) hsub hcount
        (by rw [if_neg hdim, ← hsize])
        (by rw [← hindex]; exact divInt_of_nonneg hi1 hs1)
        (by rw [← hindex]; exact modInt_of_nonneg hi1 hs1)
      have hzero : index / size = 0 := Int.ediv_eq_zero_of_lt hi1 hi2
      have hmod : index % size = index := Int.emod_eq_of_lt hi1 hi2
      refine ⟨statements, _, hemit, hrun, ?_, ?_, ?_⟩
      · unfold groupOk
        simp only [Memory.set, Var.ppuIds.injEq, Var.idsArray.injEq, reduceCtorEq, and_false,
          and_true, if_false, if_true, and_self]
        rw [hmod]
        exact ⟨hs1, hs2, hbdvd, hi1, hi2⟩
      · unfold ppuIdsInRange
        simp only [Memory.set, Var.ppuIds.injEq, Var.idsArray.injEq, reduceCtorEq, and_false,
          and_true, if_false, if_true, and_self, hsub, Bool.false_eq_true]
        rw [hzero]
        refine ⟨le_refl _, hcpos, ?_⟩
        split_ifs
        · exact Or.inl rfl
        · exact Or.inr rfl
      · intro w h1 h2 h3 h4 h5
        simp [Memory.set, h1, h2, h3, h4 .groupId, h4 .ppuCount, h4 .groupSize, h4 .id, h5]

open Example

/-! ## The run of the routine -/

theorem runStatements_append (constants : Constants) (threadNo : Int) :
    ∀ (a b : List Statement) (memory : Memory),
      runStatements constants threadNo (a ++ b) memory =
        match runStatements constants threadNo a memory with
        | none => none
        | some memory1 => runStatements constants threadNo b memory1 := by
  intro a
  induction a with
  | nil => intro b memory; rfl
  | cons s a ih =>
    intro b memory
    simp only [List.cons_append, runStatements]
    cases s.run constants threadNo memory with
    | none => rfl
    | some memory1 => exact ih b memory1

theorem pending_cons (entry : QueueEntry) (rest : List QueueEntry) :
    pending (entry :: rest) = entry :: (entry.node.entries false ++ pending rest) := by
  simp [pending]

theorem pending_append (a b : List QueueEntry) : pending (a ++ b) = pending a ++ pending b := by
  simp [pending]

theorem pending_map (parentIsRoot : Bool) (parent : MappingNode) :
    ∀ cs : List MappingNode,
      pending (cs.map (fun child =>
        ({ parentIsRoot := parentIsRoot, parent := parent, node := child } : QueueEntry))) =
        MappingNode.entriesFrom parentIsRoot parent cs := by
  intro cs
  induction cs with
  | nil => rfl
  | cons c cs ih =>
    rw [List.map_cons, pending_cons, ih, MappingNode.entriesFrom]

/-- The entries of the children of a node and of the nodes below them are the entries below
the node. -/
theorem pending_childEntries (parentIsRoot : Bool) (n : MappingNode) :
    pending (childEntries parentIsRoot n) = n.entries parentIsRoot := by
  rw [MappingNode.entries_eq]
  exact pending_map parentIsRoot n n.children

theorem groupOk_frame (pcubesConfig : List PPS_Definition) (lowest : Int)
    (memory memory1 : Memory) (space : String) (node : MappingNode)
    (hframe : ∀ w : Var, w ≠ .threadCount → w ≠ .groupSize → w ≠ .groupThreadId →
      (∀ f, w ≠ .ppuIds space f) → w ≠ .idsArray space → memory1 w = memory w)
    (hname : node.lps.name ≠ space) (h : groupOk pcubesConfig lowest memory node) :
    groupOk pcubesConfig lowest memory1 node := by
  unfold groupOk at h ⊢
  have h1 : memory1 (.ppuIds node.lps.name .groupSize) = memory (.ppuIds node.lps.name .groupSize) :=
    hframe _ (by simp) (by simp) (by simp) (by simp [hname]) (by simp)
  have h2 : memory1 (.idsArray node.lps.name) = memory (.idsArray node.lps.name) :=
    hframe _ (by simp) (by simp) (by simp) (by simp) (by simp [hname])
  rw [h1, h2]
  exact h

theorem ppuIdsInRange_frame (pcubesConfig : List PPS_Definition) (constants : Constants)
    (memory memory1 : Memory) (space : String) (e : QueueEntry)
    (hframe : ∀ w : Var, w ≠ .threadCount → w ≠ .groupSize → w ≠ .groupThreadId →
      (∀ f, w ≠ .ppuIds space f) → w ≠ .idsArray space → memory1 w = memory w)
    (hname : e.node.lps.name ≠ space) (h : ppuIdsInRange pcubesConfig constants memory e) :
    ppuIdsInRange pcubesConfig constants memory1 e := by
  unfold ppuIdsInRange at h ⊢
  have h1 : ∀ f, memory1 (.ppuIds e.node.lps.name f) = memory (.ppuIds e.node.lps.name f) :=
    fun f => hframe _ (by simp) (by simp) (by simp) (by simp [hname]) (by simp)
  rw [h1, h1, h1]
  exact h

/-- The run of the statements written for a queue: when the parents of the nodes of the
queue have their groups and the LPSes visited before have PPU ids in range, the statements
are written without a fault, their run has no undefined behaviour, and it leaves PPU ids in
range for the LPSes visited before, those of the queue and those below them. -/
theorem run_emitLoop (pcubesConfig : List PPS_Definition) (lowest total invalid threadNo : Int)
    (hids : idsRunDown pcubesConfig) (hunits : ∀ p ∈ pcubesConfig, 0 < p.units)
    (hlow : 1 ≤ lowest) (htotal : 0 < total ∧ total ≤ 2147483647)
    (hn : 0 ≤ threadNo ∧ threadNo < total) :
    ∀ (fuel : Nat) (queue visited : List QueueEntry) (memory : Memory),
      MappingNode.sizeOfList (queue.map QueueEntry.node) ≤ fuel →
      (∀ e ∈ pending queue, entryOk pcubesConfig lowest total e) →
      ((visited ++ pending queue).map (fun e => e.node.lps.name)).Nodup →
      "Root" ∉ (visited ++ pending queue).map (fun e => e.node.lps.name) →
      memory (.idsArray "Root") = threadNo →
      (∀ e ∈ queue, e.parentIsRoot = false →
        groupOk pcubesConfig lowest memory e.parent ∧
          ∃ d ∈ visited, d.node.lps.name = e.parent.lps.name) →
      (∀ d ∈ visited,
        ppuIdsInRange pcubesConfig { Total_Threads := total, INVALID_ID := invalid } memory d) →
      ∃ body memory1, emitLoop pcubesConfig fuel queue = some body ∧
        runStatements { Total_Threads := total, INVALID_ID := invalid } threadNo body memory
          = some memory1 ∧
        ∀ e ∈ visited ++ pending queue,
          ppuIdsInRange pcubesConfig { Total_Threads := total, INVALID_ID := invalid }
            memory1 e := by
  intro fuel
  induction fuel with
  | zero =>
    intro queue visited memory hsize _ _ _ _ _ hvisited
    cases queue with
    | nil =>
      refine ⟨[], memory, rfl, rfl, ?_⟩
      intro e he
      simp only [pending, List.flatMap_nil, List.append_nil] at he
      exact hvisited e he
    | cons entry rest =>
      simp only [List.map_cons, MappingNode.sizeOfList] at hsize
      rw [MappingNode.size_eq] at hsize
      omega
  | succ fuel ih =>
    intro queue visited memory hsize hok hnodup hnoroot hrootidx hqueue hvisited
    cases queue with
    | nil =>
      refine ⟨[], memory, rfl, rfl, ?_⟩
      intro e he
      simp only [pending, List.flatMap_nil, List.append_nil] at he
      exact hvisited e he
    | cons entry rest =>
      rw [pending_cons] at hok hnodup hnoroot
      -- the names of the other LPSes differ from the name of the LPS of the entry
      have hperm : List.Perm (visited ++ entry :: (entry.node.entries false ++ pending rest))
          ((visited ++ [entry]) ++ (pending rest ++ entry.node.entries false)) := by
        rw [List.append_assoc, List.singleton_append]
        exact List.Perm.append_left _ (List.Perm.cons _ List.perm_append_comm)
      have hnodup1 := (List.Perm.nodup_iff (hperm.map (fun e => e.node.lps.name))).mp hnodup
      have hnames : ∀ x ∈ visited ++ (pending rest ++ entry.node.entries false),
          x.node.lps.name ≠ entry.node.lps.name := by
        intro x hx heq
        rw [List.map_append, List.map_append, List.map_cons, List.map_nil,
          List.append_assoc, List.singleton_append] at hnodup1
        have h1 := List.nodup_append.mp hnodup1
        have h2 := List.nodup_cons.mp h1.2.1
        rcases List.mem_append.mp hx with hx | hx
        · exact h1.2.2 (List.mem_map_of_mem (fun e => e.node.lps.name) hx)
            (by rw [heq]; exact List.mem_cons_self _ _)
        · exact h2.1 (heq ▸ List.mem_map_of_mem (fun e => e.node.lps.name) hx)
      have hrootname : entry.node.lps.name ≠ "Root" := by
        intro heq
        apply hnoroot
        rw [← heq]
        exact List.mem_map_of_mem (fun (e : QueueEntry) => e.node.lps.name)
          (List.mem_append_right _ (List.mem_cons_self _ _))
      obtain ⟨statements, memory1, hemit, hrun, hgroup, hrange, hframe⟩ :=
        run_entry pcubesConfig lowest total invalid threadNo hids hunits hlow htotal entry
          memory (hok entry (List.mem_cons_self _ _))
          (fun _ => by rw [hrootidx]; exact hn)
          (fun hf => (hqueue entry (List.mem_cons_self _ _) hf).1)
      have hsize1 : MappingNode.sizeOfList
          ((rest ++ childEntries false entry.node).map QueueEntry.node) ≤ fuel := by
        simp only [List.map_cons, MappingNode.sizeOfList] at hsize
        rw [MappingNode.size_eq] at hsize
        rw [List.map_append, MappingNode.sizeOfList_append, sizeOfList_childEntries]
        omega
      have hpend : pending (rest ++ childEntries false entry.node) =
          pending rest ++ entry.node.entries false := by
        rw [pending_append, pending_childEntries]
      obtain ⟨body, memory2, hloop, hrun2, hfinal⟩ := ih (rest ++ childEntries false entry.node)
        (visited ++ [entry]) memory1 hsize1
        (by
          rw [hpend]
          intro e he
          apply hok e
          rcases List.mem_append.mp he with he | he
          · exact List.mem_cons_of_mem _ (List.mem_append_right _ he)
          · exact List.mem_cons_of_mem _ (List.mem_append_left _ he))
        (by rw [hpend]; exact hnodup1)
        (by
          rw [hpend]
          intro hmem
          apply hnoroot
          exact (hperm.map (fun e => e.node.lps.name)).mem_iff.mpr hmem)
        (by
          rw [hframe _ (by simp) (by simp) (by simp) (by simp)
            (by simp only [ne_eq, Var.idsArray.injEq]; exact fun h => hrootname h.symm)]
          exact hrootidx)
        (by
          intro e he hf
          rcases List.mem_append.mp he with he | he
          · obtain ⟨g, d, hd, hdn⟩ := hqueue e (List.mem_cons_of_mem _ he) hf
            refine ⟨groupOk_frame pcubesConfig lowest memory memory1 _ _ hframe ?_ g,
              d, List.mem_append_left _ hd, hdn⟩
            rw [← hdn]
            exact hnames d (List.mem_append_left _ hd)
          · obtain ⟨c, _, rfl⟩ := (mem_childEntries _ _ _).mp he
            exact ⟨hgroup, entry, List.mem_append_right _ (List.mem_singleton_self _), rfl⟩)
        (by
          intro d hd
          rcases List.mem_append.mp hd with hd | hd
          · exact ppuIdsInRange_frame pcubesConfig _ memory memory1 _ d hframe
              (hnames d (List.mem_append_left _ hd)) (hvisited d hd)
          · rw [List.mem_singleton.mp hd]
            exact hrange)
      refine ⟨statements ++ body, memory2, ?_, ?_, ?_⟩
      · rw [emitLoop, hemit]
        simp only
        rw [hloop]
      · rw [runStatements_append, hrun]
        exact hrun2
      · intro e he
        apply hfinal
        rw [hpend]
        rw [pending_cons] at he
        exact hperm.mem_iff.mp he

open Example

/-! ## The nodes of a mapping tree and their entries -/

theorem mem_nodesOfList (x : MappingNode) : ∀ cs : List MappingNode,
    x ∈ MappingNode.nodesOfList cs ↔ ∃ c ∈ cs, x ∈ c.nodes := by
  intro cs
  induction cs with
  | nil => simp [MappingNode.nodesOfList]
  | cons c cs ih =>
    rw [MappingNode.nodesOfList, List.mem_append, ih]
    simp

theorem mem_nodes_self (n : MappingNode) : n ∈ n.nodes := by
  rw [MappingNode.nodes_eq]
  exact List.mem_cons_self _ _

theorem mem_nodes_of_child {n c x : MappingNode} (hc : c ∈ n.children) (hx : x ∈ c.nodes) :
    x ∈ n.nodes := by
  rw [MappingNode.nodes_eq]
  exact List.mem_cons_of_mem _ ((mem_nodesOfList x _).mpr ⟨c, hc, hx⟩)

theorem size_le_sizeOfList {c : MappingNode} : ∀ {cs : List MappingNode}, c ∈ cs →
    c.size ≤ MappingNode.sizeOfList cs := by
  intro cs
  induction cs with
  | nil => intro h; cases h
  | cons d cs ih =>
    intro h
    rw [MappingNode.sizeOfList]
    rcases List.mem_cons.mp h with rfl | h
    · omega
    · have := ih h
      omega

theorem child_size_lt {n c : MappingNode} (hc : c ∈ n.children) : c.size < n.size := by
  rw [MappingNode.size_eq n]
  have := size_le_sizeOfList hc
  omega

/-- Where the entries below a node come from: the node of an entry is a node below the
node, its parent is a node of the tree, and an entry flagged as a child of the root is a
child of the node. -/
theorem entries_spec : ∀ (size : Nat) (n : MappingNode), n.size ≤ size →
    ∀ (parentIsRoot : Bool) (e : QueueEntry), e ∈ n.entries parentIsRoot →
      e.node ∈ MappingNode.nodesOfList n.children ∧ e.parent ∈ n.nodes ∧
      (e.parentIsRoot = true → parentIsRoot = true ∧ e.parent = n ∧ e.node ∈ n.children) := by
  intro size
  induction size with
  | zero =>
    intro n hn
    rw [MappingNode.size_eq] at hn
    omega
  | succ size ih =>
    intro n hn parentIsRoot e he
    rcases (mem_entries parentIsRoot n e).mp he with he | ⟨q, hq, he⟩
    · obtain ⟨c, hc, rfl⟩ := (mem_childEntries _ _ _).mp he
      exact ⟨(mem_nodesOfList c _).mpr ⟨c, hc, mem_nodes_self c⟩, mem_nodes_self n,
        fun h => ⟨h, rfl, hc⟩⟩
    · obtain ⟨c, hc, rfl⟩ := (mem_childEntries _ _ _).mp hq
      have hlt := child_size_lt hc
      obtain ⟨h1, h2, h3⟩ := ih c (by omega) false e he
      refine ⟨?_, mem_nodes_of_child hc h2, ?_⟩
      · apply (mem_nodesOfList e.node _).mpr
        refine ⟨c, hc, ?_⟩
        rw [MappingNode.nodes_eq]
        exact List.mem_cons_of_mem _ h1
      · intro h
        have := (h3 h).1
        cases this

theorem entriesFrom_map_node (parentIsRoot : Bool) (parent : MappingNode) :
    ∀ cs : List MappingNode,
      (∀ c ∈ cs, (c.entries false).map QueueEntry.node = MappingNode.nodesOfList c.children) →
      (MappingNode.entriesFrom parentIsRoot parent cs).map QueueEntry.node =
        MappingNode.nodesOfList cs := by
  intro cs
  induction cs with
  | nil => intro _; rfl
  | cons c cs ih =>
    intro h
    rw [MappingNode.entriesFrom, MappingNode.nodesOfList, List.map_cons, List.map_append,
      h c (List.mem_cons_self _ _), ih (fun d hd => h d (List.mem_cons_of_mem _ hd)),
      MappingNode.nodes_eq]
    rfl

/-- The nodes of the entries below a node are the nodes below the node. -/
theorem entries_map_node : ∀ (size : Nat) (n : MappingNode), n.size ≤ size →
    ∀ parentIsRoot : Bool,
      (n.entries parentIsRoot).map QueueEntry.node = MappingNode.nodesOfList n.children := by
  intro size
  induction size with
  | zero =>
    intro n hn
    rw [MappingNode.size_eq] at hn
    omega
  | succ size ih =>
    intro n hn parentIsRoot
    rw [MappingNode.entries_eq]
    apply entriesFrom_map_node
    intro c hc
    have hlt := child_size_lt hc
    exact ih c (by omega) false

theorem idsRunDown_pairwise : ∀ (l : List PPS_Definition), idsRunDown l →
    (l.map PPS_Definition.id).Pairwise (· > ·) := by
  intro l
  induction l with
  | nil => intro _; simp
  | cons p rest ih =>
    intro h
    obtain ⟨hp, hrest⟩ := (idsRunDown_cons p rest).mp h
    rw [List.map_cons, List.pairwise_cons]
    refine ⟨?_, ih hrest⟩
    intro x hx
    obtain ⟨q, hq, rfl⟩ := List.mem_map.mp hx
    have := (idsRunDown_mem rest hrest q hq).2
    omega

/-- The number of threads is positive, of type `int`, and a multiple of the number of
threads below the PPS of the root, when no units are left out below that PPS. -/
theorem total_threads_spec (mappingRoot : MappingNode) (top : PPS_Definition)
    (rest : List PPS_Definition) (total : Int) (hids : idsRunDown (top :: rest))
    (hunits : ∀ p ∈ top :: rest, 0 < p.units)
    (hmapped : ∀ n ∈ mappingRoot.nodes, ∃ p ∈ top :: rest, p.id = n.pps.id)
    (hbound : mappingRoot.pps.id ≤
      (scanMappingTree mappingRoot top.id).highestUnpartitionedPpsId)
    (htotal : generateThreadCountConstants mappingRoot (top :: rest) = some total) :
    0 < total ∧ total ≤ 2147483647 ∧
    unitsBetween (top :: rest) (scanMappingTree mappingRoot top.id).lowestPpsId
      mappingRoot.pps.id ∣ total := by
  obtain ⟨h1, h2, h3, h4⟩ := lowestPpsId_spec mappingRoot top rest hids hmapped
  unfold generateThreadCountConstants at htotal
  simp only at htotal
  obtain ⟨hpos, hmax⟩ := totalThreadsLoop_pos _ _ _ _ _ hunits (by norm_num) (by norm_num) htotal
  refine ⟨hpos, hmax, ?_⟩
  have hrootlow := h1 mappingRoot (mem_nodes_self mappingRoot)
  by_cases hlt : (scanMappingTree mappingRoot top.id).lowestPpsId <
      (scanMappingTree mappingRoot top.id).highestUnpartitionedPpsId
  · have hmem : ∃ p ∈ top :: rest, p.id = (scanMappingTree mappingRoot top.id).lowestPpsId := by
      obtain ⟨n, hn, hnl⟩ := h2
      obtain ⟨p, hp, hpn⟩ := hmapped n hn
      exact ⟨p, hp, hpn.trans hnl⟩
    rw [totalThreadsLoop_eq _ _ hlt (top :: rest) 1 (idsRunDown_pairwise _ hids) hmem] at htotal
    have hval := productInt_eq _ _ _ htotal
    rw [one_mul] at hval
    have hval2 : total = unitsBetween (top :: rest)
        (scanMappingTree mappingRoot top.id).lowestPpsId
        (scanMappingTree mappingRoot top.id).highestUnpartitionedPpsId := hval
    rw [hval2]
    exact unitsBetween_dvd _ _ _ _ hrootlow hbound
  · rw [unitsBetween_empty _ _ _ (by omega)]
    exact one_dvd _

/-- When no LPS without dimensions is mapped below the PPS of the root, the scan leaves
`highestUnpartitionedPpsId` at or above the PPS of the root. -/
theorem highestUnpartitionedPpsId_ge_root (mappingRoot : MappingNode) (topPpsId : Int)
    (htop : mappingRoot.pps.id ≤ topPpsId)
    (hall : ∀ n ∈ mappingRoot.nodes, n.lpsDimensionCount = 0 →
      mappingRoot.pps.id ≤ n.pps.id) :
    mappingRoot.pps.id ≤ (scanMappingTree mappingRoot topPpsId).highestUnpartitionedPpsId := by
  unfold scanMappingTree
  apply scanLoop_invariant (fun l => mappingRoot.pps.id ≤ l.highestUnpartitionedPpsId)
  · intro n hn l hl
    rw [nodesOfList_singleton] at hn
    show mappingRoot.pps.id ≤ (visitNode n l).highestUnpartitionedPpsId
    have hl1 : mappingRoot.pps.id ≤ l.highestUnpartitionedPpsId := hl
    by_cases hdim : n.lpsDimensionCount = 0
    · have hge := hall n hn hdim
      unfold visitNode
      simp only
      split_ifs <;> first | exact hl1 | exact hge
    · unfold visitNode
      simp only
      split_ifs <;> exact hl1
  · exact htop

open Example

/-- C22, as stated, fails. With the PPS list `[{id=3, units=2}, {id=2, units=4}, {id=1,
units=2, core}]` and the root LPS on PPS 3 with two children on PPS 2, `U` without
dimensions and `X` partitioned, `Total_Threads` is 2, the group size of `X` is `2 / 4 = 0`,
and the run of the routine takes the remainder by this 0 for the thread numbers 0 and 1.
With a chain of three partitioned LPSes on PPS 1, PPS 2 and PPS 1 below the root,
`Total_Threads` is 8 and the run takes a remainder by 0 for the thread number 0 too. -/
theorem getPpuIdsForThread_takes_remainder_by_zero :
    generateThreadCountConstants unpartitionedSibling pcubes = some 2 ∧
    (generateFnForThreadIdsAllocation unpartitionedSibling pcubes).isSome = true ∧
    (∀ routine, generateFnForThreadIdsAllocation unpartitionedSibling pcubes = some routine →
      ∀ (invalid : Int) (memory : Memory),
        getPpuIdsForThread routine { Total_Threads := 2, INVALID_ID := invalid } 0 memory
          = none ∧
        getPpuIdsForThread routine { Total_Threads := 2, INVALID_ID := invalid } 1 memory
          = none) ∧
    divInt 2 4 = some 0 ∧ modInt 0 0 = none ∧
    generateThreadCountConstants childAboveParent pcubes = some 8 ∧
    (generateFnForThreadIdsAllocation childAboveParent pcubes).isSome = true ∧
    (∀ routine, generateFnForThreadIdsAllocation childAboveParent pcubes = some routine →
      ∀ (invalid : Int) (memory : Memory),
        getPpuIdsForThread routine { Total_Threads := 8, INVALID_ID := invalid } 0 memory
          = none) := by
  refine ⟨by decide, by decide, ?_, by decide, by decide, by decide, by decide, ?_⟩
  · intro routine h invalid memory
    have hr : routine =
        (generateFnForThreadIdsAllocation unpartitionedSibling pcubes).getD [] := by
      rw [h]; rfl
    subst hr
    constructor <;> rfl
  · intro routine h invalid memory
    have hr : routine = (generateFnForThreadIdsAllocation childAboveParent pcubes).getD [] := by
      rw [h]; rfl
    subst hr
    rfl

/-- C22, amended. Let the ids of the PPS list run from its length down to 1 and its unit
counts be positive; let every LPS be mapped to a PPS of the list that is not above the PPS
of its parent LPS; let the value of `highestUnpartitionedPpsId` after the scan of the
mapping tree not be below the PPS of the root; let the LPSes below the root have names that
differ from each other and from `Root`, and let no child of the root be a sub-partition.
When `Total_Threads` is written without a fault, the routine is written without a fault,
and its run on a thread number `n` with `0 ≤ n < Total_Threads` has no undefined behaviour,
so it takes no quotient or remainder by a group size of 0, whatever the memory holds at the
start. For every LPS below the root the run leaves `0 ≤ groupId < ppuCount` and `id` equal
to `groupId` or to `INVALID_ID`, where `ppuCount` is 1 for a sub-partition and otherwise the
product of the unit counts of the PPSes from the PPS of the LPS up to just below the PPS of
its parent. -/
theorem ppu_ids_in_range (mappingRoot : MappingNode) (top : PPS_Definition)
    (rest : List PPS_Definition) (total invalid threadNo : Int) (memory : Memory)
    (hids : idsRunDown (top :: rest))
    (hunits : ∀ p ∈ top :: rest, 0 < p.units)
    (hmapped : ∀ n ∈ mappingRoot.nodes, ∃ p ∈ top :: rest, p.id = n.pps.id)
    (hdown : ∀ e ∈ mappingRoot.entries true, e.node.pps.id ≤ e.parent.pps.id)
    (hbound : mappingRoot.pps.id ≤
      (scanMappingTree mappingRoot top.id).highestUnpartitionedPpsId)
    (hnames : ((MappingNode.nodesOfList mappingRoot.children).map
      (fun n => n.lps.name)).Nodup)
    (hroot : "Root" ∉ (MappingNode.nodesOfList mappingRoot.children).map
      (fun n => n.lps.name))
    (hsub : ∀ c ∈ mappingRoot.children, c.lps.subpartitionSpace = false)
    (htotal : generateThreadCountConstants mappingRoot (top :: rest) = some total)
    (hn : 0 ≤ threadNo ∧ threadNo < total) :
    ∃ routine memory1,
      generateFnForThreadIdsAllocation mappingRoot (top :: rest) = some routine ∧
      getPpuIdsForThread routine { Total_Threads := total, INVALID_ID := invalid } threadNo
        memory = some memory1 ∧
      (∀ e ∈ mappingRoot.entries true,
        ppuIdsInRange (top :: rest) { Total_Threads := total, INVALID_ID := invalid }
          memory1 e) ∧
      (∀ node ∈ MappingNode.nodesOfList mappingRoot.children,
        0 ≤ memory1 (.ppuIds node.lps.name .groupId) ∧
        memory1 (.ppuIds node.lps.name .groupId) < memory1 (.ppuIds node.lps.name .ppuCount) ∧
        (memory1 (.ppuIds node.lps.name .id) = memory1 (.ppuIds node.lps.name .groupId) ∨
          memory1 (.ppuIds node.lps.name .id) = invalid)) := by
  obtain ⟨l1, l2, l3, l4⟩ := lowestPpsId_spec mappingRoot top rest hids hmapped
  obtain ⟨t1, t2, t3⟩ := total_threads_spec mappingRoot top rest total hids hunits hmapped
    hbound htotal
  have hmapnode := entries_map_node mappingRoot.size mappingRoot (le_refl _) true
  have hnamemap : (mappingRoot.entries true).map (fun e => e.node.lps.name) =
      (MappingNode.nodesOfList mappingRoot.children).map (fun n => n.lps.name) := by
    rw [← hmapnode, List.map_map]
    rfl
  have hentry : ∀ e ∈ mappingRoot.entries true,
      entryOk (top :: rest) (scanMappingTree mappingRoot top.id).lowestPpsId total e := by
    intro e he
    obtain ⟨e1, e2, e3⟩ := entries_spec mappingRoot.size mappingRoot (le_refl _) true e he
    have hnode : e.node ∈ mappingRoot.nodes := by
      rw [MappingNode.nodes_eq]
      exact List.mem_cons_of_mem _ e1
    obtain ⟨p, hp, hpid⟩ := hmapped e.parent e2
    have hplen := (idsRunDown_mem _ hids p hp).2
    refine ⟨l1 e.node hnode, hdown e he, by omega, ?_⟩
    intro hflag
    obtain ⟨-, hpar, hchild⟩ := e3 hflag
    refine ⟨hsub e.node hchild, ?_⟩
    rw [hpar]
    exact t3
  obtain ⟨body, memory1, hloop, hrun, hfinal⟩ := run_emitLoop (top :: rest)
    (scanMappingTree mappingRoot top.id).lowestPpsId total invalid threadNo hids hunits l3
    ⟨t1, t2⟩ hn (MappingNode.sizeOfList mappingRoot.children) (childEntries true mappingRoot)
    [] (memory.set (.idsArray "Root") threadNo)
    (by rw [sizeOfList_childEntries])
    (by rw [pending_childEntries]; exact hentry)
    (by rw [pending_childEntries, List.nil_append, hnamemap]; exact hnames)
    (by rw [pending_childEntries, List.nil_append, hnamemap]; exact hroot)
    (by simp)
    (by
      intro e he hf
      obtain ⟨c, _, rfl⟩ := (mem_childEntries _ _ _).mp he
      cases hf)
    (by intro d hd; cases hd)
  rw [pending_childEntries, List.nil_append] at hfinal
  refine ⟨.assign (.idsArray "Root") .threadNo :: body, memory1, ?_, ?_, hfinal, ?_⟩
  · unfold generateFnForThreadIdsAllocation
    rw [hloop]
  · unfold getPpuIdsForThread
    simp only [runStatements, Statement.run, Term.eval]
    exact hrun
  · intro node hnode
    rw [← hmapnode] at hnode
    obtain ⟨e, he, rfl⟩ := List.mem_map.mp hnode
    obtain ⟨r1, r2, r3, -⟩ := hfinal e he
    exact ⟨r1, r2, r3⟩

/-- C22, amended, at the mapping tree with the root LPS on PPS 3, the LPS `A` on PPS 2 and
its sub-partition `B` on PPS 1, for the thread number 5 of 8. -/
theorem ppu_ids_in_range_witness :
    idsRunDown pcubes ∧ generateThreadCountConstants withSubpartition pcubes = some 8 ∧
    (scanMappingTree withSubpartition 3).highestUnpartitionedPpsId = 3 ∧
    ∃ routine memory1,
      generateFnForThreadIdsAllocation withSubpartition pcubes = some routine ∧
      getPpuIdsForThread routine (constants 8) 5 Example.memory = some memory1 ∧
      (∀ node ∈ MappingNode.nodesOfList withSubpartition.children,
        0 ≤ memory1 (.ppuIds node.lps.name .groupId) ∧
        memory1 (.ppuIds node.lps.name .groupId) < memory1 (.ppuIds node.lps.name .ppuCount) ∧
        (memory1 (.ppuIds node.lps.name .id) = memory1 (.ppuIds node.lps.name .groupId) ∨
          memory1 (.ppuIds node.lps.name .id) = -1)) :=
  have hmapped : ∀ n ∈ withSubpartition.nodes, ∃ p ∈ pcubes, p.id = n.pps.id := by
    intro n hn
    simp only [withSubpartition, nodeA, nodeB, MappingNode.nodes, MappingNode.nodesOfList,
      List.append_nil, List.mem_cons, List.mem_singleton, List.not_mem_nil, or_false] at hn
    rcases hn with rfl | rfl | rfl
    · exact ⟨_, List.Mem.head _, rfl⟩
    · exact ⟨_, List.Mem.tail _ (List.Mem.head _), rfl⟩
    · exact ⟨_, List.Mem.tail _ (List.Mem.tail _ (List.Mem.head _)), rfl⟩
  have hdown : ∀ e ∈ withSubpartition.entries true, e.node.pps.id ≤ e.parent.pps.id := by
    intro e he
    simp only [withSubpartition, nodeA, nodeB, MappingNode.entries, MappingNode.entriesFrom,
      List.append_nil, List.mem_cons, List.mem_singleton, List.not_mem_nil, or_false] at he
    rcases he with rfl | rfl <;> decide
  have hsub : ∀ c ∈ withSubpartition.children, c.lps.subpartitionSpace = false := by
    intro c hc
    simp only [withSubpartition, MappingNode.children, List.mem_singleton] at hc
    subst hc
    rfl
  ⟨by decide, by decide, by decide,
    let ⟨routine, memory1, h1, h2, _, h4⟩ :=
      ppu_ids_in_range withSubpartition { id := 3, units := 2, coreSpace := false }
        [{ id := 2, units := 4, coreSpace := false }, { id := 1, units := 2, coreSpace := true }]
        8 (-1) 5 Example.memory (by decide) (by decide) hmapped hdown (by decide) (by decide)
        (by decide) hsub (by decide) (by decide)
    ⟨routine, memory1, h1, h2, h4⟩⟩

end CodeGenerator

namespace FieldAccessExpr

open Example

/-! ## The clone of a field access -/

/-- The clone of an expression faults exactly when the chain of bases ends in a field access
without a base. -/
theorem Expr.clone_eq_none_iff : ∀ e : Expr, e.clone = none ↔ e.getTerminalField ≠ none
  | .other _ _ _ => by simp [Expr.clone, Expr.getTerminalField]
  | .fieldAccess none _ _ _ _ _ _ => by simp [Expr.clone, Expr.getTerminalField]
  | .fieldAccess (some base) _ _ _ _ _ _ => by
    have ih := Expr.clone_eq_none_iff base
    rw [Expr.getTerminalField, ← ih, Expr.clone]
    cases base.clone <;> simp

/-- C30. The clone of a field access without a base faults: `clone` calls `base->clone()` on
the NULL base. So does the clone of every field access whose chain of bases ends in a field
access without a base (`getTerminalField()` is not NULL), as for `a.b`. When the chain ends
in an expression of another class, the clone has a clone of the base, the field, the
location and the two flags of the original, and its number of array dimensions when the
original is flagged as an array field. -/
theorem clone_of_terminal_field_access_faults (field : Identifier) (location : yyltype) :
    (FieldAccess.new none field location).clone = none ∧
    (∀ self : FieldAccess, self.base = none → self.clone = none) ∧
    (∀ self : FieldAccess, self.clone = none ↔ self.getTerminalField ≠ none) ∧
    accessA.clone = none ∧ accessAB.clone = none ∧
    (∀ self c : FieldAccess, self.clone = some c →
      (∃ base newBase, self.base = some base ∧ base.clone = some newBase ∧
        c.base = some newBase) ∧
      c.field = self.field ∧ c.location = self.location ∧
      c.referenceField = self.referenceField ∧ c.arrayField = self.arrayField ∧
      (self.arrayField = true → c.arrayDimensions = self.arrayDimensions)) ∧
    accessCallB.clone = some accessCallB := by
  refine ⟨rfl, ?_, ?_, rfl, rfl, ?_, rfl⟩
  · intro self h
    unfold FieldAccess.clone
    rw [h]
  · intro self
    unfold FieldAccess.clone FieldAccess.getTerminalField
    cases hb : self.base with
    | none => simp
    | some base =>
      simp only
      rw [← Expr.clone_eq_none_iff]
      cases base.clone <;> simp
  · intro self c h
    unfold FieldAccess.clone at h
    cases hb : self.base with
    | none => rw [hb] at h; cases h
    | some base =>
      rw [hb] at h
      simp only at h
      cases hc : base.clone with
      | none => rw [hc] at h; cases h
      | some newBase =>
        rw [hc] at h
        simp only [Option.some.injEq] at h
        subst h
        refine ⟨⟨base, newBase, rfl, hc, ?_⟩, ?_, ?_, ?_, ?_, ?_⟩ <;>
          cases hr : self.referenceField <;> cases ha : self.arrayField <;>
          simp [FieldAccess.cloneOnto, FieldAccess.new, FieldAccess.flagAsReferenceField,
            FieldAccess.flagAsArrayField, Identifier.clone, hr, ha]

/-! ## The semantic errors of a field access -/

/-- The errors of a field access with a base are those of the base followed by at most one
error, and the count is the count of the base plus the number of errors added. -/
theorem emitSemanticErrors_added (emitScopeAndTypeErrors : Expr → Scope → Check)
    (self : FieldAccess) (scope : Scope) (base : Expr) (hb : self.base = some base) :
    ∃ added : List ReportedError,
      (self.emitSemanticErrors emitScopeAndTypeErrors scope).reported =
        (emitScopeAndTypeErrors base scope).reported ++ added ∧
      (self.emitSemanticErrors emitScopeAndTypeErrors scope).errors =
        (emitScopeAndTypeErrors base scope).errors + added.length ∧ added.length ≤ 1 := by
  unfold FieldAccess.emitSemanticErrors
  rw [hb]
  simp only
  generalize emitScopeAndTypeErrors base scope = bc
  cases bc.type with
  | none => exact ⟨[], by simp⟩
  | some ty =>
    cases ty with
    | array d name =>
      simp only
      cases self.field.dimensionNo with
      | none => exact ⟨[_], rfl, by simp⟩
      | some fieldDimension =>
        simp only
        split_ifs
        · exact ⟨[_], rfl, by simp⟩
        · exact ⟨[], by simp⟩
    | map name => exact ⟨[], by simp⟩
    | list name => exact ⟨[], by simp⟩
    | builtin name =>
      simp only
      cases scope.lookup (Ty.builtin name).getName with
      | none => exact ⟨[], by simp⟩
      | some symbol =>
        simp only
        cases symbol.nestedScope with
        | none => exact ⟨[_], rfl, by simp⟩
        | some baseScope =>
          simp only
          split_ifs
          · exact ⟨[], by simp⟩
          · exact ⟨[_], rfl, by simp⟩
    | named name =>
      simp only
      cases scope.lookup (Ty.named name).getName with
      | none => exact ⟨[], by simp⟩
      | some symbol =>
        simp only
        cases symbol.nestedScope with
        | none => exact ⟨[_], rfl, by simp⟩
        | some baseScope =>
          simp only
          split_ifs
          · exact ⟨[], by simp⟩
          · exact ⟨[_], rfl, by simp⟩

/-- The count of a field access whose base has an array type. -/
theorem emitSemanticErrors_array (emitScopeAndTypeErrors : Expr → Scope → Check)
    (self : FieldAccess) (scope : Scope) (base : Expr) (hb : self.base = some base)
    (dimensionality : Int) (name : String)
    (ht : (emitScopeAndTypeErrors base scope).type = some (.array dimensionality name)) :
    (self.emitSemanticErrors emitScopeAndTypeErrors scope).errors =
      (emitScopeAndTypeErrors base scope).errors +
        (if self.field.dimensionNo = none ∨
            ∃ fieldDimension, self.field.dimensionNo = some fieldDimension ∧
              fieldDimension > dimensionality then 1 else 0) := by
  unfold FieldAccess.emitSemanticErrors
  rw [hb]
  simp only
  rw [ht]
  simp only
  cases hdim : self.field.dimensionNo with
  | none => simp
  | some fieldDimension =>
    simp only
    by_cases hgt : fieldDimension > dimensionality
    · simp [hgt]
    · simp [hgt]

/-- The count of a field access whose base has a map type or a list type. -/
theorem emitSemanticErrors_map_or_list (emitScopeAndTypeErrors : Expr → Scope → Check)
    (self : FieldAccess) (scope : Scope) (base : Expr) (hb : self.base = some base)
    (name : String)
    (ht : (emitScopeAndTypeErrors base scope).type = some (.map name) ∨
      (emitScopeAndTypeErrors base scope).type = some (.list name)) :
    (self.emitSemanticErrors emitScopeAndTypeErrors scope).errors =
      (emitScopeAndTypeErrors base scope).errors := by
  unfold FieldAccess.emitSemanticErrors
  rw [hb]
  simp only
  rcases ht with ht | ht <;> rw [ht]

/-- The count of a field access whose base has another type, by the symbol of the type. -/
theorem emitSemanticErrors_other_type (emitScopeAndTypeErrors : Expr → Scope → Check)
    (self : FieldAccess) (scope : Scope) (base : Expr) (hb : self.base = some base)
    (baseType : Ty) (ht : (emitScopeAndTypeErrors base scope).type = some baseType)
    (harray : ∀ dimensionality name, baseType ≠ .array dimensionality name)
    (hmap : ∀ name, baseType ≠ .map name) (hlist : ∀ name, baseType ≠ .list name) :
    (∀ symbol, scope.lookup baseType.getName = some symbol →
      (self.emitSemanticErrors emitScopeAndTypeErrors scope).errors =
        (emitScopeAndTypeErrors base scope).errors +
          (if symbol.nestedScope = none ∨
              ∃ baseScope, symbol.nestedScope = some baseScope ∧
                self.field.name ∉ baseScope then 1 else 0)) ∧
    (scope.lookup baseType.getName = none →
      (self.emitSemanticErrors emitScopeAndTypeErrors scope).errors =
        (emitScopeAndTypeErrors base scope).errors) := by
  have key : (self.emitSemanticErrors emitScopeAndTypeErrors scope) =
        match scope.lookup baseType.getName with
        | some symbol =>
          match symbol.nestedScope with
          | none =>
            { errors := (emitScopeAndTypeErrors base scope).errors + 1,
              reported := (emitScopeAndTypeErrors base scope).reported ++
                [.NoSuchFieldInBase self.field baseType],
              type := self.type }
          | some baseScope =>
            if baseScope.contains self.field.name then
              { errors := (emitScopeAndTypeErrors base scope).errors,
                reported := (emitScopeAndTypeErrors base scope).reported, type := self.type }
            else
              { errors := (emitScopeAndTypeErrors base scope).errors + 1,
                reported := (emitScopeAndTypeErrors base scope).reported ++
                  [.NoSuchFieldInBase self.field baseType],
                type := self.type }
        | none =>
          { errors := (emitScopeAndTypeErrors base scope).errors,
            reported := (emitScopeAndTypeErrors base scope).reported, type := self.type } := by
    unfold FieldAccess.emitSemanticErrors
    rw [hb]
    simp only
    rw [ht]
    cases baseType with
    | array d name => exact absurd rfl (harray d name)
    | map name => exact absurd rfl (hmap name)
    | list name => exact absurd rfl (hlist name)
    | builtin name => rfl
    | named name => rfl
  rw [key]
  constructor
  · intro symbol hlook
    rw [hlook]
    simp only
    cases hns : symbol.nestedScope with
    | none => simp
    | some baseScope =>
      simp only
      by_cases hin : self.field.name ∈ baseScope
      · simp [hin]
      · simp [hin]
  · intro hlook
    rw [hlook]

/-- The count of a field access whose base has no type. -/
theorem emitSemanticErrors_no_type (emitScopeAndTypeErrors : Expr → Scope → Check)
    (self : FieldAccess) (scope : Scope) (base : Expr) (hb : self.base = some base)
    (ht : (emitScopeAndTypeErrors base scope).type = none) :
    (self.emitSemanticErrors emitScopeAndTypeErrors scope).errors =
      (emitScopeAndTypeErrors base scope).errors := by
  unfold FieldAccess.emitSemanticErrors
  rw [hb]
  simp only
  rw [ht]

/-- The count and the errors of a field access without a base. -/
theorem emitSemanticErrors_terminal (emitScopeAndTypeErrors : Expr → Scope → Check)
    (self : FieldAccess) (scope : Scope) (hb : self.base = none) :
    ((self.emitSemanticErrors emitScopeAndTypeErrors scope).errors = 1 ↔
      (¬ (∃ symbol, scope.lookup self.field.name = some symbol ∧
          symbol.variableSymbol = true) ∨
        ∃ symbol name, scope.lookup self.field.name = some symbol ∧
          symbol.variableSymbol = true ∧ symbol.type = some (.named name) ∧
          scope.lookup name = none)) ∧
    ((self.emitSemanticErrors emitScopeAndTypeErrors scope).errors = 0 ∨
      (self.emitSemanticErrors emitScopeAndTypeErrors scope).errors = 1) ∧
    ((self.emitSemanticErrors emitScopeAndTypeErrors scope).reported.length : Int) =
      (self.emitSemanticErrors emitScopeAndTypeErrors scope).errors := by
  unfold FieldAccess.emitSemanticErrors
  rw [hb]
  simp only
  cases hlook : scope.lookup self.field.name with
  | none => simp
  | some symbol =>
    cases hv : symbol.variableSymbol with
    | false => simp [hv]
    | true =>
      simp only [if_true]
      cases ht : symbol.type with
      | none => simp [hv, ht]
      | some ty =>
        cases ty with
        | named name =>
          cases hn : scope.lookup name with
          | none => simp [hv, ht, hn]
          | some typeSymbol => simp [hv, ht, hn]
        | builtin name => simp [hv, ht]
        | array d name => simp [hv, ht]
        | map name => simp [hv, ht]
        | list name => simp [hv, ht]

/-- C25. `FieldAccess::emitSemanticErrors` reports one error each time it adds one to its
count. For a field access without a base the count is 1 when the name is not a variable
symbol of the scope or the type of the variable is a named type that is not declared, and 0
otherwise, and as many errors are reported. With a base, the count is the count of the base
plus 1 when the type of the base is an array type and the field is not a dimension
identifier or its dimension number exceeds the dimensionality; the count of the base when
the type of the base is a map or list type; and, when the type of the base is another type
whose symbol is in the scope, the count of the base plus 1 when the symbol has no nested
scope or the nested scope lacks the field. When the base has no type or the symbol of its
type is not in the scope the count is the count of the base. In every case the errors
reported are those of the base followed by as many errors as were added, so when the count
of the base is the number of errors the base reported, the count returned is the number of
errors reported, and it is 0 exactly when nothing was reported. In a scope with the
variable `a` of the declared type `T` with the field `b` and the variable `u` of the type `U`
that is not declared, `a` and `a.b` give 0 and `u` and `a.c` give 1. -/
theorem emitSemanticErrors_counts_the_errors_reported
    (emitScopeAndTypeErrors : Expr → Scope → Check) (self : FieldAccess) (scope : Scope) :
    (self.base = none →
      ((self.emitSemanticErrors emitScopeAndTypeErrors scope).errors = 1 ↔
        (¬ (∃ symbol, scope.lookup self.field.name = some symbol ∧
            symbol.variableSymbol = true) ∨
          ∃ symbol name, scope.lookup self.field.name = some symbol ∧
            symbol.variableSymbol = true ∧ symbol.type = some (.named name) ∧
            scope.lookup name = none)) ∧
      ((self.emitSemanticErrors emitScopeAndTypeErrors scope).errors = 0 ∨
        (self.emitSemanticErrors emitScopeAndTypeErrors scope).errors = 1) ∧
      ((self.emitSemanticErrors emitScopeAndTypeErrors scope).reported.length : Int) =
        (self.emitSemanticErrors emitScopeAndTypeErrors scope).errors) ∧
    (∀ base, self.base = some base →
      (∃ added : List ReportedError,
        (self.emitSemanticErrors emitScopeAndTypeErrors scope).reported =
          (emitScopeAndTypeErrors base scope).reported ++ added ∧
        (self.emitSemanticErrors emitScopeAndTypeErrors scope).errors =
          (emitScopeAndTypeErrors base scope).errors + added.length ∧ added.length ≤ 1) ∧
      (∀ dimensionality name,
        (emitScopeAndTypeErrors base scope).type = some (.array dimensionality name) →
        (self.emitSemanticErrors emitScopeAndTypeErrors scope).errors =
          (emitScopeAndTypeErrors base scope).errors +
            (if self.field.dimensionNo = none ∨
                ∃ fieldDimension, self.field.dimensionNo = some fieldDimension ∧
                  fieldDimension > dimensionality then 1 else 0)) ∧
      (∀ name, (emitScopeAndTypeErrors base scope).type = some (.map name) ∨
          (emitScopeAndTypeErrors base scope).type = some (.list name) →
        (self.emitSemanticErrors emitScopeAndTypeErrors scope).errors =
          (emitScopeAndTypeErrors base scope).errors) ∧
      (∀ baseType symbol, (emitScopeAndTypeErrors base scope).type = some baseType →
        (∀ dimensionality name, baseType ≠ .array dimensionality name) →
        (∀ name, baseType ≠ .map name) → (∀ name, baseType ≠ .list name) →
        scope.lookup baseType.getName = some symbol →
        (self.emitSemanticErrors emitScopeAndTypeErrors scope).errors =
          (emitScopeAndTypeErrors base scope).errors +
            (if symbol.nestedScope = none ∨
                ∃ baseScope, symbol.nestedScope = some baseScope ∧
                  self.field.name ∉ baseScope then 1 else 0)) ∧
      ((emitScopeAndTypeErrors base scope).type = none ∨
          (∃ baseType, (emitScopeAndTypeErrors base scope).type = some baseType ∧
            scope.lookup baseType.getName = none ∧
            (∀ dimensionality name, baseType ≠ .array dimensionality name)) →
        (self.emitSemanticErrors emitScopeAndTypeErrors scope).errors =
          (emitScopeAndTypeErrors base scope).errors)) ∧
    (((∀ base, self.base = some base →
        (emitScopeAndTypeErrors base scope).errors =
          ((emitScopeAndTypeErrors base scope).reported.length : Int)) →
      (self.emitSemanticErrors emitScopeAndTypeErrors scope).errors =
        ((self.emitSemanticErrors emitScopeAndTypeErrors scope).reported.length : Int) ∧
      ((self.emitSemanticErrors emitScopeAndTypeErrors scope).errors = 0 ↔
        (self.emitSemanticErrors emitScopeAndTypeErrors scope).reported = []))) ∧
    accessA.emitSemanticErrors checkT Example.scope =
      { errors := 0, reported := [], type := some (.named "T") } ∧
    (FieldAccess.new none { name := "u", dimensionNo := none } loc).emitSemanticErrors checkT
        Example.scope =
      { errors := 1,
        reported := [.UndeclaredTypeError { name := "u", dimensionNo := none }
          (some (.named "U"))],
        type := some (.named "U") } ∧
    accessAB.emitSemanticErrors checkT Example.scope =
      { errors := 0, reported := [], type := none } ∧
    (FieldAccess.new (some accessA.toExpr) { name := "c", dimensionNo := none }
        loc).emitSemanticErrors checkT Example.scope =
      { errors := 1,
        reported := [.NoSuchFieldInBase { name := "c", dimensionNo := none } (.named "T")],
        type := none } := by
  refine ⟨emitSemanticErrors_terminal emitScopeAndTypeErrors self scope, ?_, ?_,
    by decide, by decide, by decide, by decide⟩
  · intro base hb
    refine ⟨emitSemanticErrors_added emitScopeAndTypeErrors self scope base hb,
      emitSemanticErrors_array emitScopeAndTypeErrors self scope base hb,
      emitSemanticErrors_map_or_list emitScopeAndTypeErrors self scope base hb, ?_, ?_⟩
    · intro baseType symbol ht harray hmap hlist hlook
      exact (emitSemanticErrors_other_type emitScopeAndTypeErrors self scope base hb baseType
        ht harray hmap hlist).1 symbol hlook
    · rintro (ht | ⟨baseType, ht, hlook, harray⟩)
      · exact emitSemanticErrors_no_type emitScopeAndTypeErrors self scope base hb ht
      · by_cases hml : (∃ name, baseType = .map name) ∨ (∃ name, baseType = .list name)
        · rcases hml with ⟨name, rfl⟩ | ⟨name, rfl⟩
          · exact emitSemanticErrors_map_or_list emitScopeAndTypeErrors self scope base hb
              name (Or.inl ht)
          · exact emitSemanticErrors_map_or_list emitScopeAndTypeErrors self scope base hb
              name (Or.inr ht)
        · exact (emitSemanticErrors_other_type emitScopeAndTypeErrors self scope base hb
            baseType ht harray (fun name h => hml (Or.inl ⟨name, h⟩))
            (fun name h => hml (Or.inr ⟨name, h⟩))).2 hlook
  · intro hbase
    have hcount : (self.emitSemanticErrors emitScopeAndTypeErrors scope).errors =
        ((self.emitSemanticErrors emitScopeAndTypeErrors scope).reported.length : Int) := by
      cases hb : self.base with
      | none => exact ((emitSemanticErrors_terminal emitScopeAndTypeErrors self scope hb).2.2).symm
      | some base =>
        obtain ⟨added, h1, h2, -⟩ :=
          emitSemanticErrors_added emitScopeAndTypeErrors self scope base hb
        rw [h1, h2, hbase base hb]
        simp
    refine ⟨hcount, ?_⟩
    rw [hcount]
    constructor
    · intro h
      exact List.length_eq_zero.mp (by exact_mod_cast h)
    · intro h
      rw [h]
      rfl

end FieldAccessExpr
